import Mathlib

/-!
# URI templates (`github.com/go-andiamo/urit`): matching, building, composing

A shallow embedding of the vendored `urit` package: path parts, templates,
`PathVars` containers, match options, the path matcher, the path builder with
its positions tracker, and the template algebra (`Sub`, `ResolveTo`).

Conventions of the embedding.

* Go strings are Lean `String`s; every delimiter the code looks for (`/`, `:`,
  `?`, `{`, `}`, `^`, `$`, the blank) is ASCII, so slicing at those bytes is
  slicing at those characters.
* A Go `interface{}` value is a `Value`; a nil interface / nil pointer is
  `none` of an `Option`.
* Mutation through a pointer receiver becomes an explicit result state.
* A run-time panic (nil `*regexp.Regexp` dereference, slice index out of range)
  is `none` of the outer `Option` of `pathPart.multiMatch`, `pathPart.match_`
  and `template.matches`.
* The packages `regexp` and `github.com/go-andiamo/splitter` are external to
  the repository: a compiled regular expression is the record of its
  observable methods, `regexp.Compile` is a parameter `compile`, and the
  template splitter is a parameter `split`.
-/

namespace Urit

/-! ## Go `strings` / `strconv` helpers -/

/-- Go `strings.HasPrefix`. -/
def strings_HasPrefix (s p : String) : Bool := p.data.isPrefixOf s.data

/-- Go `strings.HasSuffix`. -/
def strings_HasSuffix (s p : String) : Bool := p.data.isSuffixOf s.data

/-- Go `strings.Trim(s, string(c))` for a one-character cutset. -/
def strings_Trim (s : String) (c : Char) : String :=
  ⟨((s.data.dropWhile (fun x => x == c)).reverse.dropWhile (fun x => x == c)).reverse⟩

/-- Go `strings.IndexByte(s, c)` for an ASCII `c`: `none` stands for `-1`. -/
def strings_IndexByte (s : String) (c : Char) : Option Nat :=
  if c ∈ s.data then some (s.data.indexOf c) else none

/-- Go slice expression `s[from:]`. -/
def sliceFrom (s : String) (n : Nat) : String := ⟨s.data.drop n⟩

/-- Go slice expression `s[:to]`. -/
def sliceTo (s : String) (n : Nat) : String := ⟨s.data.take n⟩

/-- Value of a run of decimal digits, `none` when a character is not a digit. -/
def digitsValue : List Char → Nat → Option Nat
  | [], acc => some acc
  | c :: cs, acc =>
    if c.isDigit then digitsValue cs (acc * 10 + (c.toNat - '0'.toNat)) else none

/-- Go `strconv.Atoi` with its error dropped (`nmi, _ := strconv.Atoi(..)`):
an optional sign followed by one or more decimal digits, and `0` for anything
else. -/
def strconv_Atoi (s : String) : Int :=
  match s.data with
  | [] => 0
  | '-' :: cs => if cs.isEmpty then 0 else
      match digitsValue cs 0 with
      | some n => - (n : Int)
      | none => 0
  | '+' :: cs => if cs.isEmpty then 0 else
      match digitsValue cs 0 with
      | some n => (n : Int)
      | none => 0
  | cs =>
      match digitsValue cs 0 with
      | some n => (n : Int)
      | none => 0

/-! ## Values and their string coercion (`value.go`) -/

/-- A Go `interface{}` value handed to a `PathVars` container. `other r` is a
value of any further dynamic type (float, time, `Stringable`, func, anything
`json.Marshal` accepts or refuses) together with the rendering `getValueIf`
computes for it, `none` when it computes none. -/
inductive Value where
  | str (s : String)
  | int (i : Int)
  | bool (b : Bool)
  | nil
  | other (rendered : Option String)
  deriving DecidableEq, Repr

/-- Decimal rendering of `fmt.Sprintf("%d", i)`. -/
def sprintfInt (i : Int) : String :=
  match i with
  | Int.ofNat n => toString n
  | Int.negSucc n => "-" ++ toString (n + 1)

/-- Go `getValueIf`. -/
def getValueIf (v : Value) : String × Bool :=
  match v with
  | .str s => (s, true)
  | .int i => (sprintfInt i, true)
  | .bool b => if b then ("true", true) else ("false", true)
  | .nil => ("", false)
  | .other (some s) => (s, true)
  | .other none => ("", false)

/-! ## `PathVars` containers (`path_vars.go`) -/

/-- Go `PathVarsType`. -/
inductive PathVarsType where
  | Positions
  | Names
  deriving DecidableEq, Repr

/-- Go `PathVar`. -/
structure PathVar where
  Name : String
  NamedPosition : Nat
  Position : Nat
  Value : Value
  deriving DecidableEq, Repr

/-- Go `pathVars`. The map `named` is the function giving the slice stored
under a key, the empty list for an absent key (a stored slice is never empty:
the only write appends to it). -/
structure pathVars where
  named : String → List PathVar
  all : List PathVar
  varsType : PathVarsType

/-- Go `newPathVars`. -/
def newPathVars (varsType : PathVarsType) : pathVars :=
  { named := fun _ => [], all := [], varsType := varsType }

/-- Go indexing rule shared by `GetPositional` and `GetNamed`: a negative
position counts from the end. -/
def lookupAt (vs : List PathVar) (position : Int) : String × Bool :=
  if position < 0 ∧ (vs.length : Int) + position ≥ 0 then
    match vs[((vs.length : Int) + position).toNat]? with
    | some v => getValueIf v.Value
    | none => ("", false)
  else if position ≥ 0 ∧ position < (vs.length : Int) then
    match vs[position.toNat]? with
    | some v => getValueIf v.Value
    | none => ("", false)
  else ("", false)

/-- Go `pathVars.GetPositional`. -/
def pathVars.GetPositional (pvs : pathVars) (position : Int) : String × Bool :=
  lookupAt pvs.all position

/-- Go `pathVars.GetNamed`. -/
def pathVars.GetNamed (pvs : pathVars) (name : String) (position : Int) : String × Bool :=
  lookupAt (pvs.named name) position

/-- Go `pathVars.GetNamedFirst`. -/
def pathVars.GetNamedFirst (pvs : pathVars) (name : String) : String × Bool :=
  match pvs.named name with
  | v :: _ => getValueIf v.Value
  | [] => ("", false)

/-- Go `pathVars.GetNamedLast`. -/
def pathVars.GetNamedLast (pvs : pathVars) (name : String) : String × Bool :=
  match (pvs.named name).getLast? with
  | some v => getValueIf v.Value
  | none => ("", false)

/-- Go `pathVars.GetAll`. -/
def pathVars.GetAll (pvs : pathVars) : List PathVar := pvs.all

/-- Go `pathVars.Len`. -/
def pathVars.Len (pvs : pathVars) : Nat := pvs.all.length

/-- Go `pathVars.VarsType`. -/
def pathVars.VarsType (pvs : pathVars) : PathVarsType := pvs.varsType

/-- Go `pathVars.Clear`. -/
def pathVars.Clear (pvs : pathVars) : pathVars :=
  { pvs with named := fun _ => [], all := [] }

/-- Go `pathVars.AddNamedValue`: the error, or the container after the add. -/
def pathVars.AddNamedValue (pvs : pathVars) (name : String) (val : Value) :
    Except String pathVars :=
  if pvs.varsType ≠ PathVarsType.Names then
    .error "cannot add named var to non-names vars"
  else
    let v : PathVar :=
      { Name := name, NamedPosition := (pvs.named name).length,
        Position := pvs.all.length, Value := val }
    .ok { pvs with
          named := fun k => if k = name then pvs.named name ++ [v] else pvs.named k,
          all := pvs.all ++ [v] }

/-- Go `pathVars.AddPositionalValue`: the error, or the container after the
add. -/
def pathVars.AddPositionalValue (pvs : pathVars) (val : Value) : Except String pathVars :=
  if pvs.varsType ≠ PathVarsType.Positions then
    .error "cannot add positional var to non-positionals vars"
  else
    .ok { pvs with
          all := pvs.all ++ [{ Name := "", NamedPosition := 0,
                               Position := pvs.all.length, Value := val }] }

/-- The container after `_ = vars.Add…(…)`: unchanged when the add errs. -/
def afterAdd (pvs : pathVars) (r : Except String pathVars) : pathVars :=
  match r with
  | .ok p => p
  | .error _ => pvs

/-- Go `Positional`. -/
def Positional (values : List Value) : pathVars :=
  values.foldl (fun r v => afterAdd r (r.AddPositionalValue v)) (newPathVars .Positions)

/-- Go `Named` on an argument list already grouped in name/value pairs (an odd
argument count or a non-string name panics before any container is returned). -/
def Named (namesAndValues : List (String × Value)) : pathVars :=
  namesAndValues.foldl (fun r nv => afterAdd r (r.AddNamedValue nv.1 nv.2)) (newPathVars .Names)

/-- One identifier of the variadic `idents ...interface{}` of `Get`, by its
dynamic type. -/
inductive Ident where
  | int (i : Int)
  | str (s : String)
  | other
  deriving DecidableEq, Repr

/-- Go `pathVars.Get`; `none` is the index-out-of-range panic of `idents[0]` on
an empty argument list. -/
def pathVars.Get (pvs : pathVars) (idents : List Ident) : Option (String × Bool) :=
  match idents with
  | [] => none
  | first :: rest =>
    let isFirstInt := match first with
      | .int _ => true
      | _ => false
    if idents.length < 1 ∨ idents.length > 2 ∨ (isFirstInt = true ∧ idents.length > 1) then
      some ("", false)
    else
      match first with
      | .int firstInt => some (pvs.GetPositional firstInt)
      | .str firstStr =>
        if idents.length > 1 then
          match rest with
          | .int secondInt :: _ => some (pvs.GetNamed firstStr secondInt)
          | _ => some ("", false)
        else some (pvs.GetNamedFirst firstStr)
      | .other => some ("", false)

/-! ## Regular expressions and match options (`options.go`) -/

/-- A compiled `*regexp.Regexp`, as the record of the three methods the package
calls on it. -/
structure Regexp where
  MatchString : String → Bool
  FindStringSubmatch : String → List String
  SubexpNames : List String

/-- Go `FixedMatchOption`; `ident` is the identity of the interface value, the
key under which `separateParseOptions` and `mergeParseOptions` remember it. -/
structure FixedMatchOption where
  ident : Nat
  Match : String → String → Nat → Option pathVars → Bool

/-- Go `VarMatchOption`; `ident` as for `FixedMatchOption`. -/
structure VarMatchOption where
  ident : Nat
  Applicable : String → Nat → String → Option Regexp → String → Nat → Option pathVars → Bool
  Match : String → Nat → String → Option Regexp → String → Nat → Option pathVars → String × Bool

/-- Go `fixedMatchOptions.check`: the first option that passes ends the loop. -/
def fixedMatchOptions.check (opts : List FixedMatchOption) (value expected : String)
    (pathPos : Nat) (vars : Option pathVars) : Bool :=
  match opts with
  | [] => false
  | o :: rest =>
    if o.Match value expected pathPos vars then true
    else fixedMatchOptions.check rest value expected pathPos vars

/-- Loop of Go `varMatchOptions.check`, carrying `checked`; `result` and `ok`
keep their initial values `value` and `false` until an applicable option
accepts, which ends the loop. -/
def varMatchOptions.checkLoop (opts : List VarMatchOption) (value : String) (position : Nat)
    (name : String) (rx : Option Regexp) (rxs : String) (pathPos : Nat)
    (vars : Option pathVars) (checked : Nat) : String × Bool × Nat :=
  match opts with
  | [] => (value, false, checked)
  | o :: rest =>
    if o.Applicable value position name rx rxs pathPos vars then
      let r := o.Match value position name rx rxs pathPos vars
      if r.2 then (r.1, true, checked + 1)
      else varMatchOptions.checkLoop rest value position name rx rxs pathPos vars (checked + 1)
    else varMatchOptions.checkLoop rest value position name rx rxs pathPos vars checked

/-- Go `varMatchOptions.check`: `(result, ok, checked > 0)`. -/
def varMatchOptions.check (opts : List VarMatchOption) (value : String) (position : Nat)
    (name : String) (rx : Option Regexp) (rxs : String) (pathPos : Nat)
    (vars : Option pathVars) : String × Bool × Bool :=
  let r := varMatchOptions.checkLoop opts value position name rx rxs pathPos vars 0
  (r.1, r.2.1, decide (r.2.2 > 0))

/-- Go `PathRegexCheck` (`pathRegexChecker`). -/
def PathRegexCheck : VarMatchOption :=
  { ident := 1
    Applicable := fun _ _ _ rx _ _ _ => rx.isSome
    Match := fun value _ _ rx _ _ _ =>
      match rx with
      | some r => if !r.MatchString value then (value, false) else (value, true)
      | none => (value, true) }

/-! ## Path parts (`path_part.go`) -/

/-- An `error` value: a `TemplateParseError` (message and position) or any
other error (message only). -/
inductive GoError where
  | parseError (msg : String) (pos : Nat)
  | other (msg : String)
  deriving DecidableEq, Repr

/-- Go `pathPart`. The two memo fields `allRegexp` and `allRegexpIdxs` are left
out: every caller of `match` works on a loop-local copy of the part
(`for i, pt := range t.pathParts`), so they are nil on entry to every call of
`overallRegexp`, which is embedded as the computation it then performs. -/
inductive pathPart where
  | mk (fixed : Bool) (fixedValue : String) (subParts : List pathPart)
      (regexp : Option Regexp) (orgRegexp : String) (name : String)

namespace pathPart

def fixed : pathPart → Bool
  | mk f _ _ _ _ _ => f

def fixedValue : pathPart → String
  | mk _ v _ _ _ _ => v

def subParts : pathPart → List pathPart
  | mk _ _ sps _ _ _ => sps

def regexp : pathPart → Option Regexp
  | mk _ _ _ rx _ _ => rx

def orgRegexp : pathPart → String
  | mk _ _ _ _ rxs _ => rxs

def name : pathPart → String
  | mk _ _ _ _ _ n => n

end pathPart

/-- The literal `pathPart{fixed: true, fixedValue: v}`. -/
def fixedPart (v : String) : pathPart := .mk true v [] none "" ""

/-- The literal `pathPart{fixed: false, name: n}`. -/
def varPart (n : String) : pathPart := .mk false "" [] none "" n

/-- Go `addRegexHeadAndTail`. -/
def addRegexHeadAndTail (rx : String) : String :=
  (if !strings_HasPrefix rx "^" then "^" else "") ++ rx ++
  (if !strings_HasSuffix rx "$" then "$" else "")

/-- Go `stripRegexHeadAndTail`. -/
def stripRegexHeadAndTail (rx : String) : String :=
  let rx1 := if strings_HasPrefix rx "^" then sliceFrom rx 1 else rx
  if strings_HasSuffix rx1 "$" then sliceTo rx1 (rx1.length - 1) else rx1

/-- Go `pathPart.setName` on the zero-valued variable part
`pathPart{fixed: false}`: the error, or the part with its name (and pattern)
set. The index `cAt` of Go is a byte index; here it is a character index, and
the byte index is the UTF-8 size of the text before it. -/
def setName (compile : String → Option Regexp) (name : String) (pos : Nat) :
    Except GoError pathPart :=
  match strings_IndexByte name ':' with
  | some cAt =>
    let nm := strings_Trim (sliceTo name cAt) ' '
    if nm = "" then .error (.parseError "path var name cannot be empty" pos)
    else
      let org := strings_Trim (sliceFrom name (cAt + 1)) ' '
      if org ≠ "" then
        match compile (addRegexHeadAndTail org) with
        | some rx => .ok (.mk false "" [] (some rx) org nm)
        | none =>
          .error (.parseError "path var regexp problem" (pos + (sliceTo name cAt).utf8ByteSize))
      else .ok (.mk false "" [] none org nm)
  | none =>
    let nm := strings_Trim name ' '
    if nm = "" then .error (.parseError "path var name cannot be empty" pos)
    else .ok (.mk false "" [] none "" nm)

/-- Go `pathPart.addFound`: the container after the (unchecked) add. -/
def pathPart.addFound (pt : pathPart) (vars : pathVars) (val : String) : pathVars :=
  if pt.name ≠ "" then afterAdd vars (vars.AddNamedValue pt.name (.str val))
  else afterAdd vars (vars.AddPositionalValue (.str val))

/-- The text `overallRegexp` writes to its builder for the sub-parts from index
`i` on. -/
def overallRegexpSource : List pathPart → Nat → String
  | [], _ => ""
  | sp :: rest, i =>
    (if sp.fixed then "(\\Q" ++ sp.fixedValue ++ "\\E)"
     else if sp.orgRegexp ≠ "" then
       "(?P<vsp" ++ toString i ++ ">" ++ stripRegexHeadAndTail sp.orgRegexp ++ ")"
     else "(?P<vsp" ++ toString i ++ ">.*)") ++ overallRegexpSource rest (i + 1)

/-- The map `allRegexpIdxs` that `overallRegexp` fills from `rx.SubexpNames()`,
names taken from index `i` on; an absent key reads as `0`. -/
def subexpIdxs : List String → Nat → (Int → Nat) → (Int → Nat)
  | [], _, m => m
  | nm :: rest, i, m =>
    if i > 0 ∧ nm ≠ "" ∧ strings_HasPrefix nm "vsp" then
      let nmi := strconv_Atoi (sliceFrom nm 3)
      subexpIdxs rest (i + 1) (fun k => if k = nmi then i else m k)
    else subexpIdxs rest (i + 1) m

/-- Go `pathPart.overallRegexp`: the compiled whole-segment regexp with the map
`allRegexpIdxs`, or `none` (a nil `*regexp.Regexp`) when it does not compile. -/
def pathPart.overallRegexp (compile : String → Option Regexp) (pt : pathPart) :
    Option (Regexp × (Int → Nat)) :=
  match compile (addRegexHeadAndTail (overallRegexpSource pt.subParts 0)) with
  | some rx => some (rx, subexpIdxs rx.SubexpNames 0 (fun _ => 0))
  | none => none

/-- Loop of Go `pathPart.multiMatch` over the sub-parts from index `i` on:
`none` when `sms[...]` is out of range. -/
def multiMatchLoop (sms : List String) (idxs : Int → Nat) (pathPos : Nat)
    (vOpts : List VarMatchOption) : List pathPart → Nat → pathVars → Option pathVars
  | [], _, vars => some vars
  | sp :: rest, i, vars =>
    if !sp.fixed then
      match sms[idxs (i : Int)]? with
      | none => none
      | some str0 =>
        let chk := varMatchOptions.check vOpts str0 vars.Len sp.name sp.regexp sp.orgRegexp
          pathPos (some vars)
        let applies := decide (vOpts.length > 0) && chk.2.2
        let str := if applies then chk.1 else str0
        let ok := if applies then chk.2.1 else true
        multiMatchLoop sms idxs pathPos vOpts rest (i + 1)
          (if ok then sp.addFound vars str else vars)
    else multiMatchLoop sms idxs pathPos vOpts rest (i + 1) vars

/-- Go `pathPart.multiMatch`: `none` is a panic (nil regexp, index out of
range). -/
def pathPart.multiMatch (compile : String → Option Regexp) (pt : pathPart) (s : String)
    (pathPos : Nat) (vars : pathVars) (vOpts : List VarMatchOption) :
    Option (Bool × pathVars) :=
  match pt.overallRegexp compile with
  | none => none
  | some (orx, idxs) =>
    let sms := orx.FindStringSubmatch s
    if sms.length > 0 then
      match multiMatchLoop sms idxs pathPos vOpts pt.subParts 0 vars with
      | some vars1 => some (true, vars1)
      | none => none
    else some (false, vars)

/-- Go `pathPart.match`: the verdict and the container after the call. -/
def pathPart.match_ (compile : String → Option Regexp) (pt : pathPart) (s : String)
    (pathPos : Nat) (vars : pathVars) (fOpts : List FixedMatchOption)
    (vOpts : List VarMatchOption) : Option (Bool × pathVars) :=
  if pt.fixed then
    some (if fOpts.length > 0 then fixedMatchOptions.check fOpts s pt.fixedValue pathPos (some vars)
          else decide (pt.fixedValue = s), vars)
  else if pt.subParts.length = 0 then
    let ok0 := match pt.regexp with
      | none => true
      | some rx => rx.MatchString s
    let chk := varMatchOptions.check vOpts s vars.Len pt.name pt.regexp pt.orgRegexp
      pathPos (some vars)
    let applies := decide (vOpts.length > 0) && chk.2.2
    let s1 := if applies then chk.1 else s
    let ok := if applies then chk.2.1 else ok0
    if ok then some (true, pt.addFound vars s1) else some (false, vars)
  else pt.multiMatch compile s pathPos vars vOpts

mutual
/-- Go `pathPart.getVars`, the counter map `namePosns` threaded through. -/
def pathPart.getVars : pathPart → List PathVar × (String → Nat) → List PathVar × (String → Nat)
  | .mk fixed _ subParts _ _ name, st =>
    if !fixed && decide (subParts.length > 0) then getVarsList subParts st
    else if !fixed then
      if name = "" then
        (st.1 ++ [{ Name := "", NamedPosition := 0, Position := st.1.length, Value := .nil }],
         st.2)
      else
        (st.1 ++ [{ Name := name, NamedPosition := st.2 name, Position := st.1.length,
                    Value := .nil }],
         fun k => if k = name then st.2 name + 1 else st.2 k)
    else st
/-- The loop `for _, sp := range pt.subParts { vars = sp.getVars(vars, namePosns) }`. -/
def getVarsList : List pathPart → List PathVar × (String → Nat) → List PathVar × (String → Nat)
  | [], st => st
  | sp :: rest, st => getVarsList rest (sp.getVars st)
end

/-! ## The positions tracker -/

/-- Go `positionsTracker`. -/
structure positionsTracker where
  vars : Option pathVars
  varPosition : Nat
  pathPosition : Nat
  namedPositions : String → Nat
  varMatches : List VarMatchOption

/-- Go `positionsTracker.checkVar`: the loop does not stop at a rejection, it
records the error and goes on. -/
def checkVarLoop (pt : pathPart) (pos pathPos : Nat) (vars : Option pathVars) :
    List VarMatchOption → String → Option String → String × Option String
  | [], result, err => (result, err)
  | ck :: rest, result, err =>
    if ck.Applicable result pos pt.name pt.regexp pt.orgRegexp pathPos vars then
      let r := ck.Match result pos pt.name pt.regexp pt.orgRegexp pathPos vars
      if r.2 then checkVarLoop pt pos pathPos vars rest r.1 err
      else checkVarLoop pt pos pathPos vars rest result (some "no match path var")
    else checkVarLoop pt pos pathPos vars rest result err

/-- Go `positionsTracker.checkVar`. -/
def positionsTracker.checkVar (tr : positionsTracker) (s : String) (pt : pathPart)
    (pos pathPos : Nat) : String × Option String :=
  checkVarLoop pt pos pathPos tr.vars tr.varMatches s none

/-- Go `positionsTracker.getVar`: the value or the error, and the tracker after
the call. -/
def positionsTracker.getVar (tr : positionsTracker) (pt : pathPart) :
    Except String String × positionsTracker :=
  let useVars := match tr.vars with
    | some v => v
    | none => Positional []
  if useVars.VarsType = PathVarsType.Positions then
    let r := useVars.GetPositional (tr.varPosition : Int)
    if r.2 then (.ok r.1, { tr with varPosition := tr.varPosition + 1 })
    else (.error ("no var for varPosition " ++ toString (tr.varPosition + 1)), tr)
  else
    let np := tr.namedPositions pt.name
    let r := useVars.GetNamed pt.name (np : Int)
    if r.2 then
      let c := tr.checkVar r.1 pt tr.varPosition tr.pathPosition
      match c.2 with
      | some e => (.error e, tr)
      | none =>
        (.ok c.1,
         { tr with
           namedPositions := fun k => if k = pt.name then np + 1 else tr.namedPositions k,
           varPosition := tr.varPosition + 1 })
    else if np = 0 then (.error ("no var for '" ++ pt.name ++ "'"), tr)
    else (.error ("no var for '" ++ pt.name ++ "' (varPosition " ++ toString (np + 1) ++ ")"), tr)

/-- Sub-part loop of Go `pathPart.pathFrom`, `pb` the builder so far. -/
def pathFromLoop : List pathPart → String → positionsTracker →
    Except String String × positionsTracker
  | [], pb, tr => (.ok ("/" ++ pb), tr)
  | sp :: rest, pb, tr =>
    if sp.fixed then pathFromLoop rest (pb ++ sp.fixedValue) tr
    else
      match tr.getVar sp with
      | (.ok str, tr1) => pathFromLoop rest (pb ++ str) tr1
      | (.error e, tr1) => (.error e, tr1)

/-- Go `pathPart.pathFrom`. -/
def pathPart.pathFrom (pt : pathPart) (tr : positionsTracker) :
    Except String String × positionsTracker :=
  if pt.fixed then (.ok ("/" ++ pt.fixedValue), tr)
  else if pt.subParts.length = 0 then
    match tr.getVar pt with
    | (.ok str, tr1) => (.ok ("/" ++ str), tr1)
    | (.error e, tr1) => (.error e, tr1)
  else pathFromLoop pt.subParts "" tr

/-! ## The splitter interface (`github.com/go-andiamo/splitter`) -/

/-- Go `splitter.SubPartType`. -/
inductive SubPartType where
  | Fixed
  | Quotes
  | Brackets
  deriving DecidableEq, Repr

/-- Go `splitter.SubPart`, as the record of the methods `Type()`, `StartRune()`,
`String()`, `UnEscaped()` and `StartPos()`. -/
structure SubPart where
  Type_ : SubPartType
  StartRune : Char
  String_ : String
  UnEscaped : String
  StartPos : Nat
  deriving DecidableEq, Repr

/-- One call of `partCapture.Apply` by the splitter: the segment text, its
position and its sub-parts. -/
structure Segment where
  s : String
  pos : Nat
  subParts : List SubPart
  deriving DecidableEq, Repr

/-- What one `uriSplitter.Split` call does as far as the package can observe:
the segments it hands to `partCapture.Apply`, in order, and the error of the
splitter itself, if any (an error returned by `Apply` ends the run at that
segment). -/
structure SplitRun where
  segments : List Segment
  err : Option GoError
  deriving DecidableEq, Repr

/-! ## Templates (`template.go`) -/

/-- Go `template`; `pathSplitOpts` is part of the splitter parameter. -/
structure template where
  originalTemplate : String
  pathParts : List pathPart
  posVarsCount : Nat
  nameVarsCount : Nat
  varsType : PathVarsType
  fixedMatchOpts : List FixedMatchOption
  varMatchOpts : List VarMatchOption

/-- One element of a variadic `options ...interface{}` list, by the interface
it satisfies. -/
inductive AnyOption where
  | fixedMatch (o : FixedMatchOption)
  | varMatch (o : VarMatchOption)
  | unrelated

/-- Go `slashPrefix`. -/
def slashPrefix (s : String) : String :=
  if strings_Trim s ' ' = "" then s
  else if strings_HasPrefix s "/" then s
  else "/" ++ s

/-- Go `template.addVar`. -/
def template.addVar (t : template) (pt : pathPart) : template :=
  if !pt.fixed then
    if pt.name ≠ "" then { t with nameVarsCount := t.nameVarsCount + 1 }
    else { t with posVarsCount := t.posVarsCount + 1 }
  else t

/-- Loop of Go `template.newVarPathPart`: `acc` is `result.subParts`. -/
def newVarPathPartLoop (compile : String → Option Regexp) :
    List SubPart → template → List pathPart → Bool →
    Except GoError (List pathPart × Bool) × template
  | [], t, acc, anyVarParts => (.ok (acc, anyVarParts), t)
  | sp :: rest, t, acc, anyVarParts =>
    if sp.Type_ = SubPartType.Brackets ∧ sp.StartRune = '{' then
      match setName compile (sliceTo (sliceFrom sp.String_ 1) (sp.String_.length - 2))
          sp.StartPos with
      | .error e => (.error e, t)
      | .ok addPart =>
        newVarPathPartLoop compile rest (t.addVar addPart) (acc ++ [addPart]) true
    else if sp.Type_ = SubPartType.Quotes then
      newVarPathPartLoop compile rest t (acc ++ [fixedPart sp.UnEscaped]) anyVarParts
    else
      newVarPathPartLoop compile rest t (acc ++ [fixedPart sp.String_]) anyVarParts

/-- Go `strings.Builder` loop `for _, s := range subParts { sb.WriteString(s.fixedValue) }`. -/
def concatFixedValues : List pathPart → String
  | [] => ""
  | sp :: rest => sp.fixedValue ++ concatFixedValues rest

/-- Go `template.newVarPathPart`. -/
def template.newVarPathPart (compile : String → Option Regexp) (t : template)
    (subParts : List SubPart) : Except GoError pathPart × template :=
  match newVarPathPartLoop compile subParts t [] false with
  | (.error e, t1) => (.error e, t1)
  | (.ok (sps, anyVarParts), t1) =>
    match sps with
    | [only] => (.ok only, t1)
    | _ =>
      if !anyVarParts then (.ok (fixedPart (concatFixedValues sps)), t1)
      else (.ok (.mk false "" sps none "" ""), t1)

/-- Go `template.newUriPathPart`. -/
def template.newUriPathPart (compile : String → Option Regexp) (t : template)
    (pt : String) (subParts : List SubPart) : Except GoError pathPart × template :=
  match subParts with
  | [sp] =>
    if sp.Type_ = SubPartType.Fixed then
      if strings_HasPrefix pt "?" || strings_HasPrefix pt ":" then
        (.ok (varPart (sliceFrom pt 1)), t.addVar (varPart (sliceFrom pt 1)))
      else (.ok (fixedPart pt), t)
    else t.newVarPathPart compile subParts
  | _ => t.newVarPathPart compile subParts

/-- The calls of `partCapture.Apply` during one split: each segment is parsed
and appended; the first error ends the run. -/
def parseLoop (compile : String → Option Regexp) :
    List Segment → template → Option GoError × template
  | [], t => (none, t)
  | seg :: rest, t =>
    match t.newUriPathPart compile seg.s seg.subParts with
    | (.ok pt, t1) => parseLoop compile rest { t1 with pathParts := t1.pathParts ++ [pt] }
    | (.error e, t1) => (some e, t1)

/-- The mixed-kind parse error. -/
def mixedKindError : GoError :=
  .parseError "template cannot contain both positional and named path variables" 0

/-- Go `template.parse`: the template, or the error when `err != nil`. -/
def template.parse (split : String → SplitRun) (compile : String → Option Regexp)
    (t : template) : Except GoError template :=
  if strings_Trim t.originalTemplate ' ' = "" then .error (.parseError "template empty" 0)
  else
    let run := split t.originalTemplate
    let r := parseLoop compile run.segments t
    let err := match r.1 with
      | some e => some e
      | none => run.err
    if r.2.posVarsCount > 0 ∧ r.2.nameVarsCount > 0 then .error mixedKindError
    else
      let t2 := if r.2.nameVarsCount > 0 then { r.2 with varsType := PathVarsType.Names } else r.2
      match err with
      | some e => .error e
      | none => .ok t2

/-- Go `separateParseOptions`, from the lists seen so far. -/
def separateParseOptionsLoop : List AnyOption → List FixedMatchOption → List VarMatchOption →
    List FixedMatchOption × List VarMatchOption
  | [], fs, vs => (fs, vs)
  | .fixedMatch f :: rest, fs, vs =>
    if fs.any (fun g => g.ident == f.ident) then separateParseOptionsLoop rest fs vs
    else separateParseOptionsLoop rest (fs ++ [f]) vs
  | .varMatch v :: rest, fs, vs =>
    if vs.any (fun g => g.ident == v.ident) then separateParseOptionsLoop rest fs vs
    else separateParseOptionsLoop rest fs (vs ++ [v])
  | .unrelated :: rest, fs, vs => separateParseOptionsLoop rest fs vs

/-- Go `separateParseOptions` (fixed-match and variable-match options). -/
def separateParseOptions (options : List AnyOption) :
    List FixedMatchOption × List VarMatchOption :=
  separateParseOptionsLoop options [] []

/-- Go `NewTemplate`. -/
def NewTemplate (split : String → SplitRun) (compile : String → Option Regexp)
    (path : String) (options : List AnyOption) : Except GoError template :=
  template.parse split compile
    { originalTemplate := slashPrefix path, pathParts := [], posVarsCount := 0,
      nameVarsCount := 0, varsType := PathVarsType.Positions,
      fixedMatchOpts := (separateParseOptions options).1,
      varMatchOpts := (separateParseOptions options).2 }

/-- Go `template.mergeParseOptions`. -/
def template.mergeParseOptions (t : template) (options : List AnyOption) :
    List FixedMatchOption × List VarMatchOption :=
  if options.length = 0 then (t.fixedMatchOpts, t.varMatchOpts)
  else if t.fixedMatchOpts.length = 0 ∧ t.varMatchOpts.length = 0 then
    separateParseOptions options
  else separateParseOptionsLoop options t.fixedMatchOpts t.varMatchOpts

/-- Go `template.VarsType`. -/
def template.VarsType (t : template) : PathVarsType :=
  if t.posVarsCount ≠ 0 then PathVarsType.Positions else PathVarsType.Names

/-- Go `template.Vars`. -/
def template.Vars (t : template) : List PathVar :=
  (getVarsList t.pathParts ([], fun _ => 0)).1

/-- Go `template.OriginalTemplate`. -/
def template.OriginalTemplate (t : template) : String := t.originalTemplate

/-- Go `template.clone`. -/
def template.clone (t : template) : template :=
  { originalTemplate := t.originalTemplate, pathParts := t.pathParts,
    posVarsCount := t.posVarsCount, nameVarsCount := t.nameVarsCount,
    varsType := t.varsType, fixedMatchOpts := [], varMatchOpts := [] }

/-- Go `template.Sub`. -/
def template.Sub (split : String → SplitRun) (compile : String → Option Regexp)
    (t : template) (path : String) (options : List AnyOption) : Except GoError template :=
  match NewTemplate split compile path options with
  | .error e => .error e
  | .ok ra =>
    if (ra.posVarsCount > 0 ∧ t.nameVarsCount > 0) ∨ (t.posVarsCount > 0 ∧ ra.nameVarsCount > 0)
    then .error mixedKindError
    else
      let result := t.clone
      .ok { result with
            originalTemplate :=
              if strings_HasSuffix result.originalTemplate "/" then
                sliceTo result.originalTemplate (result.originalTemplate.length - 1)
                  ++ ra.originalTemplate
              else result.originalTemplate ++ ra.originalTemplate,
            pathParts := result.pathParts ++ ra.pathParts,
            posVarsCount := result.posVarsCount + ra.posVarsCount,
            nameVarsCount := result.nameVarsCount + ra.nameVarsCount }

/-! ## Matching -/

/-- Modelled from the spec: `matchPathSplitter.Split`, the live-path splitter of
the external splitter package configured with `IgnoreEmptyFirst`,
`IgnoreEmptyLast` and `NotEmptyInners` (spec 4.1 and 4.3: split on `/`, ignore
an empty first and an empty last segment, reject an empty inner segment). This
is the split of a list of characters at every `/`. -/
def splitSlash : List Char → List (List Char)
  | [] => [[]]
  | c :: cs =>
    if c = '/' then [] :: splitSlash cs
    else
      match splitSlash cs with
      | [] => [[c]]
      | h :: t => (c :: h) :: t

/-- Modelled from the spec: the segments after the first one, where an empty
last segment is ignored and an empty inner segment is an error (`none`). -/
def keepInner : List (List Char) → Option (List String)
  | [] => some []
  | [s] => if s.isEmpty then some [] else some [String.mk s]
  | s :: rest =>
    if s.isEmpty then none
    else
      match keepInner rest with
      | some r => some (String.mk s :: r)
      | none => none

/-- Modelled from the spec: `matchPathSplitter.Split(path)`, `none` when it
returns an error. -/
def matchPathSplit (path : String) : Option (List String) :=
  match splitSlash path.data with
  | [] => some []
  | s :: rest => if s.isEmpty then keepInner rest else keepInner (s :: rest)

/-- The loop of Go `template.matches` over the parts from index `i` on, each
with its segment. -/
def matchesLoop (compile : String → Option Regexp) (fOpts : List FixedMatchOption)
    (vOpts : List VarMatchOption) :
    List pathPart → List String → Nat → pathVars → Option (Bool × pathVars)
  | [], _, _, vars => some (true, vars)
  | _ :: _, [], _, _ => none
  | pt :: rest, seg :: segs, i, vars =>
    match pt.match_ compile seg i vars fOpts vOpts with
    | none => none
    | some (ok, vars1) =>
      if !ok then some (false, vars1)
      else matchesLoop compile fOpts vOpts rest segs (i + 1) vars1

/-- Go `template.matches`: the pair `(PathVars, bool)`, a nil `PathVars` being
`none`; the outer `none` is a panic. -/
def template.matches (compile : String → Option Regexp) (t : template) (path : String)
    (options : List AnyOption) : Option (Option pathVars × Bool) :=
  match matchPathSplit path with
  | none => some (none, false)
  | some pts =>
    if pts.length ≠ t.pathParts.length then some (none, false)
    else
      let opts := t.mergeParseOptions options
      match matchesLoop compile opts.1 opts.2 t.pathParts pts 0 (newPathVars t.varsType) with
      | none => none
      | some (ok, result) => some (some result, ok)

/-! ## Building -/

/-- The part loop of Go `template.buildPath`, `pb` the builder so far. -/
def buildPathLoop : List pathPart → String → positionsTracker →
    Except String String × positionsTracker
  | [], pb, tr => (.ok pb, tr)
  | pt :: rest, pb, tr =>
    match pt.pathFrom tr with
    | (.ok str, tr1) =>
      buildPathLoop rest (pb ++ str) { tr1 with pathPosition := tr1.pathPosition + 1 }
    | (.error e, tr1) => (.error e, tr1)

/-- Go `template.buildPath`; `hostOption` is the host's `GetAddress()`,
`queryOption` the result of the query option's `GetQuery()`. -/
def template.buildPath (t : template) (vars : Option pathVars) (hostOption : Option String)
    (queryOption : Option (Except String String)) (varMatches : List VarMatchOption) :
    Except String String :=
  let pb0 := match hostOption with
    | some h => h
    | none => ""
  match buildPathLoop t.pathParts pb0
      { vars := vars, varPosition := 0, pathPosition := 0, namedPositions := fun _ => 0,
        varMatches := varMatches } with
  | (.error e, _) => .error e
  | (.ok pb, _) =>
    match queryOption with
    | none => .ok pb
    | some (.ok q) => .ok (pb ++ q)
    | some (.error e) => .error e

/-- Go `template.PathFrom` with path variables only or with variable-match
options. -/
def template.PathFrom (t : template) (vars : Option pathVars)
    (varMatches : List VarMatchOption) : Except String String :=
  t.buildPath vars none none varMatches

/-! ## Partial resolution -/

/-- The text `ResolveTo` writes for a variable left unresolved inside a
composite: `{name}` or `{name:pattern}`. -/
def bracketText (sp : pathPart) : String :=
  "\x7b" ++ sp.name ++ (if sp.orgRegexp ≠ "" then ":" ++ sp.orgRegexp else "") ++ "\x7d"

/-- Sub-part loop of Go `template.ResolveTo`: the new sub-parts, `resolvedCount`,
the named count and the tracker. -/
def resolveSubPartsLoop : List pathPart → positionsTracker → List pathPart → Nat → Nat →
    List pathPart × Nat × Nat × positionsTracker
  | [], tr, acc, resolvedCount, nameVarsCount => (acc, resolvedCount, nameVarsCount, tr)
  | sp :: rest, tr, acc, resolvedCount, nameVarsCount =>
    if sp.fixed then
      resolveSubPartsLoop rest tr (acc ++ [sp]) (resolvedCount + 1) nameVarsCount
    else
      match tr.getVar sp with
      | (.ok str, tr1) =>
        resolveSubPartsLoop rest tr1 (acc ++ [fixedPart str]) (resolvedCount + 1) nameVarsCount
      | (.error _, tr1) =>
        resolveSubPartsLoop rest tr1 (acc ++ [sp]) resolvedCount (nameVarsCount + 1)

/-- The text written for the sub-parts of a composite that keeps a variable. -/
def unresolvedText : List pathPart → String
  | [] => ""
  | sp :: rest =>
    (if sp.fixed then sp.fixedValue else bracketText sp) ++ unresolvedText rest

/-- Part loop of Go `template.ResolveTo`: `result` is the template being built,
`org` the builder of its text. -/
def resolveLoop : List pathPart → positionsTracker → template → String → template × String
  | [], _, result, org => (result, org)
  | pt :: rest, tr, result, org =>
    if pt.fixed then
      resolveLoop rest tr { result with pathParts := result.pathParts ++ [pt] }
        (org ++ ("/" ++ pt.fixedValue))
    else if pt.subParts.length = 0 then
      match tr.getVar pt with
      | (.ok str, tr1) =>
        resolveLoop rest tr1 { result with pathParts := result.pathParts ++ [fixedPart str] }
          (org ++ ("/" ++ str))
      | (.error _, tr1) =>
        if pt.name = "" then
          resolveLoop rest tr1
            { result with pathParts := result.pathParts ++ [pt],
                          posVarsCount := result.posVarsCount + 1 }
            (org ++ "/?")
        else
          resolveLoop rest tr1
            { result with pathParts := result.pathParts ++ [pt],
                          nameVarsCount := result.nameVarsCount + 1 }
            (org ++ "/" ++ bracketText pt)
    else
      let r := resolveSubPartsLoop pt.subParts tr [] 0 result.nameVarsCount
      if r.2.1 = pt.subParts.length then
        resolveLoop rest r.2.2.2
          { result with pathParts := result.pathParts ++ [fixedPart (concatFixedValues r.1)],
                        nameVarsCount := r.2.2.1 }
          (org ++ "/" ++ concatFixedValues r.1)
      else
        resolveLoop rest r.2.2.2
          { result with pathParts := result.pathParts ++ [.mk false "" r.1 none "" ""],
                        nameVarsCount := r.2.2.1 }
          (org ++ "/" ++ unresolvedText r.1)

/-- Go `template.ResolveTo` (its error result is always nil). -/
def template.ResolveTo (t : template) (vars : Option pathVars) : template :=
  let r := resolveLoop t.pathParts
    { vars := vars, varPosition := 0, pathPosition := 0, namedPositions := fun _ => 0,
      varMatches := [] }
    { originalTemplate := "", pathParts := [], posVarsCount := 0, nameVarsCount := 0,
      varsType := PathVarsType.Positions, fixedMatchOpts := [], varMatchOpts := [] } ""
  { r.1 with originalTemplate := r.2 }

/-! ## A model of the template splitter -/

/-- Modelled from the spec: state of the Segment Splitter (spec 4.1) while it
reads a template text. `done` are the segments handed on so far, `items` the
number of segments ended so far, `segText` and `subs` the text and the finished
sub-parts of the segment being read, `buf` the text of the sub-part being read,
`stack` the closing runes awaited (innermost first), `opener` the rune that
opened the outermost open enclosure, `esc` whether the previous rune was an
escaping backslash. -/
structure SplitScan where
  done : List Segment
  items : Nat
  segPos : Nat
  segText : List Char
  subs : List SubPart
  buf : List Char
  bufPos : Nat
  stack : List Char
  opener : Char
  esc : Bool
  err : Option GoError

/-- Modelled from the spec: the closing rune of an opening bracket. -/
def closerOf (c : Char) : Char :=
  if c = '{' then '}' else if c = '(' then ')' else ']'

/-- Modelled from the spec: opening brackets of the template splitter. -/
def isOpener (c : Char) : Bool := c = '{' || c = '(' || c = '['

/-- Modelled from the spec: closing brackets of the template splitter. -/
def isCloser (c : Char) : Bool := c = '}' || c = ')' || c = ']'

/-- Modelled from the spec: quote runes of the template splitter. -/
def isQuote (c : Char) : Bool := c = '"' || c = '\''

/-- Modelled from the spec: a quoted sub-part without its quotes, an escaped
quote replaced by the quote (`esc`: the previous rune was a backslash). -/
def unescapeQuoted (q : Char) : List Char → Bool → List Char
  | [], esc => if esc then ['\\'] else []
  | c :: rest, esc =>
    if esc then
      if c = q then c :: unescapeQuoted q rest false
      else if c = '\\' then '\\' :: unescapeQuoted q rest true
      else '\\' :: c :: unescapeQuoted q rest false
    else if c = '\\' then unescapeQuoted q rest true
    else c :: unescapeQuoted q rest false

/-- Modelled from the spec: the pending literal text becomes a Fixed sub-part. -/
def SplitScan.flushFixed (st : SplitScan) : SplitScan :=
  match st.buf with
  | [] => st
  | c :: _ =>
    { st with
      subs := st.subs ++ [{ Type_ := .Fixed, StartRune := c, String_ := ⟨st.buf⟩,
                            UnEscaped := ⟨st.buf⟩, StartPos := st.bufPos }],
      buf := [] }

/-- Modelled from the spec: a rune read as plain text of the current sub-part. -/
def SplitScan.plain (st : SplitScan) (p : Nat) (c : Char) : SplitScan :=
  { st with segText := st.segText ++ [c], buf := st.buf ++ [c],
            bufPos := if st.buf.isEmpty then p else st.bufPos }

/-- Modelled from the spec: the outermost enclosure closes and becomes a
Bracketed or Quoted sub-part. -/
def SplitScan.closeEnclosure (st : SplitScan) : SplitScan :=
  { st with
    subs := st.subs ++
      [{ Type_ := if isQuote st.opener then .Quotes else .Brackets, StartRune := st.opener,
         String_ := ⟨st.buf⟩,
         UnEscaped := if isQuote st.opener
           then ⟨unescapeQuoted st.opener ((st.buf.drop 1).take (st.buf.length - 2)) false⟩
           else ⟨st.buf⟩,
         StartPos := st.bufPos }],
    buf := [] }

/-- Modelled from the spec: a segment ends at position `p` (a `/`, or the end
of the text when `isLast`): an empty first or last segment is ignored, an
empty inner segment is the error "path parts cannot be empty". -/
def SplitScan.endSegment (st0 : SplitScan) (isLast : Bool) (p : Nat) : SplitScan :=
  let st := st0.flushFixed
  if st.segText.isEmpty then
    if st.items = 0 ∨ isLast = true then
      { st with items := st.items + 1, segPos := p + 1, subs := [], bufPos := p + 1 }
    else { st with err := some (.other "path parts cannot be empty") }
  else
    { st with done := st.done ++ [{ s := ⟨st.segText⟩, pos := st.segPos, subParts := st.subs }],
              items := st.items + 1, segPos := p + 1, segText := [], subs := [],
              bufPos := p + 1 }

/-- Modelled from the spec: one rune read outside an escape. -/
def SplitScan.stepCore (st : SplitScan) (p : Nat) (c : Char) : SplitScan :=
  match st.stack with
  | top :: restStack =>
    if c = '\\' then { st.plain p c with esc := true }
    else if isQuote top then
      if c = top then
        let st1 := { st.plain p c with stack := restStack }
        if restStack.isEmpty then st1.closeEnclosure else st1
      else st.plain p c
    else if isQuote c then { st.plain p c with stack := c :: top :: restStack }
    else if isOpener c then { st.plain p c with stack := closerOf c :: top :: restStack }
    else if isCloser c then
      if c = top then
        let st1 := { st.plain p c with stack := restStack }
        if restStack.isEmpty then st1.closeEnclosure else st1
      else { st with err := some (.other "unopened bracket") }
    else st.plain p c
  | [] =>
    if c = '\\' then { st.plain p c with esc := true }
    else if c = '/' then st.endSegment false p
    else if isQuote c then
      { st.flushFixed.plain p c with opener := c, bufPos := p, stack := [c] }
    else if isOpener c then
      { st.flushFixed.plain p c with opener := c, bufPos := p, stack := [closerOf c] }
    else if isCloser c then { st with err := some (.other "unopened bracket") }
    else st.plain p c

/-- Modelled from the spec: one rune read; a bracket or quote right after an
escaping backslash is plain text. -/
def SplitScan.step (st : SplitScan) (p : Nat) (c : Char) : SplitScan :=
  if st.err.isSome then st
  else if st.esc && (isOpener c || isCloser c || isQuote c) then
    { st.plain p c with esc := false }
  else SplitScan.stepCore { st with esc := false } p c

/-- Modelled from the spec: the runes of the text read in order from position
`p`. -/
def scanFrom : List Char → Nat → SplitScan → SplitScan
  | [], _, st => st
  | c :: cs, p, st => scanFrom cs (p + 1) (st.step p c)

/-- Modelled from the spec: `uriSplitter.Split(text, partCapture)`, the
Segment Splitter of spec 4.1: split on `/` outside brackets and quotes, each
segment decomposed into Fixed, Bracketed and Quoted sub-parts, empty outer
segments ignored, an empty inner segment or an unbalanced bracket or quote an
error. -/
def uriSplit (text : String) : SplitRun :=
  let st := scanFrom text.data 0
    { done := [], items := 0, segPos := 0, segText := [], subs := [], buf := [], bufPos := 0,
      stack := [], opener := '/', esc := false, err := none }
  match st.err with
  | some e => { segments := st.done, err := some e }
  | none =>
    if !st.stack.isEmpty then { segments := st.done, err := some (.other "unclosed bracket") }
    else { segments := (st.endSegment true text.length).done,
           err := (st.endSegment true text.length).err }

/-- A `regexp.Compile` that accepts no pattern, for templates without
patterns and without composite parts, where it is never called. -/
def noCompile : String → Option Regexp := fun _ => none

/-! ## Sample regular expressions and options -/

/-- The text before and after the last `-` of a text, if it has one. -/
def splitLastDash : List Char → Option (List Char × List Char)
  | [] => none
  | c :: cs =>
    match splitLastDash cs with
    | some (a, b) => some (c :: a, b)
    | none => if c = '-' then some ([], cs) else none

/-- The compiled Go regexp `^(?P<vsp0>.*)(\Q-\E)(?P<vsp2>.*)$`, which
`overallRegexp` synthesizes for the composite `{a}-{b}`: the first group is
greedy, so it runs to the last `-`, and `.` matches no line feed. -/
def dashRegexp : Regexp :=
  { MatchString := fun s => !s.data.contains '\n' && s.data.contains '-'
    FindStringSubmatch := fun s =>
      if s.data.contains '\n' then []
      else
        match splitLastDash s.data with
        | some (a, b) => [s, ⟨a⟩, "-", ⟨b⟩]
        | none => []
    SubexpNames := ["", "vsp0", "", "vsp2"] }

/-- A `regexp.Compile` tabulated on the one pattern of `dashRegexp`. -/
def compileDash : String → Option Regexp := fun src =>
  if src = "^(?P<vsp0>.*)(\\Q-\\E)(?P<vsp2>.*)$" then some dashRegexp else none

/-- The compiled Go regexp `^[0-9]+$`. -/
def digitsRegexp : Regexp :=
  { MatchString := fun s => !s.data.isEmpty && s.data.all Char.isDigit
    FindStringSubmatch := fun s => if !s.data.isEmpty && s.data.all Char.isDigit then [s] else []
    SubexpNames := [""] }

/-- A variable-match option applicable to every variable that rejects every
value. -/
def rejectAll : VarMatchOption :=
  { ident := 2, Applicable := fun _ _ _ _ _ _ _ => true, Match := fun v _ _ _ _ _ _ => (v, false) }

/-- A variable-match option applicable to every variable that accepts every
value unchanged. -/
def acceptAll : VarMatchOption :=
  { ident := 3, Applicable := fun _ _ _ _ _ _ _ => true, Match := fun v _ _ _ _ _ _ => (v, true) }

/-- A fixed-match option that passes for no segment. -/
def neverFixed : FixedMatchOption :=
  { ident := 4, Match := fun _ _ _ _ => false }

/-! ## Path options (`template.go`, `host.go`) -/

/-- One element of the variadic `options ...interface{}` of `PathFrom`, by the
first interface it satisfies in the order `separatePathOptions` tests them: a
`HostOption` (given by its `GetAddress()`), a `QueryParamsOption` (given by the
result of its `GetQuery()`), a `HeadersOption`, a `VarMatchOption`, or a value
of none of these types. -/
inductive PathOption where
  | host (address : String)
  | query (getQuery : Except String String)
  | headers
  | varMatch (o : VarMatchOption)
  | unrelated

/-- Loop of Go `separatePathOptions`: a later host or query option replaces an
earlier one, variable-match options are appended (the headers option is not
used by `PathFrom`). -/
def separatePathOptionsLoop : List PathOption → Option String → Option (Except String String) →
    List VarMatchOption → Option String × Option (Except String String) × List VarMatchOption
  | [], host, params, varMatches => (host, params, varMatches)
  | .host h :: rest, _, params, varMatches =>
    separatePathOptionsLoop rest (some h) params varMatches
  | .query q :: rest, host, _, varMatches =>
    separatePathOptionsLoop rest host (some q) varMatches
  | .headers :: rest, host, params, varMatches =>
    separatePathOptionsLoop rest host params varMatches
  | .varMatch v :: rest, host, params, varMatches =>
    separatePathOptionsLoop rest host params (varMatches ++ [v])
  | .unrelated :: rest, host, params, varMatches =>
    separatePathOptionsLoop rest host params varMatches

/-- Go `separatePathOptions` (host, query parameters, variable-match options). -/
def separatePathOptions (options : List PathOption) :
    Option String × Option (Except String String) × List VarMatchOption :=
  separatePathOptionsLoop options none none []

/-- Go `template.PathFrom` with any options. -/
def template.PathFromWith (t : template) (vars : Option pathVars) (options : List PathOption) :
    Except String String :=
  t.buildPath vars (separatePathOptions options).1 (separatePathOptions options).2.1
    (separatePathOptions options).2.2

/-- The Go result pair `(string, error)` of `buildPath` and `PathFrom`: every
error return of `buildPath` is `return "", err`. -/
def goResult (r : Except String String) : String × Option String :=
  match r with
  | .ok p => (p, none)
  | .error e => ("", some e)

/-! ## Query parameters (`query_params.go`) -/

/-- Hexadecimal digit (upper case) of a number below 16. -/
def hexDigit (n : Nat) : Char :=
  if n < 10 then Char.ofNat (48 + n) else Char.ofNat (55 + n)

/-- The UTF-8 bytes of a character. -/
def utf8Bytes (c : Char) : List Nat :=
  let n := c.toNat
  if n < 128 then [n]
  else if n < 2048 then [192 + n / 64, 128 + n % 64]
  else if n < 65536 then [224 + n / 4096, 128 + (n / 64) % 64, 128 + n % 64]
  else [240 + n / 262144, 128 + (n / 4096) % 64, 128 + (n / 64) % 64, 128 + n % 64]

/-- Go `url.QueryEscape` on one character: letters, digits and `-`, `_`, `.`,
`~` are kept, the blank becomes `+`, every other byte is written `%XX`. -/
def queryEscapeChar (c : Char) : List Char :=
  if c.isAlphanum || c = '-' || c = '_' || c = '.' || c = '~' then [c]
  else if c = ' ' then ['+']
  else (utf8Bytes c).flatMap (fun b => ['%', hexDigit (b / 16), hexDigit (b % 16)])

/-- Go `url.QueryEscape`. -/
def url_QueryEscape (s : String) : String := ⟨s.data.flatMap queryEscapeChar⟩

/-- Go string comparison `a <= b` (bytewise, which for UTF-8 text is the
lexicographic order of the code points). -/
def charsLe : List Char → List Char → Bool
  | [], _ => true
  | _ :: _, [] => false
  | a :: as, b :: bs =>
    if a.toNat < b.toNat then true
    else if b.toNat < a.toNat then false
    else charsLe as bs

/-- Go string comparison `a <= b`. -/
def strLe (a b : String) : Bool := charsLe a.data b.data

/-- Insertion of a string into an ascending list. -/
def insertSorted (x : String) : List String → List String
  | [] => [x]
  | y :: rest => if strLe x y then x :: y :: rest else y :: insertSorted x rest

/-- Go `sort.Strings`: the names in ascending order. -/
def sort_Strings : List String → List String
  | [] => []
  | x :: rest => insertSorted x (sort_Strings rest)

/-- Go `queryParams`. The map `params` is the list of its keys, each once,
with the slice stored under it; the order of the list is the order in which a
`range` over the map happens to visit the keys. -/
structure queryParams where
  params : List (String × List Value)
  sorted : Bool

/-- The map read `params[name]`: the nil slice for an absent key. -/
def paramsGet (params : List (String × List Value)) (name : String) : List Value :=
  match params with
  | [] => []
  | (k, vs) :: rest => if k = name then vs else paramsGet rest name

/-- The map write `params[k] = append(params[k], v)`. -/
def paramsAppend (params : List (String × List Value)) (k : String) (v : Value) :
    List (String × List Value) :=
  match params with
  | [] => [(k, [v])]
  | (k1, vs) :: rest =>
    if k1 = k then (k1, vs ++ [v]) :: rest else (k1, vs) :: paramsAppend rest k v

/-- Loop of Go `NewQueryParams` over the arguments two by two. -/
def newQueryParamsLoop : List Value → List (String × List Value) →
    Except String (List (String × List Value))
  | k :: v :: rest, params =>
    match k with
    | .str name => newQueryParamsLoop rest (paramsAppend params name v)
    | _ => .error "name must be a string"
  | _, params => .ok params

/-- Go `NewQueryParams`. -/
def NewQueryParams (namesAndValues : List Value) : Except String queryParams :=
  if namesAndValues.length % 2 ≠ 0 then .error "must be a value for each name"
  else
    match newQueryParamsLoop namesAndValues [] with
    | .ok params => .ok { params := params, sorted := true }
    | .error e => .error e

/-- Go `ampersandOrQuestionMark`. -/
def ampersandOrQuestionMark (first : Bool) : String := if first then "?" else "&"

/-- Go `getValue`. -/
def getValue (v : Value) : Except String String :=
  if (getValueIf v).2 then .ok (getValueIf v).1 else .error "unknown value type"

/-- The inner loop `for _, qv := range v` of Go `queryParams.GetQuery`, `qb`
the builder so far. -/
def writeValues (name : String) : List Value → String → Except String String
  | [], qb => .ok qb
  | qv :: rest, qb =>
    let qb1 := qb ++ ampersandOrQuestionMark (qb.length == 0) ++ url_QueryEscape name
    if qv ≠ Value.nil then
      match getValue qv with
      | .ok str => writeValues name rest (qb1 ++ "=" ++ url_QueryEscape str)
      | .error e => .error e
    else writeValues name rest qb1

/-- The loop `for _, name := range names` of Go `queryParams.GetQuery`. -/
def writeNames (params : List (String × List Value)) : List String → String →
    Except String String
  | [], qb => .ok qb
  | name :: rest, qb =>
    let v := paramsGet params name
    if v.length = 0 ∨ (v.length = 1 ∧ v.head? = some Value.nil) then
      writeNames params rest
        (qb ++ ampersandOrQuestionMark (qb.length == 0) ++ url_QueryEscape name)
    else
      match writeValues name v qb with
      | .ok qb1 => writeNames params rest qb1
      | .error e => .error e

/-- Go `queryParams.GetQuery`. -/
def queryParams.GetQuery (qp : queryParams) : Except String String :=
  if qp.params.length > 0 then
    let names := qp.params.map Prod.fst
    writeNames qp.params (if qp.sorted then sort_Strings names else names) ""
  else .ok ""

/-- A `regexp.Compile` tabulated on the one pattern `^[0-9]+$`. -/
def compileDigits : String → Option Regexp := fun src =>
  if src = "^[0-9]+$" then some digitsRegexp else none


/-! ## `Named` on its raw arguments, `setName` with its receiver -/

/-- Loop of Go `Named` over the arguments two by two; `none` is a panic: a name
that is not a string, or the index `i+1` out of range. -/
def namedLoop : List Value → pathVars → Option pathVars
  | [], result => some result
  | [_], _ => none
  | k :: v :: rest, result =>
    match k with
    | .str name => namedLoop rest (afterAdd result (result.AddNamedValue name v))
    | _ => none

/-- Go `Named` on its variadic arguments; `none` is a panic. -/
def NamedArgs (namesAndValues : List Value) : Option pathVars :=
  if namesAndValues.length % 2 ≠ 0 then none
  else namedLoop namesAndValues (newPathVars .Names)

/-- The receiver of `setName` with its `name` field assigned. -/
def pathPart.withName (pt : pathPart) (n : String) : pathPart :=
  .mk pt.fixed pt.fixedValue pt.subParts pt.regexp pt.orgRegexp n

/-- The receiver of `setName` with its `orgRegexp` field assigned. -/
def pathPart.withOrgRegexp (pt : pathPart) (org : String) : pathPart :=
  .mk pt.fixed pt.fixedValue pt.subParts pt.regexp org pt.name

/-- The receiver of `setName` with its `regexp` field assigned. -/
def pathPart.withRegexp (pt : pathPart) (rx : Option Regexp) : pathPart :=
  .mk pt.fixed pt.fixedValue pt.subParts rx pt.orgRegexp pt.name

/-- Go `pathPart.setName` with its receiver: the part after the call and the
error returned (`none` for nil). -/
def pathPart.setName (compile : String → Option Regexp) (pt : pathPart) (name : String)
    (pos : Nat) : pathPart × Option GoError :=
  match strings_IndexByte name ':' with
  | some cAt =>
    let pt1 := pt.withName (strings_Trim (sliceTo name cAt) ' ')
    if pt1.name = "" then (pt1, some (.parseError "path var name cannot be empty" pos))
    else
      let pt2 := pt1.withOrgRegexp (strings_Trim (sliceFrom name (cAt + 1)) ' ')
      if pt2.orgRegexp ≠ "" then
        match compile (addRegexHeadAndTail pt2.orgRegexp) with
        | some rx => (pt2.withRegexp (some rx), none)
        | none =>
          (pt2, some (.parseError "path var regexp problem"
            (pos + (sliceTo name cAt).utf8ByteSize)))
      else (pt2, none)
  | none =>
    let pt1 := pt.withName (strings_Trim name ' ')
    if pt1.name = "" then (pt1, some (.parseError "path var name cannot be empty" pos))
    else (pt1, none)

/-- One call on a `PathVars` container. -/
inductive VarsOp where
  | addPositional (val : Value)
  | addNamed (name : String) (val : Value)
  | clear

/-- The container after one call (the error of an add is dropped). -/
def VarsOp.apply (op : VarsOp) (pvs : pathVars) : pathVars :=
  match op with
  | .addPositional val => afterAdd pvs (pvs.AddPositionalValue val)
  | .addNamed name val => afterAdd pvs (pvs.AddNamedValue name val)
  | .clear => pvs.Clear

/-- The container after a sequence of calls, first call first. -/
def runVarsOps (pvs : pathVars) (ops : List VarsOp) : pathVars :=
  ops.foldl (fun p op => op.apply p) pvs


/-! ## Auxiliary notions used in the statements -/

/-- The stored container kind of a template agrees with its reported kind. -/
def template.kindAgrees (t : template) : Prop := t.varsType = t.VarsType

/-- A part whose sub-parts, if any, have no sub-parts of their own. -/
def pathPart.flat (pt : pathPart) : Bool :=
  pt.fixed || pt.subParts.all (fun sp => sp.fixed || sp.subParts.isEmpty)

/-- Names of the variable sub-parts of a composite, left to right. -/
def subVarNames : List pathPart → List String
  | [] => []
  | sp :: rest => if sp.fixed then subVarNames rest else sp.name :: subVarNames rest

/-- Names of the variables of a part list, left to right, the variable
sub-parts of a composite included (the empty name is a positional variable). -/
def varNames : List pathPart → List String
  | [] => []
  | pt :: rest =>
    if pt.fixed then varNames rest
    else if pt.subParts.isEmpty then pt.name :: varNames rest
    else subVarNames pt.subParts ++ varNames rest

/-- What `getVars` appends for one variable named `n`. -/
def varStep (n : String) (st : List PathVar × (String → Nat)) : List PathVar × (String → Nat) :=
  if n = "" then
    (st.1 ++ [{ Name := "", NamedPosition := 0, Position := st.1.length, Value := .nil }], st.2)
  else
    (st.1 ++ [{ Name := n, NamedPosition := st.2 n, Position := st.1.length, Value := .nil }],
     fun k => if k = n then st.2 n + 1 else st.2 k)

/-- The entries `getVars` appends for a list of variable names. -/
def varsOfNames : List String → List PathVar × (String → Nat) → List PathVar × (String → Nat)
  | [], st => st
  | n :: rest, st => varsOfNames rest (varStep n st)

/-- Text of the sub-parts of a composite as the spec describes the builder: a
fixed sub-part gives its literal, a variable sub-part the next value. -/
def specSubText : List pathPart → List String → String
  | [], _ => ""
  | sp :: rest, vals =>
    if sp.fixed then sp.fixedValue ++ specSubText rest vals
    else vals.headD "" ++ specSubText rest (vals.drop 1)

/-- The path as the spec describes the builder: for each part `/` followed by
the literal of a Fixed part, the next value for a Variable, or the texts of the
sub-parts of a Composite with no separator; `vals` are the values of the
variables in template order. -/
def specPath : List pathPart → List String → String
  | [], _ => ""
  | pt :: rest, vals =>
    if pt.fixed then "/" ++ pt.fixedValue ++ specPath rest vals
    else if pt.subParts.isEmpty then "/" ++ vals.headD "" ++ specPath rest (vals.drop 1)
    else "/" ++ specSubText pt.subParts vals ++
      specPath rest (vals.drop (subVarNames pt.subParts).length)

/-- The `k`-th value added under `name` to the container `Named pairs`. -/
def namedValue (pairs : List (String × Value)) (name : String) (k : Nat) : Option Value :=
  ((pairs.filter (fun p => p.1 = name)).map Prod.snd)[k]?

/-- The `j`-th variable name of `names`. -/
def nameAt (names : List String) (j : Nat) : String := (names[j]?).getD ""

/-- Occurrence number of the `j`-th variable name among the names before it. -/
def occurrence (names : List String) (j : Nat) : Nat :=
  (names.take j).count (nameAt names j)

/-- The three position fields of a `PathVar`. -/
def PathVar.key (v : PathVar) : String × Nat × Nat := (v.Name, v.NamedPosition, v.Position)

/-- The values a positional container still supplies at the cursor. -/
def posSupply (pv : pathVars) (tr : positionsTracker) (l : List (String × String)) : Prop :=
  tr.vars = some pv ∧ pv.varsType = PathVarsType.Positions ∧
  (∀ v ∈ pv.all, (getValueIf v.Value).2 = true) ∧
  tr.varPosition + l.length = pv.all.length ∧
  l.map Prod.snd = (pv.all.drop tr.varPosition).map (fun v => (getValueIf v.Value).1)

/-- The text the builder writes for the `j`-th variable name of `names` from
the container `Named pairs`: the string form of the value added under that name
at the occurrence number of the variable. -/
def namedText (pairs : List (String × Value)) (names : List String) (j : Nat) : String :=
  match namedValue pairs (nameAt names j) (occurrence names j) with
  | some v => (getValueIf v).1
  | none => ""

/-- Whether `Named pairs` holds a value with a string form for the `j`-th
variable name of `names`. -/
def namedAvail (pairs : List (String × Value)) (names : List String) (j : Nat) : Bool :=
  match namedValue pairs (nameAt names j) (occurrence names j) with
  | some v => (getValueIf v).2
  | none => false

/-- The values a named container still supplies when the tracker has consumed
the first `j` variable names of `names`. -/
def namedSupply (pv : pathVars) (pairs : List (String × Value)) (names : List String)
    (tr : positionsTracker) (l : List (String × String)) : Prop :=
  tr.vars = some pv ∧ pv.varsType = PathVarsType.Names ∧ tr.varMatches = [] ∧
  (∀ n, (pv.named n).map (fun v => v.Value) =
    (pairs.filter (fun p => p.1 = n)).map Prod.snd) ∧
  (∀ j, j < names.length → namedAvail pairs names j = true) ∧
  ∃ j, j + l.length = names.length ∧
    l = (List.range' j l.length).map (fun i => (nameAt names i, namedText pairs names i)) ∧
    ∀ n, tr.namedPositions n = (names.take j).count n

/-- The template `NewTemplate` returns for `/credits/{year}/{month}`. -/
def creditsTemplate : template :=
  { originalTemplate := "/credits/{year}/{month}",
    pathParts := [fixedPart "credits", varPart "year", varPart "month"],
    posVarsCount := 0, nameVarsCount := 2, varsType := PathVarsType.Names,
    fixedMatchOpts := [], varMatchOpts := [] }

/-- The template `NewTemplate` returns for `/{a}-{b}/x/{c}`. -/
def dashTemplate : template :=
  { originalTemplate := "/{a}-{b}/x/{c}",
    pathParts := [.mk false "" [varPart "a", fixedPart "-", varPart "b"] none "" "",
                  fixedPart "x", varPart "c"],
    posVarsCount := 0, nameVarsCount := 3, varsType := PathVarsType.Names,
    fixedMatchOpts := [], varMatchOpts := [] }

/-- The variable names fit the container kind: named variables for a `Names`
container, positional ones (empty name) for a `Positions` container. -/
def kindCoherent (ty : PathVarsType) (names : List String) : Prop :=
  ∀ n ∈ names, (n ≠ "" ↔ ty = PathVarsType.Names)

/-- The counters of a template count the variables of its parts, and its parts
are flat. -/
def template.counted (t : template) : Prop :=
  (∀ pt ∈ t.pathParts, pt.flat = true) ∧
  t.nameVarsCount = (varNames t.pathParts).countP (fun n => n ≠ "") ∧
  t.posVarsCount = (varNames t.pathParts).countP (fun n => n = "")

/-- The container and the state of `getVars` list the same variables: same
kind, same names and positions, and the same count under every name. -/
def simVars (ty : PathVarsType) (vars : pathVars) (st : List PathVar × (String → Nat)) : Prop :=
  vars.varsType = ty ∧ vars.all.map PathVar.key = st.1.map PathVar.key ∧
  (ty = PathVarsType.Names → ∀ n, (vars.named n).length = st.2 n)

/-- A non-empty text without `/`: a text that is one segment of a path. -/
def goodSeg (s : String) : Bool := !s.data.isEmpty && s.data.all (fun c => c != '/')

/-- The characters of `joinSegs segs`. -/
def joinData : List String → List Char
  | [] => []
  | s :: rest => '/' :: (s.data ++ joinData rest)

/-- The segments of the path built from parts that are Fixed or simple
Variables: the literal, or the next value. -/
def segTexts : List pathPart → List String → List String
  | [], _ => []
  | pt :: rest, vals =>
    if pt.fixed then pt.fixedValue :: segTexts rest vals
    else vals.headD "" :: segTexts rest (vals.drop 1)

/-- The path whose segments are `segs`: each preceded by `/`. -/
def joinSegs : List String → String
  | [] => ""
  | s :: rest => "/" ++ s ++ joinSegs rest


/-! ## Further notions used in the statements -/

/-- A whole segment that is a positional placeholder: its text is `?` and it
is one plain sub-part. -/
def Segment.isPositional (seg : Segment) : Prop :=
  seg.s = "?" ∧ ∃ sp, seg.subParts = [sp] ∧ sp.Type_ = SubPartType.Fixed

/-- A segment that holds a named placeholder: one of its sub-parts is a
bracket opened by a left brace. -/
def Segment.hasNamed (seg : Segment) : Prop :=
  ∃ sp ∈ seg.subParts, sp.Type_ = SubPartType.Brackets ∧ sp.StartRune = '{'

/-- The segment the splitter hands over for `?` at position 1. -/
def questionSegment : Segment :=
  { s := "?", pos := 1,
    subParts := [⟨SubPartType.Fixed, '?', "?", "?", 1⟩] }

/-- The segment the splitter hands over for `{a}` at position 3. -/
def namedSegment : Segment :=
  { s := "{a}", pos := 3,
    subParts := [⟨SubPartType.Brackets, '{', "{a}", "{a}", 3⟩] }

/-! ## Notions used to describe partial resolution -/

/-- The variable sub-parts of a composite, left to right. -/
def subVars : List pathPart → List pathPart
  | [] => []
  | sp :: rest => if sp.fixed then subVars rest else sp :: subVars rest

/-- The variable parts of a part list, left to right, the variable sub-parts of
a composite included. -/
def varParts : List pathPart → List pathPart
  | [] => []
  | pt :: rest =>
    if pt.fixed then varParts rest
    else if pt.subParts.isEmpty then pt :: varParts rest
    else subVars pt.subParts ++ varParts rest

/-- The results of asking the tracker for the variables `vs` one after the
other, going on after a failed call as `ResolveTo` does, and the tracker after
the last call. -/
def outcomes : List pathPart → positionsTracker →
    List (Except String String) × positionsTracker
  | [], tr => ([], tr)
  | v :: rest, tr =>
    ((tr.getVar v).1 :: (outcomes rest (tr.getVar v).2).1, (outcomes rest (tr.getVar v).2).2)

/-- Whether a result of `getVar` is a value. -/
def isValue : Except String String → Bool
  | .ok _ => true
  | .error _ => false

/-- The first error of a list of results, if any. -/
def firstError : List (Except String String) → Option String
  | [] => none
  | .ok _ :: rest => firstError rest
  | .error e :: _ => some e

/-- The values of a list of results. -/
def okValues : List (Except String String) → List String
  | [] => []
  | .ok s :: rest => s :: okValues rest
  | .error _ :: rest => okValues rest

/-- The value of the first result, if it is one. -/
def valueAt : List (Except String String) → Option String
  | .ok s :: _ => some s
  | _ => none

/-- A variable part after resolution with the results `outs`, the first of
which is its own: a Fixed part holding the value, or the part itself. -/
def fillVar (v : pathPart) (outs : List (Except String String)) : pathPart :=
  match valueAt outs with
  | some s => fixedPart s
  | none => v

/-- The sub-parts of a composite after resolution with the results `outs` for
its variable sub-parts: a variable with a value becomes a Fixed sub-part holding
it, the others are kept. -/
def fillSubs : List pathPart → List (Except String String) → List pathPart
  | [], _ => []
  | sp :: rest, outs =>
    if sp.fixed then sp :: fillSubs rest outs
    else fillVar sp outs :: fillSubs rest (outs.drop 1)

/-- The part list after resolution with the results `outs` for its variables: a
variable with a value becomes a Fixed part holding it, a composite all of whose
variables have a value becomes one Fixed part holding the concatenation, any
other composite keeps the variables without a value, every other part is kept. -/
def fillParts : List pathPart → List (Except String String) → List pathPart
  | [], _ => []
  | pt :: rest, outs =>
    if pt.fixed then pt :: fillParts rest outs
    else if pt.subParts.isEmpty then fillVar pt outs :: fillParts rest (outs.drop 1)
    else
      (if (outs.take (subVars pt.subParts).length).all isValue then
        fixedPart (concatFixedValues
          (fillSubs pt.subParts (outs.take (subVars pt.subParts).length)))
       else .mk false "" (fillSubs pt.subParts (outs.take (subVars pt.subParts).length))
          none "" "") ::
      fillParts rest (outs.drop (subVars pt.subParts).length)

/-- The text of one part in the textual form `ResolveTo` writes: a literal, `?`
for a positional variable, `{name}` or `{name:pattern}` for a named one, the
sub-part texts of a composite, after a `/`. -/
def partText (pt : pathPart) : String :=
  if pt.fixed then "/" ++ pt.fixedValue
  else if pt.subParts.isEmpty then
    if pt.name = "" then "/?" else "/" ++ bracketText pt
  else "/" ++ unresolvedText pt.subParts

/-- The textual form `ResolveTo` writes for a part list. -/
def partsText : List pathPart → String
  | [] => ""
  | pt :: rest => partText pt ++ partsText rest

/-- The number of whole-segment variables without a name in a part list. -/
def posVarsOf : List pathPart → Nat
  | [] => 0
  | pt :: rest =>
    (if pt.fixed = false ∧ pt.subParts.isEmpty = true ∧ pt.name = "" then 1 else 0) +
      posVarsOf rest

/-- The number of whole-segment variables with a name plus the number of
variable sub-parts of composites in a part list. -/
def nameVarsOf : List pathPart → Nat
  | [] => 0
  | pt :: rest =>
    (if pt.fixed then 0
     else if pt.subParts.isEmpty then (if pt.name = "" then 0 else 1)
     else (subVars pt.subParts).length) + nameVarsOf rest

/-- The values of the variables after a later build: a variable resolved
earlier keeps its value, the others take the values `vals` in order. -/
def mergeValues : List (Except String String) → List String → List String
  | [], _ => []
  | .ok s :: rest, vals => s :: mergeValues rest vals
  | .error _ :: rest, vals => vals.headD "" :: mergeValues rest (vals.drop 1)

/-- The variables of `vs` whose result in `outs` is not a value. -/
def unresolvedVars : List pathPart → List (Except String String) → List pathPart
  | [], _ => []
  | v :: rest, outs =>
    match valueAt outs with
    | some _ => unresolvedVars rest (outs.drop 1)
    | none => v :: unresolvedVars rest (outs.drop 1)

/-- The segment texts of the path the spec describes for a part list and the
values of its variables: a literal, the next value, or the sub-part texts of a
composite with no separator. -/
def partTexts : List pathPart → List String → List String
  | [], _ => []
  | pt :: rest, vals =>
    if pt.fixed then pt.fixedValue :: partTexts rest vals
    else if pt.subParts.isEmpty then vals.headD "" :: partTexts rest (vals.drop 1)
    else specSubText pt.subParts vals ::
      partTexts rest (vals.drop (subVarNames pt.subParts).length)

/-- The tracker moved to another path position. -/
def positionsTracker.atPath (tr : positionsTracker) (p : Nat) : positionsTracker :=
  { tr with pathPosition := p }

/-- A tracker as `buildPath` and `ResolveTo` start it. -/
def startTracker (vars : Option pathVars) (varMatches : List VarMatchOption) :
    positionsTracker :=
  { vars := vars, varPosition := 0, pathPosition := 0, namedPositions := fun _ => 0,
    varMatches := varMatches }

/-- The template `NewTemplate` returns for `/users/{id:[0-9]+}`. -/
def usersTemplate : template :=
  { originalTemplate := "/users/{id:[0-9]+}",
    pathParts := [fixedPart "users", .mk false "" [] (some digitsRegexp) "[0-9]+" "id"],
    posVarsCount := 0, nameVarsCount := 1, varsType := PathVarsType.Names,
    fixedMatchOpts := [], varMatchOpts := [] }

/-- A container that supplies no value: nil, or one without entries (as
`Positional()` and `Named()` return). -/
def noValues (vars : Option pathVars) : Prop :=
  ∀ pv, vars = some pv → pv.all = [] ∧ ∀ n, pv.named n = []

/-- Every variable sub-part of every part has a name. -/
def subsNamed (parts : List pathPart) : Prop :=
  ∀ pt ∈ parts, ∀ n ∈ subVarNames pt.subParts, n ≠ ""

/-- The error `getVar` returns for the `j`-th variable name of `names` when the
named container lacks its value: the name, and the occurrence number when it is
not the first. -/
def namedMissing (names : List String) (j : Nat) : String :=
  if occurrence names j = 0 then "no var for '" ++ nameAt names j ++ "'"
  else "no var for '" ++ nameAt names j ++ "' (varPosition " ++
    toString (occurrence names j + 1) ++ ")"

/-- The template `NewTemplate` returns for `/a/{x}/{y}/{x}`. -/
def repeatTemplate : template :=
  { originalTemplate := "/a/{x}/{y}/{x}",
    pathParts := [fixedPart "a", varPart "x", varPart "y", varPart "x"],
    posVarsCount := 0, nameVarsCount := 3, varsType := PathVarsType.Names,
    fixedMatchOpts := [], varMatchOpts := [] }

/-! ## The query text as the spec describes it -/

/-- One entry of the query text: the bare escaped key for a nil value,
`esc(k)=esc(v)` for any other value. -/
def queryEntry (k : String) (v : Value) : String :=
  if v = Value.nil then url_QueryEscape k
  else url_QueryEscape k ++ "=" ++ url_QueryEscape (getValueIf v).1

/-- The entries of one key: the bare escaped key when its value list is empty,
otherwise one entry per value in insertion order. -/
def queryEntries (k : String) (vs : List Value) : List String :=
  if vs.isEmpty then [url_QueryEscape k] else vs.map (queryEntry k)

/-- Entries joined by `&`. -/
def joinAmp : List String → String
  | [] => ""
  | [e] => e
  | e :: rest => e ++ "&" ++ joinAmp rest

/-- The query text: empty without entries, otherwise `?` followed by the
entries joined by `&`. -/
def specQuery (entries : List String) : String :=
  if entries.isEmpty then "" else "?" ++ joinAmp entries

/-- The query parameters `NewQueryParams("b", "2", "a", "1")` returns. -/
def sampleQuery : queryParams :=
  { params := [("b", [.str "2"]), ("a", [.str "1"])], sorted := true }

/-- The template `NewTemplate` returns for `/foo/`. -/
def fooSlashTemplate : template :=
  { originalTemplate := "/foo/", pathParts := [fixedPart "foo"],
    posVarsCount := 0, nameVarsCount := 0, varsType := PathVarsType.Positions,
    fixedMatchOpts := [], varMatchOpts := [] }

/-- The template `NewTemplate` returns for `bar/{id}`. -/
def barIdTemplate : template :=
  { originalTemplate := "/bar/{id}", pathParts := [fixedPart "bar", varPart "id"],
    posVarsCount := 0, nameVarsCount := 1, varsType := PathVarsType.Names,
    fixedMatchOpts := [], varMatchOpts := [] }


/-! ## Notions used in the statements on containers, names and reachable templates -/

/-- The indexing rule of the spec on a list of values: index `i` from the front
for `0 <= i < n`, index `n + i` for `-n <= i < 0`, nothing otherwise. -/
def specLookup (xs : List String) (i : Int) : String × Bool :=
  if 0 ≤ i ∧ i < (xs.length : Int) then (xs.getD i.toNat "", true)
  else if -(xs.length : Int) ≤ i ∧ i < 0 then (xs.getD ((xs.length : Int) + i).toNat "", true)
  else ("", false)

/-- The entries of a container keep their positions: the `i`-th entry has
`Position = i`; in a named container, and for every entry with a name, the
`NamedPosition` is the number of earlier entries with the same name. -/
def pathVars.positioned (pvs : pathVars) : Prop :=
  ∀ i (h : i < pvs.all.length),
    (pvs.all.get ⟨i, h⟩).Position = i ∧
    ((pvs.varsType = PathVarsType.Names ∨ (pvs.all.get ⟨i, h⟩).Name ≠ "") →
      (pvs.all.get ⟨i, h⟩).NamedPosition =
        ((pvs.all.take i).filter (fun v => v.Name = (pvs.all.get ⟨i, h⟩).Name)).length)

/-- The arguments of `Named` grouped in pairs, as far as the names are strings. -/
def pairsOf : List Value → List (String × Value)
  | .str name :: v :: rest => (name, v) :: pairsOf rest
  | _ => []

/-- Whether the arguments of `Named` are an even number with a string at every
even index. -/
def namedArgsOk : List Value → Bool
  | [] => true
  | .str _ :: _ :: rest => namedArgsOk rest
  | _ => false

/-- The text of a bracket body before the first `:` (the whole body when there
is none), trimmed of spaces. -/
def bodyName (body : String) : String :=
  match strings_IndexByte body ':' with
  | some cAt => strings_Trim (sliceTo body cAt) ' '
  | none => strings_Trim body ' '

/-- The text of a bracket body after the first `:`, trimmed of spaces; empty
when there is no `:`. -/
def bodyPattern (body : String) : String :=
  match strings_IndexByte body ':' with
  | some cAt => strings_Trim (sliceFrom body (cAt + 1)) ' '
  | none => ""

/-- A composite as the spec describes it: at least two sub-parts, at least one
of them a variable, none of them with sub-parts of its own. -/
def pathPart.compositeShape (pt : pathPart) : Prop :=
  2 ≤ pt.subParts.length ∧ (∃ sp ∈ pt.subParts, sp.fixed = false) ∧
  ∀ sp ∈ pt.subParts, sp.subParts = []

/-- The templates reachable through `NewTemplate`, `Sub` and `ResolveTo`. -/
inductive template.Reachable (split : String → SplitRun) (compile : String → Option Regexp) :
    template → Prop where
  | new (path : String) (options : List AnyOption) (t : template) :
      NewTemplate split compile path options = .ok t → template.Reachable split compile t
  | sub (base : template) (path : String) (options : List AnyOption) (t : template) :
      template.Reachable split compile base →
      base.Sub split compile path options = .ok t → template.Reachable split compile t
  | resolve (t : template) (vars : Option pathVars) :
      template.Reachable split compile t → template.Reachable split compile (t.ResolveTo vars)

/-- The entries of `Vars()` keep their positions: the `i`-th entry has
`Position = i`, a named entry has `NamedPosition` equal to the number of earlier
entries with the same name, an entry without a name has `NamedPosition = 0`. -/
def varsListed (vs : List PathVar) : Prop :=
  ∀ i (h : i < vs.length),
    (vs.get ⟨i, h⟩).Position = i ∧
    ((vs.get ⟨i, h⟩).Name ≠ "" →
      (vs.get ⟨i, h⟩).NamedPosition =
        ((vs.take i).filter (fun v => v.Name = (vs.get ⟨i, h⟩).Name)).length) ∧
    ((vs.get ⟨i, h⟩).Name = "" → (vs.get ⟨i, h⟩).NamedPosition = 0)

/-- What holds of every reachable template: flat parts counted by the two
counters, named variable sub-parts, composites of the shape the spec describes,
and at most one counter that is not zero. -/
def template.sound (t : template) : Prop :=
  t.counted ∧ subsNamed t.pathParts ∧
  (∀ pt ∈ t.pathParts, pt.fixed = false → pt.subParts.isEmpty = false → pt.compositeShape) ∧
  ¬ (t.posVarsCount > 0 ∧ t.nameVarsCount > 0)

/-- The template `NewTemplate` returns for `/?/?`. -/
def twoPositionsTemplate : template :=
  { originalTemplate := "/?/?", pathParts := [varPart "", varPart ""],
    posVarsCount := 2, nameVarsCount := 0, varsType := PathVarsType.Positions,
    fixedMatchOpts := [], varMatchOpts := [] }

/-- The template `Sub` returns for the base `/foo/` and the addition
`bar/{id}` (the stored container kind is the one of the base). -/
def fooBarIdTemplate : template :=
  { originalTemplate := "/foo/bar/{id}",
    pathParts := [fixedPart "foo", fixedPart "bar", varPart "id"],
    posVarsCount := 0, nameVarsCount := 1, varsType := PathVarsType.Positions,
    fixedMatchOpts := [], varMatchOpts := [] }


/-! ## The synthesized regexp of a composite part -/

/-- The variable sub-parts of a part that carry a pattern have it compiled:
`regexp.Compile` accepts the anchored pattern and the `regexp` field holds the
result, as `setName` leaves them at parse time. -/
def pathPart.subsCompiled (compile : String → Option Regexp) (pt : pathPart) : Prop :=
  ∀ sp ∈ pt.subParts, sp.fixed = false → sp.orgRegexp ≠ "" →
    ∃ rx, compile (addRegexHeadAndTail sp.orgRegexp) = some rx ∧ sp.regexp = some rx

/-- The compiled Go regexp `^\$` (no `$` anchor is added to a pattern that ends
in `$`, also an escaped one): the texts that start with a dollar sign. -/
def dollarRegexp : Regexp :=
  { MatchString := fun s => s.data.head? == some '$'
    FindStringSubmatch := fun s => if s.data.head? == some '$' then ["$"] else []
    SubexpNames := [""] }

/-- Go `regexp.Compile` tabulated on the two patterns the template
`/{a:\$}-{b}` hands to it. `^\$` compiles. `^(?P<vsp0>\)(\Q-\E)(?P<vsp2>.*)$`
does not: `\)` is an escaped parenthesis, so the group `vsp0` is never closed
and `regexp.Compile` returns the error "missing closing )". -/
def compileDollar : String → Option Regexp := fun src =>
  if src = "^\\$" then some dollarRegexp
  else if src = "^(?P<vsp0>\\)(\\Q-\\E)(?P<vsp2>.*)$" then none
  else none

/-- The composite part of `/{a:\$}-{b}`: the variable `a` with the pattern
`\$`, the literal `-`, the variable `b`. -/
def dollarComposite : pathPart :=
  .mk false "" [.mk false "" [] (some dollarRegexp) "\\$" "a", fixedPart "-", varPart "b"]
    none "" ""

/-- The template `NewTemplate` returns for `/{a:\$}-{b}`. -/
def dollarTemplate : template :=
  { originalTemplate := "/\x7ba:\\$\x7d-{b}",
    pathParts := [dollarComposite],
    posVarsCount := 0, nameVarsCount := 2, varsType := PathVarsType.Names,
    fixedMatchOpts := [], varMatchOpts := [] }

/-! ## Notions used for container kinds, parse errors, recorded values and collapses -/

/-- The template `NewTemplate` returns for `/foo`. -/
def fooTemplate : template :=
  { originalTemplate := "/foo", pathParts := [fixedPart "foo"],
    posVarsCount := 0, nameVarsCount := 0, varsType := PathVarsType.Positions,
    fixedMatchOpts := [], varMatchOpts := [] }

/-- The template `NewTemplate` returns for `/{a}/{b}`. -/
def abTemplate : template :=
  { originalTemplate := "/{a}/{b}", pathParts := [varPart "a", varPart "b"],
    posVarsCount := 0, nameVarsCount := 2, varsType := PathVarsType.Names,
    fixedMatchOpts := [], varMatchOpts := [] }

/-- The template `ResolveTo` returns for `/{a}/{b}` and the container
`Named("a", "x")`: the text is `/x/{b}` and the stored container kind is the
zero value `Positions`. -/
def xbTemplate : template :=
  { originalTemplate := "/x/{b}", pathParts := [fixedPart "x", varPart "b"],
    posVarsCount := 0, nameVarsCount := 1, varsType := PathVarsType.Positions,
    fixedMatchOpts := [], varMatchOpts := [] }

/-- A segment of one plain sub-part that starts with `?` or `:`, which the
parser reads as a variable named by the rest of its text. -/
def Segment.plainVar (seg : Segment) : Prop :=
  (∃ sp, seg.subParts = [sp] ∧ sp.Type_ = SubPartType.Fixed) ∧
  (strings_HasPrefix seg.s "?" || strings_HasPrefix seg.s ":") = true

/-- A segment the parser counts as a positional variable: a plain segment `?`
(or `:`) with nothing after the first character. -/
def Segment.countsPositional (seg : Segment) : Prop :=
  seg.plainVar ∧ sliceFrom seg.s 1 = ""

/-- A segment the parser counts named variables for: it holds a `{name}`
placeholder, or it is a plain segment `?name` or `:name`. -/
def Segment.countsNamed (seg : Segment) : Prop :=
  seg.hasNamed ∨ (seg.plainVar ∧ sliceFrom seg.s 1 ≠ "")

/-- The error that ends a parse, if any: the error of the first segment the
parser refuses, else the error of the splitter. -/
def parseEndError (split : String → SplitRun) (compile : String → Option Regexp)
    (t : template) : Option GoError :=
  match (parseLoop compile (split t.originalTemplate).segments t).1 with
  | some e => some e
  | none => (split t.originalTemplate).err

/-- The template `NewTemplate` starts its parse with. -/
def startTemplate (path : String) (options : List AnyOption) : template :=
  { originalTemplate := slashPrefix path, pathParts := [], posVarsCount := 0,
    nameVarsCount := 0, varsType := PathVarsType.Positions,
    fixedMatchOpts := (separateParseOptions options).1,
    varMatchOpts := (separateParseOptions options).2 }

/-- The first option of the list that is applicable to the value and accepts
it. -/
def firstAccepting (opts : List VarMatchOption) (value : String) (position : Nat)
    (name : String) (rx : Option Regexp) (rxs : String) (pathPos : Nat)
    (vars : Option pathVars) : Option VarMatchOption :=
  opts.find? (fun o => o.Applicable value position name rx rxs pathPos vars &&
    (o.Match value position name rx rxs pathPos vars).2)

/-- The value recorded for a variable whose text is `value`, `none` when the
value is rejected: the value returned by the first applicable option that
accepts; rejected when some option is applicable and none of them accepts; and
when no option is applicable the text as it was read, if the verdict `regexOk`
of the pattern allows it. -/
def recordedValue (opts : List VarMatchOption) (value : String) (position : Nat)
    (name : String) (rx : Option Regexp) (rxs : String) (pathPos : Nat)
    (vars : Option pathVars) (regexOk : Bool) : Option String :=
  match firstAccepting opts value position name rx rxs pathPos vars with
  | some o => some (o.Match value position name rx rxs pathPos vars).1
  | none =>
    if opts.any (fun o => o.Applicable value position name rx rxs pathPos vars) then none
    else if regexOk then some value else none

/-- The verdict of the pattern of a variable on a text: `true` without a
pattern. -/
def regexVerdict (rx : Option Regexp) (s : String) : Bool :=
  match rx with
  | none => true
  | some r => r.MatchString s

/-- The concatenation of the literals of a list of sub-parts. -/
def joinLiterals (sps : List pathPart) : String :=
  (sps.map pathPart.fixedValue).foldr (fun a b => a ++ b) ""

/-- The sub-part the parser makes of one sub-part of the splitter: a variable
named by the text between the braces for a bracket opened by a left brace, a
literal otherwise (the unescaped text for a quoted sub-part). -/
def parsedSubPart (compile : String → Option Regexp) (sp : SubPart) : Except GoError pathPart :=
  if sp.Type_ = SubPartType.Brackets ∧ sp.StartRune = '{' then
    setName compile (sliceTo (sliceFrom sp.String_ 1) (sp.String_.length - 2)) sp.StartPos
  else if sp.Type_ = SubPartType.Quotes then .ok (fixedPart sp.UnEscaped)
  else .ok (fixedPart sp.String_)

/-- The part the parser makes of the parsed sub-parts of a segment: a single
sub-part is that sub-part, a list of Fixed sub-parts is one Fixed part whose
literal is the concatenation, any other list is a composite. -/
def collapseSubParts (parts : List pathPart) : pathPart :=
  match parts with
  | [only] => only
  | _ =>
    if parts.all (fun sp => sp.fixed) then fixedPart (joinLiterals parts)
    else .mk false "" parts none "" ""

/-- The part `ResolveTo` leaves for a composite whose sub-parts after the
resolution are `parts`: one Fixed part holding the concatenation when no
variable sub-part remains, a composite of `parts` otherwise. -/
def resolvedComposite (parts : List pathPart) : pathPart :=
  if parts.all (fun sp => sp.fixed) then fixedPart (joinLiterals parts)
  else .mk false "" parts none "" ""

/-- The results of asking the container `vars` for the variable sub-parts of
the composite `pt` of a template whose parts before it are `pre`: the tracker
has been asked for the variables of `pre` before. -/
def compositeOutcomes (vars : Option pathVars) (pre : List pathPart) (pt : pathPart) :
    List (Except String String) :=
  (outcomes (subVars pt.subParts) (outcomes (varParts pre) (startTracker vars [])).2).1

/-! ## Option lists -/

theorem fixedCheck_iff (opts : List FixedMatchOption) (value expected : String) (pathPos : Nat)
    (vars : Option pathVars) :
    fixedMatchOptions.check opts value expected pathPos vars = true ↔
      ∃ o ∈ opts, o.Match value expected pathPos vars = true := by
  induction opts with
  | nil => simp [fixedMatchOptions.check]
  | cons o rest ih =>
    unfold fixedMatchOptions.check
    by_cases h : o.Match value expected pathPos vars = true
    · simp [h]
    · simp [h, ih]

theorem checkLoop_ok_iff (opts : List VarMatchOption) (value : String) (position : Nat)
    (name : String) (rx : Option Regexp) (rxs : String) (pathPos : Nat)
    (vars : Option pathVars) (checked : Nat) :
    (varMatchOptions.checkLoop opts value position name rx rxs pathPos vars checked).2.1 = true ↔
      ∃ o ∈ opts, o.Applicable value position name rx rxs pathPos vars = true ∧
        (o.Match value position name rx rxs pathPos vars).2 = true := by
  induction opts generalizing checked with
  | nil => simp [varMatchOptions.checkLoop]
  | cons o rest ih =>
    unfold varMatchOptions.checkLoop
    by_cases ha : o.Applicable value position name rx rxs pathPos vars = true
    · by_cases hm : (o.Match value position name rx rxs pathPos vars).2 = true
      · simp [ha, hm]
      · simp [ha, hm, ih]
    · simp [ha, ih]

theorem checkLoop_checked (opts : List VarMatchOption) (value : String) (position : Nat)
    (name : String) (rx : Option Regexp) (rxs : String) (pathPos : Nat)
    (vars : Option pathVars) (checked : Nat) :
    checked ≤ (varMatchOptions.checkLoop opts value position name rx rxs pathPos vars checked).2.2 ∧
    ((varMatchOptions.checkLoop opts value position name rx rxs pathPos vars checked).2.1 = true →
      0 < (varMatchOptions.checkLoop opts value position name rx rxs pathPos vars checked).2.2) := by
  induction opts generalizing checked with
  | nil => simp [varMatchOptions.checkLoop]
  | cons o rest ih =>
    unfold varMatchOptions.checkLoop
    by_cases ha : o.Applicable value position name rx rxs pathPos vars = true
    · by_cases hm : (o.Match value position name rx rxs pathPos vars).2 = true
      · simp [ha, hm]
      · simp only [ha, hm, if_true, if_false, Bool.false_eq_true]
        have := ih (checked + 1)
        exact ⟨by omega, this.2⟩
    · simp only [ha, if_false, Bool.false_eq_true]
      exact ih checked


/-! ### Case equations of `match_` -/

theorem match_fixed (compile : String → Option Regexp) (pt : pathPart) (s : String)
    (pathPos : Nat) (vars : pathVars) (fOpts : List FixedMatchOption)
    (vOpts : List VarMatchOption) (hf : pt.fixed = true) :
    pt.match_ compile s pathPos vars fOpts vOpts =
      some (if fOpts.length > 0 then
              fixedMatchOptions.check fOpts s pt.fixedValue pathPos (some vars)
            else decide (pt.fixedValue = s), vars) := by
  simp [pathPart.match_, hf]

theorem match_simple (compile : String → Option Regexp) (pt : pathPart) (s : String)
    (pathPos : Nat) (vars : pathVars) (fOpts : List FixedMatchOption)
    (vOpts : List VarMatchOption) (hf : pt.fixed = false) (hs : pt.subParts = []) :
    ∃ ok s1, pt.match_ compile s pathPos vars fOpts vOpts =
      (if ok = true then some (true, pt.addFound vars s1) else some (false, vars)) ∧
      (vOpts = [] → s1 = s ∧ ok = (match pt.regexp with
        | none => true
        | some rx => rx.MatchString s)) := by
  refine ⟨if (decide (vOpts.length > 0) && (varMatchOptions.check vOpts s vars.Len pt.name
      pt.regexp pt.orgRegexp pathPos (some vars)).2.2) = true
      then (varMatchOptions.check vOpts s vars.Len pt.name pt.regexp pt.orgRegexp pathPos
        (some vars)).2.1
      else (match pt.regexp with
        | none => true
        | some rx => rx.MatchString s),
    if (decide (vOpts.length > 0) && (varMatchOptions.check vOpts s vars.Len pt.name
      pt.regexp pt.orgRegexp pathPos (some vars)).2.2) = true
      then (varMatchOptions.check vOpts s vars.Len pt.name pt.regexp pt.orgRegexp pathPos
        (some vars)).1
      else s, ?_, ?_⟩
  · simp only [pathPart.match_, hf, hs, List.length_nil, if_true, Bool.false_eq_true, if_false]
    try rfl
  · intro hv
    subst hv
    simp

theorem match_composite (compile : String → Option Regexp) (pt : pathPart) (s : String)
    (pathPos : Nat) (vars : pathVars) (fOpts : List FixedMatchOption)
    (vOpts : List VarMatchOption) (hf : pt.fixed = false) (hs : pt.subParts ≠ []) :
    pt.match_ compile s pathPos vars fOpts vOpts = pt.multiMatch compile s pathPos vars vOpts := by
  have : pt.subParts.length ≠ 0 := by
    intro h; exact hs (List.length_eq_zero.mp h)
  simp [pathPart.match_, hf, this]

theorem multiMatch_cases (compile : String → Option Regexp) (pt : pathPart) (s : String)
    (pathPos : Nat) (vars : pathVars) (vOpts : List VarMatchOption) (ok : Bool) (v1 : pathVars)
    (h : pt.multiMatch compile s pathPos vars vOpts = some (ok, v1)) :
    (ok = false ∧ v1 = vars) ∨
    (ok = true ∧ ∃ sms idxs,
      multiMatchLoop sms idxs pathPos vOpts pt.subParts 0 vars = some v1) := by
  unfold pathPart.multiMatch at h
  cases ho : pt.overallRegexp compile with
  | none => simp [ho] at h
  | some p =>
    obtain ⟨orx, idxs⟩ := p
    simp only [ho] at h
    by_cases hl : (orx.FindStringSubmatch s).length > 0
    · simp only [hl, if_true] at h
      cases hm : multiMatchLoop (orx.FindStringSubmatch s) idxs pathPos vOpts pt.subParts 0 vars with
      | none => simp [hm] at h
      | some v2 =>
        simp only [hm, Option.some.injEq, Prod.mk.injEq] at h
        right
        exact ⟨h.1.symm, _, _, by rw [hm, h.2]⟩
    · simp only [hl, if_false, Option.some.injEq, Prod.mk.injEq] at h
      left
      exact ⟨h.1.symm, h.2.symm⟩

/-! ### varsType is never changed by adding -/

theorem afterAdd_named_varsType (vars : pathVars) (n : String) (v : Value) :
    (afterAdd vars (vars.AddNamedValue n v)).varsType = vars.varsType := by
  unfold pathVars.AddNamedValue afterAdd
  split_ifs <;> rfl

theorem afterAdd_positional_varsType (vars : pathVars) (v : Value) :
    (afterAdd vars (vars.AddPositionalValue v)).varsType = vars.varsType := by
  unfold pathVars.AddPositionalValue afterAdd
  split_ifs <;> rfl

theorem addFound_varsType (pt : pathPart) (vars : pathVars) (val : String) :
    (pt.addFound vars val).varsType = vars.varsType := by
  unfold pathPart.addFound
  split_ifs
  · exact afterAdd_named_varsType _ _ _
  · exact afterAdd_positional_varsType _ _

theorem multiMatchLoop_varsType (sms : List String) (idxs : Int → Nat) (pathPos : Nat)
    (vOpts : List VarMatchOption) (sps : List pathPart) (i : Nat) (vars v1 : pathVars)
    (h : multiMatchLoop sms idxs pathPos vOpts sps i vars = some v1) :
    v1.varsType = vars.varsType := by
  induction sps generalizing i vars with
  | nil =>
    simp only [multiMatchLoop, Option.some.injEq] at h
    rw [← h]
  | cons sp rest ih =>
    unfold multiMatchLoop at h
    cases hf : sp.fixed with
    | true =>
      simp only [hf, Bool.not_true, Bool.false_eq_true, if_false] at h
      exact ih _ _ h
    | false =>
      simp only [hf, Bool.not_false, if_true] at h
      cases hg : sms[idxs (i : Int)]? with
      | none => simp [hg] at h
      | some str0 =>
        simp only [hg] at h
        rw [ih _ _ h]
        split_ifs <;> first | exact addFound_varsType _ _ _ | rfl

theorem match_varsType (compile : String → Option Regexp) (pt : pathPart) (s : String)
    (pathPos : Nat) (vars : pathVars) (fOpts : List FixedMatchOption)
    (vOpts : List VarMatchOption) (ok : Bool) (v1 : pathVars)
    (h : pt.match_ compile s pathPos vars fOpts vOpts = some (ok, v1)) :
    v1.varsType = vars.varsType := by
  cases hf : pt.fixed with
  | true =>
    rw [match_fixed _ _ _ _ _ _ _ hf] at h
    simp only [Option.some.injEq, Prod.mk.injEq] at h
    rw [← h.2]
  | false =>
    by_cases hs : pt.subParts = []
    · obtain ⟨ok1, s1, he, _⟩ := match_simple compile pt s pathPos vars fOpts vOpts hf hs
      rw [he] at h
      split_ifs at h
      · simp only [Option.some.injEq, Prod.mk.injEq] at h
        rw [← h.2]; exact addFound_varsType _ _ _
      · simp only [Option.some.injEq, Prod.mk.injEq] at h
        rw [← h.2]
    · rw [match_composite _ _ _ _ _ _ _ hf hs] at h
      rcases multiMatch_cases _ _ _ _ _ _ _ _ h with ⟨_, rfl⟩ | ⟨_, sms, idxs, hl⟩
      · rfl
      · exact multiMatchLoop_varsType _ _ _ _ _ _ _ _ hl

theorem match_false_vars (compile : String → Option Regexp) (pt : pathPart) (s : String)
    (pathPos : Nat) (vars : pathVars) (fOpts : List FixedMatchOption)
    (vOpts : List VarMatchOption) (v1 : pathVars)
    (h : pt.match_ compile s pathPos vars fOpts vOpts = some (false, v1)) :
    v1 = vars := by
  cases hf : pt.fixed with
  | true =>
    rw [match_fixed _ _ _ _ _ _ _ hf] at h
    simp only [Option.some.injEq, Prod.mk.injEq] at h
    exact h.2.symm
  | false =>
    by_cases hs : pt.subParts = []
    · obtain ⟨ok1, s1, he, _⟩ := match_simple compile pt s pathPos vars fOpts vOpts hf hs
      rw [he] at h
      split_ifs at h
      · simp at h
      · simp only [Option.some.injEq, Prod.mk.injEq] at h
        exact h.2.symm
    · rw [match_composite _ _ _ _ _ _ _ hf hs] at h
      rcases multiMatch_cases _ _ _ _ _ _ _ _ h with ⟨_, rfl⟩ | ⟨hc, _⟩
      · rfl
      · simp at hc

theorem matchesLoop_varsType (compile : String → Option Regexp) (fOpts : List FixedMatchOption)
    (vOpts : List VarMatchOption) (parts : List pathPart) (segs : List String) (i : Nat)
    (vars : pathVars) (ok : Bool) (v1 : pathVars)
    (h : matchesLoop compile fOpts vOpts parts segs i vars = some (ok, v1)) :
    v1.varsType = vars.varsType := by
  induction parts generalizing segs i vars with
  | nil =>
    simp only [matchesLoop, Option.some.injEq, Prod.mk.injEq] at h
    rw [← h.2]
  | cons pt rest ih =>
    cases segs with
    | nil => simp [matchesLoop] at h
    | cons seg segs =>
      unfold matchesLoop at h
      cases hm : pt.match_ compile seg i vars fOpts vOpts with
      | none => simp [hm] at h
      | some r =>
        obtain ⟨ok1, vars1⟩ := r
        simp only [hm] at h
        have h1 := match_varsType _ _ _ _ _ _ _ _ _ hm
        cases ok1 with
        | false =>
          simp only [Bool.not_false, if_true, Option.some.injEq, Prod.mk.injEq] at h
          rw [← h.2, h1]
        | true =>
          simp only [Bool.not_true, Bool.false_eq_true, if_false] at h
          rw [ih _ _ _ h, h1]

theorem matches_some_cases (compile : String → Option Regexp) (t : template) (path : String)
    (options : List AnyOption) (r : Option pathVars) (ok : Bool)
    (h : t.matches compile path options = some (r, ok)) :
    (r = none ∧ ok = false ∧ (matchPathSplit path = none ∨
        ∃ pts, matchPathSplit path = some pts ∧ pts.length ≠ t.pathParts.length)) ∨
    (∃ pts v, matchPathSplit path = some pts ∧ pts.length = t.pathParts.length ∧ r = some v ∧
      matchesLoop compile (t.mergeParseOptions options).1 (t.mergeParseOptions options).2
        t.pathParts pts 0 (newPathVars t.varsType) = some (ok, v)) := by
  unfold template.matches at h
  cases hsp : matchPathSplit path with
  | none =>
    simp only [hsp, Option.some.injEq, Prod.mk.injEq] at h
    left; exact ⟨h.1.symm, h.2.symm, Or.inl rfl⟩
  | some pts =>
    simp only [hsp] at h
    by_cases hl : pts.length = t.pathParts.length
    · simp only [hl, ne_eq, not_true_eq_false, if_false] at h
      right
      cases hm : matchesLoop compile (t.mergeParseOptions options).1
          (t.mergeParseOptions options).2 t.pathParts pts 0 (newPathVars t.varsType) with
      | none => simp [hm] at h
      | some p =>
        obtain ⟨ok1, v⟩ := p
        simp only [hm, Option.some.injEq, Prod.mk.injEq] at h
        exact ⟨pts, v, rfl, hl, h.1.symm, by rw [hm, h.2]⟩
    · simp only [ne_eq, hl, not_false_eq_true, if_true, Option.some.injEq, Prod.mk.injEq] at h
      left; exact ⟨h.1.symm, h.2.symm, Or.inr ⟨pts, rfl, hl⟩⟩

theorem matches_varsType (compile : String → Option Regexp) (t : template) (path : String)
    (options : List AnyOption) (r : pathVars) (ok : Bool)
    (h : t.matches compile path options = some (some r, ok)) :
    r.VarsType = t.varsType := by
  rcases matches_some_cases _ _ _ _ _ _ h with ⟨hn, _⟩ | ⟨pts, v, _, _, hr, hm⟩
  · simp at hn
  · simp only [Option.some.injEq] at hr
    subst hr
    exact matchesLoop_varsType _ _ _ _ _ _ _ _ _ hm

theorem matchesLoop_false (compile : String → Option Regexp) (fOpts : List FixedMatchOption)
    (vOpts : List VarMatchOption) (parts : List pathPart) (segs : List String) (i : Nat)
    (vars v : pathVars)
    (h : matchesLoop compile fOpts vOpts parts segs i vars = some (false, v)) :
    ∃ k pt seg, parts[k]? = some pt ∧ segs[k]? = some seg ∧
      matchesLoop compile fOpts vOpts (parts.take k) (segs.take k) i vars = some (true, v) ∧
      pt.match_ compile seg (i + k) v fOpts vOpts = some (false, v) := by
  induction parts generalizing segs i vars with
  | nil => simp [matchesLoop] at h
  | cons pt rest ih =>
    cases segs with
    | nil => simp [matchesLoop] at h
    | cons seg segs =>
      unfold matchesLoop at h
      cases hm : pt.match_ compile seg i vars fOpts vOpts with
      | none => simp [hm] at h
      | some r =>
        obtain ⟨ok1, vars1⟩ := r
        simp only [hm] at h
        cases ok1 with
        | false =>
          simp only [Bool.not_false, if_true, Option.some.injEq, Prod.mk.injEq] at h
          have hv := match_false_vars _ _ _ _ _ _ _ _ hm
          have hvv : v = vars := by rw [← h.2, hv]
          subst hvv
          refine ⟨0, pt, seg, by simp, by simp, ?_, ?_⟩
          · simp [matchesLoop]
          · rw [hv] at hm
            simpa using hm
        | true =>
          simp only [Bool.not_true, Bool.false_eq_true, if_false] at h
          obtain ⟨k, pt1, seg1, hp, hs, hl, hf⟩ := ih _ _ _ h
          refine ⟨k + 1, pt1, seg1, by simpa using hp, by simpa using hs, ?_, ?_⟩
          · simp only [List.take_succ_cons, matchesLoop, hm]
            simpa using hl
          · have : i + (k + 1) = i + 1 + k := by omega
            rw [this]; exact hf

/-! ### Parsing keeps the container kind and counts apart -/

theorem addVar_keeps {α : Type} (f : template → α)
    (hf : ∀ (t : template) (parts : List pathPart) (pos name : Nat),
      f { t with pathParts := parts, posVarsCount := pos, nameVarsCount := name } = f t)
    (t : template) (pt : pathPart) : f (t.addVar pt) = f t := by
  unfold template.addVar
  split_ifs
  · exact hf t t.pathParts t.posVarsCount (t.nameVarsCount + 1)
  · exact hf t t.pathParts (t.posVarsCount + 1) t.nameVarsCount
  · rfl

theorem newVarPathPartLoop_keeps {α : Type} (f : template → α)
    (hf : ∀ (t : template) (parts : List pathPart) (pos name : Nat),
      f { t with pathParts := parts, posVarsCount := pos, nameVarsCount := name } = f t)
    (compile : String → Option Regexp) (sps : List SubPart)
    (t : template) (acc : List pathPart) (b : Bool) :
    f (newVarPathPartLoop compile sps t acc b).2 = f t := by
  induction sps generalizing t acc b with
  | nil => simp [newVarPathPartLoop]
  | cons sp rest ih =>
    unfold newVarPathPartLoop
    split_ifs
    · split
      · rfl
      · rw [ih, addVar_keeps f hf]
    · exact ih _ _ _
    · exact ih _ _ _

theorem newVarPathPart_keeps {α : Type} (f : template → α)
    (hf : ∀ (t : template) (parts : List pathPart) (pos name : Nat),
      f { t with pathParts := parts, posVarsCount := pos, nameVarsCount := name } = f t)
    (compile : String → Option Regexp) (t : template)
    (sps : List SubPart) : f (t.newVarPathPart compile sps).2 = f t := by
  unfold template.newVarPathPart
  have := newVarPathPartLoop_keeps f hf compile sps t [] false
  split
  · rename_i e t1 he
    rw [he] at this; exact this
  · rename_i l a t1 he
    rw [he] at this
    split
    · exact this
    · split_ifs <;> exact this

theorem newUriPathPart_keeps {α : Type} (f : template → α)
    (hf : ∀ (t : template) (parts : List pathPart) (pos name : Nat),
      f { t with pathParts := parts, posVarsCount := pos, nameVarsCount := name } = f t)
    (compile : String → Option Regexp) (t : template)
    (pt : String) (sps : List SubPart) :
    f (t.newUriPathPart compile pt sps).2 = f t := by
  unfold template.newUriPathPart
  split
  · split_ifs
    · exact addVar_keeps f hf t (varPart (sliceFrom pt 1))
    · rfl
    · exact newVarPathPart_keeps f hf _ _ _
  · exact newVarPathPart_keeps f hf _ _ _

theorem parseLoop_keeps {α : Type} (f : template → α)
    (hf : ∀ (t : template) (parts : List pathPart) (pos name : Nat),
      f { t with pathParts := parts, posVarsCount := pos, nameVarsCount := name } = f t)
    (compile : String → Option Regexp) (segs : List Segment)
    (t : template) : f (parseLoop compile segs t).2 = f t := by
  induction segs generalizing t with
  | nil => simp [parseLoop]
  | cons seg rest ih =>
    unfold parseLoop
    have := newUriPathPart_keeps f hf compile t seg.s seg.subParts
    split
    · rename_i p t1 he
      rw [he] at this
      rw [ih]
      exact (hf t1 (t1.pathParts ++ [p]) t1.posVarsCount t1.nameVarsCount).trans this
    · rename_i e t1 he
      rw [he] at this; exact this

theorem parseLoop_varsType (compile : String → Option Regexp) (segs : List Segment)
    (t : template) : (parseLoop compile segs t).2.varsType = t.varsType :=
  parseLoop_keeps (fun t => t.varsType) (fun _ _ _ _ => rfl) compile segs t

theorem parseLoop_options (compile : String → Option Regexp) (segs : List Segment)
    (t : template) :
    (parseLoop compile segs t).2.fixedMatchOpts = t.fixedMatchOpts ∧
    (parseLoop compile segs t).2.varMatchOpts = t.varMatchOpts :=
  ⟨parseLoop_keeps (fun t => t.fixedMatchOpts) (fun _ _ _ _ => rfl) compile segs t,
   parseLoop_keeps (fun t => t.varMatchOpts) (fun _ _ _ _ => rfl) compile segs t⟩

theorem parse_ok (split : String → SplitRun) (compile : String → Option Regexp)
    (t0 t : template) (h : template.parse split compile t0 = .ok t) :
    ¬ ((parseLoop compile (split t0.originalTemplate).segments t0).2.posVarsCount > 0 ∧
       (parseLoop compile (split t0.originalTemplate).segments t0).2.nameVarsCount > 0) ∧
    (parseLoop compile (split t0.originalTemplate).segments t0).1 = none ∧
    (split t0.originalTemplate).err = none ∧
    t = (if (parseLoop compile (split t0.originalTemplate).segments t0).2.nameVarsCount > 0 then
          { (parseLoop compile (split t0.originalTemplate).segments t0).2 with
            varsType := PathVarsType.Names }
         else (parseLoop compile (split t0.originalTemplate).segments t0).2) := by
  unfold template.parse at h
  dsimp only at h
  by_cases h1 : strings_Trim t0.originalTemplate ' ' = ""
  · simp [h1] at h
  · by_cases h2 : (parseLoop compile (split t0.originalTemplate).segments t0).2.posVarsCount > 0 ∧
       (parseLoop compile (split t0.originalTemplate).segments t0).2.nameVarsCount > 0
    · simp [h1, h2] at h
    · rw [if_neg h1, if_neg h2] at h
      cases h3 : (parseLoop compile (split t0.originalTemplate).segments t0).1 with
      | some e => simp [h3] at h
      | none =>
        cases h4 : (split t0.originalTemplate).err with
        | some e => simp [h3, h4] at h
        | none =>
          simp only [h3, h4] at h
          injection h with h
          exact ⟨h2, rfl, rfl, h.symm⟩

theorem parse_kind (split : String → SplitRun) (compile : String → Option Regexp)
    (t0 t : template) (h0 : t0.varsType = PathVarsType.Positions)
    (h : template.parse split compile t0 = .ok t) :
    (t.posVarsCount = 0 ∨ t.nameVarsCount = 0) ∧
    (0 < t.posVarsCount + t.nameVarsCount → t.kindAgrees) := by
  obtain ⟨hmix, _, _, ht⟩ := parse_ok split compile t0 t h
  have hv := parseLoop_varsType compile (split t0.originalTemplate).segments t0
  subst ht
  split_ifs with hn
  · have hp : (parseLoop compile (split t0.originalTemplate).segments t0).2.posVarsCount = 0 := by
      omega
    exact ⟨Or.inl hp, fun _ => by simp [template.kindAgrees, template.VarsType, hp]⟩
  · refine ⟨Or.inr (by omega), fun hp => ?_⟩
    have hne : (parseLoop compile (split t0.originalTemplate).segments t0).2.posVarsCount ≠ 0 := by
      omega
    simp [template.kindAgrees, template.VarsType, hne, hv, h0]

theorem NewTemplate_kind (split : String → SplitRun) (compile : String → Option Regexp)
    (path : String) (options : List AnyOption) (t : template)
    (h : NewTemplate split compile path options = .ok t) :
    (t.posVarsCount = 0 ∨ t.nameVarsCount = 0) ∧
    (0 < t.posVarsCount + t.nameVarsCount → t.kindAgrees) :=
  parse_kind split compile _ t rfl h

theorem Sub_kind (split : String → SplitRun) (compile : String → Option Regexp)
    (base : template) (path : String) (options : List AnyOption) (t : template)
    (hvars : 0 < base.posVarsCount + base.nameVarsCount) (hk : base.kindAgrees)
    (h : base.Sub split compile path options = .ok t) : t.kindAgrees := by
  unfold template.Sub at h
  split at h
  · simp at h
  · rename_i ra hra
    split_ifs at h with hmix
    simp only [Except.ok.injEq] at h
    subst h
    simp only [template.kindAgrees, template.VarsType, template.clone] at hk ⊢
    rw [hk]
    by_cases hp : base.posVarsCount = 0
    · have hn : 0 < base.nameVarsCount := by omega
      have : ra.posVarsCount = 0 := by
        by_contra hc
        exact hmix (Or.inl ⟨by omega, hn⟩)
      simp [hp, this]
    · have : base.posVarsCount + ra.posVarsCount ≠ 0 := by omega
      simp [hp, this]

/-! ### `getVars` on flat parts -/

theorem getVars_fixed (pt : pathPart) (st : List PathVar × (String → Nat))
    (hf : pt.fixed = true) : pt.getVars st = st := by
  cases pt with
  | mk f v sps rx org n =>
    simp only [pathPart.fixed] at hf
    subst hf
    simp [pathPart.getVars]

theorem getVars_leaf (pt : pathPart) (st : List PathVar × (String → Nat))
    (hf : pt.fixed = false) (hs : pt.subParts = []) : pt.getVars st = varStep pt.name st := by
  cases pt with
  | mk f v sps rx org n =>
    simp only [pathPart.fixed, pathPart.subParts, pathPart.name] at hf hs ⊢
    subst hf hs
    simp only [pathPart.getVars, varStep]
    by_cases hn : n = "" <;> simp [hn]

theorem getVars_composite (pt : pathPart) (st : List PathVar × (String → Nat))
    (hf : pt.fixed = false) (hs : pt.subParts ≠ []) :
    pt.getVars st = getVarsList pt.subParts st := by
  cases pt with
  | mk f v sps rx org n =>
    simp only [pathPart.fixed, pathPart.subParts] at hf hs ⊢
    subst hf
    have : sps.length > 0 := List.length_pos.mpr hs
    simp [pathPart.getVars, this]

theorem getVarsList_subs (sps : List pathPart) (st : List PathVar × (String → Nat))
    (h : ∀ sp ∈ sps, sp.fixed = true ∨ sp.subParts = []) :
    getVarsList sps st = varsOfNames (subVarNames sps) st := by
  induction sps generalizing st with
  | nil => simp [getVarsList, subVarNames, varsOfNames]
  | cons sp rest ih =>
    have hrest : ∀ sp ∈ rest, sp.fixed = true ∨ sp.subParts = [] :=
      fun x hx => h x (List.mem_cons_of_mem _ hx)
    unfold getVarsList subVarNames
    cases hf : sp.fixed with
    | true => rw [getVars_fixed _ _ hf, ih _ hrest]; simp
    | false =>
      have hs : sp.subParts = [] := by
        rcases h sp (List.mem_cons_self _ _) with h1 | h1
        · rw [hf] at h1; cases h1
        · exact h1
      rw [getVars_leaf _ _ hf hs, ih _ hrest]
      simp [varsOfNames]

theorem varsOfNames_append (a b : List String) (st : List PathVar × (String → Nat)) :
    varsOfNames (a ++ b) st = varsOfNames b (varsOfNames a st) := by
  induction a generalizing st with
  | nil => rfl
  | cons n rest ih => simp [varsOfNames, ih]

theorem flat_subs (pt : pathPart) (hflat : pt.flat = true) (hf : pt.fixed = false) :
    ∀ sp ∈ pt.subParts, sp.fixed = true ∨ sp.subParts = [] := by
  intro sp hsp
  simp only [pathPart.flat, hf, Bool.false_or, List.all_eq_true, Bool.or_eq_true,
    List.isEmpty_iff] at hflat
  exact hflat sp hsp

theorem getVarsList_flat (parts : List pathPart) (st : List PathVar × (String → Nat))
    (h : ∀ pt ∈ parts, pt.flat = true) :
    getVarsList parts st = varsOfNames (varNames parts) st := by
  induction parts generalizing st with
  | nil => simp [getVarsList, varNames, varsOfNames]
  | cons pt rest ih =>
    have hrest : ∀ pt ∈ rest, pt.flat = true := fun x hx => h x (List.mem_cons_of_mem _ hx)
    unfold getVarsList varNames
    cases hf : pt.fixed with
    | true => rw [getVars_fixed _ _ hf, ih _ hrest]; simp
    | false =>
      by_cases hs : pt.subParts = []
      · rw [getVars_leaf _ _ hf hs, ih _ hrest]
        simp [hs, varsOfNames]
      · rw [getVars_composite _ _ hf hs, ih _ hrest,
          getVarsList_subs _ _ (flat_subs pt (h pt (List.mem_cons_self _ _)) hf)]
        have : pt.subParts.isEmpty = false := by
          cases hsp : pt.subParts with
          | nil => exact absurd hsp hs
          | cons _ _ => rfl
        simp [this, varsOfNames_append]

theorem varsOfNames_length (names : List String) (st : List PathVar × (String → Nat)) :
    (varsOfNames names st).1.length = st.1.length + names.length := by
  induction names generalizing st with
  | nil => simp [varsOfNames]
  | cons n rest ih =>
    simp only [varsOfNames, ih, List.length_cons]
    unfold varStep
    split_ifs <;> simp <;> omega

theorem Vars_length (t : template) (h : ∀ pt ∈ t.pathParts, pt.flat = true) :
    t.Vars.length = (varNames t.pathParts).length := by
  unfold template.Vars
  rw [getVarsList_flat _ _ h, varsOfNames_length]
  simp

/-! ### The builder against a supply of values -/

theorem pathFrom_fixed (pt : pathPart) (tr : positionsTracker) (hf : pt.fixed = true) :
    pt.pathFrom tr = (.ok ("/" ++ pt.fixedValue), tr) := by
  simp [pathPart.pathFrom, hf]

theorem pathFrom_simple (pt : pathPart) (tr : positionsTracker) (hf : pt.fixed = false)
    (hs : pt.subParts = []) (x : String) (tr1 : positionsTracker)
    (hg : tr.getVar pt = (.ok x, tr1)) :
    pt.pathFrom tr = (.ok ("/" ++ x), tr1) := by
  simp [pathPart.pathFrom, hf, hs, hg]

theorem pathFrom_composite (pt : pathPart) (tr : positionsTracker) (hf : pt.fixed = false)
    (hs : pt.subParts ≠ []) : pt.pathFrom tr = pathFromLoop pt.subParts "" tr := by
  have : pt.subParts.length ≠ 0 := fun h => hs (List.length_eq_zero.mp h)
  simp [pathPart.pathFrom, hf, this]

theorem pathFromLoop_supply (I : positionsTracker → List (String × String) → Prop)
    (hstep : ∀ tr n x rest pt, I tr ((n, x) :: rest) → pt.name = n →
      ∃ tr1, tr.getVar pt = (.ok x, tr1) ∧ I tr1 rest)
    (sps : List pathPart) (pb : String) (tr : positionsTracker) (l rest : List (String × String))
    (hl : l.map Prod.fst = subVarNames sps) (hI : I tr (l ++ rest)) :
    ∃ tr1, pathFromLoop sps pb tr =
        (.ok ("/" ++ (pb ++ specSubText sps ((l ++ rest).map Prod.snd))), tr1) ∧ I tr1 rest := by
  induction sps generalizing pb tr l with
  | nil =>
    simp only [subVarNames, List.map_eq_nil_iff] at hl
    subst hl
    exact ⟨tr, by simp [pathFromLoop, specSubText], hI⟩
  | cons sp sps ih =>
    unfold pathFromLoop specSubText
    cases hf : sp.fixed with
    | true =>
      simp only [subVarNames, hf, if_true] at hl
      obtain ⟨tr1, h1, h2⟩ := ih (pb ++ sp.fixedValue) tr l hl hI
      exact ⟨tr1, by simp [h1, String.append_assoc], h2⟩
    | false =>
      simp only [subVarNames, hf, Bool.false_eq_true, if_false] at hl
      cases l with
      | nil => simp at hl
      | cons p l1 =>
        obtain ⟨n, x⟩ := p
        simp only [List.map_cons, List.cons.injEq] at hl
        obtain ⟨tr1, hg, hI1⟩ := hstep tr n x (l1 ++ rest) sp hI hl.1.symm
        obtain ⟨tr2, h1, h2⟩ := ih (pb ++ x) tr1 l1 hl.2 hI1
        refine ⟨tr2, ?_, h2⟩
        simp [hg, h1, String.append_assoc]

theorem buildPathLoop_supply (I : positionsTracker → List (String × String) → Prop)
    (hstep : ∀ tr n x rest pt, I tr ((n, x) :: rest) → pt.name = n →
      ∃ tr1, tr.getVar pt = (.ok x, tr1) ∧ I tr1 rest)
    (hpos : ∀ tr l k, I tr l → I { tr with pathPosition := k } l)
    (parts : List pathPart) (pb : String) (tr : positionsTracker)
    (l rest : List (String × String))
    (hl : l.map Prod.fst = varNames parts) (hI : I tr (l ++ rest)) :
    ∃ tr1, buildPathLoop parts pb tr =
        (.ok (pb ++ specPath parts ((l ++ rest).map Prod.snd)), tr1) ∧ I tr1 rest := by
  induction parts generalizing pb tr l with
  | nil =>
    simp only [varNames, List.map_eq_nil_iff] at hl
    subst hl
    exact ⟨tr, by simp [buildPathLoop, specPath], hI⟩
  | cons pt parts ih =>
    unfold buildPathLoop specPath
    cases hf : pt.fixed with
    | true =>
      simp only [varNames, hf, if_true] at hl
      rw [pathFrom_fixed _ _ hf]
      obtain ⟨tr1, h1, h2⟩ := ih (pb ++ ("/" ++ pt.fixedValue))
        { tr with pathPosition := tr.pathPosition + 1 } l hl (hpos _ _ _ hI)
      exact ⟨tr1, by simp [h1, String.append_assoc], h2⟩
    | false =>
      by_cases hs : pt.subParts = []
      · simp only [varNames, hf, hs, List.isEmpty_nil, Bool.false_eq_true, if_false, if_true] at hl
        cases l with
        | nil => simp at hl
        | cons p l1 =>
          obtain ⟨n, x⟩ := p
          simp only [List.map_cons, List.cons.injEq] at hl
          obtain ⟨tr1, hg, hI1⟩ := hstep tr n x (l1 ++ rest) pt hI hl.1.symm
          rw [pathFrom_simple _ _ hf hs _ _ hg]
          obtain ⟨tr2, h1, h2⟩ := ih (pb ++ ("/" ++ x))
            { tr1 with pathPosition := tr1.pathPosition + 1 } l1 hl.2 (hpos _ _ _ hI1)
          refine ⟨tr2, ?_, h2⟩
          simp [h1, hs, String.append_assoc]
      · have hne : pt.subParts.isEmpty = false := by
          cases hsp : pt.subParts with
          | nil => exact absurd hsp hs
          | cons _ _ => rfl
        simp only [varNames, hf, hne, Bool.false_eq_true, if_false] at hl
        rw [pathFrom_composite _ _ hf hs]
        obtain ⟨l1, l2, hl12, h1, h2⟩ := List.map_eq_append_iff.mp hl
        subst hl12
        rw [List.append_assoc] at hI
        obtain ⟨tr1, hg, hI1⟩ := pathFromLoop_supply I hstep pt.subParts "" tr l1 (l2 ++ rest) h1 hI
        obtain ⟨tr2, h3, h4⟩ := ih (pb ++ ("/" ++ ("" ++ specSubText pt.subParts
            ((l1 ++ (l2 ++ rest)).map Prod.snd))))
          { tr1 with pathPosition := tr1.pathPosition + 1 } l2 h2 (hpos _ _ _ hI1)
        refine ⟨tr2, ?_, h4⟩
        have hlen : (subVarNames pt.subParts).length = l1.length := by
          rw [← h1]; simp
        simp only [hg, h3, hne, hf, Bool.false_eq_true, if_false, List.append_assoc]
        simp [String.append_assoc, hlen]

/-! ### Containers built by `Positional` and `Named` -/

theorem positional_fold (vals : List Value) (p : pathVars)
    (hp : p.varsType = PathVarsType.Positions) :
    (vals.foldl (fun r v => afterAdd r (r.AddPositionalValue v)) p).varsType
        = PathVarsType.Positions ∧
    (vals.foldl (fun r v => afterAdd r (r.AddPositionalValue v)) p).all.map (fun v => v.Value)
        = p.all.map (fun v => v.Value) ++ vals := by
  induction vals generalizing p with
  | nil => simp [hp]
  | cons v rest ih =>
    simp only [List.foldl_cons]
    have h1 : (afterAdd p (p.AddPositionalValue v)).varsType = PathVarsType.Positions := by
      rw [afterAdd_positional_varsType, hp]
    have h2 : (afterAdd p (p.AddPositionalValue v)).all.map (fun v => v.Value)
        = p.all.map (fun v => v.Value) ++ [v] := by
      simp [pathVars.AddPositionalValue, hp, afterAdd]
    obtain ⟨h3, h4⟩ := ih _ h1
    exact ⟨h3, by rw [h4, h2]; simp⟩

theorem Positional_spec (vals : List Value) :
    (Positional vals).varsType = PathVarsType.Positions ∧
    (Positional vals).all.map (fun v => v.Value) = vals := by
  have := positional_fold vals (newPathVars .Positions) rfl
  simpa [Positional, newPathVars] using this

theorem lookupAt_nat (vs : List PathVar) (c : Nat) :
    lookupAt vs (c : Int) =
      match (vs.map (fun v => v.Value))[c]? with
      | some v => getValueIf v
      | none => ("", false) := by
  unfold lookupAt
  have h1 : ¬ ((c : Int) < 0 ∧ (vs.length : Int) + c ≥ 0) := by omega
  rw [if_neg h1]
  by_cases h2 : c < vs.length
  · have h3 : (c : Int) ≥ 0 ∧ (c : Int) < (vs.length : Int) := by omega
    rw [if_pos h3]
    simp [List.getElem?_eq_getElem h2]
  · have h3 : ¬ ((c : Int) ≥ 0 ∧ (c : Int) < (vs.length : Int)) := by omega
    rw [if_neg h3]
    have : vs.length ≤ c := by omega
    simp [List.getElem?_eq_none this]

theorem getVar_positional (tr : positionsTracker) (pt : pathPart) (pv : pathVars)
    (hv : tr.vars = some pv) (hp : pv.varsType = PathVarsType.Positions) (v : Value)
    (hget : (pv.all.map (fun v => v.Value))[tr.varPosition]? = some v)
    (hok : (getValueIf v).2 = true) :
    tr.getVar pt = (.ok (getValueIf v).1, { tr with varPosition := tr.varPosition + 1 }) := by
  unfold positionsTracker.getVar
  simp only [hv, pathVars.VarsType, hp, if_true, pathVars.GetPositional, lookupAt_nat, hget, hok]

theorem posSupply_step (pv : pathVars) (tr : positionsTracker) (n x : String)
    (rest : List (String × String)) (pt : pathPart) (h : posSupply pv tr ((n, x) :: rest))
    (_hn : pt.name = n) : ∃ tr1, tr.getVar pt = (.ok x, tr1) ∧ posSupply pv tr1 rest := by
  obtain ⟨hv, hp, hok, hlen, hl⟩ := h
  simp only [List.length_cons] at hlen
  have hc : tr.varPosition < pv.all.length := by omega
  have hd : pv.all.drop tr.varPosition =
      pv.all[tr.varPosition] :: pv.all.drop (tr.varPosition + 1) := List.drop_eq_getElem_cons hc
  rw [hd] at hl
  simp only [List.map_cons, List.cons.injEq] at hl
  have hget : (pv.all.map (fun v => v.Value))[tr.varPosition]? =
      some pv.all[tr.varPosition].Value := by
    simp [List.getElem?_eq_getElem hc]
  have hok1 := hok _ (List.getElem_mem hc)
  refine ⟨{ tr with varPosition := tr.varPosition + 1 }, ?_, ?_⟩
  · rw [getVar_positional tr pt pv hv hp _ hget hok1, hl.1]
  · exact ⟨hv, hp, hok, by simp; omega, hl.2⟩

theorem posSupply_pathPos (pv : pathVars) (tr : positionsTracker) (l : List (String × String))
    (k : Nat) (h : posSupply pv tr l) : posSupply pv { tr with pathPosition := k } l := h

theorem exists_supply (names texts : List String) (h : names.length ≤ texts.length) :
    ∃ l rest : List (String × String), l.map Prod.fst = names ∧
      (l ++ rest).map Prod.snd = texts ∧ rest.length + names.length = texts.length := by
  induction names generalizing texts with
  | nil => exact ⟨[], texts.map (fun x => ("", x)), rfl, by simp [Function.comp_def], by simp⟩
  | cons n names ih =>
    cases texts with
    | nil => simp at h
    | cons x texts =>
      simp only [List.length_cons, Nat.add_le_add_iff_right] at h
      obtain ⟨l, rest, h1, h2, h3⟩ := ih texts h
      exact ⟨(n, x) :: l, rest, by simp [h1], by simp [h2], by simp; omega⟩

theorem buildPathLoop_positional (parts : List pathPart) (pb : String) (tr : positionsTracker)
    (pv : pathVars) (hv : tr.vars = some pv) (hp : pv.varsType = PathVarsType.Positions)
    (hok : ∀ v ∈ pv.all, (getValueIf v.Value).2 = true)
    (hn : tr.varPosition + (varNames parts).length ≤ pv.all.length) :
    ∃ tr1, buildPathLoop parts pb tr =
      (.ok (pb ++ specPath parts
        ((pv.all.drop tr.varPosition).map (fun v => (getValueIf v.Value).1))), tr1) ∧
      tr1.varPosition = tr.varPosition + (varNames parts).length := by
  obtain ⟨l, rest, h1, h2, h3⟩ := exists_supply (varNames parts)
    ((pv.all.drop tr.varPosition).map (fun v => (getValueIf v.Value).1)) (by simp; omega)
  have hI : posSupply pv tr (l ++ rest) := by
    refine ⟨hv, hp, hok, ?_, h2⟩
    have hl : l.length = (varNames parts).length := by rw [← h1]; simp
    simp only [List.length_map, List.length_drop] at h3
    simp only [List.length_append]
    omega
  obtain ⟨tr1, hb, hI1⟩ := buildPathLoop_supply (posSupply pv) (posSupply_step pv)
    (posSupply_pathPos pv) parts pb tr l rest h1 hI
  refine ⟨tr1, by rw [hb, h2], ?_⟩
  obtain ⟨_, _, _, hlen, _⟩ := hI1
  simp only [List.length_map, List.length_drop] at h3
  omega

theorem named_fold (pairs : List (String × Value)) (p : pathVars)
    (hp : p.varsType = PathVarsType.Names) :
    (pairs.foldl (fun r nv => afterAdd r (r.AddNamedValue nv.1 nv.2)) p).varsType
        = PathVarsType.Names ∧
    ∀ n, ((pairs.foldl (fun r nv => afterAdd r (r.AddNamedValue nv.1 nv.2)) p).named n).map
        (fun v => v.Value)
        = (p.named n).map (fun v => v.Value) ++
          (pairs.filter (fun q => q.1 = n)).map Prod.snd := by
  induction pairs generalizing p with
  | nil => simp [hp]
  | cons nv rest ih =>
    simp only [List.foldl_cons]
    have h1 : (afterAdd p (p.AddNamedValue nv.1 nv.2)).varsType = PathVarsType.Names := by
      rw [afterAdd_named_varsType, hp]
    obtain ⟨h3, h4⟩ := ih _ h1
    refine ⟨h3, fun n => ?_⟩
    rw [h4 n]
    simp only [pathVars.AddNamedValue, hp, ne_eq, not_true_eq_false, if_false, afterAdd]
    by_cases hn : n = nv.1
    · subst hn
      simp
    · have hn2 : ¬ nv.1 = n := fun h => hn h.symm
      simp [hn, hn2]

theorem Named_spec (pairs : List (String × Value)) :
    (Named pairs).varsType = PathVarsType.Names ∧
    ∀ n, ((Named pairs).named n).map (fun v => v.Value)
      = (pairs.filter (fun q => q.1 = n)).map Prod.snd := by
  have := named_fold pairs (newPathVars .Names) rfl
  simpa [Named, newPathVars] using this

theorem checkVarLoop_nil (pt : pathPart) (pos pathPos : Nat) (vars : Option pathVars)
    (s : String) : checkVarLoop pt pos pathPos vars [] s none = (s, none) := rfl

theorem getVar_named (tr : positionsTracker) (pt : pathPart) (pv : pathVars)
    (hv : tr.vars = some pv) (hp : pv.varsType = PathVarsType.Names)
    (hm : tr.varMatches = []) (v : Value)
    (hget : ((pv.named pt.name).map (fun v => v.Value))[tr.namedPositions pt.name]? = some v)
    (hok : (getValueIf v).2 = true) :
    tr.getVar pt = (.ok (getValueIf v).1,
      { tr with
        namedPositions := fun k =>
          if k = pt.name then tr.namedPositions pt.name + 1 else tr.namedPositions k,
        varPosition := tr.varPosition + 1 }) := by
  unfold positionsTracker.getVar
  have hne : ¬ (PathVarsType.Names = PathVarsType.Positions) := by decide
  simp only [hv, pathVars.VarsType, hp, hne, if_false, pathVars.GetNamed, lookupAt_nat, hget, hok,
    if_true, positionsTracker.checkVar, hm, checkVarLoop_nil]

theorem namedSupply_step (pv : pathVars) (pairs : List (String × Value)) (names : List String)
    (tr : positionsTracker) (n x : String)
    (rest : List (String × String)) (pt : pathPart)
    (h : namedSupply pv pairs names tr ((n, x) :: rest)) (hn : pt.name = n) :
    ∃ tr1, tr.getVar pt = (.ok x, tr1) ∧ namedSupply pv pairs names tr1 rest := by
  obtain ⟨hv, hp, hm, hnamed, havail, j, hj, hl, hcnt⟩ := h
  simp only [List.length_cons] at hj
  have hjlt : j < names.length := by omega
  simp only [List.length_cons, List.range'_succ, List.map_cons, List.cons.injEq,
    Prod.mk.injEq] at hl
  obtain ⟨⟨hn1, hx⟩, hrest⟩ := hl
  have hav := havail j hjlt
  unfold namedAvail at hav
  unfold namedText at hx
  have hnp : tr.namedPositions pt.name = occurrence names j := by
    rw [hcnt, hn, hn1]; rfl
  cases hval : namedValue pairs (nameAt names j) (occurrence names j) with
  | none => simp [hval] at hav
  | some v =>
    simp only [hval] at hav hx
    have hget : ((pv.named pt.name).map (fun v => v.Value))[tr.namedPositions pt.name]?
        = some v := by
      rw [hnamed, hnp, hn, hn1]
      exact hval
    refine ⟨{ tr with
        namedPositions := fun k =>
          if k = pt.name then tr.namedPositions pt.name + 1 else tr.namedPositions k,
        varPosition := tr.varPosition + 1 }, ?_, ?_⟩
    · rw [getVar_named tr pt pv hv hp hm v hget hav, hx]
    · refine ⟨hv, hp, hm, hnamed, havail, j + 1, by omega, hrest, fun k => ?_⟩
      show (if k = pt.name then tr.namedPositions pt.name + 1 else tr.namedPositions k) = _
      have htake : names.take (j + 1) = names.take j ++ [nameAt names j] := by
        rw [List.take_succ]
        simp [nameAt, List.getElem?_eq_getElem hjlt]
      rw [htake, List.count_append]
      simp only [List.count_singleton, hn, hn1]
      by_cases hk : k = nameAt names j
      · subst hk
        simp [hcnt]
      · have hk2 : ¬ (nameAt names j == k) = true := by
          simp; exact fun h => hk h.symm
        simp [hk, hk2, hcnt]

theorem namedSupply_pathPos (pv : pathVars) (pairs : List (String × Value))
    (names : List String) (tr : positionsTracker) (l : List (String × String))
    (k : Nat) (h : namedSupply pv pairs names tr l) :
    namedSupply pv pairs names { tr with pathPosition := k } l := h

theorem buildPath_plain (t : template) (vars : Option pathVars) (vm : List VarMatchOption)
    (p : String) (tr1 : positionsTracker)
    (h : buildPathLoop t.pathParts ""
      { vars := vars, varPosition := 0, pathPosition := 0, namedPositions := fun _ => 0,
        varMatches := vm } = (.ok p, tr1)) :
    t.PathFrom vars vm = .ok p := by
  simp [template.PathFrom, template.buildPath, h]

theorem positional_str_texts (xs : List String) :
    (Positional (xs.map Value.str)).all.length = xs.length ∧
    (∀ v ∈ (Positional (xs.map Value.str)).all, (getValueIf v.Value).2 = true) ∧
    ∀ c, ((Positional (xs.map Value.str)).all.drop c).map (fun v => (getValueIf v.Value).1)
      = xs.drop c := by
  obtain ⟨_, h2⟩ := Positional_spec (xs.map Value.str)
  have hlen : (Positional (xs.map Value.str)).all.length = xs.length := by
    have := congrArg List.length h2
    simpa using this
  have hval : ∀ v ∈ (Positional (xs.map Value.str)).all, ∃ s, v.Value = Value.str s := by
    intro v hv
    have : v.Value ∈ (Positional (xs.map Value.str)).all.map (fun v => v.Value) :=
      List.mem_map_of_mem _ hv
    rw [h2] at this
    obtain ⟨s, _, hs⟩ := List.mem_map.mp this
    exact ⟨s, hs.symm⟩
  refine ⟨hlen, fun v hv => ?_, fun c => ?_⟩
  · obtain ⟨s, hs⟩ := hval v hv
    rw [hs]; rfl
  · have h3 : (Positional (xs.map Value.str)).all.map (fun v => (getValueIf v.Value).1) = xs := by
      have : (Positional (xs.map Value.str)).all.map (fun v => (getValueIf v.Value).1)
          = ((Positional (xs.map Value.str)).all.map (fun v => v.Value)).map
              (fun v => (getValueIf v).1) := by
        simp [Function.comp_def]
      rw [this, h2]
      simp [Function.comp_def, getValueIf]
    rw [List.map_drop, h3]


/-! ### What the parser builds -/

theorem subVarNames_append (a b : List pathPart) :
    subVarNames (a ++ b) = subVarNames a ++ subVarNames b := by
  induction a with
  | nil => rfl
  | cons x rest ih =>
    simp only [List.cons_append, subVarNames]
    split_ifs <;> simp [ih]

theorem varNames_append (a b : List pathPart) :
    varNames (a ++ b) = varNames a ++ varNames b := by
  induction a with
  | nil => rfl
  | cons x rest ih =>
    simp only [List.cons_append, varNames]
    split_ifs <;> simp [ih]

theorem setName_ok (compile : String → Option Regexp) (name : String) (pos : Nat)
    (p : pathPart) (h : setName compile name pos = .ok p) :
    p.fixed = false ∧ p.subParts = [] ∧ p.name ≠ "" := by
  unfold setName at h
  split at h
  · dsimp only at h
    split_ifs at h with h1 h2
    · split at h
      · injection h with h; subst h
        exact ⟨rfl, rfl, h1⟩
      · simp at h
    · injection h with h; subst h
      exact ⟨rfl, rfl, h1⟩
  · dsimp only at h
    split_ifs at h with h1
    injection h with h; subst h
    exact ⟨rfl, rfl, h1⟩

theorem addVar_fields (t : template) (pt : pathPart) :
    (t.addVar pt).pathParts = t.pathParts ∧
    (t.addVar pt).nameVarsCount =
      t.nameVarsCount + (if pt.fixed = false ∧ pt.name ≠ "" then 1 else 0) ∧
    (t.addVar pt).posVarsCount =
      t.posVarsCount + (if pt.fixed = false ∧ pt.name = "" then 1 else 0) := by
  unfold template.addVar
  cases hf : pt.fixed <;> by_cases hn : pt.name = "" <;> simp [hn]

theorem newVarPathPartLoop_ok (compile : String → Option Regexp) (sps : List SubPart)
    (t : template) (acc : List pathPart) (b : Bool) (out : List pathPart) (any : Bool)
    (t1 : template)
    (hacc : ∀ sp ∈ acc, sp.subParts = [])
    (hnames : ∀ n ∈ subVarNames acc, n ≠ "")
    (hb : b = false → subVarNames acc = [])
    (hb2 : b = true → acc ≠ [])
    (h : newVarPathPartLoop compile sps t acc b = (.ok (out, any), t1)) :
    (∀ sp ∈ out, sp.subParts = []) ∧ (∀ n ∈ subVarNames out, n ≠ "") ∧
    (any = false → subVarNames out = []) ∧ (any = true → out ≠ []) ∧
    t1.pathParts = t.pathParts ∧ t1.posVarsCount = t.posVarsCount ∧
    t1.nameVarsCount + (subVarNames acc).length = t.nameVarsCount + (subVarNames out).length := by
  induction sps generalizing t acc b with
  | nil =>
    simp only [newVarPathPartLoop, Prod.mk.injEq, Except.ok.injEq] at h
    obtain ⟨⟨h1, h2⟩, h3⟩ := h
    subst h1 h2 h3
    exact ⟨hacc, hnames, hb, hb2, rfl, rfl, rfl⟩
  | cons sp rest ih =>
    unfold newVarPathPartLoop at h
    split_ifs at h with h1 h2
    · split at h
      · simp at h
      · rename_i addPart hset
        obtain ⟨hf, hs, hn⟩ := setName_ok _ _ _ _ hset
        have hsv : subVarNames (acc ++ [addPart]) = subVarNames acc ++ [addPart.name] := by
          rw [subVarNames_append]; simp [subVarNames, hf]
        obtain ⟨r1, r2, r3, r4, r5, r6, r7⟩ := ih (t.addVar addPart) (acc ++ [addPart]) true
          (by intro x hx; rcases List.mem_append.mp hx with hx | hx
              · exact hacc x hx
              · simp at hx; subst hx; exact hs)
          (by rw [hsv]; intro n hn1; rcases List.mem_append.mp hn1 with hx | hx
              · exact hnames n hx
              · simp at hx; subst hx; exact hn)
          (by simp) (by simp) h
        obtain ⟨a1, a2, a3⟩ := addVar_fields t addPart
        refine ⟨r1, r2, r3, r4, by rw [r5, a1], by rw [r6, a3]; simp [hf, hn], ?_⟩
        rw [hsv, a2] at r7
        simp [hf, hn] at r7
        omega
    · have hsv : subVarNames (acc ++ [fixedPart sp.UnEscaped]) = subVarNames acc := by
        rw [subVarNames_append]; simp [subVarNames, fixedPart, pathPart.fixed]
      have := ih t (acc ++ [fixedPart sp.UnEscaped]) b
        (by intro x hx; rcases List.mem_append.mp hx with hx | hx
            · exact hacc x hx
            · simp at hx; subst hx; rfl)
        (by rw [hsv]; exact hnames) (by rw [hsv]; exact hb) (by simp) h
      rw [hsv] at this
      exact this
    · have hsv : subVarNames (acc ++ [fixedPart sp.String_]) = subVarNames acc := by
        rw [subVarNames_append]; simp [subVarNames, fixedPart, pathPart.fixed]
      have := ih t (acc ++ [fixedPart sp.String_]) b
        (by intro x hx; rcases List.mem_append.mp hx with hx | hx
            · exact hacc x hx
            · simp at hx; subst hx; rfl)
        (by rw [hsv]; exact hnames) (by rw [hsv]; exact hb) (by simp) h
      rw [hsv] at this
      exact this

theorem leaf_varNames (pt : pathPart) (hs : pt.subParts = []) :
    varNames [pt] = subVarNames [pt] := by
  simp [varNames, subVarNames, hs]

theorem leaf_flat (pt : pathPart) (hs : pt.subParts = []) : pt.flat = true := by
  simp [pathPart.flat, hs]

theorem countP_named_all (names : List String) (h : ∀ n ∈ names, n ≠ "") :
    names.countP (fun n => n ≠ "") = names.length ∧ names.countP (fun n => n = "") = 0 := by
  constructor
  · rw [List.countP_eq_length]
    intro n hn; simpa using h n hn
  · rw [List.countP_eq_zero]
    intro n hn; simpa using h n hn

theorem newVarPathPart_ok (compile : String → Option Regexp) (t : template)
    (sps : List SubPart) (pt : pathPart) (t1 : template)
    (h : t.newVarPathPart compile sps = (.ok pt, t1)) :
    pt.flat = true ∧ t1.pathParts = t.pathParts ∧
    t1.nameVarsCount = t.nameVarsCount + (varNames [pt]).countP (fun n => n ≠ "") ∧
    t1.posVarsCount = t.posVarsCount + (varNames [pt]).countP (fun n => n = "") := by
  unfold template.newVarPathPart at h
  split at h
  · simp at h
  · rename_i out any t2 hloop
    obtain ⟨r1, r2, r3, r4, r5, r6, r7⟩ := newVarPathPartLoop_ok compile sps t [] false out any t2
      (by simp) (by simp [subVarNames]) (by simp [subVarNames]) (by simp) hloop
    simp only [subVarNames, List.length_nil, Nat.add_zero] at r7
    split at h
    · rename_i only
      simp only [Prod.mk.injEq, Except.ok.injEq] at h
      obtain ⟨h1, h2⟩ := h
      subst h1 h2
      have hs : only.subParts = [] := r1 only (by simp)
      obtain ⟨c1, c2⟩ := countP_named_all _ r2
      rw [leaf_varNames _ hs, c1, c2]
      exact ⟨leaf_flat _ hs, r5, r7, r6⟩
    · rename_i hnot
      cases any with
      | false =>
        simp only [Bool.not_false, if_true, Prod.mk.injEq, Except.ok.injEq] at h
        obtain ⟨h1, h2⟩ := h
        subst h1 h2
        have := r3 rfl
        rw [this] at r7
        refine ⟨rfl, r5, ?_, ?_⟩
        · simp [varNames, fixedPart, pathPart.fixed] at r7 ⊢; exact r7
        · simp [varNames, fixedPart, pathPart.fixed]; exact r6
      | true =>
        simp only [Bool.not_true, Bool.false_eq_true, if_false, Prod.mk.injEq,
          Except.ok.injEq] at h
        obtain ⟨h1, h2⟩ := h
        subst h1 h2
        have hne : out ≠ [] := r4 rfl
        have hemp : out.isEmpty = false := by
          cases out with
          | nil => exact absurd rfl hne
          | cons _ _ => rfl
        have hvn : varNames [pathPart.mk false "" out none "" ""] = subVarNames out := by
          simp [varNames, pathPart.fixed, pathPart.subParts, hemp]
        obtain ⟨c1, c2⟩ := countP_named_all _ r2
        rw [hvn, c1, c2]
        refine ⟨?_, r5, r7, r6⟩
        simp only [pathPart.flat, pathPart.fixed, pathPart.subParts, Bool.false_or,
          List.all_eq_true, Bool.or_eq_true, List.isEmpty_iff]
        intro x hx
        exact Or.inr (r1 x hx)

theorem newUriPathPart_ok (compile : String → Option Regexp) (t : template)
    (s : String) (sps : List SubPart) (pt : pathPart) (t1 : template)
    (h : t.newUriPathPart compile s sps = (.ok pt, t1)) :
    pt.flat = true ∧ t1.pathParts = t.pathParts ∧
    t1.nameVarsCount = t.nameVarsCount + (varNames [pt]).countP (fun n => n ≠ "") ∧
    t1.posVarsCount = t.posVarsCount + (varNames [pt]).countP (fun n => n = "") := by
  unfold template.newUriPathPart at h
  split at h
  · split_ifs at h with h1 h2
    · simp only [Prod.mk.injEq, Except.ok.injEq] at h
      obtain ⟨h3, h4⟩ := h
      subst h3 h4
      obtain ⟨a1, a2, a3⟩ := addVar_fields t (varPart (sliceFrom s 1))
      refine ⟨rfl, a1, ?_, ?_⟩
      · rw [a2]
        by_cases hn : sliceFrom s 1 = "" <;>
          simp [varNames, varPart, pathPart.fixed, pathPart.subParts, pathPart.name, hn]
      · rw [a3]
        by_cases hn : sliceFrom s 1 = "" <;>
          simp [varNames, varPart, pathPart.fixed, pathPart.subParts, pathPart.name, hn]
    · simp only [Prod.mk.injEq, Except.ok.injEq] at h
      obtain ⟨h3, h4⟩ := h
      subst h3 h4
      exact ⟨rfl, rfl, by simp [varNames, fixedPart, pathPart.fixed],
        by simp [varNames, fixedPart, pathPart.fixed]⟩
    · exact newVarPathPart_ok _ _ _ _ _ h
  · exact newVarPathPart_ok _ _ _ _ _ h

theorem parseLoop_counted (compile : String → Option Regexp) (segs : List Segment)
    (t : template) (ht : t.counted)
    (h : (parseLoop compile segs t).1 = none) : (parseLoop compile segs t).2.counted := by
  induction segs generalizing t with
  | nil => simpa [parseLoop] using ht
  | cons seg rest ih =>
    unfold parseLoop at h ⊢
    cases he : t.newUriPathPart compile seg.s seg.subParts with
    | mk r t1 =>
      cases r with
      | error e => simp [he] at h
      | ok pt =>
        simp only [he] at h ⊢
        obtain ⟨h1, h2, h3, h4⟩ := newUriPathPart_ok _ _ _ _ _ _ he
        apply ih _ _ h
        obtain ⟨c1, c2, c3⟩ := ht
        refine ⟨?_, ?_, ?_⟩
        · intro x hx
          simp only [h2] at hx
          rcases List.mem_append.mp hx with hx | hx
          · exact c1 x hx
          · simp at hx; subst hx; exact h1
        · simp only [h2, varNames_append, List.countP_append, h3, c2]
        · simp only [h2, varNames_append, List.countP_append, h4, c3]

theorem parse_counted (split : String → SplitRun) (compile : String → Option Regexp)
    (t0 t : template) (h0 : t0.varsType = PathVarsType.Positions) (hc0 : t0.counted)
    (h : template.parse split compile t0 = .ok t) :
    t.counted ∧ kindCoherent t.varsType (varNames t.pathParts) ∧
    t.fixedMatchOpts = t0.fixedMatchOpts ∧ t.varMatchOpts = t0.varMatchOpts := by
  obtain ⟨hmix, herr, _, ht⟩ := parse_ok split compile _ t h
  have hc := parseLoop_counted compile _ _ hc0 herr
  have hv := parseLoop_varsType compile (split t0.originalTemplate).segments t0
  have ho := parseLoop_options compile (split t0.originalTemplate).segments t0
  generalize (parseLoop compile (split t0.originalTemplate).segments t0).2 = r at *
  obtain ⟨c1, c2, c3⟩ := hc
  by_cases hn : r.nameVarsCount > 0
  · rw [if_pos hn] at ht
    subst ht
    refine ⟨⟨c1, c2, c3⟩, ?_, ho.1, ho.2⟩
    have hp : r.posVarsCount = 0 := by omega
    rw [c3, List.countP_eq_zero] at hp
    intro n hnm
    have := hp n hnm
    simp only [decide_eq_true_eq] at this
    simp [this]
  · rw [if_neg hn] at ht
    subst ht
    refine ⟨⟨c1, c2, c3⟩, ?_, ho.1, ho.2⟩
    have hz : t.nameVarsCount = 0 := by omega
    rw [c2, List.countP_eq_zero] at hz
    intro n hnm
    have := hz n hnm
    simp only [ne_eq, decide_not, Bool.not_eq_true', decide_eq_false_iff_not, not_not] at this
    simp [this, hv, h0]

theorem NewTemplate_counted (split : String → SplitRun) (compile : String → Option Regexp)
    (path : String) (options : List AnyOption) (t : template)
    (h : NewTemplate split compile path options = .ok t) :
    t.counted ∧ kindCoherent t.varsType (varNames t.pathParts) ∧
    t.fixedMatchOpts = (separateParseOptions options).1 ∧
    t.varMatchOpts = (separateParseOptions options).2 :=
  parse_counted split compile _ t rfl
    ⟨by simp, by simp [varNames], by simp [varNames]⟩ h

/-! ### Matching without options records every variable -/

theorem check_nil (value : String) (position : Nat) (name : String) (rx : Option Regexp)
    (rxs : String) (pathPos : Nat) (vars : Option pathVars) :
    varMatchOptions.check [] value position name rx rxs pathPos vars = (value, false, false) := by
  simp [varMatchOptions.check, varMatchOptions.checkLoop]

theorem simVars_addFound (ty : PathVarsType) (pt : pathPart) (vars : pathVars)
    (st : List PathVar × (String → Nat)) (s : String)
    (hk : pt.name ≠ "" ↔ ty = PathVarsType.Names) (h : simVars ty vars st) :
    simVars ty (pt.addFound vars s) (varStep pt.name st) := by
  obtain ⟨h1, h2, h3⟩ := h
  have hlen : vars.all.length = st.1.length := by
    have := congrArg List.length h2
    simpa using this
  unfold pathPart.addFound varStep
  by_cases hn : pt.name = ""
  · have hty : ty = PathVarsType.Positions := by
      cases ty with
      | Positions => rfl
      | Names => exact absurd (hk.mpr rfl) (by simp [hn])
    subst hty
    simp only [hn, ne_eq, not_true_eq_false, if_false, if_true, pathVars.AddPositionalValue, h1,
      afterAdd]
    refine ⟨rfl, ?_, fun hc => by cases hc⟩
    simp [h2, PathVar.key, hlen]
  · have hty : ty = PathVarsType.Names := hk.mp hn
    subst hty
    simp only [hn, ne_eq, not_false_eq_true, if_true, if_false, pathVars.AddNamedValue, h1,
      not_true_eq_false, afterAdd]
    refine ⟨rfl, ?_, fun _ n => ?_⟩
    · simp [h2, PathVar.key, hlen, h3 rfl]
    · by_cases hnn : n = pt.name
      · simp [hnn, h3 rfl]
      · simp [hnn, h3 rfl]

theorem multiMatchLoop_sim (ty : PathVarsType) (sms : List String) (idxs : Int → Nat)
    (pathPos : Nat) (sps : List pathPart) (i : Nat) (vars v1 : pathVars)
    (st : List PathVar × (String → Nat))
    (hk : kindCoherent ty (subVarNames sps)) (hs : simVars ty vars st)
    (h : multiMatchLoop sms idxs pathPos [] sps i vars = some v1) :
    simVars ty v1 (varsOfNames (subVarNames sps) st) := by
  induction sps generalizing i vars st with
  | nil =>
    simp only [multiMatchLoop, Option.some.injEq] at h
    subst h
    simpa [subVarNames, varsOfNames] using hs
  | cons sp rest ih =>
    unfold multiMatchLoop at h
    unfold subVarNames at hk ⊢
    cases hf : sp.fixed with
    | true =>
      simp only [hf, Bool.not_true, Bool.false_eq_true, if_false, if_true] at h hk ⊢
      exact ih _ _ _ hk hs h
    | false =>
      simp only [hf, Bool.not_false, if_true, Bool.false_eq_true, if_false] at h hk ⊢
      cases hg : sms[idxs (i : Int)]? with
      | none => simp [hg] at h
      | some str0 =>
        simp only [hg, check_nil, List.length_nil, gt_iff_lt, Nat.lt_irrefl, decide_False,
          Bool.false_and, Bool.false_eq_true, if_false, if_true] at h
        simp only [varsOfNames]
        apply ih _ _ _ (fun n hn => hk n (List.mem_cons_of_mem _ hn)) _ h
        exact simVars_addFound ty sp vars st str0 (hk sp.name (List.mem_cons_self _ _)) hs

theorem match_sim (compile : String → Option Regexp) (ty : PathVarsType) (pt : pathPart)
    (s : String) (pathPos : Nat) (vars v1 : pathVars) (fOpts : List FixedMatchOption)
    (st : List PathVar × (String → Nat))
    (hk : kindCoherent ty (varNames [pt])) (hs : simVars ty vars st)
    (h : pt.match_ compile s pathPos vars fOpts [] = some (true, v1)) :
    simVars ty v1 (varsOfNames (varNames [pt]) st) := by
  cases hf : pt.fixed with
  | true =>
    rw [match_fixed _ _ _ _ _ _ _ hf] at h
    simp only [Option.some.injEq, Prod.mk.injEq] at h
    rw [← h.2]
    simpa [varNames, hf, varsOfNames] using hs
  | false =>
    by_cases hsub : pt.subParts = []
    · obtain ⟨ok1, s1, he, hno⟩ := match_simple compile pt s pathPos vars fOpts [] hf hsub
      rw [he] at h
      by_cases hok : ok1 = true
      swap
      · simp [hok] at h
      simp only [hok, if_true, Option.some.injEq, Prod.mk.injEq, true_and] at h
      rw [← h]
      have hvn : varNames [pt] = [pt.name] := by simp [varNames, hf, hsub]
      rw [hvn] at hk ⊢
      simp only [varsOfNames]
      exact simVars_addFound ty pt vars st s1 (hk pt.name (List.mem_cons_self _ _)) hs
    · rw [match_composite _ _ _ _ _ _ _ hf hsub] at h
      have hne : pt.subParts.isEmpty = false := by
        cases hsp : pt.subParts with
        | nil => exact absurd hsp hsub
        | cons _ _ => rfl
      have hvn : varNames [pt] = subVarNames pt.subParts := by simp [varNames, hf, hne]
      rw [hvn] at hk ⊢
      rcases multiMatch_cases _ _ _ _ _ _ _ _ h with ⟨hc, _⟩ | ⟨_, sms, idxs, hl⟩
      · simp at hc
      · exact multiMatchLoop_sim ty sms idxs pathPos pt.subParts 0 vars v1 st hk hs hl

theorem matchesLoop_sim (compile : String → Option Regexp) (ty : PathVarsType)
    (fOpts : List FixedMatchOption) (parts : List pathPart) (segs : List String) (i : Nat)
    (vars v1 : pathVars) (st : List PathVar × (String → Nat))
    (hk : kindCoherent ty (varNames parts)) (hs : simVars ty vars st)
    (h : matchesLoop compile fOpts [] parts segs i vars = some (true, v1)) :
    simVars ty v1 (varsOfNames (varNames parts) st) := by
  induction parts generalizing segs i vars st with
  | nil =>
    simp only [matchesLoop, Option.some.injEq, Prod.mk.injEq, true_and] at h
    subst h
    simpa [varNames, varsOfNames] using hs
  | cons pt rest ih =>
    cases segs with
    | nil => simp [matchesLoop] at h
    | cons seg segs =>
      unfold matchesLoop at h
      have hvn : varNames (pt :: rest) = varNames [pt] ++ varNames rest :=
        varNames_append [pt] rest
      rw [hvn] at hk ⊢
      cases hm : pt.match_ compile seg i vars fOpts [] with
      | none => simp [hm] at h
      | some r =>
        obtain ⟨ok1, vars1⟩ := r
        simp only [hm] at h
        cases ok1 with
        | false => simp at h
        | true =>
          simp only [Bool.not_true, Bool.false_eq_true, if_false] at h
          rw [varsOfNames_append]
          apply ih _ _ _ _ (fun n hn => hk n (List.mem_append_right _ hn)) _ h
          exact match_sim compile ty pt seg i vars vars1 fOpts st
            (fun n hn => hk n (List.mem_append_left _ hn)) hs hm

theorem mergeParseOptions_nil (t : template) :
    t.mergeParseOptions [] = (t.fixedMatchOpts, t.varMatchOpts) := by
  simp [template.mergeParseOptions]


/-! ### Splitting a built path -/

theorem splitSlash_ne_nil (l : List Char) : splitSlash l ≠ [] := by
  cases l with
  | nil => simp [splitSlash]
  | cons c cs =>
    unfold splitSlash
    split_ifs
    · simp
    · split <;> simp

theorem splitSlash_seg_slash (a r : List Char) (ha : ∀ c ∈ a, c ≠ '/') :
    splitSlash (a ++ '/' :: r) = a :: splitSlash r := by
  induction a with
  | nil => simp [splitSlash]
  | cons c a ih =>
    have hc : c ≠ '/' := ha c (List.mem_cons_self _ _)
    have ih1 := ih (fun x hx => ha x (List.mem_cons_of_mem _ hx))
    rw [List.cons_append, splitSlash, if_neg hc, ih1]

theorem splitSlash_seg (a : List Char) (ha : ∀ c ∈ a, c ≠ '/') : splitSlash a = [a] := by
  induction a with
  | nil => simp [splitSlash]
  | cons c a ih =>
    have hc : c ≠ '/' := ha c (List.mem_cons_self _ _)
    have ih1 := ih (fun x hx => ha x (List.mem_cons_of_mem _ hx))
    rw [splitSlash, if_neg hc, ih1]

theorem goodSeg_iff (s : String) :
    goodSeg s = true ↔ s.data ≠ [] ∧ ∀ c ∈ s.data, c ≠ '/' := by
  simp [goodSeg, List.isEmpty_iff]

theorem splitSlash_join (s : String) (rest : List String) (hs : goodSeg s = true)
    (hrest : ∀ x ∈ rest, goodSeg x = true) :
    splitSlash (s.data ++ joinData rest) = s.data :: rest.map String.data := by
  induction rest generalizing s with
  | nil => simpa [joinData] using splitSlash_seg s.data ((goodSeg_iff s).mp hs).2
  | cons s2 rest ih =>
    simp only [joinData, List.map_cons]
    rw [splitSlash_seg_slash _ _ ((goodSeg_iff s).mp hs).2]
    rw [ih s2 (hrest s2 (List.mem_cons_self _ _))
      (fun x hx => hrest x (List.mem_cons_of_mem _ hx))]

theorem keepInner_good (segs : List String) (h : ∀ x ∈ segs, goodSeg x = true) :
    keepInner (segs.map String.data) = some segs := by
  induction segs with
  | nil => simp [keepInner]
  | cons s rest ih =>
    have hs := (goodSeg_iff s).mp (h s (List.mem_cons_self _ _))
    have hne : s.data.isEmpty = false := by
      cases hd : s.data with
      | nil => exact absurd hd hs.1
      | cons _ _ => rfl
    have ih1 := ih (fun x hx => h x (List.mem_cons_of_mem _ hx))
    cases rest with
    | nil => simp [keepInner, hne]
    | cons s2 rest2 =>
      simp only [List.map_cons] at ih1 ⊢
      simp only [keepInner, hne, Bool.false_eq_true, if_false, ih1]

theorem joinSegs_data (segs : List String) : (joinSegs segs).data = joinData segs := by
  induction segs with
  | nil => rfl
  | cons s rest ih => simp [joinSegs, joinData, ih]

theorem matchPathSplit_join (segs : List String) (h : ∀ x ∈ segs, goodSeg x = true) :
    matchPathSplit (joinSegs segs) = some segs := by
  unfold matchPathSplit
  rw [joinSegs_data]
  cases segs with
  | nil => simp [joinData, splitSlash, keepInner]
  | cons s rest =>
    simp only [joinData, splitSlash, if_true]
    rw [splitSlash_join s rest (h s (List.mem_cons_self _ _))
      (fun x hx => h x (List.mem_cons_of_mem _ hx))]
    simp only [List.isEmpty_nil, if_true]
    exact keepInner_good (s :: rest) h

theorem specPath_simple (parts : List pathPart) (texts : List String)
    (h : ∀ pt ∈ parts, pt.subParts = []) :
    specPath parts texts = joinSegs (segTexts parts texts) := by
  induction parts generalizing texts with
  | nil => rfl
  | cons pt rest ih =>
    have ih1 := fun t => ih t (fun x hx => h x (List.mem_cons_of_mem _ hx))
    have hs := h pt (List.mem_cons_self _ _)
    unfold specPath segTexts
    cases hf : pt.fixed with
    | true => simp [joinSegs, ih1]
    | false => simp [joinSegs, ih1, hs]

theorem segTexts_length (parts : List pathPart) (texts : List String) :
    (segTexts parts texts).length = parts.length := by
  induction parts generalizing texts with
  | nil => rfl
  | cons pt rest ih =>
    unfold segTexts
    split_ifs <;> simp [ih]

theorem segTexts_good (parts : List pathPart) (texts : List String)
    (hs : ∀ pt ∈ parts, pt.subParts = [])
    (hf : ∀ pt ∈ parts, pt.fixed = true → goodSeg pt.fixedValue = true)
    (hn : (varNames parts).length ≤ texts.length)
    (ht : ∀ x ∈ texts, goodSeg x = true) :
    ∀ x ∈ segTexts parts texts, goodSeg x = true := by
  induction parts generalizing texts with
  | nil => simp [segTexts]
  | cons pt rest ih =>
    have hs1 : ∀ pt ∈ rest, pt.subParts = [] := fun x hx => hs x (List.mem_cons_of_mem _ hx)
    have hf1 : ∀ pt ∈ rest, pt.fixed = true → goodSeg pt.fixedValue = true :=
      fun x hx => hf x (List.mem_cons_of_mem _ hx)
    unfold segTexts
    unfold varNames at hn
    cases hfx : pt.fixed with
    | true =>
      simp only [hfx, if_true] at hn ⊢
      intro x hx
      rcases List.mem_cons.mp hx with hx | hx
      · rw [hx]; exact hf pt (List.mem_cons_self _ _) hfx
      · exact ih texts hs1 hf1 hn ht x hx
    | false =>
      simp only [hfx, hs pt (List.mem_cons_self _ _), List.isEmpty_nil, Bool.false_eq_true,
        if_false, if_true, List.length_cons] at hn ⊢
      cases texts with
      | nil => simp at hn
      | cons t0 texts1 =>
        intro x hx
        rcases List.mem_cons.mp hx with hx | hx
        · rw [hx]; exact ht t0 (List.mem_cons_self _ _)
        · simp only [List.length_cons, Nat.add_le_add_iff_right] at hn
          exact ih texts1 hs1 hf1 (by simpa using hn)
            (fun y hy => ht y (List.mem_cons_of_mem _ hy)) x (by simpa using hx)

/-! ### Matching a built path returns the values -/

theorem addFound_value (ty : PathVarsType) (pt : pathPart) (vars : pathVars) (s : String)
    (hk : pt.name ≠ "" ↔ ty = PathVarsType.Names) (h1 : vars.varsType = ty) :
    (pt.addFound vars s).varsType = ty ∧
    (pt.addFound vars s).all.map (fun v => v.Value)
      = vars.all.map (fun v => v.Value) ++ [Value.str s] := by
  unfold pathPart.addFound
  by_cases hn : pt.name = ""
  · have hty : ty = PathVarsType.Positions := by
      cases ty with
      | Positions => rfl
      | Names => exact absurd (hk.mpr rfl) (by simp [hn])
    subst hty
    simp [hn, pathVars.AddPositionalValue, h1, afterAdd]
  · have hty : ty = PathVarsType.Names := hk.mp hn
    subst hty
    simp [hn, pathVars.AddNamedValue, h1, afterAdd]

theorem matchesLoop_values (compile : String → Option Regexp) (ty : PathVarsType)
    (parts : List pathPart) (texts : List String) (i : Nat) (vars : pathVars)
    (hs : ∀ pt ∈ parts, pt.subParts = [] ∧ pt.regexp.isNone = true)
    (hk : kindCoherent ty (varNames parts)) (hty : vars.varsType = ty)
    (hn : (varNames parts).length ≤ texts.length) :
    ∃ v1, matchesLoop compile [] [] parts (segTexts parts texts) i vars = some (true, v1) ∧
      v1.varsType = ty ∧
      v1.all.map (fun v => v.Value) = vars.all.map (fun v => v.Value) ++
        (texts.take (varNames parts).length).map Value.str := by
  induction parts generalizing texts i vars with
  | nil => exact ⟨vars, by simp [matchesLoop, segTexts], hty, by simp [varNames]⟩
  | cons pt rest ih =>
    have hs1 : ∀ pt ∈ rest, pt.subParts = [] ∧ pt.regexp.isNone = true :=
      fun x hx => hs x (List.mem_cons_of_mem _ hx)
    obtain ⟨hsub, hrx⟩ := hs pt (List.mem_cons_self _ _)
    unfold segTexts
    unfold varNames at hn hk ⊢
    cases hf : pt.fixed with
    | true =>
      simp only [hf, if_true] at hn hk ⊢
      obtain ⟨v1, h1, h2, h3⟩ := ih texts (i + 1) vars hs1 hk hty hn
      refine ⟨v1, ?_, h2, h3⟩
      unfold matchesLoop
      rw [match_fixed _ _ _ _ _ _ _ hf]
      simp [h1]
    | false =>
      simp only [hf, hsub, List.isEmpty_nil, Bool.false_eq_true, if_false, if_true,
        List.length_cons] at hn hk ⊢
      cases texts with
      | nil => simp at hn
      | cons t0 texts1 =>
        simp only [List.length_cons, Nat.add_le_add_iff_right] at hn
        have hk0 : pt.name ≠ "" ↔ ty = PathVarsType.Names := hk pt.name (List.mem_cons_self _ _)
        obtain ⟨a1, a2⟩ := addFound_value ty pt vars t0 hk0 hty
        obtain ⟨v1, h1, h2, h3⟩ := ih texts1 (i + 1) (pt.addFound vars t0) hs1
          (fun n hn1 => hk n (List.mem_cons_of_mem _ hn1)) a1 hn
        refine ⟨v1, ?_, h2, ?_⟩
        · obtain ⟨ok1, s1, he, hno⟩ := match_simple compile pt t0 i vars [] [] hf hsub
          obtain ⟨e1, e2⟩ := hno rfl
          have hnone : pt.regexp = none := by
            cases hr : pt.regexp with
            | none => rfl
            | some _ => rw [hr] at hrx; simp at hrx
          rw [hnone] at e2
          simp only at e2
          subst e1 e2
          unfold matchesLoop
          simp only [List.headD_cons, List.drop_succ_cons, List.drop_zero]
          rw [he]
          simpa using h1
        · rw [h3, a2]
          simp

theorem positional_texts (vals : List Value) (hok : ∀ v ∈ vals, (getValueIf v).2 = true) :
    (Positional vals).all.length = vals.length ∧
    (∀ v ∈ (Positional vals).all, (getValueIf v.Value).2 = true) ∧
    (Positional vals).all.map (fun v => (getValueIf v.Value).1)
      = vals.map (fun v => (getValueIf v).1) := by
  obtain ⟨_, h2⟩ := Positional_spec vals
  have hlen : (Positional vals).all.length = vals.length := by
    have := congrArg List.length h2
    simpa using this
  refine ⟨hlen, fun v hv => ?_, ?_⟩
  · have : v.Value ∈ (Positional vals).all.map (fun v => v.Value) := List.mem_map_of_mem _ hv
    rw [h2] at this
    exact hok _ this
  · have : (Positional vals).all.map (fun v => (getValueIf v.Value).1)
        = ((Positional vals).all.map (fun v => v.Value)).map (fun v => (getValueIf v).1) := by
      simp [Function.comp_def]
    rw [this, h2]

theorem round_trip_texts (compile : String → Option Regexp) (t : template)
    (hflatk : kindCoherent t.varsType (varNames t.pathParts))
    (hfo : t.fixedMatchOpts = []) (hvo : t.varMatchOpts = [])
    (hsimple : ∀ pt ∈ t.pathParts, pt.subParts = [] ∧ pt.regexp.isNone = true)
    (hfixed : ∀ pt ∈ t.pathParts, pt.fixed = true → goodSeg pt.fixedValue = true)
    (texts : List String) (hn : (varNames t.pathParts).length ≤ texts.length)
    (hgood : ∀ x ∈ texts, goodSeg x = true) :
    ∃ r, t.matches compile (specPath t.pathParts texts) [] = some (some r, true) ∧
      r.GetAll.map (fun v => v.Value)
        = (texts.take (varNames t.pathParts).length).map Value.str := by
  have hsub : ∀ pt ∈ t.pathParts, pt.subParts = [] := fun pt hpt => (hsimple pt hpt).1
  rw [specPath_simple _ _ hsub]
  have hsplit := matchPathSplit_join (segTexts t.pathParts texts)
    (segTexts_good _ _ hsub hfixed hn hgood)
  obtain ⟨v1, h1, _, h3⟩ := matchesLoop_values compile t.varsType t.pathParts texts 0
    (newPathVars t.varsType) hsimple hflatk rfl hn
  refine ⟨v1, ?_, by simpa [pathVars.GetAll, newPathVars] using h3⟩
  unfold template.matches
  simp only [hsplit, segTexts_length, ne_eq, not_true_eq_false, if_false,
    mergeParseOptions_nil, hfo, hvo, h1]


theorem PathFrom_named (t : template) (pairs : List (String × Value))
    (havail : ∀ j, j < (varNames t.pathParts).length →
      namedAvail pairs (varNames t.pathParts) j = true) :
    t.PathFrom (some (Named pairs)) [] = .ok (specPath t.pathParts
      ((List.range (varNames t.pathParts).length).map (namedText pairs (varNames t.pathParts)))) := by
  obtain ⟨hp, hnamed⟩ := Named_spec pairs
  have hI : namedSupply (Named pairs) pairs (varNames t.pathParts)
      { vars := some (Named pairs), varPosition := 0, pathPosition := 0,
        namedPositions := fun _ => 0, varMatches := [] }
      ((List.range' 0 (varNames t.pathParts).length).map
        (fun i => (nameAt (varNames t.pathParts) i, namedText pairs (varNames t.pathParts) i)) ++ []) := by
    refine ⟨rfl, hp, rfl, hnamed, havail, 0, by simp, by simp, by simp⟩
  have hl : ((List.range' 0 (varNames t.pathParts).length).map
        (fun i => (nameAt (varNames t.pathParts) i, namedText pairs (varNames t.pathParts) i))).map
        Prod.fst = varNames t.pathParts := by
    simp only [List.map_map, Function.comp_def]
    apply List.ext_getElem
    · simp
    · intro i h1 h2
      simp [nameAt, List.getElem?_eq_getElem h2]
  obtain ⟨tr1, hb, _⟩ := buildPathLoop_supply (namedSupply (Named pairs) pairs (varNames t.pathParts))
    (namedSupply_step _ _ _) (namedSupply_pathPos _ _ _) t.pathParts "" _ _ [] hl hI
  apply buildPath_plain t _ _ _ tr1
  rw [hb]
  simp [List.range_eq_range', Function.comp_def]


theorem parse_originalTemplate (split : String → SplitRun) (compile : String → Option Regexp)
    (t0 t : template) (h : template.parse split compile t0 = .ok t) :
    t.originalTemplate = t0.originalTemplate := by
  obtain ⟨_, _, _, ht⟩ := parse_ok split compile t0 t h
  have hk := parseLoop_keeps (fun t => t.originalTemplate) (fun _ _ _ _ => rfl) compile
    (split t0.originalTemplate).segments t0
  subst ht
  split_ifs
  · exact hk
  · exact hk

theorem NewTemplate_originalTemplate (split : String → SplitRun)
    (compile : String → Option Regexp) (path : String) (options : List AnyOption)
    (t : template) (h : NewTemplate split compile path options = .ok t) :
    t.originalTemplate = slashPrefix path :=
  parse_originalTemplate split compile _ t h


/-! ### The counters only grow during a parse -/

theorem addVar_mono (t : template) (pt : pathPart) :
    t.posVarsCount ≤ (t.addVar pt).posVarsCount ∧
    t.nameVarsCount ≤ (t.addVar pt).nameVarsCount := by
  obtain ⟨_, h2, h3⟩ := addVar_fields t pt
  rw [h2, h3]
  exact ⟨Nat.le_add_right _ _, Nat.le_add_right _ _⟩

theorem newVarPathPartLoop_mono (compile : String → Option Regexp) (sps : List SubPart)
    (t : template) (acc : List pathPart) (b : Bool) :
    t.posVarsCount ≤ (newVarPathPartLoop compile sps t acc b).2.posVarsCount ∧
    t.nameVarsCount ≤ (newVarPathPartLoop compile sps t acc b).2.nameVarsCount := by
  induction sps generalizing t acc b with
  | nil => simp [newVarPathPartLoop]
  | cons sp rest ih =>
    unfold newVarPathPartLoop
    split_ifs
    · split
      · exact ⟨Nat.le_refl _, Nat.le_refl _⟩
      · rename_i addPart _
        have h1 := addVar_mono t addPart
        have h2 := ih (t.addVar addPart) (acc ++ [addPart]) true
        exact ⟨Nat.le_trans h1.1 h2.1, Nat.le_trans h1.2 h2.2⟩
    · exact ih _ _ _
    · exact ih _ _ _

theorem newVarPathPartLoop_bracket (compile : String → Option Regexp) (sps : List SubPart)
    (t : template) (acc : List pathPart) (b : Bool) (out : List pathPart) (any : Bool)
    (t1 : template)
    (hb : ∃ sp ∈ sps, sp.Type_ = SubPartType.Brackets ∧ sp.StartRune = '{')
    (h : newVarPathPartLoop compile sps t acc b = (.ok (out, any), t1)) :
    t.nameVarsCount < t1.nameVarsCount := by
  induction sps generalizing t acc b with
  | nil => simp at hb
  | cons sp rest ih =>
    unfold newVarPathPartLoop at h
    by_cases h1 : sp.Type_ = SubPartType.Brackets ∧ sp.StartRune = '{'
    · rw [if_pos h1] at h
      split at h
      · simp at h
      · rename_i addPart hset
        obtain ⟨hf, _, hn⟩ := setName_ok _ _ _ _ hset
        obtain ⟨_, a2, _⟩ := addVar_fields t addPart
        have hm := (newVarPathPartLoop_mono compile rest (t.addVar addPart)
          (acc ++ [addPart]) true).2
        rw [h] at hm
        simp only [a2, hf, hn, ne_eq, not_false_eq_true, and_self, if_true] at hm
        omega
    · rw [if_neg h1] at h
      have hb1 : ∃ sp ∈ rest, sp.Type_ = SubPartType.Brackets ∧ sp.StartRune = '{' := by
        obtain ⟨x, hx, hx2⟩ := hb
        rcases List.mem_cons.mp hx with hx | hx
        · subst hx; exact absurd hx2 h1
        · exact ⟨x, hx, hx2⟩
      split_ifs at h
      · exact ih _ _ _ hb1 h
      · exact ih _ _ _ hb1 h

theorem newVarPathPart_mono (compile : String → Option Regexp) (t : template)
    (sps : List SubPart) :
    t.posVarsCount ≤ (t.newVarPathPart compile sps).2.posVarsCount ∧
    t.nameVarsCount ≤ (t.newVarPathPart compile sps).2.nameVarsCount := by
  unfold template.newVarPathPart
  have := newVarPathPartLoop_mono compile sps t [] false
  split
  · rename_i e t1 he
    rw [he] at this; exact this
  · rename_i l a t1 he
    rw [he] at this
    split
    · exact this
    · split_ifs <;> exact this

theorem newUriPathPart_mono (compile : String → Option Regexp) (t : template)
    (s : String) (sps : List SubPart) :
    t.posVarsCount ≤ (t.newUriPathPart compile s sps).2.posVarsCount ∧
    t.nameVarsCount ≤ (t.newUriPathPart compile s sps).2.nameVarsCount := by
  unfold template.newUriPathPart
  split
  · split_ifs
    · exact addVar_mono t _
    · exact ⟨Nat.le_refl _, Nat.le_refl _⟩
    · exact newVarPathPart_mono _ _ _
  · exact newVarPathPart_mono _ _ _

theorem parseLoop_mono (compile : String → Option Regexp) (segs : List Segment)
    (t : template) :
    t.posVarsCount ≤ (parseLoop compile segs t).2.posVarsCount ∧
    t.nameVarsCount ≤ (parseLoop compile segs t).2.nameVarsCount := by
  induction segs generalizing t with
  | nil => simp [parseLoop]
  | cons seg rest ih =>
    unfold parseLoop
    have h1 := newUriPathPart_mono compile t seg.s seg.subParts
    cases he : t.newUriPathPart compile seg.s seg.subParts with
    | mk r t1 =>
      rw [he] at h1
      cases r with
      | error e => exact h1
      | ok pt =>
        have h2 := ih { t1 with pathParts := t1.pathParts ++ [pt] }
        exact ⟨Nat.le_trans h1.1 h2.1, Nat.le_trans h1.2 h2.2⟩

theorem parseLoop_cons_ok (compile : String → Option Regexp) (seg : Segment)
    (rest : List Segment) (t t1 : template) (pt : pathPart)
    (he : t.newUriPathPart compile seg.s seg.subParts = (.ok pt, t1)) :
    parseLoop compile (seg :: rest) t
      = parseLoop compile rest { t1 with pathParts := t1.pathParts ++ [pt] } := by
  rw [parseLoop, he]

theorem parseLoop_cons_error (compile : String → Option Regexp) (seg : Segment)
    (rest : List Segment) (t t1 : template) (e : GoError)
    (he : t.newUriPathPart compile seg.s seg.subParts = (.error e, t1)) :
    parseLoop compile (seg :: rest) t = (some e, t1) := by
  rw [parseLoop, he]

theorem parseLoop_append (compile : String → Option Regexp) (pre rest : List Segment)
    (t : template) (h : (parseLoop compile pre t).1 = none) :
    parseLoop compile (pre ++ rest) t = parseLoop compile rest (parseLoop compile pre t).2 := by
  induction pre generalizing t with
  | nil => simp [parseLoop]
  | cons seg pre ih =>
    simp only [List.cons_append]
    cases he : t.newUriPathPart compile seg.s seg.subParts with
    | mk r t1 =>
      cases r with
      | error e =>
        rw [parseLoop_cons_error _ _ _ _ _ _ he] at h
        simp at h
      | ok pt =>
        rw [parseLoop_cons_ok _ _ _ _ _ _ he] at h ⊢
        rw [parseLoop_cons_ok _ _ _ _ _ _ he]
        exact ih _ h

theorem newUriPathPart_positional (compile : String → Option Regexp) (t : template)
    (seg : Segment) (h : seg.isPositional) :
    t.posVarsCount < (t.newUriPathPart compile seg.s seg.subParts).2.posVarsCount := by
  obtain ⟨hs, sp, hsp, hty⟩ := h
  rw [hs, hsp]
  have h1 : (strings_HasPrefix "?" "?" || strings_HasPrefix "?" ":") = true := by decide
  simp only [template.newUriPathPart, hty, if_true, h1]
  have h2 : sliceFrom "?" 1 = "" := by decide
  simp [template.addVar, varPart, pathPart.fixed, pathPart.name, h2]

theorem newUriPathPart_named_subs (compile : String → Option Regexp) (t : template)
    (s : String) (sps : List SubPart)
    (h : ∃ sp ∈ sps, sp.Type_ = SubPartType.Brackets ∧ sp.StartRune = '{')
    (pt : pathPart) (t1 : template)
    (he : t.newUriPathPart compile s sps = (.ok pt, t1)) :
    t.nameVarsCount < t1.nameVarsCount := by
  have key : ∀ pt t1, t.newVarPathPart compile sps = (.ok pt, t1) →
      t.nameVarsCount < t1.nameVarsCount := by
    intro pt t1 hv
    unfold template.newVarPathPart at hv
    split at hv
    · simp at hv
    · rename_i out any t2 hloop
      have hlt := newVarPathPartLoop_bracket compile sps t [] false out any t2 h hloop
      split at hv
      · simp only [Prod.mk.injEq] at hv
        rw [← hv.2]; exact hlt
      · split_ifs at hv <;>
        · simp only [Prod.mk.injEq] at hv
          rw [← hv.2]; exact hlt
  cases sps with
  | nil => simp at h
  | cons sp rest =>
    cases rest with
    | nil =>
      by_cases hty : sp.Type_ = SubPartType.Fixed
      · obtain ⟨x, hx, hx1, _⟩ := h
        simp only [List.mem_singleton] at hx
        subst hx
        rw [hty] at hx1
        cases hx1
      · simp only [template.newUriPathPart, hty, if_false] at he
        exact key _ _ he
    | cons sp2 rest2 =>
      simp only [template.newUriPathPart] at he
      exact key _ _ he

theorem newUriPathPart_named (compile : String → Option Regexp) (t : template)
    (seg : Segment) (h : seg.hasNamed) (pt : pathPart) (t1 : template)
    (he : t.newUriPathPart compile seg.s seg.subParts = (.ok pt, t1)) :
    t.nameVarsCount < t1.nameVarsCount :=
  newUriPathPart_named_subs compile t seg.s seg.subParts h pt t1 he

theorem parseLoop_positional (compile : String → Option Regexp) (segs : List Segment)
    (t : template) (h : (parseLoop compile segs t).1 = none)
    (hseg : ∃ seg ∈ segs, seg.isPositional) :
    t.posVarsCount < (parseLoop compile segs t).2.posVarsCount := by
  induction segs generalizing t with
  | nil => simp at hseg
  | cons seg rest ih =>
    cases he : t.newUriPathPart compile seg.s seg.subParts with
    | mk r t1 =>
      cases r with
      | error e =>
        rw [parseLoop_cons_error _ _ _ _ _ _ he] at h
        simp at h
      | ok pt =>
        rw [parseLoop_cons_ok _ _ _ _ _ _ he] at h ⊢
        have hm := newUriPathPart_mono compile t seg.s seg.subParts
        rw [he] at hm
        by_cases hp : seg.isPositional
        · have h1 := newUriPathPart_positional compile t seg hp
          rw [he] at h1
          have h2 := (parseLoop_mono compile rest
            { t1 with pathParts := t1.pathParts ++ [pt] }).1
          exact Nat.lt_of_lt_of_le h1 h2
        · have hrest : ∃ seg ∈ rest, seg.isPositional := by
            obtain ⟨x, hx, hx2⟩ := hseg
            rcases List.mem_cons.mp hx with hx | hx
            · subst hx; exact absurd hx2 hp
            · exact ⟨x, hx, hx2⟩
          exact Nat.lt_of_le_of_lt hm.1 (ih _ h hrest)

theorem parseLoop_named (compile : String → Option Regexp) (segs : List Segment)
    (t : template) (h : (parseLoop compile segs t).1 = none)
    (hseg : ∃ seg ∈ segs, seg.hasNamed) :
    t.nameVarsCount < (parseLoop compile segs t).2.nameVarsCount := by
  induction segs generalizing t with
  | nil => simp at hseg
  | cons seg rest ih =>
    cases he : t.newUriPathPart compile seg.s seg.subParts with
    | mk r t1 =>
      cases r with
      | error e =>
        rw [parseLoop_cons_error _ _ _ _ _ _ he] at h
        simp at h
      | ok pt =>
        rw [parseLoop_cons_ok _ _ _ _ _ _ he] at h ⊢
        have hm := newUriPathPart_mono compile t seg.s seg.subParts
        rw [he] at hm
        by_cases hp : seg.hasNamed
        · have h1 := newUriPathPart_named compile t seg hp pt t1 he
          have h2 := (parseLoop_mono compile rest
            { t1 with pathParts := t1.pathParts ++ [pt] }).2
          exact Nat.lt_of_lt_of_le h1 h2
        · have hrest : ∃ seg ∈ rest, seg.hasNamed := by
            obtain ⟨x, hx, hx2⟩ := hseg
            rcases List.mem_cons.mp hx with hx | hx
            · subst hx; exact absurd hx2 hp
            · exact ⟨x, hx, hx2⟩
          exact Nat.lt_of_le_of_lt hm.2 (ih _ h hrest)


/-! ### The builder started on a host address -/

/-- The part loop started on a builder that already holds `a` writes the same
text after `a` and reaches the same tracker. -/
theorem buildPathLoop_prefix (parts : List pathPart) (a b : String) (tr : positionsTracker) :
    buildPathLoop parts (a ++ b) tr =
      match buildPathLoop parts b tr with
      | (.ok s, tr1) => (.ok (a ++ s), tr1)
      | (.error e, tr1) => (.error e, tr1) := by
  induction parts generalizing b tr with
  | nil => rfl
  | cons pt rest ih =>
    rw [buildPathLoop, buildPathLoop]
    rcases h : pt.pathFrom tr with ⟨r, tr1⟩
    cases r with
    | error e => rfl
    | ok str =>
      dsimp only
      rw [String.append_assoc, ih]



/-! ### The tracker under `getVar` -/

theorem getVar_keeps (tr : positionsTracker) (pt : pathPart) :
    (tr.getVar pt).2.vars = tr.vars ∧ (tr.getVar pt).2.varMatches = tr.varMatches ∧
    (tr.getVar pt).2.pathPosition = tr.pathPosition := by
  unfold positionsTracker.getVar
  dsimp only
  split_ifs
  · exact ⟨rfl, rfl, rfl⟩
  · exact ⟨rfl, rfl, rfl⟩
  · split
    · exact ⟨rfl, rfl, rfl⟩
    · exact ⟨rfl, rfl, rfl⟩
  · exact ⟨rfl, rfl, rfl⟩
  · exact ⟨rfl, rfl, rfl⟩

theorem getVar_atPath (tr : positionsTracker) (pt : pathPart) (p : Nat)
    (hm : tr.varMatches = []) :
    (tr.atPath p).getVar pt = ((tr.getVar pt).1, (tr.getVar pt).2.atPath p) := by
  obtain ⟨v, vp, pp, np, vm⟩ := tr
  simp only at hm
  subst hm
  unfold positionsTracker.getVar positionsTracker.atPath positionsTracker.checkVar
  simp only [checkVarLoop_nil]
  split_ifs <;> rfl

theorem outcomes_keeps (vs : List pathPart) (tr : positionsTracker) :
    (outcomes vs tr).2.vars = tr.vars ∧ (outcomes vs tr).2.varMatches = tr.varMatches ∧
    (outcomes vs tr).2.pathPosition = tr.pathPosition ∧
    (outcomes vs tr).1.length = vs.length := by
  induction vs generalizing tr with
  | nil => exact ⟨rfl, rfl, rfl, rfl⟩
  | cons v rest ih =>
    obtain ⟨h1, h2, h3⟩ := getVar_keeps tr v
    obtain ⟨i1, i2, i3, i4⟩ := ih (tr.getVar v).2
    simp only [outcomes, List.length_cons]
    exact ⟨i1.trans h1, i2.trans h2, i3.trans h3, by rw [i4]⟩

theorem outcomes_atPath (vs : List pathPart) (tr : positionsTracker) (p : Nat)
    (hm : tr.varMatches = []) :
    outcomes vs (tr.atPath p) = ((outcomes vs tr).1, (outcomes vs tr).2.atPath p) := by
  induction vs generalizing tr with
  | nil => rfl
  | cons v rest ih =>
    simp only [outcomes]
    rw [getVar_atPath tr v p hm]
    dsimp only
    rw [ih _ ((getVar_keeps tr v).2.1.trans hm)]

theorem outcomes_append (a b : List pathPart) (tr : positionsTracker) :
    outcomes (a ++ b) tr =
      ((outcomes a tr).1 ++ (outcomes b (outcomes a tr).2).1, (outcomes b (outcomes a tr).2).2) := by
  induction a generalizing tr with
  | nil => rfl
  | cons v rest ih =>
    have h := ih (tr.getVar v).2
    show ((tr.getVar v).1 :: (outcomes (rest ++ b) (tr.getVar v).2).1,
      (outcomes (rest ++ b) (tr.getVar v).2).2) = _
    rw [h]
    rfl

theorem firstError_append (a b : List (Except String String)) :
    firstError (a ++ b) = match firstError a with
      | some e => some e
      | none => firstError b := by
  induction a with
  | nil => simp only [List.nil_append, firstError]
  | cons x rest ih =>
    cases x with
    | ok s => simpa [firstError] using ih
    | error e => simp [firstError]

theorem okValues_append (a b : List (Except String String)) :
    okValues (a ++ b) = okValues a ++ okValues b := by
  induction a with
  | nil => rfl
  | cons x rest ih =>
    cases x with
    | ok s => simp [okValues, ih]
    | error e => simp [okValues, ih]

theorem okValues_length (a : List (Except String String)) (h : firstError a = none) :
    (okValues a).length = a.length := by
  induction a with
  | nil => rfl
  | cons x rest ih =>
    cases x with
    | ok s => simp [okValues, ih (by simpa [firstError] using h)]
    | error e => simp [firstError] at h

theorem subVarNames_subVars (sps : List pathPart) :
    subVarNames sps = (subVars sps).map (fun sp => sp.name) := by
  induction sps with
  | nil => rfl
  | cons sp rest ih =>
    simp only [subVarNames, subVars]
    split_ifs <;> simp [ih]

theorem varNames_varParts (parts : List pathPart) :
    varNames parts = (varParts parts).map (fun sp => sp.name) := by
  induction parts with
  | nil => rfl
  | cons pt rest ih =>
    simp only [varNames, varParts]
    split_ifs <;> simp [ih, subVarNames_subVars]

theorem mk_fixed (a : Bool) (b : String) (c : List pathPart) (d : Option Regexp)
    (e f : String) : (pathPart.mk a b c d e f).fixed = a := rfl

theorem mk_subParts (a : Bool) (b : String) (c : List pathPart) (d : Option Regexp)
    (e f : String) : (pathPart.mk a b c d e f).subParts = c := rfl

theorem fillVar_ok (v : pathPart) (s : String) (o : List (Except String String)) :
    fillVar v (.ok s :: o) = fixedPart s := rfl

theorem fillVar_error (v : pathPart) (e : String) (o : List (Except String String)) :
    fillVar v (.error e :: o) = v := rfl

theorem fillVar_nil (v : pathPart) : fillVar v [] = v := rfl

/-! ### The sub-part loops against the results of `getVar` -/

theorem resolveSubPartsLoop_fill (sps : List pathPart) (tr : positionsTracker)
    (acc : List pathPart) (rc nc : Nat) :
    (resolveSubPartsLoop sps tr acc rc nc).1 = acc ++ fillSubs sps (outcomes (subVars sps) tr).1 ∧
    (resolveSubPartsLoop sps tr acc rc nc).2.1 +
        ((outcomes (subVars sps) tr).1.countP (fun o => !isValue o)) = rc + sps.length ∧
    (resolveSubPartsLoop sps tr acc rc nc).2.2.1 =
        nc + ((outcomes (subVars sps) tr).1.countP (fun o => !isValue o)) ∧
    (resolveSubPartsLoop sps tr acc rc nc).2.2.2 = (outcomes (subVars sps) tr).2 := by
  induction sps generalizing tr acc rc nc with
  | nil => simp [resolveSubPartsLoop, fillSubs, subVars, outcomes]
  | cons sp rest ih =>
    rw [resolveSubPartsLoop]
    cases hf : sp.fixed with
    | true =>
      simp only [if_true, subVars, hf, fillSubs]
      obtain ⟨h1, h2, h3, h4⟩ := ih tr (acc ++ [sp]) (rc + 1) nc
      refine ⟨by rw [h1]; simp, by rw [List.length_cons]; omega, h3, h4⟩
    | false =>
      simp only [Bool.false_eq_true, if_false, subVars, hf, fillSubs, outcomes]
      rcases hg : tr.getVar sp with ⟨r, tr1⟩
      cases r with
      | ok s =>
        dsimp only
        obtain ⟨h1, h2, h3, h4⟩ := ih tr1 (acc ++ [fixedPart s]) (rc + 1) nc
        refine ⟨by rw [h1, fillVar_ok]; simp, ?_, ?_, h4⟩
        · rw [List.countP_cons_of_neg _ _ (by simp [isValue]), List.length_cons]
          omega
        · rw [List.countP_cons_of_neg _ _ (by simp [isValue])]
          exact h3
      | error e =>
        dsimp only
        obtain ⟨h1, h2, h3, h4⟩ := ih tr1 (acc ++ [sp]) rc (nc + 1)
        refine ⟨by rw [h1, fillVar_error]; simp, ?_, ?_, h4⟩
        · rw [List.countP_cons_of_pos _ _ (by simp [isValue]), List.length_cons]
          omega
        · rw [List.countP_cons_of_pos _ _ (by simp [isValue])]
          omega

theorem pathFromLoop_outcomes (sps : List pathPart) (pb : String) (tr : positionsTracker) :
    (pathFromLoop sps pb tr).1 =
      (match firstError (outcomes (subVars sps) tr).1 with
       | some e => .error e
       | none => .ok ("/" ++ (pb ++ specSubText sps (okValues (outcomes (subVars sps) tr).1)))) ∧
    (firstError (outcomes (subVars sps) tr).1 = none →
      (pathFromLoop sps pb tr).2 = (outcomes (subVars sps) tr).2) := by
  induction sps generalizing tr pb with
  | nil => simp [pathFromLoop, subVars, outcomes, firstError, specSubText]
  | cons sp rest ih =>
    rw [pathFromLoop]
    cases hf : sp.fixed with
    | true =>
      simp only [if_true, subVars, hf, specSubText]
      obtain ⟨h1, h2⟩ := ih (pb ++ sp.fixedValue) tr
      rw [h1]
      refine ⟨?_, h2⟩
      simp only [String.append_assoc]
    | false =>
      simp only [Bool.false_eq_true, if_false, subVars, hf, specSubText, outcomes]
      rcases hg : tr.getVar sp with ⟨r, tr1⟩
      cases r with
      | ok s =>
        dsimp only
        obtain ⟨h1, h2⟩ := ih (pb ++ s) tr1
        rw [h1]
        simp only [firstError, okValues, List.headD_cons, List.drop_succ_cons, List.drop_zero,
          String.append_assoc]
        exact ⟨trivial, h2⟩
      | error e =>
        dsimp only
        simp [firstError]

/-! ### `ResolveTo` against the results of `getVar` -/

theorem all_isValue_iff (o : List (Except String String)) :
    o.all isValue = true ↔ o.countP (fun x => !isValue x) = 0 := by
  rw [List.countP_eq_zero, List.all_eq_true]
  constructor
  · intro h x hx; simp [h x hx]
  · intro h x hx; simpa using h x hx

theorem isEmpty_iff_length (l : List pathPart) : l.isEmpty = true ↔ l.length = 0 := by
  cases l <;> simp

theorem fillSubs_length (sps : List pathPart) (o : List (Except String String)) :
    (fillSubs sps o).length = sps.length := by
  induction sps generalizing o with
  | nil => rfl
  | cons sp rest ih =>
    rw [fillSubs]
    split_ifs <;> simp [ih]

theorem subVars_fillSubs (sps : List pathPart) (o : List (Except String String)) :
    subVars (fillSubs sps o) = unresolvedVars (subVars sps) o := by
  induction sps generalizing o with
  | nil => rfl
  | cons sp rest ih =>
    rw [fillSubs]
    cases hf : sp.fixed with
    | true => simp only [if_true, subVars, hf, ih]
    | false =>
      simp only [Bool.false_eq_true, if_false, subVars, hf, unresolvedVars]
      cases o with
      | nil => simp only [fillVar_nil, valueAt, subVars, hf, Bool.false_eq_true, if_false, ih]
      | cons x o1 =>
        cases x with
        | ok s =>
          simp only [fillVar_ok, valueAt, subVars, fixedPart, mk_fixed, if_true, ih]
        | error e =>
          simp only [fillVar_error, valueAt, subVars, hf, Bool.false_eq_true, if_false, ih]

theorem unresolvedVars_length (vs : List pathPart) (o : List (Except String String))
    (h : o.length = vs.length) :
    (unresolvedVars vs o).length = o.countP (fun x => !isValue x) := by
  induction vs generalizing o with
  | nil =>
    cases o with
    | nil => rfl
    | cons _ _ => simp at h
  | cons v rest ih =>
    cases o with
    | nil => simp at h
    | cons x o1 =>
      simp only [List.length_cons, Nat.add_right_cancel_iff] at h
      cases x with
      | ok s =>
        rw [List.countP_cons_of_neg _ _ (by simp [isValue])]
        simp only [unresolvedVars, valueAt, List.drop_succ_cons, List.drop_zero]
        exact ih o1 h
      | error e =>
        rw [List.countP_cons_of_pos _ _ (by simp [isValue])]
        simp only [unresolvedVars, valueAt, List.drop_succ_cons, List.drop_zero,
          List.length_cons, ih o1 h]

theorem resolveLoop_fill (parts : List pathPart) (tr : positionsTracker) (result : template)
    (org : String) :
    resolveLoop parts tr result org =
      ({ result with
          pathParts := result.pathParts ++ fillParts parts (outcomes (varParts parts) tr).1,
          posVarsCount := result.posVarsCount +
            posVarsOf (fillParts parts (outcomes (varParts parts) tr).1),
          nameVarsCount := result.nameVarsCount +
            nameVarsOf (fillParts parts (outcomes (varParts parts) tr).1) },
       org ++ partsText (fillParts parts (outcomes (varParts parts) tr).1)) := by
  induction parts generalizing tr result org with
  | nil => simp [resolveLoop, fillParts, posVarsOf, nameVarsOf, partsText]
  | cons pt rest ih =>
    rw [resolveLoop]
    cases hf : pt.fixed with
    | true =>
      simp only [if_true, varParts, hf, fillParts]
      rw [ih]
      simp [posVarsOf, nameVarsOf, partsText, partText, hf, String.append_assoc]
    | false =>
      by_cases hs : pt.subParts.length = 0
      · have he : pt.subParts.isEmpty = true := (isEmpty_iff_length _).mpr hs
        simp only [Bool.false_eq_true, if_false, hs, if_true, varParts, hf, he, fillParts,
          outcomes]
        rcases hg : tr.getVar pt with ⟨r, tr1⟩
        cases r with
        | ok s =>
          dsimp only
          rw [ih, fillVar_ok]
          simp [posVarsOf, nameVarsOf, partsText, partText, fixedPart, pathPart.fixed,
            pathPart.fixedValue, String.append_assoc]
        | error e =>
          dsimp only
          rw [fillVar_error]
          by_cases hn : pt.name = ""
          · rw [if_pos hn, ih]
            simp [posVarsOf, nameVarsOf, partsText, partText, hf, he, hn, String.append_assoc,
              Nat.add_assoc]
          · rw [if_neg hn, ih]
            simp [posVarsOf, nameVarsOf, partsText, partText, hf, he, hn, String.append_assoc,
              Nat.add_assoc]
      · have he : pt.subParts.isEmpty = false := by
          cases h : pt.subParts.isEmpty
          · rfl
          · exact absurd ((isEmpty_iff_length _).mp h) hs
        simp only [Bool.false_eq_true, if_false, hs, varParts, hf, he, fillParts]
        obtain ⟨h1, h2, h3, h4⟩ := resolveSubPartsLoop_fill pt.subParts tr [] 0 result.nameVarsCount
        obtain ⟨_, _, _, hlen⟩ := outcomes_keeps (subVars pt.subParts) tr
        rw [outcomes_append]
        dsimp only
        rw [← hlen, List.take_left, List.drop_left]
        rw [List.nil_append] at h1
        by_cases hall : (outcomes (subVars pt.subParts) tr).1.all isValue = true
        · have hz := (all_isValue_iff _).mp hall
          have hrc : (resolveSubPartsLoop pt.subParts tr [] 0 result.nameVarsCount).2.1
              = pt.subParts.length := by omega
          rw [if_pos hrc, if_pos hall, ih, h1, h3, h4, hz]
          simp [posVarsOf, nameVarsOf, partsText, partText, fixedPart, pathPart.fixed,
            pathPart.fixedValue, String.append_assoc]
        · have hz : (outcomes (subVars pt.subParts) tr).1.countP (fun x => !isValue x) ≠ 0 :=
            fun h => hall ((all_isValue_iff _).mpr h)
          have hrc : ¬ (resolveSubPartsLoop pt.subParts tr [] 0 result.nameVarsCount).2.1
              = pt.subParts.length := by omega
          rw [if_neg hrc, if_neg hall, ih, h1, h3, h4]
          have hne : (fillSubs pt.subParts (outcomes (subVars pt.subParts) tr).1).isEmpty
              = false := by
            cases h : (fillSubs pt.subParts (outcomes (subVars pt.subParts) tr).1).isEmpty
            · rfl
            · have := (isEmpty_iff_length _).mp h
              rw [fillSubs_length] at this
              exact absurd this hs
          have hcnt : (subVars (fillSubs pt.subParts (outcomes (subVars pt.subParts) tr).1)).length
              = (outcomes (subVars pt.subParts) tr).1.countP (fun x => !isValue x) := by
            rw [subVars_fillSubs, unresolvedVars_length _ _ hlen]
          simp [posVarsOf, nameVarsOf, partsText, partText, mk_fixed, mk_subParts,
            hne, hcnt, String.append_assoc, Nat.add_assoc]

/-! ### The builder against the results of `getVar` -/

theorem specSubText_append (sps : List pathPart) (a b : List String)
    (h : a.length = (subVarNames sps).length) :
    specSubText sps (a ++ b) = specSubText sps a := by
  induction sps generalizing a with
  | nil => rfl
  | cons sp rest ih =>
    simp only [specSubText, subVarNames] at h ⊢
    cases hf : sp.fixed with
    | true =>
      simp only [hf, if_true] at h ⊢
      rw [ih a h]
    | false =>
      simp only [hf, Bool.false_eq_true, if_false, List.length_cons] at h ⊢
      cases a with
      | nil => simp at h
      | cons x a1 =>
        simp only [List.length_cons, Nat.add_right_cancel_iff] at h
        simp only [List.cons_append, List.headD_cons, List.drop_succ_cons, List.drop_zero]
        rw [ih a1 h]

theorem buildPathLoop_outcomes (parts : List pathPart) (pb : String) (tr : positionsTracker)
    (hm : tr.varMatches = []) :
    (buildPathLoop parts pb tr).1 =
      match firstError (outcomes (varParts parts) tr).1 with
      | some e => .error e
      | none => .ok (pb ++ specPath parts (okValues (outcomes (varParts parts) tr).1)) := by
  induction parts generalizing pb tr with
  | nil => simp [buildPathLoop, varParts, outcomes, firstError, specPath]
  | cons pt rest ih =>
    rw [buildPathLoop]
    cases hf : pt.fixed with
    | true =>
      rw [pathFrom_fixed _ _ hf]
      dsimp only
      have h := ih (pb ++ ("/" ++ pt.fixedValue)) (tr.atPath (tr.pathPosition + 1)) hm
      rw [outcomes_atPath _ _ _ hm] at h
      simp only [varParts, hf, if_true, specPath]
      rw [show ({ tr with pathPosition := tr.pathPosition + 1 } : positionsTracker)
        = tr.atPath (tr.pathPosition + 1) from rfl, h]
      simp only [String.append_assoc]
    | false =>
      by_cases hs : pt.subParts = []
      · have he : pt.subParts.isEmpty = true := by rw [hs]; rfl
        simp only [varParts, hf, he, Bool.false_eq_true, if_false, if_true, specPath, outcomes]
        have hk := (getVar_keeps tr pt).2.1
        rcases hg : tr.getVar pt with ⟨r, tr1⟩
        rw [hg] at hk
        cases r with
        | error e =>
          have hp : pt.pathFrom tr = (.error e, tr1) := by
            simp [pathPart.pathFrom, hf, hs, hg]
          rw [hp]
          simp [firstError]
        | ok s =>
          rw [pathFrom_simple _ _ hf hs _ _ hg]
          dsimp only
          have h := ih (pb ++ ("/" ++ s)) (tr1.atPath (tr1.pathPosition + 1)) (hk.trans hm)
          rw [outcomes_atPath _ _ _ (hk.trans hm)] at h
          rw [show ({ tr1 with pathPosition := tr1.pathPosition + 1 } : positionsTracker)
            = tr1.atPath (tr1.pathPosition + 1) from rfl, h]
          simp only [firstError, okValues, List.headD_cons, List.drop_succ_cons, List.drop_zero,
            String.append_assoc]
      · have he : pt.subParts.isEmpty = false := by
          cases hsp : pt.subParts with
          | nil => exact absurd hsp hs
          | cons _ _ => rfl
        simp only [varParts, hf, he, Bool.false_eq_true, if_false, specPath]
        rw [pathFrom_composite _ _ hf hs, outcomes_append]
        dsimp only
        obtain ⟨h1, h2⟩ := pathFromLoop_outcomes pt.subParts "" tr
        obtain ⟨_, hk, _, hlen⟩ := outcomes_keeps (subVars pt.subParts) tr
        rw [firstError_append, okValues_append]
        rcases hg : pathFromLoop pt.subParts "" tr with ⟨r, tr1⟩
        rw [hg] at h1 h2
        dsimp only at h1 h2
        cases hfe : firstError (outcomes (subVars pt.subParts) tr).1 with
        | some e =>
          rw [hfe] at h1
          dsimp only at h1
          rw [h1]
        | none =>
          rw [hfe] at h1
          dsimp only at h1
          have h2 := h2 hfe
          subst h1 h2
          dsimp only
          have h := ih (pb ++ ("/" ++ ("" ++ specSubText pt.subParts
              (okValues (outcomes (subVars pt.subParts) tr).1))))
            ((outcomes (subVars pt.subParts) tr).2.atPath
              ((outcomes (subVars pt.subParts) tr).2.pathPosition + 1)) (hk.trans hm)
          rw [outcomes_atPath _ _ _ (hk.trans hm)] at h
          rw [show ({ (outcomes (subVars pt.subParts) tr).2 with
              pathPosition := (outcomes (subVars pt.subParts) tr).2.pathPosition + 1 }
                : positionsTracker)
            = (outcomes (subVars pt.subParts) tr).2.atPath
              ((outcomes (subVars pt.subParts) tr).2.pathPosition + 1) from rfl, h]
          have hl : (okValues (outcomes (subVars pt.subParts) tr).1).length
              = (subVarNames pt.subParts).length := by
            rw [okValues_length _ hfe, hlen, subVarNames_subVars, List.length_map]
          rw [specSubText_append _ _ _ hl, ← hl, List.drop_left]
          simp only [String.append_assoc, String.empty_append]


/-! ### Resolution with a value for every variable -/

theorem mk_fixedValue (a : Bool) (b : String) (c : List pathPart) (d : Option Regexp)
    (e f : String) : (pathPart.mk a b c d e f).fixedValue = b := rfl

theorem fillParts_length (parts : List pathPart) (o : List (Except String String)) :
    (fillParts parts o).length = parts.length := by
  induction parts generalizing o with
  | nil => rfl
  | cons pt rest ih =>
    rw [fillParts]
    split_ifs <;> simp [ih]

theorem firstError_none_all (o : List (Except String String)) :
    firstError o = none ↔ o.all isValue = true := by
  induction o with
  | nil => simp [firstError]
  | cons x rest ih =>
    cases x with
    | ok s => simpa [firstError, isValue] using ih
    | error e => simp [firstError, isValue]

theorem subVars_length (sps : List pathPart) :
    (subVars sps).length = (subVarNames sps).length := by
  rw [subVarNames_subVars, List.length_map]

theorem varParts_length (parts : List pathPart) :
    (varParts parts).length = (varNames parts).length := by
  rw [varNames_varParts, List.length_map]

theorem fillSubs_values (sps : List pathPart) (o : List (Except String String))
    (he : firstError o = none) (hl : o.length = (subVars sps).length) :
    concatFixedValues (fillSubs sps o) = specSubText sps (okValues o) := by
  induction sps generalizing o with
  | nil => rfl
  | cons sp rest ih =>
    rw [fillSubs, specSubText]
    cases hf : sp.fixed with
    | true =>
      simp only [subVars, hf, if_true] at hl ⊢
      rw [concatFixedValues, ih o he hl]
    | false =>
      simp only [subVars, hf, Bool.false_eq_true, if_false, List.length_cons] at hl ⊢
      cases o with
      | nil => simp at hl
      | cons x o1 =>
        cases x with
        | error e => simp [firstError] at he
        | ok s =>
          simp only [List.length_cons, Nat.add_right_cancel_iff] at hl
          simp only [firstError] at he
          rw [fillVar_ok, concatFixedValues]
          simp only [okValues, List.headD_cons, List.drop_succ_cons, List.drop_zero]
          rw [ih o1 he hl]
          rfl

theorem fillParts_values (parts : List pathPart) (o : List (Except String String))
    (he : firstError o = none) (hl : o.length = (varParts parts).length) :
    (∀ pt ∈ fillParts parts o, pt.fixed = true) ∧
    (fillParts parts o).map (fun pt => pt.fixedValue) = partTexts parts (okValues o) ∧
    posVarsOf (fillParts parts o) = 0 ∧ nameVarsOf (fillParts parts o) = 0 ∧
    partsText (fillParts parts o) = specPath parts (okValues o) := by
  induction parts generalizing o with
  | nil => simp [fillParts, partTexts, posVarsOf, nameVarsOf, partsText, specPath]
  | cons pt rest ih =>
    rw [fillParts, partTexts, specPath]
    cases hf : pt.fixed with
    | true =>
      simp only [varParts, hf, if_true] at hl ⊢
      obtain ⟨h1, h2, h3, h4, h5⟩ := ih o he hl
      refine ⟨?_, ?_, ?_, ?_, ?_⟩
      · intro x hx
        rcases List.mem_cons.mp hx with hx | hx
        · rw [hx]; exact hf
        · exact h1 x hx
      · simp [h2]
      · simp [posVarsOf, hf, h3]
      · simp [nameVarsOf, hf, h4]
      · simp [partsText, partText, hf, h5, String.append_assoc]
    | false =>
      cases hs : pt.subParts.isEmpty with
      | true =>
        simp only [varParts, hf, hs, Bool.false_eq_true, if_false, if_true,
          List.length_cons] at hl ⊢
        cases o with
        | nil => simp at hl
        | cons x o1 =>
          cases x with
          | error e => simp [firstError] at he
          | ok s =>
            simp only [List.length_cons, Nat.add_right_cancel_iff] at hl
            simp only [firstError] at he
            obtain ⟨h1, h2, h3, h4, h5⟩ := ih o1 he hl
            rw [fillVar_ok]
            simp only [okValues, List.headD_cons, List.drop_succ_cons, List.drop_zero]
            refine ⟨?_, ?_, ?_, ?_, ?_⟩
            · intro x hx
              rcases List.mem_cons.mp hx with hx | hx
              · rw [hx]; rfl
              · exact h1 x hx
            · simp [h2, fixedPart, mk_fixedValue]
            · simp [posVarsOf, fixedPart, mk_fixed, h3]
            · simp [nameVarsOf, fixedPart, mk_fixed, h4]
            · simp [partsText, partText, fixedPart, mk_fixed, mk_fixedValue, h5,
                String.append_assoc]
      | false =>
        simp only [varParts, hf, hs, Bool.false_eq_true, if_false, List.length_append] at hl ⊢
        have hsplit : o = o.take (subVars pt.subParts).length ++
            o.drop (subVars pt.subParts).length := (List.take_append_drop _ _).symm
        have hl1 : (o.take (subVars pt.subParts).length).length = (subVars pt.subParts).length := by
          rw [List.length_take]; omega
        have hl2 : (o.drop (subVars pt.subParts).length).length = (varParts rest).length := by
          rw [List.length_drop]; omega
        have he12 := he
        rw [hsplit, firstError_append] at he12
        have he1 : firstError (o.take (subVars pt.subParts).length) = none := by
          cases h : firstError (o.take (subVars pt.subParts).length) with
          | none => rfl
          | some e => rw [h] at he12; simp at he12
        have he2 : firstError (o.drop (subVars pt.subParts).length) = none := by
          rw [he1] at he12; exact he12
        have hall := (firstError_none_all _).mp he1
        obtain ⟨h1, h2, h3, h4, h5⟩ := ih _ he2 hl2
        have hv := fillSubs_values pt.subParts _ he1 hl1
        have hok : okValues o = okValues (o.take (subVars pt.subParts).length) ++
            okValues (o.drop (subVars pt.subParts).length) := by
          rw [← okValues_append, List.take_append_drop]
        have hlk : (okValues (o.take (subVars pt.subParts).length)).length
            = (subVarNames pt.subParts).length := by
          rw [okValues_length _ he1, hl1, subVars_length]
        rw [if_pos hall, hv, hok, specSubText_append _ _ _ hlk, ← hlk, List.drop_left]
        refine ⟨?_, ?_, ?_, ?_, ?_⟩
        · intro x hx
          rcases List.mem_cons.mp hx with hx | hx
          · rw [hx]; rfl
          · exact h1 x hx
        · simp [h2, fixedPart, mk_fixedValue]
        · simp [posVarsOf, fixedPart, mk_fixed, h3]
        · simp [nameVarsOf, fixedPart, mk_fixed, h4]
        · simp [partsText, partText, fixedPart, mk_fixed, mk_fixedValue, h5,
            String.append_assoc]

theorem ResolveTo_fill (t : template) (vars : Option pathVars) :
    (t.ResolveTo vars).pathParts
      = fillParts t.pathParts (outcomes (varParts t.pathParts) (startTracker vars [])).1 ∧
    (t.ResolveTo vars).posVarsCount
      = posVarsOf (fillParts t.pathParts (outcomes (varParts t.pathParts) (startTracker vars [])).1) ∧
    (t.ResolveTo vars).nameVarsCount
      = nameVarsOf (fillParts t.pathParts (outcomes (varParts t.pathParts) (startTracker vars [])).1) ∧
    (t.ResolveTo vars).originalTemplate
      = partsText (fillParts t.pathParts (outcomes (varParts t.pathParts) (startTracker vars [])).1) := by
  unfold template.ResolveTo startTracker
  dsimp only
  rw [resolveLoop_fill]
  simp

theorem PathFrom_outcomes (t : template) (vars : Option pathVars) :
    t.PathFrom vars [] =
      match firstError (outcomes (varParts t.pathParts) (startTracker vars [])).1 with
      | some e => .error e
      | none => .ok (specPath t.pathParts
          (okValues (outcomes (varParts t.pathParts) (startTracker vars [])).1)) := by
  unfold template.PathFrom template.buildPath
  dsimp only
  have h := buildPathLoop_outcomes t.pathParts "" (startTracker vars []) rfl
  show (match buildPathLoop t.pathParts "" (startTracker vars []) with
    | (.error e, _) => Except.error e
    | (.ok pb, _) => Except.ok pb) = _
  rcases hb : buildPathLoop t.pathParts "" (startTracker vars []) with ⟨r, tr1⟩
  rw [hb] at h
  dsimp only at h
  subst h
  cases firstError (outcomes (varParts t.pathParts) (startTracker vars [])).1 with
  | some e => rfl
  | none => simp

/-! ### Resolution without values -/

theorem lookupAt_nil (c : Nat) : lookupAt [] (c : Int) = ("", false) := by
  rw [lookupAt_nat]
  rfl

theorem getVar_noValues (tr : positionsTracker) (pt : pathPart) (h : noValues tr.vars) :
    isValue (tr.getVar pt).1 = false := by
  unfold positionsTracker.getVar
  cases hv : tr.vars with
  | none =>
    have h1 : (Positional []).VarsType = PathVarsType.Positions := rfl
    have h2 : (Positional []).GetPositional (tr.varPosition : Int) = ("", false) := by
      show lookupAt [] _ = _
      exact lookupAt_nil _
    simp only [h1, if_true, h2]
    rfl
  | some pv =>
    rw [hv] at h
    obtain ⟨ha, hn⟩ := h pv rfl
    dsimp only
    by_cases hp : pv.VarsType = PathVarsType.Positions
    · rw [if_pos hp]
      have h2 : pv.GetPositional (tr.varPosition : Int) = ("", false) := by
        show lookupAt pv.all _ = _
        rw [ha]; exact lookupAt_nil _
      rw [h2]
      rfl
    · rw [if_neg hp]
      have h2 : pv.GetNamed pt.name (tr.namedPositions pt.name : Int) = ("", false) := by
        show lookupAt (pv.named pt.name) _ = _
        rw [hn]; exact lookupAt_nil _
      rw [h2]
      simp only [Bool.false_eq_true, if_false]
      split_ifs <;> rfl

theorem outcomes_noValues (vs : List pathPart) (tr : positionsTracker) (h : noValues tr.vars) :
    ∀ x ∈ (outcomes vs tr).1, isValue x = false := by
  induction vs generalizing tr with
  | nil => intro x hx; simp [outcomes] at hx
  | cons v rest ih =>
    intro x hx
    simp only [outcomes, List.mem_cons] at hx
    rcases hx with hx | hx
    · rw [hx]; exact getVar_noValues tr v h
    · exact ih (tr.getVar v).2 (by rw [(getVar_keeps tr v).1]; exact h) x hx

theorem fillVar_noValue (v : pathPart) (o : List (Except String String))
    (h : ∀ x ∈ o, isValue x = false) : fillVar v o = v := by
  cases o with
  | nil => rfl
  | cons x o1 =>
    cases x with
    | ok s => simpa [isValue] using h (.ok s) (by simp)
    | error e => rfl

theorem fillSubs_noValues (sps : List pathPart) (o : List (Except String String))
    (h : ∀ x ∈ o, isValue x = false) : fillSubs sps o = sps := by
  induction sps generalizing o with
  | nil => rfl
  | cons sp rest ih =>
    rw [fillSubs]
    split_ifs
    · rw [ih o h]
    · rw [fillVar_noValue _ _ h, ih _ (fun x hx => h x (List.mem_of_mem_drop hx))]

theorem unresolvedText_fixed (sps : List pathPart) (h : subVars sps = []) :
    unresolvedText sps = concatFixedValues sps := by
  induction sps with
  | nil => rfl
  | cons sp rest ih =>
    cases hf : sp.fixed with
    | true =>
      simp only [subVars, hf, if_true] at h
      simp only [unresolvedText, concatFixedValues, hf, if_true, ih h]
    | false => simp [subVars, hf] at h

theorem fillParts_noValues (parts : List pathPart) (o : List (Except String String))
    (h : ∀ x ∈ o, isValue x = false) (hl : o.length = (varParts parts).length) :
    partsText (fillParts parts o) = partsText parts ∧
    posVarsOf (fillParts parts o) = posVarsOf parts ∧
    nameVarsOf (fillParts parts o) = nameVarsOf parts := by
  induction parts generalizing o with
  | nil => exact ⟨rfl, rfl, rfl⟩
  | cons pt rest ih =>
    rw [fillParts]
    cases hf : pt.fixed with
    | true =>
      simp only [varParts, hf, if_true] at hl ⊢
      obtain ⟨h1, h2, h3⟩ := ih o h hl
      simp only [partsText, posVarsOf, nameVarsOf, h1, h2, h3]
      exact ⟨trivial, trivial, trivial⟩
    | false =>
      cases hs : pt.subParts.isEmpty with
      | true =>
        simp only [varParts, hf, hs, Bool.false_eq_true, if_false, if_true,
          List.length_cons] at hl ⊢
        have hd : ∀ x ∈ o.drop 1, isValue x = false := fun x hx => h x (List.mem_of_mem_drop hx)
        obtain ⟨h1, h2, h3⟩ := ih (o.drop 1) hd (by rw [List.length_drop]; omega)
        rw [fillVar_noValue _ _ h]
        simp only [partsText, posVarsOf, nameVarsOf, h1, h2, h3]
        exact ⟨trivial, trivial, trivial⟩
      | false =>
        simp only [varParts, hf, hs, Bool.false_eq_true, if_false, List.length_append] at hl ⊢
        have hd : ∀ x ∈ o.drop (subVars pt.subParts).length, isValue x = false :=
          fun x hx => h x (List.mem_of_mem_drop hx)
        have ht : ∀ x ∈ o.take (subVars pt.subParts).length, isValue x = false :=
          fun x hx => h x (List.mem_of_mem_take hx)
        obtain ⟨h1, h2, h3⟩ := ih _ hd (by rw [List.length_drop]; omega)
        rw [fillSubs_noValues _ _ ht]
        have hne : ¬ pt.subParts.length = 0 := by
          intro h0
          rw [(isEmpty_iff_length _).mpr h0] at hs
          exact absurd hs (by simp)
        by_cases hk : (subVars pt.subParts).length = 0
        · have hnil : subVars pt.subParts = [] := List.length_eq_zero.mp hk
          rw [hk, List.drop_zero] at h1 h2 h3
          simp only [hk, List.take_zero, List.all_nil, if_true, partsText, posVarsOf, nameVarsOf,
            h1, h2, h3, partText, fixedPart, mk_fixed, mk_fixedValue, hf, hs,
            unresolvedText_fixed _ hnil, Bool.false_eq_true, if_false, List.drop_zero]
          simp
        · have hnall : ¬ (o.take (subVars pt.subParts).length).all isValue = true := by
            intro hall
            have hlen : 0 < (o.take (subVars pt.subParts).length).length := by
              rw [List.length_take]; omega
            obtain ⟨x, hx⟩ := List.exists_mem_of_length_pos hlen
            have := List.all_eq_true.mp hall x hx
            rw [ht x hx] at this
            exact absurd this (by simp)
          rw [if_neg hnall]
          have hemp : pt.subParts.isEmpty = false := hs
          simp only [partsText, posVarsOf, nameVarsOf, h1, h2, h3, partText, mk_fixed,
            mk_subParts, hf, hs, Bool.false_eq_true, if_false, false_and]
          exact ⟨trivial, trivial, trivial⟩

/-! ### The variable sub-parts the parser builds have names -/

theorem newVarPathPart_subsNamed (compile : String → Option Regexp) (t : template)
    (sps : List SubPart) (pt : pathPart) (t1 : template)
    (h : t.newVarPathPart compile sps = (.ok pt, t1)) :
    ∀ n ∈ subVarNames pt.subParts, n ≠ "" := by
  unfold template.newVarPathPart at h
  split at h
  · simp at h
  · rename_i out any t2 hloop
    obtain ⟨r1, r2, r3, r4, r5, r6, r7⟩ := newVarPathPartLoop_ok compile sps t [] false out any t2
      (by simp) (by simp [subVarNames]) (by simp [subVarNames]) (by simp) hloop
    split at h
    · rename_i only
      simp only [Prod.mk.injEq, Except.ok.injEq] at h
      obtain ⟨h1, _⟩ := h
      subst h1
      rw [r1 only (by simp)]
      simp [subVarNames]
    · cases any with
      | false =>
        simp only [Bool.not_false, if_true, Prod.mk.injEq, Except.ok.injEq] at h
        obtain ⟨h1, _⟩ := h
        subst h1
        simp [fixedPart, mk_subParts, subVarNames]
      | true =>
        simp only [Bool.not_true, Bool.false_eq_true, if_false, Prod.mk.injEq,
          Except.ok.injEq] at h
        obtain ⟨h1, _⟩ := h
        subst h1
        rw [mk_subParts]
        exact r2

theorem newUriPathPart_subsNamed (compile : String → Option Regexp) (t : template)
    (s : String) (sps : List SubPart) (pt : pathPart) (t1 : template)
    (h : t.newUriPathPart compile s sps = (.ok pt, t1)) :
    ∀ n ∈ subVarNames pt.subParts, n ≠ "" := by
  unfold template.newUriPathPart at h
  split at h
  · split_ifs at h with h1 h2
    · simp only [Prod.mk.injEq, Except.ok.injEq] at h
      obtain ⟨h3, _⟩ := h
      subst h3
      simp [varPart, mk_subParts, subVarNames]
    · simp only [Prod.mk.injEq, Except.ok.injEq] at h
      obtain ⟨h3, _⟩ := h
      subst h3
      simp [fixedPart, mk_subParts, subVarNames]
    · exact newVarPathPart_subsNamed _ _ _ _ _ h
  · exact newVarPathPart_subsNamed _ _ _ _ _ h

theorem parseLoop_subsNamed (compile : String → Option Regexp) (segs : List Segment)
    (t : template) (ht : subsNamed t.pathParts)
    (h : (parseLoop compile segs t).1 = none) :
    subsNamed (parseLoop compile segs t).2.pathParts := by
  induction segs generalizing t with
  | nil => simpa [parseLoop] using ht
  | cons seg rest ih =>
    unfold parseLoop at h ⊢
    cases he : t.newUriPathPart compile seg.s seg.subParts with
    | mk r t1 =>
      cases r with
      | error e => simp [he] at h
      | ok pt =>
        simp only [he] at h ⊢
        obtain ⟨_, h2, _, _⟩ := newUriPathPart_ok _ _ _ _ _ _ he
        apply ih _ _ h
        intro x hx
        simp only [h2] at hx
        rcases List.mem_append.mp hx with hx | hx
        · exact ht x hx
        · simp at hx; subst hx; exact newUriPathPart_subsNamed _ _ _ _ _ _ he

theorem NewTemplate_subsNamed (split : String → SplitRun) (compile : String → Option Regexp)
    (path : String) (options : List AnyOption) (t : template)
    (h : NewTemplate split compile path options = .ok t) : subsNamed t.pathParts := by
  obtain ⟨_, herr, _, ht⟩ := parse_ok split compile _ t h
  have hs := parseLoop_subsNamed compile _ _ (by intro x hx; simp at hx) herr
  rw [ht]
  split_ifs
  · exact hs
  · exact hs

theorem subsNamed_counts (parts : List pathPart) (h : subsNamed parts) :
    posVarsOf parts = (varNames parts).countP (fun n => n = "") ∧
    nameVarsOf parts = (varNames parts).countP (fun n => n ≠ "") := by
  induction parts with
  | nil => exact ⟨rfl, rfl⟩
  | cons pt rest ih =>
    obtain ⟨h1, h2⟩ := ih (fun x hx => h x (List.mem_cons_of_mem _ hx))
    have hpt := h pt (List.mem_cons_self _ _)
    simp only [posVarsOf, nameVarsOf, varNames]
    cases hf : pt.fixed with
    | true => simp [h1, h2]
    | false =>
      cases hs : pt.subParts.isEmpty with
      | true =>
        by_cases hn : pt.name = ""
        · simp [h1, h2, hn]
          omega
        · simp [h1, h2, hn]
          omega
      | false =>
        obtain ⟨c1, c2⟩ := countP_named_all _ hpt
        simp only [Bool.false_eq_true, if_false, false_and, and_false, List.countP_append,
          c1, c2, h1, h2, subVars_length]
        simp


/-! ### The results a positional container gives -/

theorem getVar_positional_missing (tr : positionsTracker) (pt : pathPart) (pv : pathVars)
    (hv : tr.vars = some pv) (hp : pv.varsType = PathVarsType.Positions)
    (hget : (pv.all.map (fun v => v.Value))[tr.varPosition]? = none) :
    tr.getVar pt = (.error ("no var for varPosition " ++ toString (tr.varPosition + 1)), tr) := by
  unfold positionsTracker.getVar
  simp only [hv, pathVars.VarsType, hp, if_true, pathVars.GetPositional, lookupAt_nat, hget,
    Bool.false_eq_true, if_false]

theorem outcomes_positional (vs : List pathPart) (tr : positionsTracker) (pv : pathVars)
    (hv : tr.vars = some pv) (hp : pv.varsType = PathVarsType.Positions)
    (hok : ∀ v ∈ pv.all, (getValueIf v.Value).2 = true)
    (hk : tr.varPosition ≤ pv.all.length) :
    (outcomes vs tr).1 =
      (((pv.all.map (fun v => (getValueIf v.Value).1)).drop tr.varPosition).take vs.length).map
          Except.ok ++
        List.replicate (vs.length - (pv.all.length - tr.varPosition))
          (.error ("no var for varPosition " ++ toString (pv.all.length + 1))) := by
  induction vs generalizing tr with
  | nil => simp [outcomes]
  | cons v rest ih =>
    rw [outcomes]
    dsimp only
    by_cases hc : tr.varPosition < pv.all.length
    · have hget : (pv.all.map (fun v => v.Value))[tr.varPosition]? =
          some pv.all[tr.varPosition].Value := by
        simp [List.getElem?_eq_getElem hc]
      have hok1 := hok _ (List.getElem_mem hc)
      rw [getVar_positional tr v pv hv hp _ hget hok1]
      dsimp only
      rw [ih { tr with varPosition := tr.varPosition + 1 } hv (by show tr.varPosition + 1 ≤ _; omega)]
      have hd : (pv.all.map (fun v => (getValueIf v.Value).1)).drop tr.varPosition =
          (getValueIf pv.all[tr.varPosition].Value).1 ::
            (pv.all.map (fun v => (getValueIf v.Value).1)).drop (tr.varPosition + 1) := by
        rw [List.drop_eq_getElem_cons (by simpa using hc)]
        simp
      rw [hd]
      simp only [List.length_cons, List.take_succ_cons, List.map_cons, List.cons_append]
      have : rest.length + 1 - (pv.all.length - tr.varPosition)
          = rest.length - (pv.all.length - (tr.varPosition + 1)) := by omega
      rw [this]
    · have hkm : tr.varPosition = pv.all.length := by omega
      have hget : (pv.all.map (fun v => v.Value))[tr.varPosition]? = none := by
        simp [List.getElem?_eq_none, hkm]
      rw [getVar_positional_missing tr v pv hv hp hget]
      dsimp only
      have hdn : (pv.all.map (fun v => (getValueIf v.Value).1)).drop pv.all.length = [] :=
        List.drop_eq_nil_of_le (by simp)
      rw [ih tr hv hk, hkm, hdn]
      simp [List.replicate_succ]

theorem firstError_values (a : List String) (j : Nat) (e : String) :
    firstError (a.map Except.ok ++ List.replicate j (.error e)) =
      if j = 0 then none else some e := by
  induction a with
  | nil =>
    cases j with
    | zero => rfl
    | succ j => simp [List.replicate_succ, firstError]
  | cons x rest ih => simpa [firstError] using ih

theorem okValues_values (a : List String) (j : Nat) (e : String) :
    okValues (a.map Except.ok ++ List.replicate j (.error e)) = a := by
  induction a with
  | nil =>
    induction j with
    | zero => rfl
    | succ j ih => simpa [List.replicate_succ, okValues] using ih
  | cons x rest ih => simpa [okValues] using ih

theorem outcomes_Positional (vs : List pathPart) (xs : List String) :
    (outcomes vs (startTracker (some (Positional (xs.map Value.str))) [])).1 =
      (xs.take vs.length).map Except.ok ++
        List.replicate (vs.length - xs.length)
          (.error ("no var for varPosition " ++ toString (xs.length + 1))) := by
  obtain ⟨h1, h2, h3⟩ := positional_str_texts xs
  have h := outcomes_positional vs (startTracker (some (Positional (xs.map Value.str))) [])
    (Positional (xs.map Value.str)) rfl (Positional_spec _).1 h2 (Nat.zero_le _)
  have h4 := h3 0
  simp only [List.drop_zero] at h4
  rw [h, h1]
  simp only [startTracker, List.drop_zero, h4, Nat.sub_zero]

theorem PathFrom_positional_missing (t : template) (xs : List String)
    (h : xs.length < (varNames t.pathParts).length) :
    t.PathFrom (some (Positional (xs.map Value.str))) []
      = .error ("no var for varPosition " ++ toString (xs.length + 1)) := by
  rw [PathFrom_outcomes, outcomes_Positional, firstError_values, varParts_length]
  have : ¬ ((varNames t.pathParts).length - xs.length = 0) := by omega
  rw [if_neg this]

/-! ### Building from a partly resolved part list -/

theorem unresolvedVars_values (vs : List pathPart) (o : List (Except String String))
    (hl : o.length = vs.length) (h : o.all isValue = true) : unresolvedVars vs o = [] := by
  induction vs generalizing o with
  | nil => rfl
  | cons v rest ih =>
    cases o with
    | nil => simp at hl
    | cons x o1 =>
      cases x with
      | error e => simp [isValue] at h
      | ok s =>
        simp only [List.length_cons, Nat.add_right_cancel_iff] at hl
        simp only [List.all_cons, isValue, Bool.true_and] at h
        simp only [unresolvedVars, valueAt, List.drop_succ_cons, List.drop_zero]
        exact ih o1 hl h

theorem unresolvedVars_append (a b : List pathPart) (o : List (Except String String))
    (hl : a.length ≤ o.length) :
    unresolvedVars (a ++ b) o =
      unresolvedVars a (o.take a.length) ++ unresolvedVars b (o.drop a.length) := by
  induction a generalizing o with
  | nil => simp [unresolvedVars]
  | cons v rest ih =>
    cases o with
    | nil => simp at hl
    | cons x o1 =>
      simp only [List.length_cons, Nat.add_le_add_iff_right] at hl
      cases x with
      | ok s =>
        simp only [List.cons_append, unresolvedVars, valueAt, List.drop_succ_cons, List.drop_zero,
          List.length_cons, List.take_succ_cons, List.append_eq]
        exact ih o1 hl
      | error e =>
        simp only [List.cons_append, unresolvedVars, valueAt, List.drop_succ_cons, List.drop_zero,
          List.length_cons, List.take_succ_cons, List.append_eq]
        rw [ih o1 hl]

theorem varParts_fillParts (parts : List pathPart) (o : List (Except String String))
    (hl : o.length = (varParts parts).length) :
    varParts (fillParts parts o) = unresolvedVars (varParts parts) o := by
  induction parts generalizing o with
  | nil => rfl
  | cons pt rest ih =>
    rw [fillParts]
    cases hf : pt.fixed with
    | true =>
      simp only [varParts, hf, if_true] at hl ⊢
      exact ih o hl
    | false =>
      cases hs : pt.subParts.isEmpty with
      | true =>
        simp only [varParts, hf, hs, Bool.false_eq_true, if_false, if_true,
          List.length_cons] at hl ⊢
        cases o with
        | nil => simp at hl
        | cons x o1 =>
          simp only [List.length_cons, Nat.add_right_cancel_iff] at hl
          cases x with
          | ok s =>
            simp only [fillVar_ok, fixedPart, mk_fixed, if_true, unresolvedVars, valueAt,
              List.drop_succ_cons, List.drop_zero]
            exact ih o1 hl
          | error e =>
            simp only [fillVar_error, hf, hs, Bool.false_eq_true, if_false, if_true,
              unresolvedVars, valueAt, List.drop_succ_cons, List.drop_zero]
            rw [ih o1 hl]
      | false =>
        simp only [varParts, hf, hs, Bool.false_eq_true, if_false, List.length_append] at hl ⊢
        have hl1 : (o.take (subVars pt.subParts).length).length = (subVars pt.subParts).length := by
          rw [List.length_take]; omega
        have hl2 : (o.drop (subVars pt.subParts).length).length = (varParts rest).length := by
          rw [List.length_drop]; omega
        rw [unresolvedVars_append _ _ _ (by omega)]
        by_cases hall : (o.take (subVars pt.subParts).length).all isValue = true
        · rw [if_pos hall, unresolvedVars_values _ _ hl1 hall]
          simp only [fixedPart, mk_fixed, if_true, List.nil_append]
          exact ih _ hl2
        · rw [if_neg hall]
          have hne : (fillSubs pt.subParts (o.take (subVars pt.subParts).length)).isEmpty
              = false := by
            cases h : (fillSubs pt.subParts (o.take (subVars pt.subParts).length)).isEmpty
            · rfl
            · have h0 := (isEmpty_iff_length _).mp h
              rw [fillSubs_length] at h0
              rw [(isEmpty_iff_length _).mpr h0] at hs
              exact absurd hs (by simp)
          simp only [mk_fixed, mk_subParts, hne, Bool.false_eq_true, if_false]
          rw [subVars_fillSubs, ih _ hl2]

theorem mergeValues_length (o : List (Except String String)) (vals : List String) :
    (mergeValues o vals).length = o.length := by
  induction o generalizing vals with
  | nil => rfl
  | cons x rest ih => cases x <;> simp [mergeValues, ih]

theorem mergeValues_append (a b : List (Except String String)) (vals : List String) :
    mergeValues (a ++ b) vals =
      mergeValues a vals ++ mergeValues b (vals.drop (a.countP (fun x => !isValue x))) := by
  induction a generalizing vals with
  | nil => simp [mergeValues]
  | cons x rest ih =>
    cases x with
    | ok s =>
      rw [List.countP_cons_of_neg _ _ (by simp [isValue])]
      simp only [List.cons_append, mergeValues, List.append_eq, ih]
    | error e =>
      rw [List.countP_cons_of_pos _ _ (by simp [isValue])]
      simp only [List.cons_append, mergeValues, List.append_eq, ih, List.drop_drop]
      rw [Nat.add_comm]

theorem mergeValues_values (o : List (Except String String)) (vals : List String)
    (h : firstError o = none) : mergeValues o vals = okValues o := by
  induction o with
  | nil => rfl
  | cons x rest ih =>
    cases x with
    | ok s => simp only [mergeValues, okValues, ih (by simpa [firstError] using h)]
    | error e => simp [firstError] at h

theorem specSubText_fillSubs (sps : List pathPart) (o : List (Except String String))
    (vals : List String) (hl : o.length = (subVars sps).length) :
    specSubText (fillSubs sps o) vals = specSubText sps (mergeValues o vals) := by
  induction sps generalizing o vals with
  | nil => rfl
  | cons sp rest ih =>
    rw [fillSubs]
    cases hf : sp.fixed with
    | true =>
      simp only [subVars, hf, if_true] at hl ⊢
      simp only [specSubText, hf, if_true, ih o vals hl]
    | false =>
      simp only [subVars, hf, Bool.false_eq_true, if_false, List.length_cons] at hl ⊢
      cases o with
      | nil => simp at hl
      | cons x o1 =>
        simp only [List.length_cons, Nat.add_right_cancel_iff] at hl
        cases x with
        | ok s =>
          simp only [fillVar_ok, specSubText, fixedPart, mk_fixed, mk_fixedValue, if_true, hf,
            Bool.false_eq_true, if_false, mergeValues, List.headD_cons, List.drop_succ_cons,
            List.drop_zero, ih o1 vals hl]
        | error e =>
          simp only [fillVar_error, specSubText, hf, Bool.false_eq_true, if_false, mergeValues,
            List.headD_cons, List.drop_succ_cons, List.drop_zero, ih o1 _ hl]

theorem specPath_fillParts (parts : List pathPart) (o : List (Except String String))
    (vals : List String) (hl : o.length = (varParts parts).length) :
    specPath (fillParts parts o) vals = specPath parts (mergeValues o vals) := by
  induction parts generalizing o vals with
  | nil => rfl
  | cons pt rest ih =>
    rw [fillParts]
    cases hf : pt.fixed with
    | true =>
      simp only [varParts, hf, if_true] at hl ⊢
      simp only [specPath, hf, if_true, ih o vals hl]
    | false =>
      cases hs : pt.subParts.isEmpty with
      | true =>
        simp only [varParts, hf, hs, Bool.false_eq_true, if_false, if_true,
          List.length_cons] at hl ⊢
        cases o with
        | nil => simp at hl
        | cons x o1 =>
          simp only [List.length_cons, Nat.add_right_cancel_iff] at hl
          cases x with
          | ok s =>
            simp only [fillVar_ok, specPath, fixedPart, mk_fixed, mk_fixedValue, if_true, hf, hs,
              Bool.false_eq_true, if_false, mergeValues, List.headD_cons, List.drop_succ_cons,
              List.drop_zero, ih o1 vals hl]
          | error e =>
            simp only [fillVar_error, specPath, hf, hs, Bool.false_eq_true, if_false, if_true,
              mergeValues, List.headD_cons, List.drop_succ_cons, List.drop_zero, ih o1 _ hl]
      | false =>
        simp only [varParts, hf, hs, Bool.false_eq_true, if_false, List.length_append] at hl ⊢
        have hl1 : (o.take (subVars pt.subParts).length).length = (subVars pt.subParts).length := by
          rw [List.length_take]; omega
        have hl2 : (o.drop (subVars pt.subParts).length).length = (varParts rest).length := by
          rw [List.length_drop]; omega
        have hm : mergeValues o vals =
            mergeValues (o.take (subVars pt.subParts).length) vals ++
              mergeValues (o.drop (subVars pt.subParts).length)
                (vals.drop ((o.take (subVars pt.subParts).length).countP (fun x => !isValue x))) := by
          rw [← mergeValues_append, List.take_append_drop]
        have hml : (mergeValues (o.take (subVars pt.subParts).length) vals).length
            = (subVarNames pt.subParts).length := by
          rw [mergeValues_length, hl1, subVars_length]
        conv_rhs => rw [specPath]
        simp only [hf, hs, Bool.false_eq_true, if_false]
        rw [hm, specSubText_append _ _ _ hml, ← hml, List.drop_left]
        by_cases hall : (o.take (subVars pt.subParts).length).all isValue = true
        · rw [if_pos hall]
          have he1 := (firstError_none_all _).mpr hall
          have hz := (all_isValue_iff _).mp hall
          rw [hz, List.drop_zero, mergeValues_values _ _ he1,
            ← fillSubs_values _ _ he1 hl1, ← ih _ vals hl2]
          simp only [specPath, fixedPart, mk_fixed, mk_fixedValue, if_true]
        · rw [if_neg hall]
          have hne : (fillSubs pt.subParts (o.take (subVars pt.subParts).length)).isEmpty
              = false := by
            cases h : (fillSubs pt.subParts (o.take (subVars pt.subParts).length)).isEmpty
            · rfl
            · have h0 := (isEmpty_iff_length _).mp h
              rw [fillSubs_length] at h0
              rw [(isEmpty_iff_length _).mpr h0] at hs
              exact absurd hs (by simp)
          have hcnt : (subVarNames (fillSubs pt.subParts
              (o.take (subVars pt.subParts).length))).length
              = (o.take (subVars pt.subParts).length).countP (fun x => !isValue x) := by
            rw [← subVars_length, subVars_fillSubs, unresolvedVars_length _ _ hl1]
          simp only [specPath, mk_fixed, mk_subParts, hne, Bool.false_eq_true, if_false]
          rw [specSubText_fillSubs _ _ _ hl1, hcnt, ih _ _ hl2]

theorem countP_values (a : List String) (j : Nat) (e : String) :
    (a.map Except.ok ++ List.replicate j (Except.error e : Except String String)).countP
      (fun x => !isValue x) = j := by
  induction a with
  | nil =>
    induction j with
    | zero => rfl
    | succ j ih =>
      rw [List.map_nil, List.nil_append] at ih
      rw [List.map_nil, List.nil_append, List.replicate_succ,
        List.countP_cons_of_pos _ _ (by simp [isValue]), ih]
  | cons x rest ih =>
    rw [List.map_cons, List.cons_append, List.countP_cons_of_neg _ _ (by simp [isValue])]
    exact ih

theorem mergeValues_replicate (a : List String) (j : Nat) (e : String) (vals : List String)
    (h : vals.length = j) :
    mergeValues (a.map Except.ok ++ List.replicate j (Except.error e)) vals = a ++ vals := by
  induction a with
  | nil =>
    induction j generalizing vals with
    | zero =>
      have : vals = [] := List.length_eq_zero.mp h
      subst this
      rfl
    | succ j ih =>
      cases vals with
      | nil => simp at h
      | cons v vals1 =>
        simp only [List.length_cons, Nat.add_right_cancel_iff] at h
        have := ih vals1 h
        simp only [List.map_nil, List.nil_append] at this ⊢
        rw [List.replicate_succ, mergeValues, List.headD_cons, List.drop_succ_cons,
          List.drop_zero, this]
  | cons x rest ih =>
    rw [List.map_cons, List.cons_append, mergeValues, ih]
    rfl

/-! ### The first value a named container lacks -/

theorem outcomes_supply (I : positionsTracker → List (String × String) → Prop)
    (hstep : ∀ tr n x rest pt, I tr ((n, x) :: rest) → pt.name = n →
      ∃ tr1, tr.getVar pt = (.ok x, tr1) ∧ I tr1 rest)
    (vs : List pathPart) (tr : positionsTracker) (l rest : List (String × String))
    (hl : l.map Prod.fst = vs.map (fun v => v.name)) (hI : I tr (l ++ rest)) :
    (outcomes vs tr).1 = l.map (fun p => Except.ok p.2) ∧ I (outcomes vs tr).2 rest := by
  induction vs generalizing tr l with
  | nil =>
    simp only [List.map_nil, List.map_eq_nil_iff] at hl
    subst hl
    exact ⟨rfl, hI⟩
  | cons v vs ih =>
    cases l with
    | nil => simp at hl
    | cons p l1 =>
      obtain ⟨n, x⟩ := p
      simp only [List.map_cons, List.cons.injEq] at hl
      obtain ⟨tr1, hg, hI1⟩ := hstep tr n x (l1 ++ rest) v hI hl.1.symm
      obtain ⟨h1, h2⟩ := ih tr1 l1 hl.2 hI1
      rw [outcomes, hg]
      exact ⟨by rw [h1]; rfl, h2⟩

theorem getVar_named_missing (tr : positionsTracker) (pt : pathPart) (pv : pathVars)
    (hv : tr.vars = some pv) (hp : pv.varsType = PathVarsType.Names)
    (hmiss : (match ((pv.named pt.name).map (fun v => v.Value))[tr.namedPositions pt.name]? with
      | some v => (getValueIf v).2
      | none => false) = false) :
    (tr.getVar pt).1 = .error
      (if tr.namedPositions pt.name = 0 then "no var for '" ++ pt.name ++ "'"
       else "no var for '" ++ pt.name ++ "' (varPosition " ++
        toString (tr.namedPositions pt.name + 1) ++ ")") := by
  unfold positionsTracker.getVar
  have hne : ¬ (PathVarsType.Names = PathVarsType.Positions) := by decide
  have h2 : (pv.GetNamed pt.name (tr.namedPositions pt.name : Int)).2 = false := by
    show (lookupAt (pv.named pt.name) _).2 = false
    rw [lookupAt_nat]
    cases hget : ((pv.named pt.name).map (fun v => v.Value))[tr.namedPositions pt.name]? with
    | none => rfl
    | some v => rw [hget] at hmiss; exact hmiss
  simp only [hv, pathVars.VarsType, hp, hne, if_false, h2, Bool.false_eq_true]
  split_ifs <;> rfl

theorem nameAt_take (names : List String) (j i : Nat) (h : i < j) :
    nameAt (names.take j) i = nameAt names i := by
  simp [nameAt, List.getElem?_take, h]

theorem occurrence_take (names : List String) (j i : Nat) (h : i < j) :
    occurrence (names.take j) i = occurrence names i := by
  unfold occurrence
  rw [nameAt_take _ _ _ h, List.take_take, Nat.min_eq_left (by omega)]

theorem namedAvail_take (pairs : List (String × Value)) (names : List String) (j i : Nat)
    (h : i < j) : namedAvail pairs (names.take j) i = namedAvail pairs names i := by
  unfold namedAvail
  rw [nameAt_take _ _ _ h, occurrence_take _ _ _ h]

theorem PathFrom_named_missing (t : template) (pairs : List (String × Value)) (j : Nat)
    (hj : j < (varNames t.pathParts).length)
    (havail : ∀ i, i < j → namedAvail pairs (varNames t.pathParts) i = true)
    (hmiss : namedAvail pairs (varNames t.pathParts) j = false) :
    t.PathFrom (some (Named pairs)) [] = .error (namedMissing (varNames t.pathParts) j) := by
  obtain ⟨hp, hnamed⟩ := Named_spec pairs
  have hjv : j < (varParts t.pathParts).length := by rw [varParts_length]; exact hj
  have hsplit : varParts t.pathParts = (varParts t.pathParts).take j ++
      ((varParts t.pathParts)[j] :: (varParts t.pathParts).drop (j + 1)) := by
    rw [← List.drop_eq_getElem_cons hjv, List.take_append_drop]
  have hnames : (varNames t.pathParts).take j
      = ((varParts t.pathParts).take j).map (fun v => v.name) := by
    rw [varNames_varParts, List.map_take]
  have hlen : ((varNames t.pathParts).take j).length = j := by
    rw [List.length_take]; omega
  have hI : namedSupply (Named pairs) pairs ((varNames t.pathParts).take j)
      (startTracker (some (Named pairs)) [])
      ((List.range' 0 j).map (fun i => (nameAt ((varNames t.pathParts).take j) i,
          namedText pairs ((varNames t.pathParts).take j) i)) ++ []) := by
    refine ⟨rfl, hp, rfl, hnamed, ?_, 0, by simp [hlen], by simp, by simp [startTracker]⟩
    intro i hi
    rw [hlen] at hi
    rw [namedAvail_take _ _ _ _ hi]
    exact havail i hi
  have hl : ((List.range' 0 j).map (fun i => (nameAt ((varNames t.pathParts).take j) i,
      namedText pairs ((varNames t.pathParts).take j) i))).map Prod.fst
        = ((varParts t.pathParts).take j).map (fun v => v.name) := by
    rw [← hnames]
    simp only [List.map_map, Function.comp_def]
    apply List.ext_getElem
    · simp [hlen]
    · intro i h1 h2
      simp [nameAt, List.getElem?_eq_getElem h2]
  obtain ⟨ho, hI1⟩ := outcomes_supply (namedSupply (Named pairs) pairs ((varNames t.pathParts).take j))
    (namedSupply_step _ _ _) ((varParts t.pathParts).take j) _ _ [] hl hI
  obtain ⟨hv1, _, _, _, _, j1, hj1, _, hcnt⟩ := hI1
  simp only [List.length_nil, Nat.add_zero] at hj1
  rw [hj1, List.take_of_length_le (Nat.le_refl _)] at hcnt
  have hname : (varParts t.pathParts)[j].name = nameAt (varNames t.pathParts) j := by
    simp [nameAt, varNames_varParts, List.getElem?_eq_getElem hjv]
  have hnp : (outcomes ((varParts t.pathParts).take j) (startTracker (some (Named pairs)) [])).2.namedPositions
      (varParts t.pathParts)[j].name = occurrence (varNames t.pathParts) j := by
    rw [hcnt, hname]
    rfl
  have hg := getVar_named_missing
    (outcomes ((varParts t.pathParts).take j) (startTracker (some (Named pairs)) [])).2
    (varParts t.pathParts)[j] (Named pairs) hv1 hp (by
      rw [hnamed, hnp, hname]
      exact hmiss)
  rw [hnp, hname] at hg
  rw [PathFrom_outcomes, hsplit, outcomes_append]
  dsimp only
  rw [firstError_append, ho]
  have hfe : firstError (((List.range' 0 j).map (fun i => (nameAt ((varNames t.pathParts).take j) i,
      namedText pairs ((varNames t.pathParts).take j) i))).map
        (fun p => (Except.ok p.2 : Except String String))) = none := by
    rw [firstError_none_all]
    simp [isValue]
  rw [hfe]
  dsimp only
  rw [outcomes]
  dsimp only
  rw [hg]
  rfl


/-! ### `sort.Strings` returns the names in ascending order -/

theorem charsLe_total (a b : List Char) : charsLe a b = true ∨ charsLe b a = true := by
  induction a generalizing b with
  | nil => exact Or.inl rfl
  | cons x as ih =>
    cases b with
    | nil => exact Or.inr rfl
    | cons y bs =>
      simp only [charsLe]
      by_cases h1 : x.toNat < y.toNat
      · exact Or.inl (by simp [h1])
      · by_cases h2 : y.toNat < x.toNat
        · exact Or.inr (by simp [h2])
        · simp only [h1, h2, if_false]
          exact ih bs

theorem charsLe_trans (a b c : List Char) (h1 : charsLe a b = true) (h2 : charsLe b c = true) :
    charsLe a c = true := by
  induction a generalizing b c with
  | nil => rfl
  | cons x as ih =>
    cases b with
    | nil => simp [charsLe] at h1
    | cons y bs =>
      cases c with
      | nil => simp [charsLe] at h2
      | cons z cs =>
        simp only [charsLe] at h1 h2 ⊢
        by_cases hxy : x.toNat < y.toNat
        · by_cases hyz : y.toNat < z.toNat
          · have : x.toNat < z.toNat := by omega
            simp [this]
          · by_cases hzy : z.toNat < y.toNat
            · simp [hyz, hzy] at h2
            · have : x.toNat < z.toNat := by omega
              simp [this]
        · by_cases hyx : y.toNat < x.toNat
          · simp [hxy, hyx] at h1
          · simp only [hxy, hyx, if_false] at h1
            by_cases hyz : y.toNat < z.toNat
            · have : x.toNat < z.toNat := by omega
              simp [this]
            · by_cases hzy : z.toNat < y.toNat
              · simp [hyz, hzy] at h2
              · simp only [hyz, hzy, if_false] at h2
                have e1 : ¬ x.toNat < z.toNat := by omega
                have e2 : ¬ z.toNat < x.toNat := by omega
                simp only [e1, e2, if_false]
                exact ih bs cs h1 h2

theorem sort_Strings_insertionSort (l : List String) :
    sort_Strings l = List.insertionSort (fun a b => strLe a b = true) l := by
  have hins : ∀ (x : String) (l : List String),
      insertSorted x l = List.orderedInsert (fun a b => strLe a b = true) x l := by
    intro x l
    induction l with
    | nil => rfl
    | cons y rest ih => simp only [insertSorted, List.orderedInsert, ih]
  induction l with
  | nil => rfl
  | cons x rest ih => simp only [sort_Strings, List.insertionSort, ih, hins]

theorem sort_Strings_sorted (l : List String) :
    (sort_Strings l).Perm l ∧ List.Sorted (fun a b => strLe a b = true) (sort_Strings l) := by
  haveI : IsTotal String (fun a b => strLe a b = true) :=
    ⟨fun a b => charsLe_total a.data b.data⟩
  haveI : IsTrans String (fun a b => strLe a b = true) :=
    ⟨fun a b c h1 h2 => charsLe_trans a.data b.data c.data h1 h2⟩
  rw [sort_Strings_insertionSort]
  exact ⟨List.perm_insertionSort _ l, List.sorted_insertionSort _ l⟩

/-! ### The query builder -/

theorem appendEntry_empty (e : String) :
    "" ++ ampersandOrQuestionMark (("" : String).length == 0) ++ e = specQuery [e] := by
  simp [ampersandOrQuestionMark, specQuery, joinAmp]

theorem joinAmp_snoc (es : List String) (e : String) (h : es ≠ []) :
    joinAmp (es ++ [e]) = joinAmp es ++ "&" ++ e := by
  induction es with
  | nil => exact absurd rfl h
  | cons x rest ih =>
    cases rest with
    | nil => simp [joinAmp]
    | cons y rest1 =>
      have := ih (by simp)
      simp only [List.cons_append] at this ⊢
      simp only [joinAmp, this, String.append_assoc]

theorem appendEntry_spec (es : List String) (e : String) :
    specQuery es ++ ampersandOrQuestionMark ((specQuery es).length == 0) ++ e
      = specQuery (es ++ [e]) := by
  cases es with
  | nil => exact appendEntry_empty e
  | cons x rest =>
    have hq : ("?" : String).length = 1 := rfl
    have hlen : (specQuery (x :: rest)).length ≠ 0 := by
      simp only [specQuery, List.isEmpty_cons, Bool.false_eq_true, if_false,
        String.length_append, hq]
      omega
    have hb : ((specQuery (x :: rest)).length == 0) = false := by
      simpa using hlen
    rw [hb]
    simp only [ampersandOrQuestionMark, Bool.false_eq_true, if_false, specQuery,
      List.isEmpty_cons, List.cons_append]
    have := joinAmp_snoc (x :: rest) e (by simp)
    simp only [List.cons_append] at this
    rw [this]
    simp only [String.append_assoc]

theorem writeValues_spec (name : String) (vs : List Value) (es : List String)
    (hv : ∀ v ∈ vs, v ≠ Value.nil → (getValueIf v).2 = true) :
    writeValues name vs (specQuery es) = .ok (specQuery (es ++ vs.map (queryEntry name))) := by
  induction vs generalizing es with
  | nil => simp [writeValues]
  | cons v rest ih =>
    rw [writeValues]
    have hrest : ∀ w ∈ rest, w ≠ Value.nil → (getValueIf w).2 = true :=
      fun w hw => hv w (List.mem_cons_of_mem _ hw)
    by_cases hn : v = Value.nil
    · subst hn
      simp only [ne_eq, not_true_eq_false, if_false]
      have h1 := appendEntry_spec es (url_QueryEscape name)
      rw [h1, ih _ hrest]
      simp [queryEntry]
    · rw [if_pos hn]
      have hok := hv v (List.mem_cons_self _ _) hn
      simp only [getValue, hok, if_true]
      have h1 := appendEntry_spec es (url_QueryEscape name ++ "=" ++ url_QueryEscape (getValueIf v).1)
      simp only [← String.append_assoc] at h1 ⊢
      rw [h1, ih _ hrest]
      simp [queryEntry, hn, String.append_assoc]

theorem paramsGet_mem (params : List (String × List Value)) (name : String) :
    paramsGet params name = [] ∨ ∃ kv ∈ params, kv.2 = paramsGet params name := by
  induction params with
  | nil => exact Or.inl rfl
  | cons kv rest ih =>
    obtain ⟨k, vs⟩ := kv
    simp only [paramsGet]
    by_cases hk : k = name
    · rw [if_pos hk]
      exact Or.inr ⟨(k, vs), by simp, rfl⟩
    · rw [if_neg hk]
      rcases ih with h | ⟨kv, h1, h2⟩
      · exact Or.inl h
      · exact Or.inr ⟨kv, List.mem_cons_of_mem _ h1, h2⟩

theorem writeNames_spec (params : List (String × List Value)) (names : List String)
    (es : List String)
    (hv : ∀ kv ∈ params, ∀ v ∈ kv.2, v ≠ Value.nil → (getValueIf v).2 = true) :
    writeNames params names (specQuery es) =
      .ok (specQuery (es ++ names.flatMap (fun k => queryEntries k (paramsGet params k)))) := by
  induction names generalizing es with
  | nil => simp [writeNames]
  | cons name rest ih =>
    rw [writeNames]
    have hvals : ∀ v ∈ paramsGet params name, v ≠ Value.nil → (getValueIf v).2 = true := by
      rcases paramsGet_mem params name with h | ⟨kv, h1, h2⟩
      · rw [h]; intro v hv1; simp at hv1
      · rw [← h2]; exact hv kv h1
    by_cases hc : (paramsGet params name).length = 0 ∨
        ((paramsGet params name).length = 1 ∧ (paramsGet params name).head? = some Value.nil)
    · rw [if_pos hc, appendEntry_spec, ih]
      have he : queryEntries name (paramsGet params name) = [url_QueryEscape name] := by
        rcases hc with h0 | ⟨h1, h2⟩
        · rw [List.length_eq_zero.mp h0]; rfl
        · cases hp : paramsGet params name with
          | nil => rw [hp] at h1; simp at h1
          | cons v vs =>
            rw [hp] at h1 h2
            simp only [List.length_cons, Nat.add_left_eq_self, List.length_eq_zero] at h1
            simp only [List.head?_cons, Option.some.injEq] at h2
            subst h1 h2
            simp [queryEntries, queryEntry]
      simp [List.flatMap_cons, he]
    · rw [if_neg hc, writeValues_spec name _ es hvals]
      dsimp only
      rw [ih]
      have he : queryEntries name (paramsGet params name)
          = (paramsGet params name).map (queryEntry name) := by
        have hne : (paramsGet params name).isEmpty = false := by
          cases hp : paramsGet params name with
          | nil => rw [hp] at hc; simp at hc
          | cons _ _ => rfl
        simp [queryEntries, hne]
      simp [List.flatMap_cons, he]


/-! ### The first accepting option decides -/

theorem checkLoop_find (opts : List VarMatchOption) (value : String) (position : Nat)
    (name : String) (rx : Option Regexp) (rxs : String) (pathPos : Nat)
    (vars : Option pathVars) (checked : Nat) :
    ((varMatchOptions.checkLoop opts value position name rx rxs pathPos vars checked).1,
     (varMatchOptions.checkLoop opts value position name rx rxs pathPos vars checked).2.1) =
      (match opts.find? (fun o => o.Applicable value position name rx rxs pathPos vars &&
          (o.Match value position name rx rxs pathPos vars).2) with
        | some o => ((o.Match value position name rx rxs pathPos vars).1, true)
        | none => (value, false)) ∧
    (opts.find? (fun o => o.Applicable value position name rx rxs pathPos vars &&
          (o.Match value position name rx rxs pathPos vars).2) = none →
      (varMatchOptions.checkLoop opts value position name rx rxs pathPos vars checked).2.2 =
        checked + opts.countP (fun o => o.Applicable value position name rx rxs pathPos vars)) := by
  induction opts generalizing checked with
  | nil => simp [varMatchOptions.checkLoop]
  | cons o rest ih =>
    unfold varMatchOptions.checkLoop
    by_cases ha : o.Applicable value position name rx rxs pathPos vars = true
    · by_cases hm : (o.Match value position name rx rxs pathPos vars).2 = true
      · simp [ha, hm, List.find?_cons]
      · simp only [Bool.not_eq_true] at hm
        obtain ⟨h1, h2⟩ := ih (checked + 1)
        have hc : (o :: rest).countP
            (fun o => o.Applicable value position name rx rxs pathPos vars)
            = rest.countP (fun o => o.Applicable value position name rx rxs pathPos vars) + 1 :=
          List.countP_cons_of_pos _ _ ha
        rw [hc]
        simp only [ha, hm, if_true, Bool.false_eq_true, if_false, List.find?_cons,
          Bool.and_false]
        refine ⟨h1, fun hf => ?_⟩
        rw [h2 hf]
        omega
    · simp only [Bool.not_eq_true] at ha
      obtain ⟨h1, h2⟩ := ih checked
      have hna : ¬ o.Applicable value position name rx rxs pathPos vars = true := by
        rw [ha]; simp
      have hc : (o :: rest).countP
          (fun o => o.Applicable value position name rx rxs pathPos vars)
          = rest.countP (fun o => o.Applicable value position name rx rxs pathPos vars) :=
        List.countP_cons_of_neg _ _ hna
      rw [hc]
      simp only [ha, Bool.false_eq_true, if_false, List.find?_cons, Bool.false_and]
      exact ⟨h1, h2⟩

/-! ### Indexed lookup -/

theorem entry_text (vs : List PathVar) (xs : List String)
    (h : vs.map (fun v => v.Value) = xs.map Value.str) (k : Nat) (hk : k < xs.length) :
    (match vs[k]? with
      | some v => getValueIf v.Value
      | none => ("", false)) = (xs.getD k "", true) := by
  have hlen : vs.length = xs.length := by
    have := congrArg List.length h
    simpa using this
  have hk2 : k < vs.length := by omega
  have hv : (vs.map (fun v => v.Value))[k]? = (xs.map Value.str)[k]? := by rw [h]
  simp only [List.getElem?_map, List.getElem?_eq_getElem hk2, List.getElem?_eq_getElem hk,
    Option.map_some', Option.some.injEq] at hv
  simp only [List.getElem?_eq_getElem hk2, hv, getValueIf, List.getD_eq_getElem?_getD,
    List.getElem?_eq_getElem hk, Option.getD_some]

theorem lookupAt_spec (vs : List PathVar) (xs : List String)
    (h : vs.map (fun v => v.Value) = xs.map Value.str) (i : Int) :
    lookupAt vs i = specLookup xs i := by
  have hlen : vs.length = xs.length := by
    have := congrArg List.length h
    simpa using this
  unfold lookupAt specLookup
  rw [hlen]
  by_cases h1 : 0 ≤ i ∧ i < (xs.length : Int)
  · have h2 : ¬ (i < 0 ∧ (xs.length : Int) + i ≥ 0) := by omega
    have h3 : i ≥ 0 ∧ i < (xs.length : Int) := by omega
    rw [if_neg h2, if_pos h3, if_pos h1]
    exact entry_text vs xs h i.toNat (by omega)
  · by_cases h4 : -(xs.length : Int) ≤ i ∧ i < 0
    · have h2 : i < 0 ∧ (xs.length : Int) + i ≥ 0 := by omega
      rw [if_pos h2, if_neg h1, if_pos h4]
      exact entry_text vs xs h ((xs.length : Int) + i).toNat (by omega)
    · have h2 : ¬ (i < 0 ∧ (xs.length : Int) + i ≥ 0) := by omega
      have h3 : ¬ (i ≥ 0 ∧ i < (xs.length : Int)) := by omega
      rw [if_neg h2, if_neg h3, if_neg h1, if_neg h4]

theorem GetNamedFirst_eq (pvs : pathVars) (name : String) :
    pvs.GetNamedFirst name = pvs.GetNamed name 0 := by
  unfold pathVars.GetNamedFirst pathVars.GetNamed lookupAt
  cases h : pvs.named name with
  | nil => simp
  | cons v rest => simp

theorem GetNamedLast_eq (pvs : pathVars) (name : String) :
    pvs.GetNamedLast name = pvs.GetNamed name (-1) := by
  unfold pathVars.GetNamedLast pathVars.GetNamed lookupAt
  cases h : pvs.named name with
  | nil => simp
  | cons v rest =>
    have h1 : ((-1 : Int) < 0 ∧ (((v :: rest).length : Nat) : Int) + -1 ≥ 0) := by
      simp only [List.length_cons, Nat.cast_add, Nat.cast_one]
      omega
    rw [if_pos h1]
    have h2 : ((((v :: rest).length : Nat) : Int) + -1).toNat = rest.length := by
      simp only [List.length_cons, Nat.cast_add, Nat.cast_one]
      omega
    rw [h2, List.getLast?_eq_getElem?]
    simp

/-! ### Positions of the entries of a container -/

theorem positioned_nil (pvs : pathVars) (h : pvs.all = []) : pvs.positioned := by
  intro i hi
  rw [h] at hi
  simp at hi

theorem positioned_snoc (pvs p : pathVars) (x : PathVar) (hp : pvs.positioned)
    (hall : p.all = pvs.all ++ [x]) (hty : p.varsType = pvs.varsType)
    (hpos : x.Position = pvs.all.length)
    (hnp : (p.varsType = PathVarsType.Names ∨ x.Name ≠ "") →
      x.NamedPosition = (pvs.all.filter (fun v => v.Name = x.Name)).length) :
    p.positioned := by
  intro i hi
  have hlen : p.all.length = pvs.all.length + 1 := by rw [hall]; simp
  by_cases hlt : i < pvs.all.length
  · have hget : p.all.get ⟨i, hi⟩ = pvs.all.get ⟨i, hlt⟩ := by
      simp only [List.get_eq_getElem, hall]
      exact List.getElem_append_left hlt
    have htake : p.all.take i = pvs.all.take i := by
      rw [hall, List.take_append_of_le_length (by omega)]
    rw [hget, htake, hty]
    exact hp i hlt
  · have hi2 : i = pvs.all.length := by omega
    subst hi2
    have hget : p.all.get ⟨pvs.all.length, hi⟩ = x := by
      simp only [List.get_eq_getElem, hall]
      simp
    have htake : p.all.take pvs.all.length = pvs.all := by
      rw [hall, List.take_left]
    rw [hget, htake]
    exact ⟨hpos, hnp⟩

/-- What every call keeps true of a container. -/
theorem varsOp_keeps (op : VarsOp) (pvs : pathVars)
    (h : pvs.positioned ∧
      (pvs.varsType = PathVarsType.Names →
        ∀ n, pvs.named n = pvs.all.filter (fun v => v.Name = n)) ∧
      (pvs.varsType = PathVarsType.Positions → ∀ v ∈ pvs.all, v.Name = "")) :
    (op.apply pvs).positioned ∧
      ((op.apply pvs).varsType = PathVarsType.Names →
        ∀ n, (op.apply pvs).named n = (op.apply pvs).all.filter (fun v => v.Name = n)) ∧
      ((op.apply pvs).varsType = PathVarsType.Positions →
        ∀ v ∈ (op.apply pvs).all, v.Name = "") := by
  obtain ⟨h1, h2, h3⟩ := h
  cases op with
  | clear =>
    refine ⟨positioned_nil _ rfl, fun _ n => ?_, fun _ v hv => ?_⟩
    · simp [VarsOp.apply, pathVars.Clear]
    · simp [VarsOp.apply, pathVars.Clear] at hv
  | addPositional val =>
    by_cases hty : pvs.varsType = PathVarsType.Positions
    · have hne : ¬ pvs.varsType = PathVarsType.Names := by rw [hty]; decide
      have happ : VarsOp.apply (.addPositional val) pvs =
          { pvs with all := pvs.all ++ [{ Name := "", NamedPosition := 0,
                                          Position := pvs.all.length, Value := val }] } := by
        simp [VarsOp.apply, pathVars.AddPositionalValue, hty, afterAdd]
      rw [happ]
      refine ⟨positioned_snoc pvs _ _ h1 rfl rfl rfl ?_, fun hn => absurd hn hne, ?_⟩
      · intro hor
        rcases hor with hor | hor
        · exact absurd hor hne
        · exact absurd rfl hor
      · intro _ v hv
        rcases List.mem_append.mp hv with hv | hv
        · exact h3 hty v hv
        · simp at hv; rw [hv]
    · have happ : VarsOp.apply (.addPositional val) pvs = pvs := by
        simp [VarsOp.apply, pathVars.AddPositionalValue, hty, afterAdd]
      rw [happ]
      exact ⟨h1, h2, h3⟩
  | addNamed name val =>
    by_cases hty : pvs.varsType = PathVarsType.Names
    · have hne : ¬ pvs.varsType = PathVarsType.Positions := by rw [hty]; decide
      have happ : VarsOp.apply (.addNamed name val) pvs =
          { pvs with
            named := fun k =>
              if k = name then
                pvs.named name ++ [{ Name := name, NamedPosition := (pvs.named name).length,
                                     Position := pvs.all.length, Value := val }]
              else pvs.named k,
            all := pvs.all ++ [{ Name := name, NamedPosition := (pvs.named name).length,
                                 Position := pvs.all.length, Value := val }] } := by
        simp [VarsOp.apply, pathVars.AddNamedValue, hty, afterAdd]
      rw [happ]
      refine ⟨positioned_snoc pvs _ _ h1 rfl rfl rfl ?_, fun _ n => ?_, fun hn => absurd hn hne⟩
      · intro _
        show (pvs.named name).length = _
        rw [h2 hty name]
      · show (if n = name then _ else _) = _
        by_cases hn : n = name
        · subst hn
          simp [h2 hty n]
        · have hn2 : ¬ name = n := fun h => hn h.symm
          simp [hn, hn2, h2 hty n]
    · have happ : VarsOp.apply (.addNamed name val) pvs = pvs := by
        simp [VarsOp.apply, pathVars.AddNamedValue, hty, afterAdd]
      rw [happ]
      exact ⟨h1, h2, h3⟩

theorem runVarsOps_keeps (ops : List VarsOp) (pvs : pathVars)
    (h : pvs.positioned ∧
      (pvs.varsType = PathVarsType.Names →
        ∀ n, pvs.named n = pvs.all.filter (fun v => v.Name = n)) ∧
      (pvs.varsType = PathVarsType.Positions → ∀ v ∈ pvs.all, v.Name = "")) :
    (runVarsOps pvs ops).positioned ∧
      ((runVarsOps pvs ops).varsType = PathVarsType.Names →
        ∀ n, (runVarsOps pvs ops).named n
          = (runVarsOps pvs ops).all.filter (fun v => v.Name = n)) ∧
      ((runVarsOps pvs ops).varsType = PathVarsType.Positions →
        ∀ v ∈ (runVarsOps pvs ops).all, v.Name = "") := by
  induction ops generalizing pvs with
  | nil => exact h
  | cons op rest ih => exact ih (op.apply pvs) (varsOp_keeps op pvs h)

theorem newPathVars_keeps (ty : PathVarsType) :
    (newPathVars ty).positioned ∧
      ((newPathVars ty).varsType = PathVarsType.Names →
        ∀ n, (newPathVars ty).named n = (newPathVars ty).all.filter (fun v => v.Name = n)) ∧
      ((newPathVars ty).varsType = PathVarsType.Positions →
        ∀ v ∈ (newPathVars ty).all, v.Name = "") :=
  ⟨positioned_nil _ rfl, fun _ _ => rfl, fun _ v hv => by simp [newPathVars] at hv⟩

theorem Positional_ops (vals : List Value) :
    Positional vals = runVarsOps (newPathVars .Positions) (vals.map VarsOp.addPositional) := by
  unfold Positional runVarsOps
  rw [List.foldl_map]
  rfl

theorem Named_ops (pairs : List (String × Value)) :
    Named pairs = runVarsOps (newPathVars .Names)
      (pairs.map (fun nv => VarsOp.addNamed nv.1 nv.2)) := by
  unfold Named runVarsOps
  rw [List.foldl_map]
  rfl

/-! ### `Named` on its raw arguments -/

theorem pairs_induction (P : List Value → Prop) (h0 : P []) (h1 : ∀ x, P [x])
    (h2 : ∀ a b rest, P rest → P (a :: b :: rest)) : ∀ l, P l := by
  have key : ∀ l, P l ∧ ∀ x, P (x :: l) := by
    intro l
    induction l with
    | nil => exact ⟨h0, h1⟩
    | cons y rest ih => exact ⟨ih.2 y, fun x => h2 x y rest ih.1⟩
  exact fun l => (key l).1

theorem namedLoop_spec (args : List Value) :
    ∀ result, namedLoop args result =
      if namedArgsOk args then
        some ((pairsOf args).foldl (fun r nv => afterAdd r (r.AddNamedValue nv.1 nv.2)) result)
      else none := by
  refine pairs_induction (fun args => ∀ result, namedLoop args result =
      if namedArgsOk args then
        some ((pairsOf args).foldl (fun r nv => afterAdd r (r.AddNamedValue nv.1 nv.2)) result)
      else none) ?_ ?_ ?_ args
  · intro result
    rfl
  · intro x result
    cases x <;> rfl
  · intro a b rest ih result
    cases a with
    | str name =>
      simp only [namedLoop, namedArgsOk, pairsOf, List.foldl_cons]
      exact ih _
    | int i => rfl
    | bool b => rfl
    | nil => rfl
    | other r => rfl

theorem namedArgsOk_iff (args : List Value) :
    namedArgsOk args = true ↔
      (args.length % 2 = 0 ∧
        ∀ i, i % 2 = 0 → ∀ v, args[i]? = some v → ∃ s, v = Value.str s) := by
  refine pairs_induction (fun args => namedArgsOk args = true ↔
      (args.length % 2 = 0 ∧
        ∀ i, i % 2 = 0 → ∀ v, args[i]? = some v → ∃ s, v = Value.str s)) ?_ ?_ ?_ args
  · simp [namedArgsOk]
  · intro x
    cases x <;> simp [namedArgsOk]
  · intro a b rest ih
    have hlen : (a :: b :: rest).length % 2 = rest.length % 2 := by
      simp only [List.length_cons]
      omega
    cases a with
    | str name =>
      simp only [namedArgsOk]
      rw [ih, hlen]
      constructor
      · rintro ⟨h1, h2⟩
        refine ⟨h1, fun i hi v hv => ?_⟩
        rcases i with _ | _ | j
        · simp at hv
          exact ⟨name, hv.symm⟩
        · omega
        · simp only [List.getElem?_cons_succ] at hv
          exact h2 j (by omega) v hv
      · rintro ⟨h1, h2⟩
        refine ⟨h1, fun i hi v hv => ?_⟩
        exact h2 (i + 2) (by omega) v (by simpa using hv)
    | int i =>
      simp only [namedArgsOk, Bool.false_eq_true, false_iff, not_and]
      intro _ h2
      obtain ⟨s, hs⟩ := h2 0 rfl (.int i) rfl
      cases hs
    | bool b1 =>
      simp only [namedArgsOk, Bool.false_eq_true, false_iff, not_and]
      intro _ h2
      obtain ⟨s, hs⟩ := h2 0 rfl (.bool b1) rfl
      cases hs
    | nil =>
      simp only [namedArgsOk, Bool.false_eq_true, false_iff, not_and]
      intro _ h2
      obtain ⟨s, hs⟩ := h2 0 rfl .nil rfl
      cases hs
    | other r =>
      simp only [namedArgsOk, Bool.false_eq_true, false_iff, not_and]
      intro _ h2
      obtain ⟨s, hs⟩ := h2 0 rfl (.other r) rfl
      cases hs

theorem pairsOf_args (args : List Value) (h : namedArgsOk args = true) :
    (pairsOf args).flatMap (fun nv => [Value.str nv.1, nv.2]) = args := by
  revert h
  refine pairs_induction (fun args => namedArgsOk args = true →
      (pairsOf args).flatMap (fun nv => [Value.str nv.1, nv.2]) = args) ?_ ?_ ?_ args
  · intro _; rfl
  · intro x h
    cases x <;> simp [namedArgsOk] at h
  · intro a b rest ih h
    cases a with
    | str name =>
      simp only [namedArgsOk] at h
      simp [pairsOf, List.flatMap_cons, ih h]
    | int i => simp [namedArgsOk] at h
    | bool b => simp [namedArgsOk] at h
    | nil => simp [namedArgsOk] at h
    | other r => simp [namedArgsOk] at h

theorem named_fold_entries (pairs : List (String × Value)) (p : pathVars)
    (hp : p.varsType = PathVarsType.Names) :
    (pairs.foldl (fun r nv => afterAdd r (r.AddNamedValue nv.1 nv.2)) p).all.map
        (fun v => (v.Name, v.Value))
      = p.all.map (fun v => (v.Name, v.Value)) ++ pairs := by
  induction pairs generalizing p with
  | nil => simp
  | cons nv rest ih =>
    simp only [List.foldl_cons]
    have h1 : (afterAdd p (p.AddNamedValue nv.1 nv.2)).varsType = PathVarsType.Names := by
      rw [afterAdd_named_varsType, hp]
    rw [ih _ h1]
    simp [pathVars.AddNamedValue, hp, afterAdd]

theorem NamedArgs_spec (args : List Value) :
    NamedArgs args = if namedArgsOk args then some (Named (pairsOf args)) else none := by
  unfold NamedArgs
  by_cases hodd : args.length % 2 ≠ 0
  · rw [if_pos hodd]
    have : ¬ namedArgsOk args = true := by
      intro h
      exact hodd ((namedArgsOk_iff args).mp h).1
    rw [if_neg this]
  · rw [if_neg hodd, namedLoop_spec]
    rfl

/-! ### `setName` -/

theorem setName_receiver (compile : String → Option Regexp) (name : String) (pos : Nat) :
    setName compile name pos =
      match (varPart "").setName compile name pos with
      | (p, none) => .ok p
      | (_, some e) => .error e := by
  unfold setName pathPart.setName
  cases strings_IndexByte name ':' with
  | none =>
    dsimp only
    by_cases h : strings_Trim name ' ' = ""
    · simp [pathPart.withName, pathPart.name, h]
    · simp [pathPart.withName, pathPart.name, h, varPart, pathPart.fixed, pathPart.fixedValue,
        pathPart.subParts, pathPart.regexp, pathPart.orgRegexp]
  | some cAt =>
    dsimp only
    by_cases h : strings_Trim (sliceTo name cAt) ' ' = ""
    · simp [pathPart.withName, pathPart.name, h]
    · by_cases h2 : strings_Trim (sliceFrom name (cAt + 1)) ' ' = ""
      · simp [pathPart.withName, pathPart.withOrgRegexp, pathPart.name, h, h2, varPart,
          pathPart.fixed, pathPart.fixedValue, pathPart.subParts, pathPart.regexp,
          pathPart.orgRegexp]
      · cases hc : compile (addRegexHeadAndTail (strings_Trim (sliceFrom name (cAt + 1)) ' ')) with
        | none =>
          simp [pathPart.withName, pathPart.withOrgRegexp, pathPart.name, h, h2, varPart,
            pathPart.fixed, pathPart.fixedValue, pathPart.subParts, pathPart.regexp,
            pathPart.orgRegexp, hc]
        | some rx =>
          simp [pathPart.withName, pathPart.withOrgRegexp, pathPart.withRegexp, pathPart.name,
            h, h2, varPart, pathPart.fixed, pathPart.fixedValue, pathPart.subParts,
            pathPart.regexp, pathPart.orgRegexp, hc]


/-! ### The composites the parser builds -/

theorem subVars_append (a b : List pathPart) : subVars (a ++ b) = subVars a ++ subVars b := by
  induction a with
  | nil => rfl
  | cons x rest ih =>
    simp only [List.cons_append, subVars]
    split_ifs <;> simp [ih]

theorem newVarPathPartLoop_any (compile : String → Option Regexp) (sps : List SubPart)
    (t : template) (acc : List pathPart) (b : Bool) (out : List pathPart) (any : Bool)
    (t1 : template) (hb : b = true → subVars acc ≠ [])
    (h : newVarPathPartLoop compile sps t acc b = (.ok (out, any), t1)) :
    any = true → subVars out ≠ [] := by
  induction sps generalizing t acc b with
  | nil =>
    simp only [newVarPathPartLoop, Prod.mk.injEq, Except.ok.injEq] at h
    obtain ⟨⟨h1, h2⟩, _⟩ := h
    subst h1 h2
    exact hb
  | cons sp rest ih =>
    unfold newVarPathPartLoop at h
    split_ifs at h with h1 h2
    · split at h
      · simp at h
      · rename_i addPart hset
        obtain ⟨hf, _, _⟩ := setName_ok _ _ _ _ hset
        refine ih (t.addVar addPart) (acc ++ [addPart]) true (fun _ => ?_) h
        rw [subVars_append]
        simp [subVars, hf]
    · refine ih t (acc ++ [fixedPart sp.UnEscaped]) b (fun hb1 => ?_) h
      rw [subVars_append]
      simpa [subVars, fixedPart, mk_fixed] using hb hb1
    · refine ih t (acc ++ [fixedPart sp.String_]) b (fun hb1 => ?_) h
      rw [subVars_append]
      simpa [subVars, fixedPart, mk_fixed] using hb hb1

theorem subVars_mem (sps : List pathPart) (v : pathPart) (h : v ∈ subVars sps) :
    v ∈ sps ∧ v.fixed = false := by
  induction sps with
  | nil => simp [subVars] at h
  | cons sp rest ih =>
    simp only [subVars] at h
    split_ifs at h with hf
    · exact ⟨List.mem_cons_of_mem _ (ih h).1, (ih h).2⟩
    · rcases List.mem_cons.mp h with h | h
      · subst h
        exact ⟨List.mem_cons_self _ _, by simpa using hf⟩
      · exact ⟨List.mem_cons_of_mem _ (ih h).1, (ih h).2⟩

theorem subVars_exists (sps : List pathPart) (h : subVars sps ≠ []) :
    ∃ sp ∈ sps, sp.fixed = false := by
  cases hs : subVars sps with
  | nil => exact absurd hs h
  | cons v rest =>
    have hv : v ∈ subVars sps := by rw [hs]; exact List.mem_cons_self _ _
    exact ⟨v, (subVars_mem sps v hv).1, (subVars_mem sps v hv).2⟩

theorem newVarPathPart_shape (compile : String → Option Regexp) (t : template)
    (sps : List SubPart) (pt : pathPart) (t1 : template)
    (h : t.newVarPathPart compile sps = (.ok pt, t1)) :
    pt.fixed = false → pt.subParts.isEmpty = false → pt.compositeShape := by
  unfold template.newVarPathPart at h
  split at h
  · simp at h
  · rename_i out any t2 hloop
    obtain ⟨r1, r2, r3, r4, r5, r6, r7⟩ := newVarPathPartLoop_ok compile sps t [] false out any t2
      (by simp) (by simp [subVarNames]) (by simp [subVarNames]) (by simp) hloop
    have hany := newVarPathPartLoop_any compile sps t [] false out any t2 (by simp) hloop
    split at h
    · rename_i only
      simp only [Prod.mk.injEq, Except.ok.injEq] at h
      obtain ⟨h1, _⟩ := h
      subst h1
      intro _ hemp
      rw [r1 only (by simp)] at hemp
      simp at hemp
    · rename_i hnot
      cases any with
      | false =>
        simp only [Bool.not_false, if_true, Prod.mk.injEq, Except.ok.injEq] at h
        obtain ⟨h1, _⟩ := h
        subst h1
        intro hf
        simp [fixedPart, mk_fixed] at hf
      | true =>
        simp only [Bool.not_true, Bool.false_eq_true, if_false, Prod.mk.injEq,
          Except.ok.injEq] at h
        obtain ⟨h1, _⟩ := h
        subst h1
        intro _ _
        refine ⟨?_, subVars_exists out (hany rfl), ?_⟩
        · rw [mk_subParts]
          have hne : out ≠ [] := r4 rfl
          cases out with
          | nil => exact absurd rfl hne
          | cons x xs =>
            cases xs with
            | nil => exact absurd rfl (hnot x)
            | cons y ys => simp
        · rw [mk_subParts]
          exact r1

theorem newUriPathPart_shape (compile : String → Option Regexp) (t : template)
    (s : String) (sps : List SubPart) (pt : pathPart) (t1 : template)
    (h : t.newUriPathPart compile s sps = (.ok pt, t1)) :
    pt.fixed = false → pt.subParts.isEmpty = false → pt.compositeShape := by
  unfold template.newUriPathPart at h
  split at h
  · split_ifs at h with h1 h2
    · simp only [Prod.mk.injEq, Except.ok.injEq] at h
      obtain ⟨h3, _⟩ := h
      subst h3
      intro _ hemp
      simp [varPart, mk_subParts] at hemp
    · simp only [Prod.mk.injEq, Except.ok.injEq] at h
      obtain ⟨h3, _⟩ := h
      subst h3
      intro hf
      simp [fixedPart, mk_fixed] at hf
    · exact newVarPathPart_shape _ _ _ _ _ h
  · exact newVarPathPart_shape _ _ _ _ _ h

theorem parseLoop_parts (P : pathPart → Prop) (compile : String → Option Regexp)
    (hP : ∀ t s sps pt t1, template.newUriPathPart compile t s sps = (.ok pt, t1) → P pt)
    (segs : List Segment) (t : template) (ht : ∀ pt ∈ t.pathParts, P pt)
    (h : (parseLoop compile segs t).1 = none) :
    ∀ pt ∈ (parseLoop compile segs t).2.pathParts, P pt := by
  induction segs generalizing t with
  | nil => simpa [parseLoop] using ht
  | cons seg rest ih =>
    unfold parseLoop at h ⊢
    cases he : t.newUriPathPart compile seg.s seg.subParts with
    | mk r t1 =>
      cases r with
      | error e => simp [he] at h
      | ok pt =>
        simp only [he] at h ⊢
        obtain ⟨_, h2, _, _⟩ := newUriPathPart_ok _ _ _ _ _ _ he
        apply ih _ _ h
        intro x hx
        simp only [h2] at hx
        rcases List.mem_append.mp hx with hx | hx
        · exact ht x hx
        · simp at hx; subst hx; exact hP _ _ _ _ _ he

theorem NewTemplate_sound (split : String → SplitRun) (compile : String → Option Regexp)
    (path : String) (options : List AnyOption) (t : template)
    (h : NewTemplate split compile path options = .ok t) : t.sound := by
  obtain ⟨hc, _, _, _⟩ := NewTemplate_counted split compile path options t h
  have hs := NewTemplate_subsNamed split compile path options t h
  obtain ⟨hmix, herr, _, ht⟩ := parse_ok split compile _ t h
  have hshape := parseLoop_parts
    (fun pt => pt.fixed = false → pt.subParts.isEmpty = false → pt.compositeShape) compile
    (fun t s sps pt t1 he => newUriPathPart_shape compile t s sps pt t1 he) _ _
    (by intro x hx; simp at hx) herr
  refine ⟨hc, hs, ?_, ?_⟩
  · rw [ht]
    split_ifs
    · exact hshape
    · exact hshape
  · rw [ht]
    split_ifs
    · exact hmix
    · exact hmix

/-! ### `Sub` and `ResolveTo` keep templates sound -/

theorem Sub_ok (split : String → SplitRun) (compile : String → Option Regexp)
    (base : template) (path : String) (options : List AnyOption) (r : template)
    (h : base.Sub split compile path options = .ok r) :
    ∃ ra, NewTemplate split compile path options = .ok ra ∧
      ¬ ((ra.posVarsCount > 0 ∧ base.nameVarsCount > 0) ∨
         (base.posVarsCount > 0 ∧ ra.nameVarsCount > 0)) ∧
      r.pathParts = base.pathParts ++ ra.pathParts ∧
      r.posVarsCount = base.posVarsCount + ra.posVarsCount ∧
      r.nameVarsCount = base.nameVarsCount + ra.nameVarsCount := by
  unfold template.Sub at h
  cases hn : NewTemplate split compile path options with
  | error e => simp [hn] at h
  | ok ra =>
    simp only [hn] at h
    by_cases hmix : (ra.posVarsCount > 0 ∧ base.nameVarsCount > 0) ∨
        (base.posVarsCount > 0 ∧ ra.nameVarsCount > 0)
    · simp [hmix] at h
    · rw [if_neg hmix] at h
      injection h with h
      subst h
      exact ⟨ra, rfl, hmix, rfl, rfl, rfl⟩

theorem Sub_sound (split : String → SplitRun) (compile : String → Option Regexp)
    (base : template) (path : String) (options : List AnyOption) (r : template)
    (hb : base.sound) (h : base.Sub split compile path options = .ok r) : r.sound := by
  obtain ⟨ra, hra, hmix, hp, hpos, hname⟩ := Sub_ok split compile base path options r h
  obtain ⟨⟨a1, a2, a3⟩, a4, a5, a6⟩ := NewTemplate_sound split compile path options ra hra
  obtain ⟨⟨b1, b2, b3⟩, b4, b5, b6⟩ := hb
  refine ⟨⟨?_, ?_, ?_⟩, ?_, ?_, ?_⟩
  · intro x hx
    rw [hp] at hx
    rcases List.mem_append.mp hx with hx | hx
    · exact b1 x hx
    · exact a1 x hx
  · rw [hname, hp, varNames_append, List.countP_append, a2, b2]
  · rw [hpos, hp, varNames_append, List.countP_append, a3, b3]
  · intro x hx
    rw [hp] at hx
    rcases List.mem_append.mp hx with hx | hx
    · exact b4 x hx
    · exact a4 x hx
  · intro x hx
    rw [hp] at hx
    rcases List.mem_append.mp hx with hx | hx
    · exact b5 x hx
    · exact a5 x hx
  · rw [hpos, hname]
    omega

theorem fillSubs_mem (sps : List pathPart) (o : List (Except String String)) (y : pathPart)
    (h : y ∈ fillSubs sps o) : y ∈ sps ∨ ∃ s, y = fixedPart s := by
  induction sps generalizing o with
  | nil => simp [fillSubs] at h
  | cons sp rest ih =>
    rw [fillSubs] at h
    split_ifs at h with hf
    · rcases List.mem_cons.mp h with h | h
      · exact Or.inl (by rw [h]; exact List.mem_cons_self _ _)
      · rcases ih o h with h | h
        · exact Or.inl (List.mem_cons_of_mem _ h)
        · exact Or.inr h
    · rcases List.mem_cons.mp h with h | h
      · cases o with
        | nil => rw [fillVar_nil] at h; exact Or.inl (by rw [h]; exact List.mem_cons_self _ _)
        | cons x o1 =>
          cases x with
          | ok s => rw [fillVar_ok] at h; exact Or.inr ⟨s, h⟩
          | error e =>
            rw [fillVar_error] at h
            exact Or.inl (by rw [h]; exact List.mem_cons_self _ _)
      · rcases ih _ h with h | h
        · exact Or.inl (List.mem_cons_of_mem _ h)
        · exact Or.inr h

theorem unresolvedVars_mem (vs : List pathPart) (o : List (Except String String))
    (v : pathPart) (h : v ∈ unresolvedVars vs o) : v ∈ vs := by
  induction vs generalizing o with
  | nil => simp [unresolvedVars] at h
  | cons x rest ih =>
    rw [unresolvedVars] at h
    split at h
    · exact List.mem_cons_of_mem _ (ih _ h)
    · rcases List.mem_cons.mp h with h | h
      · rw [h]; exact List.mem_cons_self _ _
      · exact List.mem_cons_of_mem _ (ih _ h)

theorem unresolvedVars_length_le (vs : List pathPart) (o : List (Except String String)) :
    (unresolvedVars vs o).length ≤ vs.length := by
  induction vs generalizing o with
  | nil => simp [unresolvedVars]
  | cons x rest ih =>
    rw [unresolvedVars]
    split
    · have := ih (o.drop 1)
      simp only [List.length_cons]
      omega
    · have := ih (o.drop 1)
      simp only [List.length_cons]
      omega

theorem fillVar_cases (v : pathPart) (o : List (Except String String)) :
    fillVar v o = v ∨ ∃ s, fillVar v o = fixedPart s := by
  cases o with
  | nil => exact Or.inl rfl
  | cons x o1 =>
    cases x with
    | ok s => exact Or.inr ⟨s, rfl⟩
    | error e => exact Or.inl rfl

theorem fillParts_sound (parts : List pathPart) (o : List (Except String String))
    (hflat : ∀ pt ∈ parts, pt.flat = true) (hsn : subsNamed parts)
    (hshape : ∀ pt ∈ parts, pt.fixed = false → pt.subParts.isEmpty = false → pt.compositeShape)
    (hl : o.length = (varParts parts).length) :
    (∀ pt ∈ fillParts parts o, pt.flat = true) ∧ subsNamed (fillParts parts o) ∧
    (∀ pt ∈ fillParts parts o,
      pt.fixed = false → pt.subParts.isEmpty = false → pt.compositeShape) ∧
    posVarsOf (fillParts parts o) ≤ posVarsOf parts ∧
    nameVarsOf (fillParts parts o) ≤ nameVarsOf parts := by
  induction parts generalizing o with
  | nil =>
    refine ⟨?_, ?_, ?_, Nat.le_refl _, Nat.le_refl _⟩
    · intro x hx; simp [fillParts] at hx
    · intro x hx; simp [fillParts] at hx
    · intro x hx; simp [fillParts] at hx
  | cons pt rest ih =>
    have hflat1 : ∀ x ∈ rest, x.flat = true := fun x hx => hflat x (List.mem_cons_of_mem _ hx)
    have hsn1 : subsNamed rest := fun x hx => hsn x (List.mem_cons_of_mem _ hx)
    have hshape1 : ∀ x ∈ rest, x.fixed = false → x.subParts.isEmpty = false →
        x.compositeShape := fun x hx => hshape x (List.mem_cons_of_mem _ hx)
    have hpt1 := hflat pt (List.mem_cons_self _ _)
    have hpt2 := hsn pt (List.mem_cons_self _ _)
    have hpt3 := hshape pt (List.mem_cons_self _ _)
    -- every new head part inherits the three properties
    have hhead : ∀ (x : pathPart) (tail : List pathPart),
        x.flat = true → (∀ n ∈ subVarNames x.subParts, n ≠ "") →
        (x.fixed = false → x.subParts.isEmpty = false → x.compositeShape) →
        ((∀ y ∈ tail, y.flat = true) ∧ subsNamed tail ∧
          (∀ y ∈ tail, y.fixed = false → y.subParts.isEmpty = false → y.compositeShape)) →
        ((∀ y ∈ x :: tail, y.flat = true) ∧ subsNamed (x :: tail) ∧
          (∀ y ∈ x :: tail, y.fixed = false → y.subParts.isEmpty = false →
            y.compositeShape)) := by
      intro x tail hx1 hx2 hx3 ⟨t1, t2, t3⟩
      refine ⟨?_, ?_, ?_⟩
      · intro y hy
        rcases List.mem_cons.mp hy with hy | hy
        · rw [hy]; exact hx1
        · exact t1 y hy
      · intro y hy
        rcases List.mem_cons.mp hy with hy | hy
        · rw [hy]; exact hx2
        · exact t2 y hy
      · intro y hy
        rcases List.mem_cons.mp hy with hy | hy
        · rw [hy]; exact hx3
        · exact t3 y hy
    have hfix : ∀ s, (fixedPart s).flat = true ∧
        (∀ n ∈ subVarNames (fixedPart s).subParts, n ≠ "") ∧
        ((fixedPart s).fixed = false → (fixedPart s).subParts.isEmpty = false →
          (fixedPart s).compositeShape) := by
      intro s
      refine ⟨rfl, ?_, ?_⟩
      · intro n hn; simp [fixedPart, mk_subParts, subVarNames] at hn
      · intro hf; simp [fixedPart, mk_fixed] at hf
    rw [fillParts]
    cases hf : pt.fixed with
    | true =>
      simp only [varParts, hf, if_true] at hl ⊢
      obtain ⟨i1, i2, i3, i4, i5⟩ := ih o hflat1 hsn1 hshape1 hl
      obtain ⟨j1, j2, j3⟩ := hhead pt _ hpt1 hpt2 hpt3 ⟨i1, i2, i3⟩
      refine ⟨j1, j2, j3, ?_, ?_⟩
      · simp only [posVarsOf]; omega
      · simp only [nameVarsOf]; omega
    | false =>
      cases hs : pt.subParts.isEmpty with
      | true =>
        simp only [varParts, hf, hs, Bool.false_eq_true, if_false, if_true,
          List.length_cons] at hl ⊢
        obtain ⟨i1, i2, i3, i4, i5⟩ := ih (o.drop 1) hflat1 hsn1 hshape1
          (by rw [List.length_drop]; omega)
        rcases fillVar_cases pt o with hv | ⟨s, hv⟩
        · rw [hv]
          obtain ⟨j1, j2, j3⟩ := hhead pt _ hpt1 hpt2 hpt3 ⟨i1, i2, i3⟩
          refine ⟨j1, j2, j3, ?_, ?_⟩
          · simp only [posVarsOf]; omega
          · simp only [nameVarsOf]; omega
        · rw [hv]
          obtain ⟨f1, f2, f3⟩ := hfix s
          obtain ⟨j1, j2, j3⟩ := hhead (fixedPart s) _ f1 f2 f3 ⟨i1, i2, i3⟩
          refine ⟨j1, j2, j3, ?_, ?_⟩
          · simp only [posVarsOf, fixedPart, mk_fixed]
            simp only [Bool.true_eq_false, false_and, if_false, Nat.zero_add]
            omega
          · simp only [nameVarsOf, fixedPart, mk_fixed, if_true, Nat.zero_add]
            omega
      | false =>
        simp only [varParts, hf, hs, Bool.false_eq_true, if_false, List.length_append] at hl ⊢
        have hl1 : (o.take (subVars pt.subParts).length).length = (subVars pt.subParts).length := by
          rw [List.length_take]; omega
        obtain ⟨i1, i2, i3, i4, i5⟩ := ih (o.drop (subVars pt.subParts).length) hflat1 hsn1 hshape1
          (by rw [List.length_drop]; omega)
        obtain ⟨c1, c2, c3⟩ := hpt3 hf hs
        by_cases hall : (o.take (subVars pt.subParts).length).all isValue = true
        · rw [if_pos hall]
          obtain ⟨f1, f2, f3⟩ := hfix (concatFixedValues
            (fillSubs pt.subParts (o.take (subVars pt.subParts).length)))
          obtain ⟨j1, j2, j3⟩ := hhead _ _ f1 f2 f3 ⟨i1, i2, i3⟩
          refine ⟨j1, j2, j3, ?_, ?_⟩
          · simp only [posVarsOf, fixedPart, mk_fixed, hf, hs]
            simp only [Bool.true_eq_false, false_and, Bool.false_eq_true, and_false, if_false,
              Nat.zero_add]
            omega
          · simp only [nameVarsOf, fixedPart, mk_fixed, if_true, hf, hs, Bool.false_eq_true,
              if_false]
            omega
        · rw [if_neg hall]
          have hsv := subVars_fillSubs pt.subParts (o.take (subVars pt.subParts).length)
          have hcnt := unresolvedVars_length _ _ hl1
          have hpos : 0 < (o.take (subVars pt.subParts).length).countP (fun x => !isValue x) := by
            rcases Nat.eq_zero_or_pos
              ((o.take (subVars pt.subParts).length).countP (fun x => !isValue x)) with hz | hz
            · exact absurd ((all_isValue_iff _).mpr hz) hall
            · exact hz
          have hx1 : (pathPart.mk false ""
              (fillSubs pt.subParts (o.take (subVars pt.subParts).length)) none "" "").flat
                = true := by
            simp only [pathPart.flat, mk_fixed, mk_subParts, Bool.false_or, List.all_eq_true,
              Bool.or_eq_true, List.isEmpty_iff]
            intro y hy
            rcases fillSubs_mem _ _ _ hy with hy | ⟨s, hy⟩
            · exact flat_subs pt hpt1 hf y hy
            · rw [hy]; exact Or.inl rfl
          have hx2 : ∀ n ∈ subVarNames (pathPart.mk false ""
              (fillSubs pt.subParts (o.take (subVars pt.subParts).length)) none "" "").subParts,
              n ≠ "" := by
            intro n hn
            rw [mk_subParts, subVarNames_subVars, hsv] at hn
            obtain ⟨v, hv, hvn⟩ := List.mem_map.mp hn
            have hv2 := unresolvedVars_mem _ _ _ hv
            apply hpt2 n
            rw [subVarNames_subVars]
            exact List.mem_map.mpr ⟨v, hv2, hvn⟩
          have hx3 : (pathPart.mk false ""
              (fillSubs pt.subParts (o.take (subVars pt.subParts).length)) none "" "").fixed
                = false →
              (pathPart.mk false ""
                (fillSubs pt.subParts (o.take (subVars pt.subParts).length)) none ""
                  "").subParts.isEmpty = false →
              (pathPart.mk false ""
                (fillSubs pt.subParts (o.take (subVars pt.subParts).length)) none ""
                  "").compositeShape := by
            intro _ _
            refine ⟨?_, ?_, ?_⟩
            · rw [mk_subParts, fillSubs_length]; exact c1
            · rw [mk_subParts]
              apply subVars_exists
              intro hnil
              rw [hsv] at hnil
              rw [hnil] at hcnt
              simp only [List.length_nil] at hcnt
              omega
            · intro y hy
              rw [mk_subParts] at hy
              rcases fillSubs_mem _ _ _ hy with hy | ⟨s, hy⟩
              · exact c3 y hy
              · rw [hy]; rfl
          obtain ⟨j1, j2, j3⟩ := hhead _ _ hx1 hx2 hx3 ⟨i1, i2, i3⟩
          have hne : (fillSubs pt.subParts (o.take (subVars pt.subParts).length)).isEmpty
              = false := by
            cases h : (fillSubs pt.subParts (o.take (subVars pt.subParts).length)).isEmpty
            · rfl
            · have h0 := (isEmpty_iff_length _).mp h
              rw [fillSubs_length] at h0
              rw [(isEmpty_iff_length _).mpr h0] at hs
              exact absurd hs (by simp)
          have hle := unresolvedVars_length_le (subVars pt.subParts)
            (o.take (subVars pt.subParts).length)
          refine ⟨j1, j2, j3, ?_, ?_⟩
          · simp only [posVarsOf, mk_fixed, mk_subParts, hne, hf, hs]
            simp only [Bool.false_eq_true, and_false, false_and, if_false, Nat.zero_add]
            omega
          · simp only [nameVarsOf, mk_fixed, mk_subParts, hne, hf, hs, Bool.false_eq_true,
              if_false, hsv]
            omega

theorem ResolveTo_sound (t : template) (vars : Option pathVars) (h : t.sound) :
    (t.ResolveTo vars).sound ∧
    (t.ResolveTo vars).posVarsCount ≤ t.posVarsCount ∧
    (t.ResolveTo vars).nameVarsCount ≤ t.nameVarsCount := by
  obtain ⟨⟨b1, b2, b3⟩, b4, b5, b6⟩ := h
  obtain ⟨r1, r2, r3, _⟩ := ResolveTo_fill t vars
  obtain ⟨_, _, _, hlen⟩ := outcomes_keeps (varParts t.pathParts) (startTracker vars [])
  obtain ⟨f1, f2, f3, f4, f5⟩ := fillParts_sound t.pathParts _ b1 b4 b5 hlen
  obtain ⟨s1, s2⟩ := subsNamed_counts t.pathParts b4
  obtain ⟨q1, q2⟩ := subsNamed_counts _ f2
  have hp : (t.ResolveTo vars).posVarsCount ≤ t.posVarsCount := by
    rw [r2, b3, ← s1]; exact f4
  have hn : (t.ResolveTo vars).nameVarsCount ≤ t.nameVarsCount := by
    rw [r3, b2, ← s2]; exact f5
  refine ⟨⟨⟨?_, ?_, ?_⟩, ?_, ?_, ?_⟩, hp, hn⟩
  · rw [r1]; exact f1
  · rw [r3, r1, q2]
  · rw [r2, r1, q1]
  · rw [r1]; exact f2
  · rw [r1]; exact f3
  · omega

theorem Reachable_sound (split : String → SplitRun) (compile : String → Option Regexp)
    (t : template) (h : template.Reachable split compile t) : t.sound := by
  induction h with
  | new path options t hn => exact NewTemplate_sound split compile path options t hn
  | sub base path options t _ hs ih => exact Sub_sound split compile base path options t ih hs
  | resolve t vars _ ih => exact (ResolveTo_sound t vars ih).1

/-! ### The entries of `Vars()` -/

theorem varsListed_snoc (vs : List PathVar) (x : PathVar) (h : varsListed vs)
    (hpos : x.Position = vs.length)
    (hnp : x.Name ≠ "" → x.NamedPosition = (vs.filter (fun v => v.Name = x.Name)).length)
    (hz : x.Name = "" → x.NamedPosition = 0) : varsListed (vs ++ [x]) := by
  intro i hi
  have hlen : (vs ++ [x]).length = vs.length + 1 := by simp
  by_cases hlt : i < vs.length
  · have hget : (vs ++ [x]).get ⟨i, hi⟩ = vs.get ⟨i, hlt⟩ := by
      simp only [List.get_eq_getElem]
      exact List.getElem_append_left hlt
    have htake : (vs ++ [x]).take i = vs.take i := by
      rw [List.take_append_of_le_length (by omega)]
    rw [hget, htake]
    exact h i hlt
  · have hi2 : i = vs.length := by omega
    subst hi2
    have hget : (vs ++ [x]).get ⟨vs.length, hi⟩ = x := by
      simp only [List.get_eq_getElem]
      simp
    have htake : (vs ++ [x]).take vs.length = vs := by
      rw [List.take_left]
    rw [hget, htake]
    exact ⟨hpos, hnp, hz⟩

theorem varStep_listed (n : String) (st : List PathVar × (String → Nat))
    (h : varsListed st.1 ∧
      ∀ k, k ≠ "" → st.2 k = (st.1.filter (fun v => v.Name = k)).length) :
    varsListed (varStep n st).1 ∧
      (∀ k, k ≠ "" → (varStep n st).2 k = ((varStep n st).1.filter (fun v => v.Name = k)).length) ∧
      (varStep n st).1.map (fun v => v.Name) = st.1.map (fun v => v.Name) ++ [n] := by
  obtain ⟨h1, h2⟩ := h
  unfold varStep
  by_cases hn : n = ""
  · rw [if_pos hn]
    refine ⟨varsListed_snoc _ _ h1 rfl (fun hne => absurd rfl hne) (fun _ => rfl), ?_, ?_⟩
    · intro k hk
      have hk2 : ¬ ("" : String) = k := fun h => hk h.symm
      simp [h2 k hk, hk2]
    · simp [hn]
  · rw [if_neg hn]
    refine ⟨varsListed_snoc _ _ h1 rfl (fun _ => ?_) (fun hz => absurd hz hn), ?_, ?_⟩
    · show st.2 n = _
      exact h2 n hn
    · intro k hk
      by_cases hkn : k = n
      · subst hkn
        simp [h2 k hk]
      · have hkn2 : ¬ n = k := fun h => hkn h.symm
        simp [hkn, hkn2, h2 k hk]
    · simp

theorem varsOfNames_listed (names : List String) (st : List PathVar × (String → Nat))
    (h : varsListed st.1 ∧
      ∀ k, k ≠ "" → st.2 k = (st.1.filter (fun v => v.Name = k)).length) :
    varsListed (varsOfNames names st).1 ∧
      (varsOfNames names st).1.map (fun v => v.Name) = st.1.map (fun v => v.Name) ++ names := by
  induction names generalizing st with
  | nil => exact ⟨h.1, by simp [varsOfNames]⟩
  | cons n rest ih =>
    obtain ⟨s1, s2, s3⟩ := varStep_listed n st h
    obtain ⟨i1, i2⟩ := ih (varStep n st) ⟨s1, s2⟩
    simp only [varsOfNames]
    exact ⟨i1, by rw [i2, s3]; simp⟩

theorem Vars_listed (t : template) (h : ∀ pt ∈ t.pathParts, pt.flat = true) :
    varsListed t.Vars ∧ t.Vars.map (fun v => v.Name) = varNames t.pathParts := by
  unfold template.Vars
  rw [getVarsList_flat _ _ h]
  have := varsOfNames_listed (varNames t.pathParts) ([], fun _ => 0)
    ⟨by intro i hi; simp at hi, fun _ _ => rfl⟩
  simpa using this


/-! ### The synthesized regexp of a composite part -/

theorem setName_compiled (compile : String → Option Regexp) (name : String) (pos : Nat)
    (p : pathPart) (h : setName compile name pos = .ok p) :
    p.orgRegexp ≠ "" →
      ∃ rx, compile (addRegexHeadAndTail p.orgRegexp) = some rx ∧ p.regexp = some rx := by
  unfold setName at h
  split at h
  · dsimp only at h
    split_ifs at h with h1 h2
    · split at h
      · rename_i rx hrx
        injection h with h; subst h
        intro _
        exact ⟨rx, hrx, rfl⟩
      · simp at h
    · injection h with h; subst h
      intro hne
      exact absurd (not_not.mp h2) hne
  · dsimp only at h
    split_ifs at h with h1
    injection h with h; subst h
    intro hne
    exact absurd rfl hne

theorem newVarPathPartLoop_compiled (compile : String → Option Regexp) (sps : List SubPart)
    (t : template) (acc : List pathPart) (b : Bool) (out : List pathPart) (any : Bool)
    (t1 : template)
    (hacc : ∀ sp ∈ acc, sp.fixed = false → sp.orgRegexp ≠ "" →
      ∃ rx, compile (addRegexHeadAndTail sp.orgRegexp) = some rx ∧ sp.regexp = some rx)
    (h : newVarPathPartLoop compile sps t acc b = (.ok (out, any), t1)) :
    ∀ sp ∈ out, sp.fixed = false → sp.orgRegexp ≠ "" →
      ∃ rx, compile (addRegexHeadAndTail sp.orgRegexp) = some rx ∧ sp.regexp = some rx := by
  induction sps generalizing t acc b with
  | nil =>
    simp only [newVarPathPartLoop, Prod.mk.injEq, Except.ok.injEq] at h
    obtain ⟨⟨h1, _⟩, _⟩ := h
    subst h1
    exact hacc
  | cons sp rest ih =>
    unfold newVarPathPartLoop at h
    split_ifs at h with h1 h2
    · split at h
      · simp at h
      · rename_i addPart hset
        refine ih (t.addVar addPart) (acc ++ [addPart]) true ?_ h
        intro x hx
        rcases List.mem_append.mp hx with hx | hx
        · exact hacc x hx
        · simp only [List.mem_singleton] at hx
          subst hx
          intro _
          exact setName_compiled _ _ _ _ hset
    · refine ih t (acc ++ [fixedPart sp.UnEscaped]) b ?_ h
      intro x hx
      rcases List.mem_append.mp hx with hx | hx
      · exact hacc x hx
      · simp only [List.mem_singleton] at hx
        subst hx
        intro hf
        simp [fixedPart, mk_fixed] at hf
    · refine ih t (acc ++ [fixedPart sp.String_]) b ?_ h
      intro x hx
      rcases List.mem_append.mp hx with hx | hx
      · exact hacc x hx
      · simp only [List.mem_singleton] at hx
        subst hx
        intro hf
        simp [fixedPart, mk_fixed] at hf

theorem newVarPathPart_compiled (compile : String → Option Regexp) (t : template)
    (sps : List SubPart) (pt : pathPart) (t1 : template)
    (h : t.newVarPathPart compile sps = (.ok pt, t1)) : pt.subsCompiled compile := by
  unfold template.newVarPathPart at h
  split at h
  · simp at h
  · rename_i out any t2 hloop
    have r1 := (newVarPathPartLoop_ok compile sps t [] false out any t2
      (by simp) (by simp [subVarNames]) (by simp [subVarNames]) (by simp) hloop).1
    have hc := newVarPathPartLoop_compiled compile sps t [] false out any t2 (by simp) hloop
    split at h
    · rename_i only
      simp only [Prod.mk.injEq, Except.ok.injEq] at h
      obtain ⟨h1, _⟩ := h
      subst h1
      intro sp hsp
      rw [r1 only (by simp)] at hsp
      simp at hsp
    · cases any with
      | false =>
        simp only [Bool.not_false, if_true, Prod.mk.injEq, Except.ok.injEq] at h
        obtain ⟨h1, _⟩ := h
        subst h1
        intro sp hsp
        simp [fixedPart, mk_subParts] at hsp
      | true =>
        simp only [Bool.not_true, Bool.false_eq_true, if_false, Prod.mk.injEq,
          Except.ok.injEq] at h
        obtain ⟨h1, _⟩ := h
        subst h1
        intro sp hsp
        exact hc sp hsp

theorem newUriPathPart_compiled (compile : String → Option Regexp) (t : template)
    (s : String) (sps : List SubPart) (pt : pathPart) (t1 : template)
    (h : t.newUriPathPart compile s sps = (.ok pt, t1)) : pt.subsCompiled compile := by
  unfold template.newUriPathPart at h
  split at h
  · split_ifs at h with h1 h2
    · simp only [Prod.mk.injEq, Except.ok.injEq] at h
      obtain ⟨h3, _⟩ := h
      subst h3
      intro sp hsp
      simp [varPart, mk_subParts] at hsp
    · simp only [Prod.mk.injEq, Except.ok.injEq] at h
      obtain ⟨h3, _⟩ := h
      subst h3
      intro sp hsp
      simp [fixedPart, mk_subParts] at hsp
    · exact newVarPathPart_compiled _ _ _ _ _ h
  · exact newVarPathPart_compiled _ _ _ _ _ h

theorem NewTemplate_compiled (split : String → SplitRun) (compile : String → Option Regexp)
    (path : String) (options : List AnyOption) (t : template)
    (h : NewTemplate split compile path options = .ok t) :
    ∀ pt ∈ t.pathParts, pt.subsCompiled compile := by
  obtain ⟨_, herr, _, ht⟩ := parse_ok split compile _ t h
  have hall := parseLoop_parts (fun pt => pt.subsCompiled compile) compile
    (fun t s sps pt t1 he => newUriPathPart_compiled compile t s sps pt t1 he) _ _
    (by intro x hx; simp at hx) herr
  rw [ht]
  split_ifs
  · exact hall
  · exact hall

theorem overallRegexpSource_data (sps : List pathPart) (i : Nat) (h : sps ≠ []) :
    ∃ body, (overallRegexpSource sps i).data = '(' :: (body ++ [')']) := by
  induction sps generalizing i with
  | nil => exact absurd rfl h
  | cons sp rest ih =>
    have hpiece : ∃ m, ((if sp.fixed then "(\\Q" ++ sp.fixedValue ++ "\\E)"
        else if sp.orgRegexp ≠ "" then
          "(?P<vsp" ++ toString i ++ ">" ++ stripRegexHeadAndTail sp.orgRegexp ++ ")"
        else "(?P<vsp" ++ toString i ++ ">.*)") : String).data = '(' :: (m ++ [')']) := by
      split_ifs
      · exact ⟨'\\' :: 'Q' :: (sp.fixedValue.data ++ ['\\', 'E']), by
          simp [String.data_append]⟩
      · exact ⟨'?' :: 'P' :: '<' :: 'v' :: 's' :: 'p' :: ((toString i).data ++ '>' ::
          (stripRegexHeadAndTail sp.orgRegexp).data), by simp [String.data_append]⟩
      · exact ⟨'?' :: 'P' :: '<' :: 'v' :: 's' :: 'p' :: ((toString i).data ++ ['>', '.', '*']),
          by simp [String.data_append]⟩
    obtain ⟨m, hm⟩ := hpiece
    unfold overallRegexpSource
    rw [String.data_append, hm]
    cases rest with
    | nil => exact ⟨m, by simp [overallRegexpSource]⟩
    | cons sp2 rest2 =>
      obtain ⟨b2, hb2⟩ := ih (i + 1) (by simp)
      rw [hb2]
      exact ⟨m ++ [')'] ++ '(' :: b2, by simp⟩

theorem addRegexHeadAndTail_source (sps : List pathPart) (h : sps ≠ []) :
    addRegexHeadAndTail (overallRegexpSource sps 0) = "^" ++ overallRegexpSource sps 0 ++ "$" := by
  obtain ⟨body, hb⟩ := overallRegexpSource_data sps 0 h
  have hp : strings_HasPrefix (overallRegexpSource sps 0) "^" = false := by
    unfold strings_HasPrefix
    rw [hb]
    rfl
  have hs : strings_HasSuffix (overallRegexpSource sps 0) "$" = false := by
    unfold strings_HasSuffix
    rw [hb]
    show List.isSuffixOf ['$'] ('(' :: (body ++ [')'])) = false
    rw [Bool.eq_false_iff]
    intro hh
    have := List.isSuffixOf_iff_suffix.mp hh
    obtain ⟨pre, hpre⟩ := this
    have h2 : '(' :: (body ++ [')']) = ('(' :: body) ++ [')'] := rfl
    rw [h2] at hpre
    have h1 := congrArg List.getLast? hpre
    rw [List.getLast?_concat, List.getLast?_concat] at h1
    exact absurd h1 (by decide)
  simp [addRegexHeadAndTail, hp, hs]

/-! ### Which segments the counters count -/

theorem newVarPathPartLoop_counts (compile : String → Option Regexp) (sps : List SubPart)
    (t : template) (acc : List pathPart) (b : Bool) :
    (newVarPathPartLoop compile sps t acc b).2.posVarsCount = t.posVarsCount ∧
    ((¬ ∃ sp ∈ sps, sp.Type_ = SubPartType.Brackets ∧ sp.StartRune = '{') →
      (newVarPathPartLoop compile sps t acc b).2.nameVarsCount = t.nameVarsCount) := by
  induction sps generalizing t acc b with
  | nil => simp [newVarPathPartLoop]
  | cons sp rest ih =>
    unfold newVarPathPartLoop
    by_cases h1 : sp.Type_ = SubPartType.Brackets ∧ sp.StartRune = '{'
    · rw [if_pos h1]
      refine ⟨?_, fun hno => absurd ⟨sp, List.mem_cons_self _ _, h1⟩ hno⟩
      split
      · rfl
      · rename_i addPart hset
        obtain ⟨hf, _, hn⟩ := setName_ok _ _ _ _ hset
        obtain ⟨_, _, a3⟩ := addVar_fields t addPart
        rw [(ih (t.addVar addPart) (acc ++ [addPart]) true).1, a3]
        simp [hf, hn]
    · rw [if_neg h1]
      have hrest : (¬ ∃ x ∈ sp :: rest, x.Type_ = SubPartType.Brackets ∧ x.StartRune = '{') →
          ¬ ∃ x ∈ rest, x.Type_ = SubPartType.Brackets ∧ x.StartRune = '{' := by
        rintro hno ⟨x, hx, hx2⟩
        exact hno ⟨x, List.mem_cons_of_mem _ hx, hx2⟩
      split_ifs
      · exact ⟨(ih _ _ _).1, fun hno => (ih _ _ _).2 (hrest hno)⟩
      · exact ⟨(ih _ _ _).1, fun hno => (ih _ _ _).2 (hrest hno)⟩

theorem newVarPathPart_counts (compile : String → Option Regexp) (t : template)
    (sps : List SubPart) :
    (t.newVarPathPart compile sps).2.posVarsCount = t.posVarsCount ∧
    ((¬ ∃ sp ∈ sps, sp.Type_ = SubPartType.Brackets ∧ sp.StartRune = '{') →
      (t.newVarPathPart compile sps).2.nameVarsCount = t.nameVarsCount) := by
  unfold template.newVarPathPart
  have := newVarPathPartLoop_counts compile sps t [] false
  split
  · rename_i e t1 he
    rw [he] at this; exact this
  · rename_i l a t1 he
    rw [he] at this
    split
    · exact this
    · split_ifs <;> exact this

theorem newUriPathPart_counts (compile : String → Option Regexp) (t : template)
    (seg : Segment) :
    (t.posVarsCount < (t.newUriPathPart compile seg.s seg.subParts).2.posVarsCount →
      seg.countsPositional) ∧
    (t.nameVarsCount < (t.newUriPathPart compile seg.s seg.subParts).2.nameVarsCount →
      seg.countsNamed) := by
  have hvar := newVarPathPart_counts compile t seg.subParts
  have hnamed : t.nameVarsCount < (t.newVarPathPart compile seg.subParts).2.nameVarsCount →
      seg.countsNamed := by
    intro hlt
    by_contra hc
    have hno : ¬ ∃ sp ∈ seg.subParts, sp.Type_ = SubPartType.Brackets ∧ sp.StartRune = '{' :=
      fun hex => hc (Or.inl hex)
    rw [hvar.2 hno] at hlt
    exact Nat.lt_irrefl _ hlt
  have hpos : t.posVarsCount < (t.newVarPathPart compile seg.subParts).2.posVarsCount →
      seg.countsPositional := by
    intro hlt
    rw [hvar.1] at hlt
    exact absurd hlt (Nat.lt_irrefl _)
  unfold template.newUriPathPart
  split
  · rename_i sp hsp
    split_ifs with h1 h2
    · obtain ⟨_, a2, a3⟩ := addVar_fields t (varPart (sliceFrom seg.s 1))
      have hpv : seg.plainVar := ⟨⟨sp, hsp, h1⟩, h2⟩
      by_cases hn : sliceFrom seg.s 1 = ""
      · refine ⟨fun _ => ⟨hpv, hn⟩, fun hlt => ?_⟩
        simp only [a2] at hlt
        simp [varPart, mk_fixed, pathPart.name, hn] at hlt
      · refine ⟨fun hlt => ?_, fun _ => Or.inr ⟨hpv, hn⟩⟩
        simp only [a3] at hlt
        simp [varPart, mk_fixed, pathPart.name, hn] at hlt
    · exact ⟨fun hlt => absurd hlt (Nat.lt_irrefl _), fun hlt => absurd hlt (Nat.lt_irrefl _)⟩
    · exact ⟨hpos, hnamed⟩
  · exact ⟨hpos, hnamed⟩

theorem parseLoop_counts (compile : String → Option Regexp) (segs : List Segment)
    (t : template) :
    (t.posVarsCount < (parseLoop compile segs t).2.posVarsCount →
      ∃ seg ∈ segs, seg.countsPositional) ∧
    (t.nameVarsCount < (parseLoop compile segs t).2.nameVarsCount →
      ∃ seg ∈ segs, seg.countsNamed) := by
  induction segs generalizing t with
  | nil =>
    simp only [parseLoop]
    exact ⟨fun h => absurd h (Nat.lt_irrefl _), fun h => absurd h (Nat.lt_irrefl _)⟩
  | cons seg rest ih =>
    have hc := newUriPathPart_counts compile t seg
    cases he : t.newUriPathPart compile seg.s seg.subParts with
    | mk r t1 =>
      rw [he] at hc
      cases r with
      | error e =>
        rw [parseLoop_cons_error _ _ _ _ _ _ he]
        exact ⟨fun h => ⟨seg, List.mem_cons_self _ _, hc.1 h⟩,
          fun h => ⟨seg, List.mem_cons_self _ _, hc.2 h⟩⟩
      | ok pt =>
        rw [parseLoop_cons_ok _ _ _ _ _ _ he]
        have hi := ih { t1 with pathParts := t1.pathParts ++ [pt] }
        constructor
        · intro h
          by_cases h1 : t.posVarsCount < t1.posVarsCount
          · exact ⟨seg, List.mem_cons_self _ _, hc.1 h1⟩
          · have h2 : t1.posVarsCount <
                (parseLoop compile rest { t1 with pathParts := t1.pathParts ++ [pt] }).2.posVarsCount :=
              Nat.lt_of_le_of_lt (Nat.le_of_not_lt h1) h
            obtain ⟨x, hx, hx2⟩ := hi.1 h2
            exact ⟨x, List.mem_cons_of_mem _ hx, hx2⟩
        · intro h
          by_cases h1 : t.nameVarsCount < t1.nameVarsCount
          · exact ⟨seg, List.mem_cons_self _ _, hc.2 h1⟩
          · have h2 : t1.nameVarsCount <
                (parseLoop compile rest { t1 with pathParts := t1.pathParts ++ [pt] }).2.nameVarsCount :=
              Nat.lt_of_le_of_lt (Nat.le_of_not_lt h1) h
            obtain ⟨x, hx, hx2⟩ := hi.2 h2
            exact ⟨x, List.mem_cons_of_mem _ hx, hx2⟩

/-! ### What a variable-match check records -/

theorem check_first_accepting (opts : List VarMatchOption) (value : String)
    (position : Nat) (name : String) (rx : Option Regexp) (rxs : String) (pathPos : Nat)
    (vars : Option pathVars) :
    varMatchOptions.check opts value position name rx rxs pathPos vars =
      match opts.find? (fun o => o.Applicable value position name rx rxs pathPos vars &&
          (o.Match value position name rx rxs pathPos vars).2) with
      | some o => ((o.Match value position name rx rxs pathPos vars).1, true, true)
      | none =>
        (value, false, opts.any (fun o => o.Applicable value position name rx rxs pathPos vars)) := by
  obtain ⟨h1, h2⟩ := checkLoop_find opts value position name rx rxs pathPos vars 0
  have h3 := (checkLoop_checked opts value position name rx rxs pathPos vars 0).2
  unfold varMatchOptions.check
  dsimp only
  cases hf : opts.find? (fun o => o.Applicable value position name rx rxs pathPos vars &&
      (o.Match value position name rx rxs pathPos vars).2) with
  | some o =>
    rw [hf] at h1
    simp only [Prod.mk.injEq] at h1
    have h4 := h3 h1.2
    simp [h1.1, h1.2, h4]
  | none =>
    rw [hf] at h1
    simp only [Prod.mk.injEq] at h1
    have h5 := h2 hf
    simp only [h1.1, h1.2, h5, Nat.zero_add, Prod.mk.injEq, true_and]
    rw [Bool.eq_iff_iff]
    simp [List.countP_pos_iff]

theorem check_recorded (opts : List VarMatchOption) (value : String)
    (position : Nat) (name : String) (rx : Option Regexp) (rxs : String) (pathPos : Nat)
    (vars : Option pathVars) (regexOk : Bool) :
    (if (decide (opts.length > 0) &&
          (varMatchOptions.check opts value position name rx rxs pathPos vars).2.2) = true
        then (varMatchOptions.check opts value position name rx rxs pathPos vars).2.1
        else regexOk) =
      (recordedValue opts value position name rx rxs pathPos vars regexOk).isSome ∧
    ∀ v, recordedValue opts value position name rx rxs pathPos vars regexOk = some v →
      (if (decide (opts.length > 0) &&
          (varMatchOptions.check opts value position name rx rxs pathPos vars).2.2) = true
        then (varMatchOptions.check opts value position name rx rxs pathPos vars).1
        else value) = v := by
  rw [check_first_accepting]
  unfold recordedValue firstAccepting
  cases hf : opts.find? (fun o => o.Applicable value position name rx rxs pathPos vars &&
      (o.Match value position name rx rxs pathPos vars).2) with
  | some o =>
    have hne : opts ≠ [] := by
      intro h0; subst h0; simp at hf
    have hl : opts.length > 0 := List.length_pos.mpr hne
    simp [hl]
  | none =>
    dsimp only
    cases ha : opts.any (fun o => o.Applicable value position name rx rxs pathPos vars) with
    | true =>
      have hne : opts ≠ [] := by
        intro h0; subst h0; simp at ha
      have hl : opts.length > 0 := List.length_pos.mpr hne
      simp [hl]
    | false =>
      cases regexOk <;> simp

/-! ### How composites collapse -/

theorem concatFixedValues_join (sps : List pathPart) :
    concatFixedValues sps = joinLiterals sps := by
  induction sps with
  | nil => rfl
  | cons sp rest ih =>
    rw [concatFixedValues, ih]
    rfl

theorem newVarPathPartLoop_parsed (compile : String → Option Regexp) (sps : List SubPart)
    (parts : List pathPart)
    (h : List.Forall₂ (fun sp p => parsedSubPart compile sp = .ok p) sps parts)
    (t : template) (acc : List pathPart) (b : Bool) :
    (newVarPathPartLoop compile sps t acc b).1 =
      .ok (acc ++ parts, b || parts.any (fun p => !p.fixed)) := by
  induction h generalizing t acc b with
  | nil => simp [newVarPathPartLoop]
  | @cons sp p sps1 parts1 hsp _ ih =>
    unfold newVarPathPartLoop
    unfold parsedSubPart at hsp
    by_cases h1 : sp.Type_ = SubPartType.Brackets ∧ sp.StartRune = '{'
    · rw [if_pos h1] at hsp ⊢
      rw [hsp]
      dsimp only
      obtain ⟨hf, _, _⟩ := setName_ok _ _ _ _ hsp
      rw [ih]
      simp [hf]
    · rw [if_neg h1] at hsp ⊢
      by_cases h2 : sp.Type_ = SubPartType.Quotes
      · rw [if_pos h2] at hsp ⊢
        injection hsp with hsp
        subst hsp
        rw [ih]
        simp [fixedPart, mk_fixed]
      · rw [if_neg h2] at hsp ⊢
        injection hsp with hsp
        subst hsp
        rw [ih]
        simp [fixedPart, mk_fixed]

theorem newVarPathPart_collapse (compile : String → Option Regexp) (t : template)
    (sps : List SubPart) (parts : List pathPart)
    (h : List.Forall₂ (fun sp p => parsedSubPart compile sp = .ok p) sps parts) :
    (t.newVarPathPart compile sps).1 = .ok (collapseSubParts parts) := by
  have hl := newVarPathPartLoop_parsed compile sps parts h t [] false
  simp only [List.nil_append, Bool.false_or] at hl
  have hall : (parts.all (fun sp => sp.fixed)) = !(parts.any (fun p => !p.fixed)) := by
    rw [List.all_eq_not_any_not]
  unfold template.newVarPathPart
  cases hr : newVarPathPartLoop compile sps t [] false with
  | mk r t1 =>
    rw [hr] at hl
    simp only at hl
    subst hl
    dsimp only
    unfold collapseSubParts
    rw [hall]
    rcases parts with _ | ⟨x, _ | ⟨y, ys⟩⟩
    · simp [concatFixedValues_join]
    · rfl
    · dsimp only
      cases hany : (x :: y :: ys).any (fun p => !p.fixed) with
      | false => simp [concatFixedValues_join]
      | true => simp

theorem varParts_append (a b : List pathPart) : varParts (a ++ b) = varParts a ++ varParts b := by
  induction a with
  | nil => rfl
  | cons x rest ih =>
    simp only [List.cons_append, varParts]
    split_ifs <;> simp [ih]

theorem fillParts_append (a b : List pathPart) (o : List (Except String String)) :
    fillParts (a ++ b) o = fillParts a o ++ fillParts b (o.drop (varParts a).length) := by
  induction a generalizing o with
  | nil => simp [fillParts, varParts]
  | cons x rest ih =>
    simp only [List.cons_append, fillParts, varParts]
    split_ifs
    · simp [ih]
    · simp [ih, Nat.add_comm]
    · simp [ih, Nat.add_comm]
    · simp [ih, Nat.add_comm]

theorem fillSubs_all (sps : List pathPart) (o : List (Except String String))
    (hl : o.length = (subVars sps).length) :
    (fillSubs sps o).all (fun sp => sp.fixed) = o.all isValue := by
  induction sps generalizing o with
  | nil =>
    simp only [subVars, List.length_nil, List.length_eq_zero] at hl
    subst hl
    rfl
  | cons sp rest ih =>
    rw [fillSubs]
    cases hf : sp.fixed with
    | true =>
      simp only [subVars, hf, if_true] at hl
      simp only [if_true, List.all_cons, hf, Bool.true_and]
      exact ih o hl
    | false =>
      simp only [subVars, hf, Bool.false_eq_true, if_false, List.length_cons] at hl
      cases o with
      | nil => simp at hl
      | cons x o1 =>
        simp only [List.length_cons, Nat.add_right_cancel_iff] at hl
        simp only [Bool.false_eq_true, if_false, List.all_cons, List.drop_succ_cons, List.drop_zero]
        rw [ih o1 hl]
        cases x with
        | ok s => simp [fillVar, valueAt, isValue, fixedPart, mk_fixed]
        | error e => simp [fillVar, valueAt, isValue, hf]

theorem ResolveTo_composite (t : template) (vars : Option pathVars)
    (pre rest : List pathPart) (pt : pathPart) (ht : t.pathParts = pre ++ pt :: rest)
    (hf : pt.fixed = false) (hs : pt.subParts ≠ []) :
    (t.ResolveTo vars).pathParts[pre.length]? =
      some (resolvedComposite (fillSubs pt.subParts (compositeOutcomes vars pre pt))) := by
  obtain ⟨r1, _⟩ := ResolveTo_fill t vars
  have hemp : pt.subParts.isEmpty = false := by
    cases hsp : pt.subParts with
    | nil => exact absurd hsp hs
    | cons x xs => rfl
  have hvp : varParts (pre ++ pt :: rest) =
      varParts pre ++ (subVars pt.subParts ++ varParts rest) := by
    rw [varParts_append]
    simp [varParts, hf, hemp]
  have hlen1 := (outcomes_keeps (varParts pre) (startTracker vars [])).2.2.2
  have hlen2 := (outcomes_keeps (subVars pt.subParts)
    (outcomes (varParts pre) (startTracker vars [])).2).2.2.2
  rw [r1, ht, hvp, outcomes_append, outcomes_append, fillParts_append]
  dsimp only
  rw [List.getElem?_append_right (by rw [fillParts_length])]
  rw [fillParts_length, Nat.sub_self, ← hlen1, List.drop_left]
  rw [fillParts]
  simp only [hf, Bool.false_eq_true, if_false, hemp]
  rw [← hlen2, List.take_left]
  simp only [List.getElem?_cons_zero, Option.some.injEq]
  unfold resolvedComposite compositeOutcomes
  rw [fillSubs_all _ _ hlen2, concatFixedValues_join]

/-! ## The claims -/

/-- Claim C1 (the `Sub` example of the spec), evaluated on the code: the base
`/foo` has no variables, `Sub` of it with `/bar/{id}` succeeds, and the result
matches `/foo/bar/42` with `matched = true`, but the container it returns holds
no variable and `Get("id")` is `("", false)`: `Sub` keeps the container kind of
the base (`Positions` for a base without variables), and the positional
container refuses the named add of `addFound`. -/
theorem C1_sub_example_loses_id :
    ∃ base t r, NewTemplate uriSplit noCompile "/foo" [] = .ok base ∧
      base.posVarsCount = 0 ∧ base.nameVarsCount = 0 ∧
      base.Sub uriSplit noCompile "/bar/{id}" [] = .ok t ∧
      t.matches noCompile "/foo/bar/42" [] = some (some r, true) ∧
      r.GetAll = [] ∧ r.Get [.str "id"] = some ("", false) :=
  ⟨_, _, _, rfl, rfl, rfl, rfl, rfl, rfl, rfl⟩

/-- Claim C2 fails as stated: the template `/{a}` has one variable without a
regex and the named container supplies the value `x/y` for it; `PathFrom`
succeeds with `/x/y`, which has two segments, so matching it against the same
template returns a nil container and `matched = false`. And for the composite
`/{a}-{b}` with `a = "x"`, `b = "y-z"` the built path `/x-y-z` matches, but the
greedy first group of the synthesized regex returns `a = "x-y"`, `b = "z"`. -/
theorem C2_slash_in_value :
    (∃ t, NewTemplate uriSplit noCompile "/{a}" [] = .ok t ∧
      t.Vars.length = 1 ∧
      t.PathFrom (some (Named [("a", .str "x/y")])) [] = .ok "/x/y" ∧
      t.matches noCompile "/x/y" [] = some (none, false)) ∧
    (∃ t r, NewTemplate uriSplit compileDash "/{a}-{b}" [] = .ok t ∧
      t.PathFrom (some (Named [("a", .str "x"), ("b", .str "y-z")])) [] = .ok "/x-y-z" ∧
      t.matches compileDash "/x-y-z" [] = some (some r, true) ∧
      r.GetAll.map (fun v => v.Value) = [.str "x-y", .str "z"]) :=
  ⟨⟨_, rfl, rfl, rfl, rfl⟩, ⟨_, _, rfl, rfl, rfl, rfl⟩⟩

/-- Claim C2, amended: round trip of build then match for a template returned
by `NewTemplate` (no options) whose parts are Fixed parts or whole-segment
Variables without a regex, when every Fixed literal and every supplied value
(in string form) is non-empty and has no `/`. With a positional container
holding at least as many values as the template has variables, and with a
named container holding the value of every variable occurrence, `PathFrom`
succeeds and matching the built path against the same template returns
`matched = true` and a container whose values, in order, are the string forms
of the values used. -/
theorem C2_round_trip (split : String → SplitRun) (compile : String → Option Regexp)
    (path : String) (t : template) (ht : NewTemplate split compile path [] = .ok t)
    (hsimple0 : ∀ pt ∈ t.pathParts, pt.subParts.isEmpty = true ∧ pt.regexp.isNone = true)
    (hfixed : ∀ pt ∈ t.pathParts, pt.fixed = true → goodSeg pt.fixedValue = true) :
    (∀ vals : List Value, t.Vars.length ≤ vals.length →
      (∀ v ∈ vals, (getValueIf v).2 = true ∧ goodSeg (getValueIf v).1 = true) →
      ∃ p r, t.PathFrom (some (Positional vals)) [] = .ok p ∧
        t.matches compile p [] = some (some r, true) ∧
        r.GetAll.map (fun v => v.Value)
          = (vals.take t.Vars.length).map (fun v => Value.str (getValueIf v).1)) ∧
    (∀ pairs : List (String × Value),
      (∀ j, j < t.Vars.length →
        namedAvail pairs (varNames t.pathParts) j = true ∧
        goodSeg (namedText pairs (varNames t.pathParts) j) = true) →
      ∃ p r, t.PathFrom (some (Named pairs)) [] = .ok p ∧
        t.matches compile p [] = some (some r, true) ∧
        r.GetAll.map (fun v => v.Value)
          = (List.range t.Vars.length).map
              (fun j => Value.str (namedText pairs (varNames t.pathParts) j))) := by
  have hsimple : ∀ pt ∈ t.pathParts, pt.subParts = [] ∧ pt.regexp.isNone = true :=
    fun pt hpt => ⟨List.isEmpty_iff.mp (hsimple0 pt hpt).1, (hsimple0 pt hpt).2⟩
  obtain ⟨⟨hflat, _, _⟩, hk, hfo, hvo⟩ := NewTemplate_counted split compile path [] t ht
  have hvl := Vars_length t hflat
  simp only [separateParseOptions, separateParseOptionsLoop] at hfo hvo
  refine ⟨fun vals hlen hvals => ?_, fun pairs hav => ?_⟩
  · obtain ⟨plen, pok, ptexts⟩ := positional_texts vals (fun v hv => (hvals v hv).1)
    obtain ⟨tr1, hb, _⟩ := buildPathLoop_positional t.pathParts ""
      { vars := some (Positional vals), varPosition := 0, pathPosition := 0,
        namedPositions := fun _ => 0, varMatches := [] }
      (Positional vals) rfl (Positional_spec _).1 pok (by simp only [plen, ← hvl]; omega)
    simp only [List.drop_zero, ptexts, String.empty_append] at hb
    obtain ⟨r, hm, hr⟩ := round_trip_texts compile t hk hfo hvo hsimple hfixed
      (vals.map (fun v => (getValueIf v).1)) (by simp only [List.length_map, ← hvl]; exact hlen)
      (by
        intro x hx
        obtain ⟨v, hv, rfl⟩ := List.mem_map.mp hx
        exact (hvals v hv).2)
    refine ⟨_, r, buildPath_plain t _ _ _ tr1 hb, hm, ?_⟩
    rw [hr, ← hvl, ← List.map_take]
    simp [Function.comp_def]
  · obtain ⟨p, hp⟩ : ∃ p, p = specPath t.pathParts
        ((List.range (varNames t.pathParts).length).map
          (namedText pairs (varNames t.pathParts))) := ⟨_, rfl⟩
    have hbuild := PathFrom_named t pairs (fun j hj => (hav j (by rw [hvl]; exact hj)).1)
    obtain ⟨r, hm, hr⟩ := round_trip_texts compile t hk hfo hvo hsimple hfixed
      ((List.range (varNames t.pathParts).length).map (namedText pairs (varNames t.pathParts)))
      (by simp)
      (by
        intro x hx
        obtain ⟨j, hj, rfl⟩ := List.mem_map.mp hx
        exact (hav j (by rw [hvl]; exact List.mem_range.mp hj)).2)
    refine ⟨_, r, hbuild, hm, ?_⟩
    rw [hr, hvl]
    simp [Function.comp_def]

/-- Witness of C2: `/credits/{year}/{month}` built from the positional values
`"2022"` and `11` and matched again. -/
theorem C2_witness :
    NewTemplate uriSplit noCompile "/credits/{year}/{month}" [] = .ok creditsTemplate ∧
    ∃ p r, creditsTemplate.PathFrom (some (Positional [.str "2022", .int 11])) [] = .ok p ∧
      creditsTemplate.matches noCompile p [] = some (some r, true) ∧
      r.GetAll.map (fun v => v.Value)
        = ([Value.str "2022", Value.int 11].take creditsTemplate.Vars.length).map
            (fun v => Value.str (getValueIf v).1) :=
  ⟨rfl, (C2_round_trip uriSplit noCompile "/credits/{year}/{month}" creditsTemplate rfl
    (by decide) (by decide)).1 [.str "2022", .int 11] (by decide) (by decide)⟩

/-- Claim C3, evaluated on the code: the container a match returns has the
kind stored in the template (`newPathVars(t.varsType)`), not the kind
`VarsType()` reports. `NewTemplate` stores `Names` when it counted a named
variable, so the two agree for a parsed template exactly when it has a
variable; `Sub` keeps the stored kind of its base (and so the agreement of a
base that has a variable), and `ResolveTo` always leaves the zero value
`Positions`, so its result agrees exactly when a positional variable is left.
The container kind therefore differs from `VarsType()` for a template without
variables, for the result of `Sub` on a base without variables and an addition
with a named variable, and for the result of `ResolveTo` that keeps a named
variable. -/
theorem C3_container_has_stored_kind (split : String → SplitRun)
    (compile : String → Option Regexp) :
    (∀ (t : template) p opts r ok, t.matches compile p opts = some (some r, ok) →
      r.VarsType = t.varsType) ∧
    (∀ path options t, NewTemplate split compile path options = .ok t →
      ((t.varsType = t.VarsType ↔ 0 < t.posVarsCount + t.nameVarsCount) ∧
       (0 < t.posVarsCount + t.nameVarsCount →
         ∀ p opts r, t.matches compile p opts = some (some r, true) →
           r.VarsType = t.VarsType))) ∧
    (∀ (base : template) add addOpts t, base.Sub split compile add addOpts = .ok t →
      (t.varsType = base.varsType ∧
       (0 < base.posVarsCount + base.nameVarsCount → base.varsType = base.VarsType →
         ∀ p opts r, t.matches compile p opts = some (some r, true) →
           r.VarsType = t.VarsType))) ∧
    (∀ (t : template) vars,
      (t.ResolveTo vars).varsType = PathVarsType.Positions ∧
      ((t.ResolveTo vars).varsType = (t.ResolveTo vars).VarsType ↔
        (t.ResolveTo vars).posVarsCount ≠ 0)) := by
  refine ⟨fun t p opts r ok hm => matches_varsType compile t p opts r ok hm,
    fun path options t h => ?_, fun base add addOpts t h => ?_, fun t vars => ?_⟩
  · obtain ⟨hex, hk⟩ := NewTemplate_kind split compile path options t h
    refine ⟨⟨fun hagree => ?_, fun hv => hk hv⟩, fun hv p opts r hm => ?_⟩
    · by_contra hc
      have hp : t.posVarsCount = 0 := by omega
      have hn : t.nameVarsCount = 0 := by omega
      obtain ⟨_, herr, _, ht⟩ := parse_ok split compile _ t h
      have hst : t.varsType = PathVarsType.Positions := by
        have hn2 := hn
        rw [ht] at hn2 ⊢
        split_ifs at hn2 ⊢ with hpos
        · exact absurd hn2 (Nat.ne_of_gt hpos)
        · exact (parseLoop_keeps (fun t => t.varsType) (fun _ _ _ _ => rfl) compile _ _)
      rw [hst] at hagree
      simp [template.VarsType, hp] at hagree
    · rw [matches_varsType compile t p opts r true hm]
      exact hk hv
  · have hst : t.varsType = base.varsType := by
      unfold template.Sub at h
      split at h
      · simp at h
      · split_ifs at h
        simp only [Except.ok.injEq] at h
        subst h
        rfl
    refine ⟨hst, fun hv hk p opts r hm => ?_⟩
    rw [matches_varsType compile t p opts r true hm]
    exact Sub_kind split compile base add addOpts t hv hk h
  · have hst : (t.ResolveTo vars).varsType = PathVarsType.Positions := by
      unfold template.ResolveTo
      dsimp only
      rw [resolveLoop_fill]
    refine ⟨hst, ?_⟩
    rw [hst]
    by_cases hp : (t.ResolveTo vars).posVarsCount = 0 <;> simp [template.VarsType, hp]

/-- Witness of C3: the container kind is the stored kind, so it is positional
for `/foo`, for the result of `Sub` on `/foo` with the addition `/bar/{id}`
and for the result of `ResolveTo` on `/{a}/{b}` with `a = "x"`, while
`VarsType()` of the three templates reports `Names`; the variables `id` and
`b` are not recorded. For `/credits/{year}/{month}` the two kinds agree. -/
theorem C3_witness :
    (NewTemplate uriSplit noCompile "/foo" [] = .ok fooTemplate ∧
     fooTemplate.matches noCompile "/foo" [] = some (some (newPathVars .Positions), true) ∧
     (newPathVars .Positions).VarsType = PathVarsType.Positions ∧
     fooTemplate.VarsType = PathVarsType.Names) ∧
    (fooTemplate.Sub uriSplit noCompile "/bar/{id}" [] = .ok fooBarIdTemplate ∧
     fooBarIdTemplate.matches noCompile "/foo/bar/42" []
       = some (some (newPathVars .Positions), true) ∧
     fooBarIdTemplate.VarsType = PathVarsType.Names) ∧
    (NewTemplate uriSplit noCompile "/{a}/{b}" [] = .ok abTemplate ∧
     abTemplate.ResolveTo (some (Named [("a", .str "x")])) = xbTemplate ∧
     xbTemplate.matches noCompile "/x/y" [] = some (some (newPathVars .Positions), true) ∧
     xbTemplate.VarsType = PathVarsType.Names) ∧
    (NewTemplate uriSplit noCompile "/credits/{year}/{month}" [] = .ok creditsTemplate ∧
     ∃ r, creditsTemplate.matches noCompile "/credits/2022/11" [] = some (some r, true) ∧
       r.VarsType = creditsTemplate.VarsType) :=
  ⟨⟨rfl, rfl,
    (C3_container_has_stored_kind uriSplit noCompile).1 fooTemplate "/foo" [] _ true rfl, rfl⟩,
   ⟨rfl, rfl, rfl⟩, ⟨rfl, rfl, rfl, rfl⟩,
   ⟨rfl, _, rfl,
    ((C3_container_has_stored_kind uriSplit noCompile).2.1 "/credits/{year}/{month}" []
      creditsTemplate rfl).2 (by decide) "/credits/2022/11" [] _ rfl⟩⟩

/-- Claim C4, evaluated on the code: for the composite `{a}-{b}` and the
segment `foo-bar`, the option `rejectAll` is applicable to the variable `a` and
rejects the value `foo` captured for it, yet `multiMatch` returns `true`, and
so does the whole match of `/{a}-{b}` against `/foo-bar`, with a container that
holds no variable: a rejected sub-part is skipped instead of failing the
match. -/
theorem C4_composite_rejection_still_matches :
    rejectAll.Applicable "foo" 0 "a" none "" 0 (some (newPathVars .Names)) = true ∧
    (rejectAll.Match "foo" 0 "a" none "" 0 (some (newPathVars .Names))).2 = false ∧
    ((pathPart.mk false "" [varPart "a", fixedPart "-", varPart "b"] none "" "").multiMatch
        compileDash "foo-bar" 0 (newPathVars .Names) [rejectAll]).map Prod.fst = some true ∧
    ∃ t r, NewTemplate uriSplit compileDash "/{a}-{b}" [] = .ok t ∧
      t.matches compileDash "/foo-bar" [.varMatch rejectAll] = some (some r, true) ∧
      r.GetAll = [] :=
  ⟨rfl, rfl, by decide, _, _, rfl, rfl, rfl⟩

/-- Claim C5 fails as stated: the segment `abc` does not satisfy the regex
`^[0-9]+$` of the variable `{id:[0-9]+}`, yet with the option `acceptAll`
registered the part matches it. -/
theorem C5_option_overrides_regex :
    digitsRegexp.MatchString "abc" = false ∧
    ((pathPart.mk false "" [] (some digitsRegexp) "[0-9]+" "id").match_ noCompile "abc" 0
        (newPathVars .Names) [] [acceptAll]).map Prod.fst = some true := by
  decide

/-- Claim C5, amended: a segment that does not satisfy the compiled regex of a
simple Variable part matches the part if and only if some registered
variable-match option is applicable to it and accepts it; with no option, or
no applicable accepting option, it does not match. -/
theorem C5_regex_failing_segment (compile : String → Option Regexp) (pt : pathPart)
    (hnf : pt.fixed = false) (hsub : pt.subParts = []) (rx : Regexp)
    (hrx : pt.regexp = some rx) (s : String) (hs : rx.MatchString s = false)
    (pathPos : Nat) (vars : pathVars) (fOpts : List FixedMatchOption)
    (vOpts : List VarMatchOption) :
    ∃ ok vars1, pt.match_ compile s pathPos vars fOpts vOpts = some (ok, vars1) ∧
      (ok = true ↔ ∃ o ∈ vOpts,
        o.Applicable s vars.Len pt.name pt.regexp pt.orgRegexp pathPos (some vars) = true ∧
        (o.Match s vars.Len pt.name pt.regexp pt.orgRegexp pathPos (some vars)).2 = true) := by
  have hiff := checkLoop_ok_iff vOpts s vars.Len pt.name pt.regexp pt.orgRegexp pathPos (some vars) 0
  have hchk := checkLoop_checked vOpts s vars.Len pt.name pt.regexp pt.orgRegexp pathPos (some vars) 0
  rw [← hiff]
  simp only [pathPart.match_, hnf, hsub, List.length_nil, hrx, hs, varMatchOptions.check]
  cases hok : (varMatchOptions.checkLoop vOpts s vars.Len pt.name (some rx) pt.orgRegexp pathPos (some vars) 0).2.1
  · rw [hrx] at hiff hchk
    refine ⟨false, vars, ?_, by simp⟩
    simp [hok]
  · rw [hrx] at hiff hchk
    have hpos := hchk.2 hok
    have hne : vOpts.length > 0 := by
      cases vOpts with
      | nil => simp [varMatchOptions.checkLoop] at hok
      | cons _ _ => simp
    refine ⟨true, pt.addFound vars (varMatchOptions.checkLoop vOpts s vars.Len pt.name (some rx)
      pt.orgRegexp pathPos (some vars) 0).1, ?_, by simp⟩
    simp [hok, hpos, hne]

/-- Witness of C5: the variable `{id:[0-9]+}`, the segment `abc` and the option
`acceptAll`. -/
theorem C5_witness :
    ∃ ok vars1, (pathPart.mk false "" [] (some digitsRegexp) "[0-9]+" "id").match_ noCompile
        "abc" 0 (newPathVars .Names) [] [acceptAll] = some (ok, vars1) ∧
      (ok = true ↔ ∃ o ∈ [acceptAll],
        o.Applicable "abc" (newPathVars .Names).Len "id" (some digitsRegexp) "[0-9]+" 0
          (some (newPathVars .Names)) = true ∧
        (o.Match "abc" (newPathVars .Names).Len "id" (some digitsRegexp) "[0-9]+" 0
          (some (newPathVars .Names))).2 = true) :=
  C5_regex_failing_segment noCompile (pathPart.mk false "" [] (some digitsRegexp) "[0-9]+" "id")
    rfl rfl digitsRegexp rfl "abc" (by decide) 0 (newPathVars .Names) [] [acceptAll]

/-- Claim C6 fails as stated: with the fixed-match option `neverFixed`
registered, the segment `foo` does not match the Fixed part `foo` although it
equals the literal exactly. -/
theorem C6_equal_segment_rejected :
    ((fixedPart "foo").match_ noCompile "foo" 0 (newPathVars .Positions) [neverFixed] []).map
      Prod.fst = some false := by
  decide

/-- Claim C6, amended: with no fixed-match option registered a Fixed part
matches a segment if and only if the segment equals the literal; with at least
one option registered it matches if and only if some registered option passes
(exact equality is then not consulted). The container is left unchanged. -/
theorem C6_fixed_part_match (compile : String → Option Regexp) (pt : pathPart)
    (hf : pt.fixed = true) (s : String) (pathPos : Nat) (vars : pathVars)
    (fOpts : List FixedMatchOption) (vOpts : List VarMatchOption) :
    ∃ ok, pt.match_ compile s pathPos vars fOpts vOpts = some (ok, vars) ∧
      (fOpts = [] → (ok = true ↔ pt.fixedValue = s)) ∧
      (fOpts ≠ [] → (ok = true ↔
        ∃ o ∈ fOpts, o.Match s pt.fixedValue pathPos (some vars) = true)) := by
  cases fOpts with
  | nil => exact ⟨decide (pt.fixedValue = s), by simp [pathPart.match_, hf], by simp, by simp⟩
  | cons o rest =>
    refine ⟨fixedMatchOptions.check (o :: rest) s pt.fixedValue pathPos (some vars), ?_, by simp, ?_⟩
    · simp [pathPart.match_, hf]
    · intro _
      exact fixedCheck_iff _ _ _ _ _

/-- Witness of C6: the Fixed part `foo`, the segment `foo` and the option
`neverFixed`. -/
theorem C6_witness :
    ∃ ok, (fixedPart "foo").match_ noCompile "foo" 0 (newPathVars .Positions) [neverFixed] []
        = some (ok, newPathVars .Positions) ∧
      ([neverFixed] = [] → (ok = true ↔ (fixedPart "foo").fixedValue = "foo")) ∧
      ([neverFixed] ≠ [] → (ok = true ↔
        ∃ o ∈ [neverFixed], o.Match "foo" (fixedPart "foo").fixedValue 0
          (some (newPathVars .Positions)) = true)) :=
  C6_fixed_part_match noCompile (fixedPart "foo") rfl "foo" 0 (newPathVars .Positions)
    [neverFixed] []

/-- Claim C7 fails as stated: matching `/x/bar` against `/{a}/foo` returns
`matched = false` together with a non-nil container that still holds the
variable `a = "x"` extracted before the failing part. -/
theorem C7_failed_match_keeps_vars :
    ∃ t r, NewTemplate uriSplit noCompile "/{a}/foo" [] = .ok t ∧
      t.matches noCompile "/x/bar" [] = some (some r, false) ∧
      r.GetAll = [{ Name := "a", NamedPosition := 0, Position := 0, Value := .str "x" }] :=
  ⟨_, _, rfl, rfl, rfl⟩

/-- Claim C7, amended: whenever matching returns `matched = false`, the
returned `PathVars` is nil exactly when the path does not split or its segment
count differs from the part count; otherwise it is the container as it stood
when the failing part was reached: the parts before the failing part all
matched and recorded their variables in it, and the failing part left it
unchanged. -/
theorem C7_failed_match_result (compile : String → Option Regexp) (t : template)
    (path : String) (options : List AnyOption) (r : Option pathVars)
    (h : t.matches compile path options = some (r, false)) :
    (r = none ↔ (matchPathSplit path = none ∨
      ∃ pts, matchPathSplit path = some pts ∧ pts.length ≠ t.pathParts.length)) ∧
    (∀ v, r = some v → ∃ pts k pt seg, matchPathSplit path = some pts ∧
      t.pathParts[k]? = some pt ∧ pts[k]? = some seg ∧
      matchesLoop compile (t.mergeParseOptions options).1 (t.mergeParseOptions options).2
        (t.pathParts.take k) (pts.take k) 0 (newPathVars t.varsType) = some (true, v) ∧
      pt.match_ compile seg k v (t.mergeParseOptions options).1
        (t.mergeParseOptions options).2 = some (false, v)) := by
  rcases matches_some_cases _ _ _ _ _ _ h with ⟨hn, _, hc⟩ | ⟨pts, v, hsp, hlen, hr, hl⟩
  · subst hn
    exact ⟨⟨fun _ => hc, fun _ => rfl⟩, fun v hv => by simp at hv⟩
  · subst hr
    refine ⟨⟨fun hc => by simp at hc, fun hc => ?_⟩, fun v1 hv1 => ?_⟩
    · rcases hc with hc | ⟨pts1, h1, h2⟩
      · rw [hc] at hsp; simp at hsp
      · rw [h1] at hsp
        simp only [Option.some.injEq] at hsp
        subst hsp
        exact absurd hlen h2
    · simp only [Option.some.injEq] at hv1
      subst hv1
      obtain ⟨k, pt, seg, h1, h2, h3, h4⟩ := matchesLoop_false _ _ _ _ _ _ _ _ hl
      refine ⟨pts, k, pt, seg, hsp, h1, h2, h3, ?_⟩
      simpa using h4

/-- Witness of C7: `/x/bar` against `/{a}/foo`. -/
theorem C7_witness :
    ∃ t r, NewTemplate uriSplit noCompile "/{a}/foo" [] = .ok t ∧
      t.matches noCompile "/x/bar" [] = some (r, false) ∧
      (r = none ↔ (matchPathSplit "/x/bar" = none ∨
        ∃ pts, matchPathSplit "/x/bar" = some pts ∧ pts.length ≠ t.pathParts.length)) := by
  refine ⟨_, _, rfl, rfl, ?_⟩
  exact And.left (C7_failed_match_result noCompile _ "/x/bar" [] _ (by rfl))

/-- Claim C8: for every template returned by `NewTemplate` and every path it
matches, with no match options, the container returned lists the variables of
the template in template order: `GetAll()` has the length of `Vars()` and its
entries have, one by one, the `Name`, `NamedPosition` and `Position` of the
entries of `Vars()`. -/
theorem C8_match_lists_template_vars (split : String → SplitRun)
    (compile : String → Option Regexp) (path : String) (t : template) (p : String)
    (r : pathVars) (ht : NewTemplate split compile path [] = .ok t)
    (hm : t.matches compile p [] = some (some r, true)) :
    r.GetAll.length = t.Vars.length ∧
    r.GetAll.map PathVar.key = t.Vars.map PathVar.key := by
  obtain ⟨⟨hflat, _, _⟩, hk, hfo, hvo⟩ := NewTemplate_counted split compile path [] t ht
  have key : r.GetAll.map PathVar.key = t.Vars.map PathVar.key := by
    rcases matches_some_cases _ _ _ _ _ _ hm with ⟨hn, _⟩ | ⟨pts, v, _, _, hr, hl⟩
    · simp at hn
    · simp only [Option.some.injEq] at hr
      subst hr
      rw [mergeParseOptions_nil, hfo, hvo] at hl
      simp only [separateParseOptions, separateParseOptionsLoop] at hl
      have hs := matchesLoop_sim compile t.varsType [] t.pathParts pts 0
        (newPathVars t.varsType) r ([], fun _ => 0) hk
        ⟨rfl, rfl, fun _ _ => rfl⟩ hl
      unfold template.Vars pathVars.GetAll
      rw [getVarsList_flat _ _ hflat]
      exact hs.2.1
  refine ⟨?_, key⟩
  have := congrArg List.length key
  simpa using this

/-- Witness of C8: `/{a}-{b}` against `/foo-bar` gives `a = "foo"` at position
0 and `b = "bar"` at position 1. -/
theorem C8_witness :
    ∃ t r, NewTemplate uriSplit compileDash "/{a}-{b}" [] = .ok t ∧
      t.matches compileDash "/foo-bar" [] = some (some r, true) ∧
      r.GetAll = [{ Name := "a", NamedPosition := 0, Position := 0, Value := .str "foo" },
                  { Name := "b", NamedPosition := 0, Position := 1, Value := .str "bar" }] ∧
      r.GetAll.length = t.Vars.length ∧
      r.GetAll.map PathVar.key = t.Vars.map PathVar.key :=
  ⟨_, _, rfl, rfl, rfl,
    C8_match_lists_template_vars uriSplit compileDash "/{a}-{b}" _ "/foo-bar" _ rfl rfl⟩

/-- Claim C9: building with a positional container. For every template with
`n` variables, counted left to right with the variable sub-parts of composites,
and every positional container holding at least `n` string values, `PathFrom`
with no options returns the path the spec describes (`specPath`); from any
cursor `c` the part loop consumes the values from `c` on and leaves the cursor
at `c + n`; and for a template with flat parts `n` is the length of `Vars()`. -/
theorem C9_positional_build (t : template) (xs : List String)
    (hn : (varNames t.pathParts).length ≤ xs.length) :
    t.PathFrom (some (Positional (xs.map Value.str))) [] = .ok (specPath t.pathParts xs) ∧
    (∀ (c : Nat) (pb : String) (pp : Nat) (np : String → Nat),
      c + (varNames t.pathParts).length ≤ xs.length →
      ∃ tr1, buildPathLoop t.pathParts pb
          { vars := some (Positional (xs.map Value.str)), varPosition := c, pathPosition := pp,
            namedPositions := np, varMatches := [] }
          = (.ok (pb ++ specPath t.pathParts (xs.drop c)), tr1) ∧
        tr1.varPosition = c + (varNames t.pathParts).length) ∧
    ((∀ pt ∈ t.pathParts, pt.flat = true) → t.Vars.length = (varNames t.pathParts).length) := by
  obtain ⟨hlen, hok, htexts⟩ := positional_str_texts xs
  have key : ∀ (c : Nat) (pb : String) (pp : Nat) (np : String → Nat),
      c + (varNames t.pathParts).length ≤ xs.length →
      ∃ tr1, buildPathLoop t.pathParts pb
          { vars := some (Positional (xs.map Value.str)), varPosition := c, pathPosition := pp,
            namedPositions := np, varMatches := [] }
          = (.ok (pb ++ specPath t.pathParts (xs.drop c)), tr1) ∧
        tr1.varPosition = c + (varNames t.pathParts).length := by
    intro c pb pp np hc
    obtain ⟨tr1, h1, h2⟩ := buildPathLoop_positional t.pathParts pb
      { vars := some (Positional (xs.map Value.str)), varPosition := c, pathPosition := pp,
        namedPositions := np, varMatches := [] }
      (Positional (xs.map Value.str)) rfl (Positional_spec _).1 hok
      (by simp only [hlen]; exact hc)
    refine ⟨tr1, ?_, h2⟩
    rw [h1]
    simp only [htexts]
  refine ⟨?_, key, Vars_length t⟩
  obtain ⟨tr1, h1, _⟩ := key 0 "" 0 (fun _ => 0) (by omega)
  apply buildPath_plain t _ _ _ tr1
  rw [h1]
  simp

/-- Witness of C9: `/{a}-{b}/x/{c}` built from the positional values `1`, `2`,
`3`, `4`. -/
theorem C9_witness :
    (varNames dashTemplate.pathParts).length ≤ 4 ∧
    NewTemplate uriSplit compileDash "/{a}-{b}/x/{c}" [] = .ok dashTemplate ∧
    dashTemplate.PathFrom (some (Positional [.str "1", .str "2", .str "3", .str "4"])) []
      = .ok "/1-2/x/3" :=
  ⟨by decide, rfl,
   (C9_positional_build dashTemplate ["1", "2", "3", "4"] (by decide)).1⟩

/-- Claim C10: building with a named container. For every template and every
container `Named pairs` that holds a value with a string form for every
variable occurrence, `PathFrom` with no options returns the path in which the
`j`-th variable, being the `k`-th occurrence of its name (`k` counted from 0
among the variables before it), carries the `k`-th value added under that
name. -/
theorem C10_named_build (t : template) (pairs : List (String × Value))
    (havail : ∀ j, j < (varNames t.pathParts).length →
      namedAvail pairs (varNames t.pathParts) j = true) :
    t.PathFrom (some (Named pairs)) [] = .ok (specPath t.pathParts
      ((List.range (varNames t.pathParts).length).map
        (namedText pairs (varNames t.pathParts)))) :=
  PathFrom_named t pairs havail

/-- Witness of C10: `/credits/{year}/{month}` with `year = "2022"` and
`month = "11"` builds `/credits/2022/11`. -/
theorem C10_witness :
    NewTemplate uriSplit noCompile "/credits/{year}/{month}" [] = .ok creditsTemplate ∧
    creditsTemplate.PathFrom (some (Named [("year", .str "2022"), ("month", .str "11")])) []
      = .ok "/credits/2022/11" :=
  ⟨rfl, C10_named_build creditsTemplate [("year", .str "2022"), ("month", .str "11")]
    (by decide)⟩

/-! ## The claims on building, parsing options and partial resolution -/

/-- Claim C11 fails in the code for positional containers: with the template
`/users/{id:[0-9]+}` and the option `PathRegexCheck`, the named container
`id = "abc"` is rejected with the error `no match path var` (and `id = "12"`
is accepted), but the positional container holding `abc` builds `/users/abc`:
the positional branch of `getVar` returns the value without running the
options, also an option that rejects every value. -/
theorem C11_positional_value_not_checked :
    NewTemplate uriSplit compileDigits "/users/{id:[0-9]+}" [] = .ok usersTemplate ∧
    usersTemplate.PathFromWith (some (Named [("id", .str "abc")])) [.varMatch PathRegexCheck]
      = .error "no match path var" ∧
    usersTemplate.PathFromWith (some (Named [("id", .str "12")])) [.varMatch PathRegexCheck]
      = .ok "/users/12" ∧
    usersTemplate.PathFromWith (some (Positional [.str "abc"])) [.varMatch PathRegexCheck]
      = .ok "/users/abc" ∧
    usersTemplate.PathFromWith (some (Positional [.str "abc"])) [.varMatch rejectAll]
      = .ok "/users/abc" :=
  ⟨rfl, rfl, rfl, rfl, rfl⟩

/-- Claim C12: a missing value is an error and no path is returned. For a
positional container holding `m` string values, `m` less than the number of
variables of the template, `PathFrom` returns the empty string and the error
naming position `m + 1`. For a named container that has a value for every
variable before the `j`-th but none for the `j`-th, it returns the empty string
and the error naming that variable, with its occurrence number when it is not
the first occurrence of the name. -/
theorem C12_missing_value (t : template) :
    (∀ xs : List String, xs.length < (varNames t.pathParts).length →
      goResult (t.PathFrom (some (Positional (xs.map Value.str))) [])
        = ("", some ("no var for varPosition " ++ toString (xs.length + 1)))) ∧
    (∀ (pairs : List (String × Value)) (j : Nat), j < (varNames t.pathParts).length →
      (∀ i, i < j → namedAvail pairs (varNames t.pathParts) i = true) →
      namedAvail pairs (varNames t.pathParts) j = false →
      goResult (t.PathFrom (some (Named pairs)) [])
        = ("", some (namedMissing (varNames t.pathParts) j))) := by
  constructor
  · intro xs h
    rw [PathFrom_positional_missing t xs h]
    rfl
  · intro pairs j hj havail hmiss
    rw [PathFrom_named_missing t pairs j hj havail hmiss]
    rfl

/-- Witness of C12: `/a/{x}/{y}/{x}` built from one positional value lacks
position 2; built from `x = "1"`, `y = "2"` it lacks the second `x`; built from
`x = "1"` alone it lacks `y`. -/
theorem C12_witness :
    NewTemplate uriSplit noCompile "/a/{x}/{y}/{x}" [] = .ok repeatTemplate ∧
    goResult (repeatTemplate.PathFrom (some (Positional [.str "1"])) [])
      = ("", some "no var for varPosition 2") ∧
    goResult (repeatTemplate.PathFrom (some (Named [("x", .str "1"), ("y", .str "2")])) [])
      = ("", some "no var for 'x' (varPosition 2)") ∧
    goResult (repeatTemplate.PathFrom (some (Named [("x", .str "1")])) [])
      = ("", some "no var for 'y'") :=
  ⟨rfl,
   (C12_missing_value repeatTemplate).1 ["1"] (by decide),
   (C12_missing_value repeatTemplate).2 [("x", .str "1"), ("y", .str "2")] 2
     (by decide) (by decide) (by decide),
   (C12_missing_value repeatTemplate).2 [("x", .str "1")] 1
     (by decide) (by decide) (by decide)⟩

/-- Claim C13: `PathFrom(vars, h, q)` is the host address, then the path of
`PathFrom(vars)`, then the query text when both succeed; when the path or the
query fails it fails with that error and the empty string. -/
theorem C13_host_path_query (t : template) (vars : Option pathVars) (h : String)
    (q : Except String String) :
    goResult (t.PathFromWith vars [.host h, .query q]) =
      match t.PathFrom vars [], q with
      | .ok p, .ok s => (h ++ p ++ s, none)
      | .ok _, .error e => ("", some e)
      | .error e, _ => ("", some e) := by
  unfold template.PathFromWith template.PathFrom template.buildPath separatePathOptions
  simp only [separatePathOptionsLoop]
  have hp := buildPathLoop_prefix t.pathParts h ""
    { vars := vars, varPosition := 0, pathPosition := 0, namedPositions := fun _ => 0,
      varMatches := [] }
  rw [String.append_empty] at hp
  rw [hp]
  rcases buildPathLoop t.pathParts ""
    { vars := vars, varPosition := 0, pathPosition := 0, namedPositions := fun _ => 0,
      varMatches := [] } with ⟨r, tr1⟩
  cases r with
  | error e => rfl
  | ok p =>
    cases q with
    | error e => rfl
    | ok s => rfl

/-- Claim C14: for query parameters with sorting enabled whose values are nil
or have a string form (strings among them), `GetQuery` returns the empty string
when there are no keys and otherwise `?` followed by the entries joined by `&`;
the keys are taken in ascending string order (`sort.Strings` returns a sorted
permutation of the keys), the values of a key in insertion order; a non-nil
value is written `esc(k)=esc(v)`, a nil value and a key with an empty value
list as the bare `esc(k)`. -/
theorem C14_sorted_query (qp : queryParams) (hs : qp.sorted = true)
    (hv : ∀ kv ∈ qp.params, ∀ v ∈ kv.2, v ≠ Value.nil → (getValueIf v).2 = true) :
    (sort_Strings (qp.params.map Prod.fst)).Perm (qp.params.map Prod.fst) ∧
    List.Sorted (fun a b => strLe a b = true) (sort_Strings (qp.params.map Prod.fst)) ∧
    qp.GetQuery = .ok (specQuery ((sort_Strings (qp.params.map Prod.fst)).flatMap
      (fun k => queryEntries k (paramsGet qp.params k)))) := by
  obtain ⟨h1, h2⟩ := sort_Strings_sorted (qp.params.map Prod.fst)
  refine ⟨h1, h2, ?_⟩
  unfold queryParams.GetQuery
  by_cases hl : qp.params.length > 0
  · rw [if_pos hl]
    simp only [hs, if_true]
    have := writeNames_spec qp.params (sort_Strings (qp.params.map Prod.fst)) [] hv
    simpa [specQuery] using this
  · rw [if_neg hl]
    have hnil : qp.params = [] := List.length_eq_zero.mp (by omega)
    rw [hnil]
    rfl

/-- Witness of C14: `b = "2"`, `a = "1"` gives `?a=1&b=2`. -/
theorem C14_witness :
    NewQueryParams [.str "b", .str "2", .str "a", .str "1"] = .ok sampleQuery ∧
    sampleQuery.GetQuery = .ok "?a=1&b=2" :=
  ⟨rfl, (C14_sorted_query sampleQuery rfl (by decide)).2.2⟩

/-- Claim C15 fails as stated: in `/?//{a}` the empty segment ends the split
before `{a}` is parsed, and `NewTemplate` fails with the error
`path parts cannot be empty`, not with the mixed-kind error. -/
theorem C15_earlier_error_wins :
    (uriSplit "/?//{a}").err = some (.other "path parts cannot be empty") ∧
    NewTemplate uriSplit noCompile "/?//{a}" []
      = .error (.other "path parts cannot be empty") ∧
    NewTemplate uriSplit noCompile "/?//{a}" [] ≠ .error mixedKindError := by
  refine ⟨rfl, rfl, ?_⟩
  intro h
  have h1 : NewTemplate uriSplit noCompile "/?//{a}" []
      = .error (.other "path parts cannot be empty") := rfl
  rw [h1] at h
  injection h with h
  cases h

/-- Claim C15, amended: when the segments parsed without a parse error (`pre`,
followed by any further segments `rest`) hold both a whole segment `?` and a
segment with a `{name}` placeholder, `NewTemplate` fails with the mixed-kind
parse error, whatever the rest of the text holds and also when the split ends
in an error later on. When a parse error or an error of the splitter ends the
parse and the two counters are not both positive then, `NewTemplate` fails
with that error; this is so whenever the segments handed to the parser do not
hold both a segment counted as positional (`?`) and a segment counted as named
(a `{name}` placeholder, or a plain `?name` or `:name`). -/
theorem C15_mixed_kinds (split : String → SplitRun) (compile : String → Option Regexp)
    (path : String) (options : List AnyOption)
    (hblank : strings_Trim (slashPrefix path) ' ' ≠ "") :
    (∀ pre rest, (split (slashPrefix path)).segments = pre ++ rest →
      (parseLoop compile pre (startTemplate path options)).1 = none →
      (∃ seg ∈ pre, seg.isPositional) → (∃ seg ∈ pre, seg.hasNamed) →
      NewTemplate split compile path options = .error mixedKindError) ∧
    (∀ e, parseEndError split compile (startTemplate path options) = some e →
      ¬ (0 < (parseLoop compile (split (slashPrefix path)).segments
              (startTemplate path options)).2.posVarsCount ∧
         0 < (parseLoop compile (split (slashPrefix path)).segments
              (startTemplate path options)).2.nameVarsCount) →
      NewTemplate split compile path options = .error e) ∧
    (∀ e, parseEndError split compile (startTemplate path options) = some e →
      ¬ ((∃ seg ∈ (split (slashPrefix path)).segments, seg.countsPositional) ∧
         (∃ seg ∈ (split (slashPrefix path)).segments, seg.countsNamed)) →
      NewTemplate split compile path options = .error e) := by
  have hcount : ∀ e, parseEndError split compile (startTemplate path options) = some e →
      ¬ (0 < (parseLoop compile (split (slashPrefix path)).segments
              (startTemplate path options)).2.posVarsCount ∧
         0 < (parseLoop compile (split (slashPrefix path)).segments
              (startTemplate path options)).2.nameVarsCount) →
      NewTemplate split compile path options = .error e := by
    intro e he hnot
    unfold parseEndError at he
    show template.parse split compile (startTemplate path options) = .error e
    unfold template.parse
    dsimp only
    have hb : ¬ strings_Trim (startTemplate path options).originalTemplate ' ' = "" := hblank
    rw [if_neg hb]
    have hnot2 : ¬ ((parseLoop compile (split (startTemplate path options).originalTemplate).segments
          (startTemplate path options)).2.posVarsCount > 0 ∧
        (parseLoop compile (split (startTemplate path options).originalTemplate).segments
          (startTemplate path options)).2.nameVarsCount > 0) := hnot
    rw [if_neg hnot2]
    cases h1 : (parseLoop compile (split (startTemplate path options).originalTemplate).segments
        (startTemplate path options)).1 with
    | some e1 =>
      rw [h1] at he
      simp only [Option.some.injEq] at he
      simp only [h1, he]
    | none =>
      rw [h1] at he
      simp only at he
      simp only [h1, he]
  refine ⟨?_, hcount, ?_⟩
  · intro pre rest hsegs hpre hpos hnamed
    show template.parse split compile (startTemplate path options) = .error mixedKindError
    unfold template.parse
    dsimp only
    have hb : ¬ strings_Trim (startTemplate path options).originalTemplate ' ' = "" := hblank
    have hsegs2 : (split (startTemplate path options).originalTemplate).segments = pre ++ rest :=
      hsegs
    rw [if_neg hb, hsegs2, parseLoop_append compile pre rest _ hpre]
    have h1 := parseLoop_positional compile pre _ hpre hpos
    have h2 := parseLoop_named compile pre _ hpre hnamed
    have h3 := parseLoop_mono compile rest (parseLoop compile pre (startTemplate path options)).2
    have hmix : (parseLoop compile rest
          (parseLoop compile pre (startTemplate path options)).2).2.posVarsCount > 0 ∧
        (parseLoop compile rest
          (parseLoop compile pre (startTemplate path options)).2).2.nameVarsCount > 0 := by
      constructor <;> omega
    rw [if_pos hmix]
  · intro e he hnot
    refine hcount e he (fun hboth => hnot ⟨?_, ?_⟩)
    · exact (parseLoop_counts compile _ (startTemplate path options)).1 hboth.1
    · exact (parseLoop_counts compile _ (startTemplate path options)).2 hboth.2

/-- Witness of C15: `/?/{a}/{b` has a positional and a named placeholder before
the splitter reports the unclosed bracket, and the mixed-kind error is
returned; in `/{a}//?` the empty segment ends the split when only `{a}` was
handed to the parser, and the error of the splitter is returned. -/
theorem C15_witness :
    (uriSplit "/?/{a}/\x7bb").err = some (.other "unclosed bracket") ∧
    NewTemplate uriSplit noCompile "/?/{a}/\x7bb" [] = .error mixedKindError ∧
    (uriSplit "/{a}//?").segments = [{ s := "{a}", pos := 1, subParts :=
      [⟨SubPartType.Brackets, '{', "{a}", "{a}", 1⟩] }] ∧
    (uriSplit "/{a}//?").err = some (.other "path parts cannot be empty") ∧
    NewTemplate uriSplit noCompile "/{a}//?" [] = .error (.other "path parts cannot be empty") :=
  ⟨rfl, (C15_mixed_kinds uriSplit noCompile "/?/{a}/\x7bb" [] (by decide)).1
    (uriSplit "/?/{a}/\x7bb").segments [] (List.append_nil _).symm rfl
    ⟨questionSegment, by decide, rfl, _, rfl, rfl⟩
    ⟨namedSegment, by decide, ⟨SubPartType.Brackets, '{', "{a}", "{a}", 3⟩,
      List.Mem.head _, rfl, rfl⟩,
   rfl, rfl,
   (C15_mixed_kinds uriSplit noCompile "/{a}//?" [] (by decide)).2.2
    (.other "path parts cannot be empty") rfl (by
      rintro ⟨⟨seg, hseg, ⟨⟨sp, hsp, hty⟩, _⟩, _⟩, _⟩
      have hs : (uriSplit (slashPrefix "/{a}//?")).segments = [{ s := "{a}", pos := 1, subParts :=
        [⟨SubPartType.Brackets, '{', "{a}", "{a}", 1⟩] }] := rfl
      rw [hs] at hseg
      simp only [List.mem_singleton] at hseg
      subst hseg
      simp only [List.cons.injEq, and_true] at hsp
      subst hsp
      cases hty)⟩

/-- Claim C16 fails as stated: the addition `/{id}` parses on its own, but
`Sub` on the base `/?` fails with the mixed-kind parse error. -/
theorem C16_incompatible_addition :
    ∃ base add, NewTemplate uriSplit noCompile "/?" [] = .ok base ∧
      NewTemplate uriSplit noCompile "/{id}" [] = .ok add ∧
      base.Sub uriSplit noCompile "/{id}" [] = .error mixedKindError :=
  ⟨_, _, rfl, rfl, rfl⟩

/-- Claim C16, amended: for every base template and every addition text that
parses on its own, `Sub` fails with the mixed-kind parse error when one of the
two has a positional and the other a named variable; otherwise it succeeds and
returns a template whose parts are the base parts followed by the parts of the
addition, whose counts are the sums, and whose textual form is the text of the
base with one trailing `/` removed followed by the text of the addition (which
starts with `/`). -/
theorem C16_sub_result (split : String → SplitRun) (compile : String → Option Regexp)
    (base : template) (path : String) (options : List AnyOption) (ra : template)
    (hra : NewTemplate split compile path options = .ok ra) :
    (((ra.posVarsCount > 0 ∧ base.nameVarsCount > 0) ∨
      (base.posVarsCount > 0 ∧ ra.nameVarsCount > 0)) →
      base.Sub split compile path options = .error mixedKindError) ∧
    (¬ ((ra.posVarsCount > 0 ∧ base.nameVarsCount > 0) ∨
        (base.posVarsCount > 0 ∧ ra.nameVarsCount > 0)) →
      ∃ r, base.Sub split compile path options = .ok r ∧
        r.pathParts = base.pathParts ++ ra.pathParts ∧
        r.posVarsCount = base.posVarsCount + ra.posVarsCount ∧
        r.nameVarsCount = base.nameVarsCount + ra.nameVarsCount ∧
        ra.originalTemplate = slashPrefix path ∧
        r.originalTemplate =
          (if strings_HasSuffix base.originalTemplate "/" then
             sliceTo base.originalTemplate (base.originalTemplate.length - 1)
           else base.originalTemplate) ++ slashPrefix path) := by
  have horg := NewTemplate_originalTemplate split compile path options ra hra
  refine ⟨fun hmix => ?_, fun hmix => ?_⟩
  · simp only [template.Sub, hra, hmix, if_true]
  · simp only [template.Sub, hra, hmix, if_false]
    refine ⟨_, rfl, rfl, rfl, rfl, horg, ?_⟩
    simp only [template.clone, horg]
    split_ifs <;> rfl

/-- Witness of C16: the base `/foo/` and the addition `bar/{id}` give the parts
`foo`, `bar`, `{id}` and the text `/foo/bar/{id}`. -/
theorem C16_witness :
    NewTemplate uriSplit noCompile "/foo/" [] = .ok fooSlashTemplate ∧
    NewTemplate uriSplit noCompile "bar/{id}" [] = .ok barIdTemplate ∧
    ∃ r, fooSlashTemplate.Sub uriSplit noCompile "bar/{id}" [] = .ok r ∧
      r.pathParts = [fixedPart "foo", fixedPart "bar", varPart "id"] ∧
      r.posVarsCount = 0 ∧ r.nameVarsCount = 1 ∧
      barIdTemplate.originalTemplate = "/bar/{id}" ∧
      r.originalTemplate = "/foo/bar/{id}" :=
  ⟨rfl, rfl,
   (C16_sub_result uriSplit noCompile fooSlashTemplate "bar/{id}" [] barIdTemplate rfl).2
     (by decide)⟩

/-- Claim C17 fails as stated: the textual form is written anew. `/:id/x`
resolves with no values to a template whose text is `/{id}/x`, and `/foo/` to
one whose text is `/foo`; part count and variable counts are kept. -/
theorem C17_text_rewritten :
    (∃ t, NewTemplate uriSplit noCompile "/:id/x" [] = .ok t ∧
      t.OriginalTemplate = "/:id/x" ∧
      (t.ResolveTo none).OriginalTemplate = "/{id}/x" ∧
      (t.ResolveTo none).OriginalTemplate ≠ t.OriginalTemplate) ∧
    (∃ t, NewTemplate uriSplit noCompile "/foo/" [] = .ok t ∧
      t.OriginalTemplate = "/foo/" ∧
      (t.ResolveTo (some (Positional []))).OriginalTemplate = "/foo" ∧
      (t.ResolveTo (some (Positional []))).OriginalTemplate ≠ t.OriginalTemplate) :=
  ⟨⟨_, rfl, rfl, rfl, by decide⟩, ⟨_, rfl, rfl, rfl, by decide⟩⟩

/-- Claim C17, amended: for every template `NewTemplate` returns and an empty
container (nil, `Positional()` or `Named()`), `ResolveTo` returns a template
with the same number of parts and the same positional and named variable
counts, whose textual form is the canonical text of the parts (`partsText`:
literals as they are, `?` for a positional variable, `{name}` or
`{name:pattern}` for a named one); resolving that result again with the empty
container leaves its textual form unchanged. -/
theorem C17_resolve_without_values (split : String → SplitRun)
    (compile : String → Option Regexp) (path : String) (options : List AnyOption)
    (t : template) (vars : Option pathVars)
    (h : NewTemplate split compile path options = .ok t)
    (hv : vars = none ∨ vars = some (Positional []) ∨ vars = some (Named [])) :
    (t.ResolveTo vars).pathParts.length = t.pathParts.length ∧
    (t.ResolveTo vars).posVarsCount = t.posVarsCount ∧
    (t.ResolveTo vars).nameVarsCount = t.nameVarsCount ∧
    (t.ResolveTo vars).OriginalTemplate = partsText t.pathParts ∧
    ((t.ResolveTo vars).ResolveTo vars).OriginalTemplate
      = (t.ResolveTo vars).OriginalTemplate := by
  have hno : noValues vars := by
    intro pv hpv
    rcases hv with hv | hv | hv
    · rw [hv] at hpv; cases hpv
    · rw [hv] at hpv
      injection hpv with hpv
      subst hpv
      exact ⟨rfl, fun _ => rfl⟩
    · rw [hv] at hpv
      injection hpv with hpv
      subst hpv
      exact ⟨rfl, fun _ => rfl⟩
  obtain ⟨r1, r2, r3, r4⟩ := ResolveTo_fill t vars
  obtain ⟨_, _, _, hlen⟩ := outcomes_keeps (varParts t.pathParts) (startTracker vars [])
  have hnone := outcomes_noValues (varParts t.pathParts) (startTracker vars []) hno
  obtain ⟨f1, f2, f3⟩ := fillParts_noValues t.pathParts _ hnone hlen
  obtain ⟨⟨_, c2, c3⟩, _, _, _⟩ := NewTemplate_counted split compile path options t h
  obtain ⟨s1, s2⟩ := subsNamed_counts t.pathParts
    (NewTemplate_subsNamed split compile path options t h)
  obtain ⟨q1, _, _, q4⟩ := ResolveTo_fill (t.ResolveTo vars) vars
  obtain ⟨_, _, _, hlen2⟩ := outcomes_keeps (varParts (t.ResolveTo vars).pathParts)
    (startTracker vars [])
  have hnone2 := outcomes_noValues (varParts (t.ResolveTo vars).pathParts)
    (startTracker vars []) hno
  obtain ⟨g1, _, _⟩ := fillParts_noValues (t.ResolveTo vars).pathParts _ hnone2 hlen2
  refine ⟨by rw [r1, fillParts_length], by rw [r2, f2, s1, c3], by rw [r3, f3, s2, c2], ?_, ?_⟩
  · show (t.ResolveTo vars).originalTemplate = _
    rw [r4, f1]
  · show ((t.ResolveTo vars).ResolveTo vars).originalTemplate = (t.ResolveTo vars).originalTemplate
    rw [q4, g1, r4, ← r1]

/-- Witness of C17: `/credits/{year}/{month}` resolved with `Positional()`. -/
theorem C17_witness :
    NewTemplate uriSplit noCompile "/credits/{year}/{month}" [] = .ok creditsTemplate ∧
    (creditsTemplate.ResolveTo (some (Positional []))).nameVarsCount = 2 ∧
    (creditsTemplate.ResolveTo (some (Positional []))).OriginalTemplate
      = "/credits/{year}/{month}" :=
  ⟨rfl,
   (C17_resolve_without_values uriSplit noCompile "/credits/{year}/{month}" [] creditsTemplate
     (some (Positional [])) rfl (Or.inr (Or.inl rfl))).2.2.1,
   (C17_resolve_without_values uriSplit noCompile "/credits/{year}/{month}" [] creditsTemplate
     (some (Positional [])) rfl (Or.inr (Or.inl rfl))).2.2.2.1⟩

/-- Claim C18: partial evaluation law for positional values. For every
template and all lists of strings `xs`, `ys`, building the template
`ResolveTo(t, Positional(xs))` from `Positional(ys)` and building `t` from
`Positional(xs ++ ys)` either both fail or both succeed with the same path
(also when `xs` holds more values than the template has variables). -/
theorem C18_partial_evaluation (t : template) (xs ys : List String) :
    ((t.ResolveTo (some (Positional (xs.map Value.str)))).PathFrom
        (some (Positional (ys.map Value.str))) []).toOption
      = (t.PathFrom (some (Positional ((xs ++ ys).map Value.str))) []).toOption := by
  obtain ⟨r1, _, _, _⟩ := ResolveTo_fill t (some (Positional (xs.map Value.str)))
  rw [PathFrom_outcomes, PathFrom_outcomes, r1]
  rw [outcomes_Positional (varParts t.pathParts) xs, outcomes_Positional _ ys,
    outcomes_Positional _ (xs ++ ys)]
  have hlo : ((xs.take (varParts t.pathParts).length).map Except.ok ++
      List.replicate ((varParts t.pathParts).length - xs.length)
        (Except.error ("no var for varPosition " ++ toString (xs.length + 1))
          : Except String String)).length = (varParts t.pathParts).length := by
    simp only [List.length_append, List.length_map, List.length_take, List.length_replicate]
    omega
  rw [varParts_fillParts _ _ hlo, unresolvedVars_length _ _ hlo, countP_values,
    firstError_values, firstError_values, okValues_values, okValues_values,
    specPath_fillParts _ _ _ hlo]
  by_cases hn : (varParts t.pathParts).length ≤ xs.length + ys.length
  · have h1 : (varParts t.pathParts).length - xs.length - ys.length = 0 := by omega
    have h2 : (varParts t.pathParts).length - (xs ++ ys).length = 0 := by
      rw [List.length_append]; omega
    rw [if_pos h1, if_pos h2]
    rw [mergeValues_replicate _ _ _ _ (by rw [List.length_take]; omega),
      List.take_append_eq_append_take]
  · have h1 : ¬ (varParts t.pathParts).length - xs.length - ys.length = 0 := by omega
    have h2 : ¬ (varParts t.pathParts).length - (xs ++ ys).length = 0 := by
      rw [List.length_append]; omega
    rw [if_neg h1, if_neg h2]
    rfl

/-- Claim C19: full resolution. For every template and container for which
`PathFrom` with no options returns the path `p`, `ResolveTo` returns a template
with as many parts, all of them Fixed, whose positional and named counts are 0
and whose textual form is `p`; the literals of its parts are the segment texts
of `p`: the literal of a Fixed part, the value of a Variable, and for a
Composite the concatenation of its sub-part texts. -/
theorem C19_full_resolution (t : template) (vars : Option pathVars) (p : String)
    (h : t.PathFrom vars [] = .ok p) :
    (t.ResolveTo vars).pathParts.length = t.pathParts.length ∧
    (∀ pt ∈ (t.ResolveTo vars).pathParts, pt.fixed = true) ∧
    (t.ResolveTo vars).posVarsCount = 0 ∧ (t.ResolveTo vars).nameVarsCount = 0 ∧
    (t.ResolveTo vars).OriginalTemplate = p ∧
    ∃ vals : List String, vals.length = (varNames t.pathParts).length ∧
      p = specPath t.pathParts vals ∧
      (t.ResolveTo vars).pathParts.map (fun pt => pt.fixedValue) = partTexts t.pathParts vals := by
  obtain ⟨r1, r2, r3, r4⟩ := ResolveTo_fill t vars
  have hp := PathFrom_outcomes t vars
  rw [h] at hp
  obtain ⟨_, _, _, hlen⟩ := outcomes_keeps (varParts t.pathParts) (startTracker vars [])
  cases he : firstError (outcomes (varParts t.pathParts) (startTracker vars [])).1 with
  | some e => rw [he] at hp; simp at hp
  | none =>
    rw [he] at hp
    simp only [Except.ok.injEq] at hp
    obtain ⟨h1, h2, h3, h4, h5⟩ := fillParts_values t.pathParts _ he hlen
    refine ⟨by rw [r1, fillParts_length], by rw [r1]; exact h1, by rw [r2, h3], by rw [r3, h4],
      ?_, okValues (outcomes (varParts t.pathParts) (startTracker vars [])).1, ?_, hp, ?_⟩
    · show (t.ResolveTo vars).originalTemplate = p
      rw [r4, h5, hp]
    · rw [okValues_length _ he, hlen, varParts_length]
    · rw [r1, h2]

/-- Witness of C19: `/{a}-{b}/x/{c}` with `a = "foo"`, `b = "bar"`, `c = "42"`
resolves to the three Fixed parts `foo-bar`, `x`, `42` with the text
`/foo-bar/x/42`. -/
theorem C19_witness :
    dashTemplate.PathFrom
      (some (Named [("a", .str "foo"), ("b", .str "bar"), ("c", .str "42")])) []
      = .ok "/foo-bar/x/42" ∧
    (dashTemplate.ResolveTo
      (some (Named [("a", .str "foo"), ("b", .str "bar"), ("c", .str "42")]))).OriginalTemplate
      = "/foo-bar/x/42" ∧
    (dashTemplate.ResolveTo
      (some (Named [("a", .str "foo"), ("b", .str "bar"), ("c", .str "42")]))).pathParts.map
        (fun pt => (pt.fixed, pt.fixedValue))
      = [(true, "foo-bar"), (true, "x"), (true, "42")] :=
  ⟨rfl,
   (C19_full_resolution dashTemplate
     (some (Named [("a", .str "foo"), ("b", .str "bar"), ("c", .str "42")]))
     "/foo-bar/x/42" rfl).2.2.2.2.1,
   rfl⟩

/-- Claim C20 fails as stated: `/?abc` parses to the named variable `abc`
(counted as named), and `/:id` to the named variable `id`, not to a Fixed
part. -/
theorem C20_prefixed_names :
    (∃ t, NewTemplate uriSplit noCompile "/?abc" [] = .ok t ∧
      t.pathParts.map (fun p => (p.fixed, p.name)) = [(false, "abc")] ∧
      t.posVarsCount = 0 ∧ t.nameVarsCount = 1) ∧
    (∃ t, NewTemplate uriSplit noCompile "/:id" [] = .ok t ∧
      t.pathParts.map (fun p => (p.fixed, p.name)) = [(false, "id")] ∧
      t.posVarsCount = 0 ∧ t.nameVarsCount = 1) :=
  ⟨⟨_, rfl, rfl, rfl, rfl⟩, ⟨_, rfl, rfl, rfl, rfl⟩⟩

/-- Claim C20, amended: when a segment is one plain sub-part, the parser makes
it a variable if its text starts with `?` or with `:`; the name is the text
after that first character, and the variable is positional (counted as
positional) when that name is empty and named (counted as named) otherwise.
Any other such segment is a Fixed part whose literal is the segment text, and
the counts are unchanged. -/
theorem C20_single_plain_segment (compile : String → Option Regexp) (t : template)
    (s : String) (sp : SubPart) (hsp : sp.Type_ = SubPartType.Fixed) :
    ((strings_HasPrefix s "?" = true ∨ strings_HasPrefix s ":" = true) →
      (t.newUriPathPart compile s [sp]).1 = .ok (varPart (sliceFrom s 1)) ∧
      (sliceFrom s 1 = "" →
        (t.newUriPathPart compile s [sp]).2 = { t with posVarsCount := t.posVarsCount + 1 }) ∧
      (sliceFrom s 1 ≠ "" →
        (t.newUriPathPart compile s [sp]).2 = { t with nameVarsCount := t.nameVarsCount + 1 })) ∧
    (¬ (strings_HasPrefix s "?" = true ∨ strings_HasPrefix s ":" = true) →
      t.newUriPathPart compile s [sp] = (.ok (fixedPart s), t)) := by
  refine ⟨fun h => ?_, fun h => ?_⟩
  · have h1 : (strings_HasPrefix s "?" || strings_HasPrefix s ":") = true := by
      simpa using h
    simp only [template.newUriPathPart, hsp, if_true, h1]
    refine ⟨by trivial, fun he => ?_, fun he => ?_⟩
    · simp [template.addVar, varPart, pathPart.fixed, pathPart.name, he]
    · simp [template.addVar, varPart, pathPart.fixed, pathPart.name, he]
  · have h1 : (strings_HasPrefix s "?" || strings_HasPrefix s ":") = false := by
      simpa using h
    simp [template.newUriPathPart, hsp, h1]

/-- Witness of C20: the segment `?` is a positional variable. -/
theorem C20_witness :
    (creditsTemplate.newUriPathPart noCompile "?" [⟨SubPartType.Fixed, '?', "?", "?", 1⟩]).1
      = .ok (varPart "") ∧
    (creditsTemplate.newUriPathPart noCompile "?" [⟨SubPartType.Fixed, '?', "?", "?", 1⟩]).2
      = { creditsTemplate with posVarsCount := creditsTemplate.posVarsCount + 1 } :=
  ⟨((C20_single_plain_segment noCompile creditsTemplate "?"
      ⟨SubPartType.Fixed, '?', "?", "?", 1⟩ rfl).1 (Or.inl (by decide))).1,
   ((C20_single_plain_segment noCompile creditsTemplate "?"
      ⟨SubPartType.Fixed, '?', "?", "?", 1⟩ rfl).1 (Or.inl (by decide))).2.1 (by decide)⟩


/-! ## The claims on options, containers, names and reachable templates -/

/-- Claim C21 fails as stated: with the options `rejectAll`, `acceptAll`
registered in this order, both applicable to the variable of `/{id}`, the
earlier option rejects the segment `x` and the later one accepts it; the check
returns accepted, and the match of `/x` returns `matched = true` with
`id = "x"`. -/
theorem C21_later_option_rescues :
    rejectAll.Applicable "x" 0 "id" none "" 0 (some (newPathVars .Names)) = true ∧
    (rejectAll.Match "x" 0 "id" none "" 0 (some (newPathVars .Names))).2 = false ∧
    varMatchOptions.check [rejectAll, acceptAll] "x" 0 "id" none "" 0
      (some (newPathVars .Names)) = ("x", true, true) ∧
    ∃ t r, NewTemplate uriSplit noCompile "/{id}" [.varMatch rejectAll, .varMatch acceptAll]
        = .ok t ∧
      t.matches noCompile "/x" [] = some (some r, true) ∧
      r.GetAll = [{ Name := "id", NamedPosition := 0, Position := 0, Value := .str "x" }] :=
  ⟨rfl, rfl, rfl, _, _, rfl, rfl, rfl⟩

/-- Claim C21, amended: during matching the registered variable-match options
are tried in list order, each on the segment as it was read, and the first
applicable option that accepts decides: the check returns its value and
`accepted`, and no later option is run. The value is rejected only when no
applicable option accepts it; the check then reports whether any option was
applicable at all. The value the first accepting option returns is the one
recorded: for a simple variable `match` adds it to the container and returns
`true`, returns `false` with the container untouched when the value is
rejected, and records the segment as read under the verdict of the pattern
when no option is applicable; for a variable sub-part of a composite
`multiMatch` adds the value returned for the captured text, adds the captured
text when no option is applicable, and adds nothing when it is rejected. -/
theorem C21_first_accepting_option (opts : List VarMatchOption) (value : String)
    (position : Nat) (name : String) (rx : Option Regexp) (rxs : String) (pathPos : Nat)
    (vars : Option pathVars) :
    varMatchOptions.check opts value position name rx rxs pathPos vars =
      (match opts.find? (fun o => o.Applicable value position name rx rxs pathPos vars &&
          (o.Match value position name rx rxs pathPos vars).2) with
      | some o => ((o.Match value position name rx rxs pathPos vars).1, true, true)
      | none =>
        (value, false,
          opts.any (fun o => o.Applicable value position name rx rxs pathPos vars))) ∧
    (∀ (compile : String → Option Regexp) (pt : pathPart) (s : String) (found : pathVars)
        (fOpts : List FixedMatchOption),
      pt.fixed = false → pt.subParts = [] →
      pt.match_ compile s pathPos found fOpts opts =
        match recordedValue opts s found.Len pt.name pt.regexp pt.orgRegexp pathPos
            (some found) (regexVerdict pt.regexp s) with
        | some v => some (true, pt.addFound found v)
        | none => some (false, found)) ∧
    (∀ (sms : List String) (idxs : Int → Nat) (sp : pathPart) (rest : List pathPart)
        (i : Nat) (found : pathVars) (str0 : String),
      sp.fixed = false → sms[idxs (i : Int)]? = some str0 →
      multiMatchLoop sms idxs pathPos opts (sp :: rest) i found =
        multiMatchLoop sms idxs pathPos opts rest (i + 1)
          (match recordedValue opts str0 found.Len sp.name sp.regexp sp.orgRegexp pathPos
              (some found) true with
           | some v => sp.addFound found v
           | none => found)) := by
  refine ⟨check_first_accepting opts value position name rx rxs pathPos vars, ?_, ?_⟩
  · intro compile pt s found fOpts hf hs
    obtain ⟨h1, h2⟩ := check_recorded opts s found.Len pt.name pt.regexp pt.orgRegexp pathPos
      (some found) (regexVerdict pt.regexp s)
    have hm : pt.match_ compile s pathPos found fOpts opts =
        if (if (decide (opts.length > 0) &&
              (varMatchOptions.check opts s found.Len pt.name pt.regexp pt.orgRegexp pathPos
                (some found)).2.2) = true
            then (varMatchOptions.check opts s found.Len pt.name pt.regexp pt.orgRegexp pathPos
                (some found)).2.1
            else regexVerdict pt.regexp s) = true
        then some (true, pt.addFound found
          (if (decide (opts.length > 0) &&
              (varMatchOptions.check opts s found.Len pt.name pt.regexp pt.orgRegexp pathPos
                (some found)).2.2) = true
            then (varMatchOptions.check opts s found.Len pt.name pt.regexp pt.orgRegexp pathPos
                (some found)).1
            else s))
        else some (false, found) := by
      simp only [pathPart.match_, hf, hs, List.length_nil, if_true, Bool.false_eq_true, if_false]
      rfl
    rw [hm, h1]
    cases hr : recordedValue opts s found.Len pt.name pt.regexp pt.orgRegexp pathPos
        (some found) (regexVerdict pt.regexp s) with
    | none => simp
    | some v =>
      rw [h2 v hr]
      simp
  · intro sms idxs sp rest i found str0 hf hsm
    obtain ⟨h1, h2⟩ := check_recorded opts str0 found.Len sp.name sp.regexp sp.orgRegexp pathPos
      (some found) true
    rw [multiMatchLoop]
    simp only [hf, Bool.not_false, if_true, hsm]
    congr 1
    rw [h1]
    cases hr : recordedValue opts str0 found.Len sp.name sp.regexp sp.orgRegexp pathPos
        (some found) true with
    | none => simp
    | some v =>
      rw [h2 v hr]
      simp

/-- Witness of C21: of the options `rejectAll`, `acceptAll` the first applicable
one that accepts is `acceptAll`, and the value it returns for the segment `x`
is recorded for the variable `id`; with `rejectAll` alone the value is
rejected and nothing is recorded. -/
theorem C21_witness :
    varMatchOptions.check [rejectAll, acceptAll] "x" 0 "id" none "" 0 none
      = ((acceptAll.Match "x" 0 "id" none "" 0 none).1, true, true) ∧
    varMatchOptions.check [rejectAll] "x" 0 "id" none "" 0 none = ("x", false, true) ∧
    (varPart "id").match_ noCompile "x" 0 (newPathVars .Names) [] [rejectAll, acceptAll]
      = some (true, (varPart "id").addFound (newPathVars .Names)
          (acceptAll.Match "x" 0 "id" none "" 0 (some (newPathVars .Names))).1) ∧
    (varPart "id").match_ noCompile "x" 0 (newPathVars .Names) [] [rejectAll]
      = some (false, newPathVars .Names) :=
  ⟨(C21_first_accepting_option [rejectAll, acceptAll] "x" 0 "id" none "" 0 none).1,
   (C21_first_accepting_option [rejectAll] "x" 0 "id" none "" 0 none).1,
   (C21_first_accepting_option [rejectAll, acceptAll] "x" 0 "id" none "" 0 none).2.1
     noCompile (varPart "id") "x" (newPathVars .Names) [] rfl rfl,
   (C21_first_accepting_option [rejectAll] "x" 0 "id" none "" 0 none).2.1
     noCompile (varPart "id") "x" (newPathVars .Names) [] rfl rfl⟩

/-- Claim C22: a container never accepts an add of the other mode.
`AddNamedValue` on a positional container and `AddPositionalValue` on a named
one return an error and leave the container as it was; an add of the
container's own mode succeeds, keeps the mode and the entries already there,
and makes `Len` one more. -/
theorem C22_add_of_other_mode (pvs : pathVars) (name : String) (val : Value) :
    (pvs.varsType = PathVarsType.Positions →
      pvs.AddNamedValue name val = .error "cannot add named var to non-names vars" ∧
      afterAdd pvs (pvs.AddNamedValue name val) = pvs ∧
      ∃ p, pvs.AddPositionalValue val = .ok p ∧ p.Len = pvs.Len + 1 ∧
        p.varsType = pvs.varsType ∧ p.GetAll.take pvs.Len = pvs.GetAll) ∧
    (pvs.varsType = PathVarsType.Names →
      pvs.AddPositionalValue val = .error "cannot add positional var to non-positionals vars" ∧
      afterAdd pvs (pvs.AddPositionalValue val) = pvs ∧
      ∃ p, pvs.AddNamedValue name val = .ok p ∧ p.Len = pvs.Len + 1 ∧
        p.varsType = pvs.varsType ∧ p.GetAll.take pvs.Len = pvs.GetAll) := by
  constructor
  · intro h
    have hne : pvs.varsType ≠ PathVarsType.Names := by rw [h]; decide
    refine ⟨by simp [pathVars.AddNamedValue, hne],
      by simp [pathVars.AddNamedValue, hne, afterAdd], ?_⟩
    simp only [pathVars.AddPositionalValue, h, ne_eq, not_true_eq_false, if_false]
    refine ⟨_, rfl, ?_, ?_, ?_⟩
    · simp [pathVars.Len]
    · rfl
    · simp [pathVars.Len, pathVars.GetAll]
  · intro h
    have hne : pvs.varsType ≠ PathVarsType.Positions := by rw [h]; decide
    refine ⟨by simp [pathVars.AddPositionalValue, hne],
      by simp [pathVars.AddPositionalValue, hne, afterAdd], ?_⟩
    simp only [pathVars.AddNamedValue, h, ne_eq, not_true_eq_false, if_false]
    refine ⟨_, rfl, ?_, ?_, ?_⟩
    · simp [pathVars.Len]
    · rfl
    · simp [pathVars.Len, pathVars.GetAll]

/-- Witness of C22: a named add on `Positional("a")` is refused, a positional
add on it gives two entries. -/
theorem C22_witness :
    (Positional [.str "a"]).varsType = PathVarsType.Positions ∧
    (Positional [.str "a"]).AddNamedValue "x" (.str "1")
      = .error "cannot add named var to non-names vars" ∧
    afterAdd (Positional [.str "a"]) ((Positional [.str "a"]).AddNamedValue "x" (.str "1"))
      = Positional [.str "a"] :=
  ⟨rfl, ((C22_add_of_other_mode (Positional [.str "a"]) "x" (.str "1")).1 rfl).1,
   ((C22_add_of_other_mode (Positional [.str "a"]) "x" (.str "1")).1 rfl).2.1⟩

/-- Claim C23: indexed lookup with negative indices. For a container whose
entries hold the strings `xs`, `GetPositional(i)` returns `xs[i]` for
`0 <= i < n`, `xs[n+i]` for `-n <= i < 0` and `("", false)` for every other
`i`; `GetNamed(name, i)` follows the same rule over the strings `ys` stored
under the name; `GetNamedFirst(name)` is `GetNamed(name, 0)` and
`GetNamedLast(name)` is `GetNamed(name, -1)`. -/
theorem C23_indexed_lookup (pvs : pathVars) (xs ys : List String) (name : String) (i : Int)
    (hall : pvs.all.map (fun v => v.Value) = xs.map Value.str)
    (hnamed : (pvs.named name).map (fun v => v.Value) = ys.map Value.str) :
    pvs.GetPositional i = specLookup xs i ∧
    pvs.GetNamed name i = specLookup ys i ∧
    pvs.GetNamedFirst name = pvs.GetNamed name 0 ∧
    pvs.GetNamedLast name = pvs.GetNamed name (-1) :=
  ⟨lookupAt_spec pvs.all xs hall i, lookupAt_spec (pvs.named name) ys hnamed i,
   GetNamedFirst_eq pvs name, GetNamedLast_eq pvs name⟩

/-- Witness of C23: in `Named("a", "1", "b", "2", "a", "3")` the index `-1`
gives the last entry, `3`, also under the name `a`, and the index `-4` gives
nothing. -/
theorem C23_witness :
    (Named [("a", .str "1"), ("b", .str "2"), ("a", .str "3")]).GetPositional (-1)
      = ("3", true) ∧
    (Named [("a", .str "1"), ("b", .str "2"), ("a", .str "3")]).GetNamed "a" (-1)
      = ("3", true) ∧
    (Named [("a", .str "1"), ("b", .str "2"), ("a", .str "3")]).GetPositional (-4)
      = ("", false) :=
  ⟨(C23_indexed_lookup (Named [("a", .str "1"), ("b", .str "2"), ("a", .str "3")])
      ["1", "2", "3"] ["1", "3"] "a" (-1) rfl rfl).1,
   (C23_indexed_lookup (Named [("a", .str "1"), ("b", .str "2"), ("a", .str "3")])
      ["1", "2", "3"] ["1", "3"] "a" (-1) rfl rfl).2.1,
   (C23_indexed_lookup (Named [("a", .str "1"), ("b", .str "2"), ("a", .str "3")])
      ["1", "2", "3"] ["1", "3"] "a" (-4) rfl rfl).1⟩

/-- Claim C24: in every container reached from an empty container of either
mode (`Positional()`, `Named()`, a fresh match result), and so from
`Positional(vals...)` and `Named(pairs...)`, by any sequence of
`AddPositionalValue`, `AddNamedValue` and `Clear`, the `i`-th entry of
`GetAll()` has `Position = i`, and every entry of a named container (every
entry with a name) has `NamedPosition` equal to the number of earlier entries
with the same name. -/
theorem C24_entries_keep_positions (ty : PathVarsType) (vals : List Value)
    (pairs : List (String × Value)) (ops : List VarsOp) :
    (runVarsOps (newPathVars ty) ops).positioned ∧
    (runVarsOps (Positional vals) ops).positioned ∧
    (runVarsOps (Named pairs) ops).positioned := by
  refine ⟨(runVarsOps_keeps ops _ (newPathVars_keeps ty)).1, ?_, ?_⟩
  · rw [Positional_ops]
    exact (runVarsOps_keeps ops _ (runVarsOps_keeps _ _ (newPathVars_keeps _))).1
  · rw [Named_ops]
    exact (runVarsOps_keeps ops _ (runVarsOps_keeps _ _ (newPathVars_keeps _))).1

/-- Claim C25: `Named` panics if and only if the number of arguments is odd or
some argument at an even index is not a string; otherwise it returns the named
container of the pairs of its arguments, whose entries hold, pair by pair in
order, the value under the name. -/
theorem C25_named_panics (args : List Value) :
    (NamedArgs args = none ↔
      (args.length % 2 ≠ 0 ∨
        ∃ i v, i % 2 = 0 ∧ args[i]? = some v ∧ ∀ s, v ≠ Value.str s)) ∧
    (∀ pvs, NamedArgs args = some pvs →
      (pairsOf args).flatMap (fun nv => [Value.str nv.1, nv.2]) = args ∧
      pvs = Named (pairsOf args) ∧ pvs.VarsType = PathVarsType.Names ∧
      pvs.GetAll.map (fun v => (v.Name, v.Value)) = pairsOf args ∧
      ∀ n, (pvs.named n).map (fun v => v.Value)
        = ((pairsOf args).filter (fun nv => nv.1 = n)).map Prod.snd) := by
  constructor
  · rw [NamedArgs_spec]
    constructor
    · intro h
      have hno : ¬ namedArgsOk args = true := by
        intro hok
        rw [if_pos hok] at h
        cases h
      rw [namedArgsOk_iff] at hno
      by_cases hodd : args.length % 2 ≠ 0
      · exact Or.inl hodd
      · right
        have heven : args.length % 2 = 0 := by omega
        by_contra hcon
        apply hno
        refine ⟨heven, fun i hi v hv => ?_⟩
        by_contra hs
        exact hcon ⟨i, v, hi, hv, fun s hvs => hs ⟨s, hvs⟩⟩
    · intro h
      have hno : ¬ namedArgsOk args = true := by
        rw [namedArgsOk_iff]
        rintro ⟨heven, hall⟩
        rcases h with hodd | ⟨i, v, hi, hv, hs⟩
        · exact hodd heven
        · obtain ⟨s, hvs⟩ := hall i hi v hv
          exact hs s hvs
      rw [if_neg hno]
  · intro pvs h
    rw [NamedArgs_spec] at h
    by_cases hok : namedArgsOk args = true
    · rw [if_pos hok] at h
      injection h with h
      subst h
      obtain ⟨h1, h2⟩ := Named_spec (pairsOf args)
      refine ⟨pairsOf_args args hok, rfl, h1, ?_, h2⟩
      have := named_fold_entries (pairsOf args) (newPathVars .Names) rfl
      simpa [Named, newPathVars, pathVars.GetAll] using this
    · rw [if_neg hok] at h
      cases h

/-- Witness of C25: `Named("a", 1, "b", "x")` returns the container with the
entries `a = 1`, `b = "x"`; `Named("a")` and `Named(1, "x")` panic. -/
theorem C25_witness :
    NamedArgs [.str "a", .int 1, .str "b", .str "x"]
      = some (Named [("a", .int 1), ("b", .str "x")]) ∧
    (Named [("a", .int 1), ("b", .str "x")]).GetAll.map (fun v => (v.Name, v.Value))
      = [("a", .int 1), ("b", .str "x")] ∧
    NamedArgs [.str "a"] = none ∧ NamedArgs [.int 1, .str "x"] = none :=
  ⟨rfl,
   ((C25_named_panics [.str "a", .int 1, .str "b", .str "x"]).2
      (Named [("a", .int 1), ("b", .str "x")]) rfl).2.2.2.1,
   (C25_named_panics [.str "a"]).1.mpr (Or.inl (by decide)),
   (C25_named_panics [.int 1, .str "x"]).1.mpr
     (Or.inr ⟨0, .int 1, rfl, rfl, fun s h => by cases h⟩)⟩

/-- Claim C26: for a bracket body, `setName` on a fresh variable part returns
the parse error `path var name cannot be empty` at the position of the bracket
exactly when the text before the first `:` (the whole body when there is no
`:`) is blank after trimming spaces. Otherwise the name of the part is that
trimmed text and its original pattern is the trimmed text after the first `:`;
when that pattern is empty no regex is compiled and the call succeeds, and when
it is not empty the regex is the compiled anchored pattern and the call
succeeds exactly when the pattern compiles. -/
theorem C26_setName (compile : String → Option Regexp) (body : String) (pos : Nat) :
    (((varPart "").setName compile body pos).2
        = some (.parseError "path var name cannot be empty" pos) ↔ bodyName body = "") ∧
    (setName compile body pos = .error (.parseError "path var name cannot be empty" pos) ↔
      bodyName body = "") ∧
    (bodyName body ≠ "" →
      ((varPart "").setName compile body pos).1.name = bodyName body ∧
      ((varPart "").setName compile body pos).1.orgRegexp = bodyPattern body ∧
      ((varPart "").setName compile body pos).1.regexp =
        (if bodyPattern body = "" then none
         else compile (addRegexHeadAndTail (bodyPattern body))) ∧
      (((varPart "").setName compile body pos).2 = none ↔
        (bodyPattern body = "" ∨
          (compile (addRegexHeadAndTail (bodyPattern body))).isSome = true))) := by
  have hkey : (((varPart "").setName compile body pos).2
        = some (.parseError "path var name cannot be empty" pos) ↔ bodyName body = "") ∧
      (bodyName body ≠ "" →
        ((varPart "").setName compile body pos).1.name = bodyName body ∧
        ((varPart "").setName compile body pos).1.orgRegexp = bodyPattern body ∧
        ((varPart "").setName compile body pos).1.regexp =
          (if bodyPattern body = "" then none
           else compile (addRegexHeadAndTail (bodyPattern body))) ∧
        (((varPart "").setName compile body pos).2 = none ↔
          (bodyPattern body = "" ∨
            (compile (addRegexHeadAndTail (bodyPattern body))).isSome = true))) := by
    unfold pathPart.setName bodyName bodyPattern
    cases strings_IndexByte body ':' with
    | none =>
      dsimp only
      by_cases h : strings_Trim body ' ' = ""
      · simp [pathPart.withName, pathPart.name, h]
      · simp [pathPart.withName, pathPart.name, h, varPart, pathPart.orgRegexp, pathPart.regexp]
    | some cAt =>
      dsimp only
      by_cases h : strings_Trim (sliceTo body cAt) ' ' = ""
      · simp [pathPart.withName, pathPart.name, h]
      · by_cases h2 : strings_Trim (sliceFrom body (cAt + 1)) ' ' = ""
        · simp [pathPart.withName, pathPart.withOrgRegexp, pathPart.name, h, h2, varPart,
            pathPart.regexp, pathPart.orgRegexp]
        · cases hc : compile (addRegexHeadAndTail (strings_Trim (sliceFrom body (cAt + 1)) ' ')) with
          | none =>
            simp [pathPart.withName, pathPart.withOrgRegexp, pathPart.name, h, h2, varPart,
              pathPart.regexp, pathPart.orgRegexp, hc]
          | some rx =>
            simp [pathPart.withName, pathPart.withOrgRegexp, pathPart.withRegexp, pathPart.name,
              h, h2, varPart, pathPart.regexp, pathPart.orgRegexp, hc]
  refine ⟨hkey.1, ?_, hkey.2⟩
  rw [← hkey.1, setName_receiver]
  rcases hr : (varPart "").setName compile body pos with ⟨p, e⟩
  cases e with
  | none => simp
  | some e => simp

/-- Witness of C26: the body `id: [0-9]+` gives the name `id` and the pattern
`[0-9]+`; the body ` :x` has a blank name. -/
theorem C26_witness :
    bodyName "id: [0-9]+" ≠ "" ∧
    ((varPart "").setName compileDigits "id: [0-9]+" 3).1.name = "id" ∧
    ((varPart "").setName compileDigits "id: [0-9]+" 3).1.orgRegexp = "[0-9]+" ∧
    setName noCompile " :x" 7 = .error (.parseError "path var name cannot be empty" 7) :=
  ⟨by decide,
   ((C26_setName compileDigits "id: [0-9]+" 3).2.2 (by decide)).1,
   ((C26_setName compileDigits "id: [0-9]+" 3).2.2 (by decide)).2.1,
   (C26_setName noCompile " :x" 7).2.1.mpr (by decide)⟩

/-- Claim C27 fails as stated in its sentence on `Sub`: the base `/foo` has no
variable, yet `Sub` with the addition `/?/{a}` returns the mixed-kind parse
error, handed on from the parse of the addition, which mixes the kinds
itself. -/
theorem C27_addition_mixes_kinds :
    ∃ base, NewTemplate uriSplit noCompile "/foo" [] = .ok base ∧
      base.posVarsCount = 0 ∧ base.nameVarsCount = 0 ∧
      NewTemplate uriSplit noCompile "/?/{a}" [] = .error mixedKindError ∧
      base.Sub uriSplit noCompile "/?/{a}" [] = .error mixedKindError :=
  ⟨_, rfl, rfl, rfl, rfl, rfl⟩

/-- Claim C27, amended: in every template reachable through `NewTemplate`,
`Sub` and `ResolveTo` at most one of the positional and named counts is not
zero, and `ResolveTo` never increases either count. `Sub` returns the
mixed-kind parse error exactly when the parse of the addition returns it (the
addition mixes the kinds itself), or the addition parses and one of base and
addition has a positional variable and the other a named variable. -/
theorem C27_kind_exclusivity (split : String → SplitRun) (compile : String → Option Regexp)
    (t : template) (h : template.Reachable split compile t) :
    ¬ (t.posVarsCount > 0 ∧ t.nameVarsCount > 0) ∧
    (∀ vars, (t.ResolveTo vars).posVarsCount ≤ t.posVarsCount ∧
      (t.ResolveTo vars).nameVarsCount ≤ t.nameVarsCount) ∧
    (∀ path options, t.Sub split compile path options = .error mixedKindError ↔
      (NewTemplate split compile path options = .error mixedKindError ∨
        ∃ ra, NewTemplate split compile path options = .ok ra ∧
          ((ra.posVarsCount > 0 ∧ t.nameVarsCount > 0) ∨
           (t.posVarsCount > 0 ∧ ra.nameVarsCount > 0)))) := by
  have hs := Reachable_sound split compile t h
  refine ⟨hs.2.2.2, fun vars => (ResolveTo_sound t vars hs).2, fun path options => ?_⟩
  unfold template.Sub
  cases hn : NewTemplate split compile path options with
  | error e =>
    simp only [Except.error.injEq, reduceCtorEq, false_and, exists_false, or_false]
  | ok ra =>
    by_cases hmix : (ra.posVarsCount > 0 ∧ t.nameVarsCount > 0) ∨
        (t.posVarsCount > 0 ∧ ra.nameVarsCount > 0)
    · simp only [hmix, if_true, true_iff]
      exact Or.inr ⟨ra, rfl, hmix⟩
    · dsimp only
      rw [if_neg hmix]
      constructor
      · intro h
        cases h
      · rintro (h | ⟨x, hx, hm⟩)
        · cases h
        · injection hx with hx
          subst hx
          exact absurd hm hmix

/-- Witness of C27: the template `Sub` returns for `/foo/` and `bar/{id}`,
resolved with `id = "7"`, is reachable; its counts are 0 and 0. -/
theorem C27_witness :
    template.Reachable uriSplit noCompile
      (fooBarIdTemplate.ResolveTo (some (Named [("id", .str "7")]))) ∧
    (fooBarIdTemplate.ResolveTo (some (Named [("id", .str "7")]))).nameVarsCount = 0 ∧
    ¬ ((fooBarIdTemplate.ResolveTo (some (Named [("id", .str "7")]))).posVarsCount > 0 ∧
       (fooBarIdTemplate.ResolveTo (some (Named [("id", .str "7")]))).nameVarsCount > 0) :=
  ⟨template.Reachable.resolve _ _
     (template.Reachable.sub fooSlashTemplate "bar/{id}" [] fooBarIdTemplate
       (template.Reachable.new "/foo/" [] fooSlashTemplate rfl) rfl),
   rfl,
   (C27_kind_exclusivity uriSplit noCompile _
     (template.Reachable.resolve fooBarIdTemplate (some (Named [("id", .str "7")]))
       (template.Reachable.sub fooSlashTemplate "bar/{id}" [] fooBarIdTemplate
         (template.Reachable.new "/foo/" [] fooSlashTemplate rfl) rfl))).1⟩

/-- Claim C28 fails as stated for positional variables: in `/?/?` the second
entry of `Vars()` has one earlier entry of the same (empty) name, and its
`NamedPosition` is 0. -/
theorem C28_positional_named_position :
    NewTemplate uriSplit noCompile "/?/?" [] = .ok twoPositionsTemplate ∧
    twoPositionsTemplate.Vars =
      [{ Name := "", NamedPosition := 0, Position := 0, Value := .nil },
       { Name := "", NamedPosition := 0, Position := 1, Value := .nil }] ∧
    ((twoPositionsTemplate.Vars.take 1).filter (fun v => v.Name = "")).length = 1 :=
  ⟨rfl, rfl, rfl⟩

/-- Claim C28, amended: every variable is counted exactly once. For every
template reachable through `NewTemplate`, `Sub` and `ResolveTo`, `Vars()` has
`posVarsCount + nameVarsCount` entries, `posVarsCount` of them without a name
and `nameVarsCount` with a name; the `i`-th entry has `Position = i`; a named
entry has `NamedPosition` equal to the number of earlier entries of the same
name, and an entry without a name has `NamedPosition = 0`. -/
theorem C28_variables_counted_once (split : String → SplitRun)
    (compile : String → Option Regexp) (t : template)
    (h : template.Reachable split compile t) :
    t.Vars.length = t.posVarsCount + t.nameVarsCount ∧
    t.Vars.countP (fun v => v.Name = "") = t.posVarsCount ∧
    t.Vars.countP (fun v => v.Name ≠ "") = t.nameVarsCount ∧
    varsListed t.Vars := by
  obtain ⟨⟨c1, c2, c3⟩, _, _, _⟩ := Reachable_sound split compile t h
  obtain ⟨v1, v2⟩ := Vars_listed t c1
  have hp : t.Vars.countP (fun v => v.Name = "") = t.posVarsCount := by
    rw [c3, ← v2, List.countP_map]
    rfl
  have hn : t.Vars.countP (fun v => v.Name ≠ "") = t.nameVarsCount := by
    rw [c2, ← v2, List.countP_map]
    rfl
  refine ⟨?_, hp, hn, v1⟩
  rw [← hp, ← hn]
  have := List.length_eq_countP_add_countP (fun v : PathVar => decide (v.Name = "")) t.Vars
  rw [this]
  congr 1
  apply List.countP_congr
  intro v _
  simp

/-- Witness of C28: `/a/{x}/{y}/{x}` has three named variables, and the second
`x` has `NamedPosition = 1`. -/
theorem C28_witness :
    template.Reachable uriSplit noCompile repeatTemplate ∧
    repeatTemplate.Vars.length = 3 ∧
    repeatTemplate.Vars.map (fun v => (v.Name, v.NamedPosition, v.Position))
      = [("x", 0, 0), ("y", 0, 1), ("x", 1, 2)] :=
  ⟨template.Reachable.new "/a/{x}/{y}/{x}" [] repeatTemplate rfl,
   (C28_variables_counted_once uriSplit noCompile repeatTemplate
     (template.Reachable.new "/a/{x}/{y}/{x}" [] repeatTemplate rfl)).1,
   rfl⟩

/-- Claim C29: every Composite part (a part that is not Fixed and has
sub-parts) of a template reachable through `NewTemplate`, `Sub` and
`ResolveTo` has at least two sub-parts, at least one of them a variable, and
none of its sub-parts has sub-parts of its own. The collapses that keep it so:
when every sub-part of a segment parses, `newVarPathPart` returns the single
sub-part itself, one Fixed part whose literal is the concatenation of the
literals for a list of Fixed sub-parts, and the composite of the sub-parts
otherwise; `ResolveTo` puts in the place of a composite, with each variable
sub-part the container supplies a value for turned into a Fixed sub-part, one
Fixed part holding the concatenation exactly when no variable sub-part
remains, and the composite of the new sub-parts otherwise. -/
theorem C29_composite_shape (split : String → SplitRun) (compile : String → Option Regexp) :
    (∀ t, template.Reachable split compile t →
      ∀ pt ∈ t.pathParts, pt.fixed = false → pt.subParts.isEmpty = false →
        pt.compositeShape) ∧
    (∀ (t : template) (sps : List SubPart) (parts : List pathPart),
      List.Forall₂ (fun sp p => parsedSubPart compile sp = .ok p) sps parts →
      (t.newVarPathPart compile sps).1 = .ok (collapseSubParts parts)) ∧
    (∀ (t : template) (vars : Option pathVars) (pre rest : List pathPart) (pt : pathPart),
      t.pathParts = pre ++ pt :: rest → pt.fixed = false → pt.subParts ≠ [] →
      (t.ResolveTo vars).pathParts[pre.length]? =
        some (resolvedComposite (fillSubs pt.subParts (compositeOutcomes vars pre pt)))) :=
  ⟨fun t h => (Reachable_sound split compile t h).2.2.1,
   fun t sps parts h => newVarPathPart_collapse compile t sps parts h,
   fun t vars pre rest pt ht hf hs => ResolveTo_composite t vars pre rest pt ht hf hs⟩

/-- Witness of C29: the composite `{a}-{b}` of `/{a}-{b}/x/{c}` has the shape;
the sub-parts `a` and `(b)` of a segment collapse to the Fixed part `a(b)`, the
single sub-part `{a}` to the variable `a`; `ResolveTo` with a value for `a`
only leaves the composite `1-{b}`, and with values for `a` and `b` the Fixed
part `1-2`. -/
theorem C29_witness :
    template.Reachable uriSplit compileDash dashTemplate ∧
    (pathPart.mk false "" [varPart "a", fixedPart "-", varPart "b"] none "" "").compositeShape ∧
    (dashTemplate.newVarPathPart compileDash
      [⟨SubPartType.Fixed, 'a', "a", "a", 1⟩, ⟨SubPartType.Brackets, '(', "(b)", "(b)", 2⟩]).1
      = .ok (fixedPart "a(b)") ∧
    (dashTemplate.newVarPathPart compileDash [⟨SubPartType.Brackets, '{', "{a}", "{a}", 1⟩]).1
      = .ok (varPart "a") ∧
    (dashTemplate.ResolveTo (some (Named [("a", .str "1")]))).pathParts[0]?
      = some (.mk false "" [fixedPart "1", fixedPart "-", varPart "b"] none "" "") ∧
    (dashTemplate.ResolveTo (some (Named [("a", .str "1"), ("b", .str "2")]))).pathParts[0]?
      = some (fixedPart "1-2") :=
  ⟨template.Reachable.new "/{a}-{b}/x/{c}" [] dashTemplate rfl,
   (C29_composite_shape uriSplit compileDash).1 dashTemplate
     (template.Reachable.new "/{a}-{b}/x/{c}" [] dashTemplate rfl)
     (pathPart.mk false "" [varPart "a", fixedPart "-", varPart "b"] none "" "")
     (List.mem_cons_self _ _) rfl rfl,
   (C29_composite_shape uriSplit compileDash).2.1 dashTemplate _
     [fixedPart "a", fixedPart "(b)"]
     (List.Forall₂.cons rfl (List.Forall₂.cons rfl List.Forall₂.nil)),
   (C29_composite_shape uriSplit compileDash).2.1 dashTemplate _ [varPart "a"]
     (List.Forall₂.cons rfl List.Forall₂.nil),
   (C29_composite_shape uriSplit compileDash).2.2 dashTemplate
     (some (Named [("a", .str "1")])) [] [fixedPart "x", varPart "c"]
     (pathPart.mk false "" [varPart "a", fixedPart "-", varPart "b"] none "" "")
     rfl rfl (by simp [mk_subParts]),
   (C29_composite_shape uriSplit compileDash).2.2 dashTemplate
     (some (Named [("a", .str "1"), ("b", .str "2")])) [] [fixedPart "x", varPart "c"]
     (pathPart.mk false "" [varPart "a", fixedPart "-", varPart "b"] none "" "")
     rfl rfl (by simp [mk_subParts])⟩

/-- Claim C30 fails in the code: `Get` called without an identifier panics (the
index `idents[0]` is read before the length is tested), for every container.
On one or more identifiers it returns a value, and `("", false)` whenever there
are more than two identifiers, an int followed by a second identifier, a first
identifier that is neither an int nor a string, or a second identifier that is
not an int. -/
theorem C30_get_without_identifiers_panics (pvs : pathVars) :
    pvs.Get [] = none ∧
    (∀ first rest, (pvs.Get (first :: rest)).isSome = true) ∧
    (∀ a b c rest, pvs.Get (a :: b :: c :: rest) = some ("", false)) ∧
    (∀ i b rest, pvs.Get (.int i :: b :: rest) = some ("", false)) ∧
    (∀ rest, pvs.Get (.other :: rest) = some ("", false)) ∧
    (∀ s s2, pvs.Get [.str s, .str s2] = some ("", false)) ∧
    (∀ s, pvs.Get [.str s, .other] = some ("", false)) := by
  refine ⟨rfl, ?_, ?_, ?_, ?_, ?_, ?_⟩
  · intro first rest
    rcases first with i | s | _ <;> rcases rest with _ | ⟨b, rest1⟩
    · simp [pathVars.Get]
    · simp [pathVars.Get]
    · simp [pathVars.Get]
    · rcases b with j | s2 | _ <;> simp only [pathVars.Get] <;> split_ifs <;> rfl
    · simp [pathVars.Get]
    · simp only [pathVars.Get]
      split_ifs <;> rfl
  · intro a b c rest
    simp [pathVars.Get]
  · intro i b rest
    simp [pathVars.Get]
  · intro rest
    unfold pathVars.Get
    dsimp only
    split_ifs <;> rfl
  · intro s s2
    simp [pathVars.Get]
  · intro s
    simp [pathVars.Get]

/-! ## The claim on the synthesized regexp of a composite part -/

/-- Claim C31 fails in the code: the whole-segment regexp of a composite part
need not compile, and the match then panics. For every composite part of a
parsed template the patterns of its variable sub-parts were compiled after
anchoring, and `overallRegexp` hands to `regexp.Compile` the text `^`, the
pieces of the sub-parts, `$`. If `regexp.Compile` accepts that text,
`overallRegexp` returns the regexp with the index map read from its group
names; if it refuses it, `overallRegexp` returns nil and `match` panics on
every segment (`multiMatch` calls `FindStringSubmatch` on the nil regexp).
The first does not imply the second: in `/{a:\$}-{b}` the pattern `\$` compiles
as `^\$`, but `stripRegexHeadAndTail` takes the escaped `$` for an anchor and
leaves `\`, and the synthesized `^(?P<vsp0>\)(\Q-\E)(?P<vsp2>.*)$` has an
unclosed group. -/
theorem C31_overall_regexp_nil_panics (split : String → SplitRun)
    (compile : String → Option Regexp) (path : String) (options : List AnyOption)
    (t : template) (pt : pathPart)
    (h : NewTemplate split compile path options = .ok t) (hpt : pt ∈ t.pathParts)
    (hf : pt.fixed = false) (hs : pt.subParts.isEmpty = false) :
    pt.subsCompiled compile ∧
    addRegexHeadAndTail (overallRegexpSource pt.subParts 0) =
      "^" ++ overallRegexpSource pt.subParts 0 ++ "$" ∧
    (∀ rx, compile ("^" ++ overallRegexpSource pt.subParts 0 ++ "$") = some rx →
      pt.overallRegexp compile = some (rx, subexpIdxs rx.SubexpNames 0 (fun _ => 0))) ∧
    (compile ("^" ++ overallRegexpSource pt.subParts 0 ++ "$") = none →
      pt.overallRegexp compile = none ∧
      ∀ s pathPos vars fOpts vOpts, pt.match_ compile s pathPos vars fOpts vOpts = none) := by
  have hne : pt.subParts ≠ [] := by
    intro h0
    rw [h0] at hs
    simp at hs
  have hsrc := addRegexHeadAndTail_source pt.subParts hne
  refine ⟨NewTemplate_compiled split compile path options t h pt hpt, hsrc, ?_, ?_⟩
  · intro rx hrx
    simp only [pathPart.overallRegexp, hsrc, hrx]
  · intro hnone
    have ho : pt.overallRegexp compile = none := by
      simp only [pathPart.overallRegexp, hsrc, hnone]
    refine ⟨ho, ?_⟩
    intro s pathPos vars fOpts vOpts
    rw [match_composite compile pt s pathPos vars fOpts vOpts hf hne]
    simp only [pathPart.multiMatch, ho]

/-- Witness of C31: the template `/{a:\$}-{b}` parses, the pattern of `a` is
compiled, the synthesized text is `^(?P<vsp0>\)(\Q-\E)(?P<vsp2>.*)$`, which
does not compile, so `overallRegexp` returns nil and matching the path `/$-y`
(or any other path of one segment) panics. -/
theorem C31_witness :
    NewTemplate uriSplit compileDollar "/\x7ba:\\$\x7d-{b}" [] = .ok dollarTemplate ∧
    dollarComposite ∈ dollarTemplate.pathParts ∧
    dollarComposite.subsCompiled compileDollar ∧
    "^" ++ overallRegexpSource dollarComposite.subParts 0 ++ "$" =
      "^(?P<vsp0>\\)(\\Q-\\E)(?P<vsp2>.*)$" ∧
    dollarComposite.overallRegexp compileDollar = none ∧
    (∀ s pathPos vars fOpts vOpts,
      dollarComposite.match_ compileDollar s pathPos vars fOpts vOpts = none) ∧
    dollarTemplate.matches compileDollar "/$-y" [] = none :=
  ⟨rfl, List.mem_cons_self _ _,
   (C31_overall_regexp_nil_panics uriSplit compileDollar "/\x7ba:\\$\x7d-{b}" [] dollarTemplate
     dollarComposite rfl (List.mem_cons_self _ _) rfl rfl).1,
   by decide,
   ((C31_overall_regexp_nil_panics uriSplit compileDollar "/\x7ba:\\$\x7d-{b}" []
     dollarTemplate dollarComposite rfl (List.mem_cons_self _ _) rfl rfl).2.2.2 rfl).1,
   ((C31_overall_regexp_nil_panics uriSplit compileDollar "/\x7ba:\\$\x7d-{b}" []
     dollarTemplate dollarComposite rfl (List.mem_cons_self _ _) rfl rfl).2.2.2 rfl).2,
   rfl⟩

end Urit
